import Mathlib

/-!
ftrack-golang-api: the batched call dispatcher and the identity-map merger

A shallow embedding of `ftrack/session.go` and `ftrack/operations.go`.

Go maps and slices are reference types and `Session.Decode` updates them in
place, so the embedding keeps an explicit heap: a `Val` is a Go `interface{}`
value, and a map or a slice is an address into a list of cells.  Object identity
("the same object, not an equal copy") is equality of addresses.

Run-time panics are results of their own (`Err.panic`), distinct from the errors
the functions return.  `Decode` is recursive over heap references, so it takes a
recursion budget; `Err.fuel` is the answer of a call whose budget ran out.

A Go `range` over a map visits the keys in an unspecified order.  The embedding
visits them in the order in which the cell stores them (for a parsed JSON object,
the order of the text) and does not visit keys inserted while the loop runs, which
is one of the orders Go may take.
-/

set_option autoImplicit false

namespace Ftrack

/-! ## Constants (session.go, lines 22-27) -/

def EncodeDatetimeFormat : String := "YYYY-MM-DDTHH:mm:ss"

def EntityTypeKey : String := "__entity_type__"

/-! ## Values, heap and errors -/

/-- A Go value held in an `interface{}`.  `num ty text` is the number of Go type `ty`
that `fmt` prints as `text` with `%v` (a parsed JSON number is a `float64`);
`moment` is a
`*moment.Moment` (an instant in seconds and a zone offset); `slice typed a` is a
slice whose backing array is the cell `a`, `typed` telling a
`[]map[string]interface{}` from a `[]interface{}`; `map a` is a
`map[string]interface{}` stored in the cell `a`; `nilSlice` and `nilMap` are the
nil values of the slice and map types. -/
inductive Val where
  | null
  | bool (b : Bool)
  | num (ty : String) (text : String)
  | str (s : String)
  | moment (sec : Int) (zone : Int)
  | nilSlice
  | slice (typed : Bool) (a : Nat)
  | nilMap
  | map (a : Nat)
  deriving DecidableEq, Repr

/-- A heap cell: the entries of a map, in iteration order, or the elements of the
backing array of a slice. -/
inductive Cell where
  | obj (kvs : List (String × Val))
  | arr (xs : List Val)
  deriving DecidableEq, Repr

abbrev Heap := List Cell

/-- The identity map, `map[string]map[string]interface{}`: identity key to the
address of the canonical representation. -/
abbrev IdentityMap := List (String × Nat)

structure State where
  heap : Heap
  identityMap : IdentityMap
  deriving DecidableEq, Repr

/-- Everything a call can end with other than a result.  `panic` is a Go run-time
panic, `fuel` an exhausted recursion budget; the others are returned errors:
the error types of errors.go, an error of `encoding/json`, and `errors.New`. -/
inductive Err where
  | panic (msg : String)
  | fuel
  | decodeError (msg : String)
  | encodeError (msg : String)
  | serverError (msg : String) (errorCode : Int) (exception : String)
  | serverValidationError (msg : String) (errorCode : Int) (exception : String)
  | serverPermissionDeniedError (msg : String) (errorCode : Int) (exception : String)
  | malformedResponseError (content : String)
  | jsonError (msg : String)
  | other (msg : String)
  deriving DecidableEq, Repr

/-- Library functions the package calls and the repository does not contain:
`sprint` is `fmt.Sprintf("%s", v)` for a value `v` that is not nil, a boolean, a
number or a string; `parseMoment` is `moment.New().Moment(EncodeDatetimeFormat, s)`
and `formatMoment` is `Format(EncodeDatetimeFormat)`, on instants given as seconds
and zone offset. -/
structure Lib where
  sprint : Heap → Val → String
  parseMoment : String → Int × Int
  formatMoment : Int × Int → String

/-- The fields of `Session` (session.go, lines 47-60) that the embedded functions
read. -/
structure Session where
  ServerUrl : String
  ApiUser : String
  ApiKey : String
  ServerInformation : List (String × Val)
  primaryKeysMap : List (String × List String)

/-! ## Maps and slices on the heap -/

/-- The entries of the map stored at `a`. -/
def getObj (h : Heap) (a : Nat) : Option (List (String × Val)) :=
  match h[a]? with
  | some (.obj kvs) => some kvs
  | _ => none

/-- The elements of the backing array stored at `a`. -/
def getArr (h : Heap) (a : Nat) : Option (List Val) :=
  match h[a]? with
  | some (.arr xs) => some xs
  | _ => none

/-- Go `m[k] = v` on the entries of a map: the entry keeps its place when the key
is present and is added at the end when it is not. -/
def setField (k : String) (v : Val) : List (String × Val) → List (String × Val)
  | [] => [(k, v)]
  | (k', v') :: rest => if k' = k then (k', v) :: rest else (k', v') :: setField k v rest

/-- Go `delete(m, k)` on the entries of a map. -/
def delField (k : String) (kvs : List (String × Val)) : List (String × Val) :=
  kvs.filter (fun p => p.1 ≠ k)

/-- Go `m[k]` read through an `interface{}` holding a map: nil when the key is
missing, the map is nil or the value is not a map. -/
def index (h : Heap) (m : Val) (k : String) : Val :=
  match m with
  | .map a =>
    match getObj h a with
    | some kvs => (kvs.lookup k).getD .null
    | none => .null
  | _ => .null

/-- The value of `m[k]` and whether the key is present (`v, ok := m[k]`). -/
def index? (h : Heap) (m : Val) (k : String) : Option Val :=
  match m with
  | .map a =>
    match getObj h a with
    | some kvs => kvs.lookup k
    | none => none
  | _ => none

/-! ## Entity and date recognition (session.go, lines 647-681) -/

/-- `GetEntityType`: the type tag of a `map[string]interface{}` that has a string
under `EntityTypeKey`. -/
def GetEntityType (h : Heap) (entity : Val) : Except Err String :=
  match entity with
  | .map _ | .nilMap =>
    match index? h entity EntityTypeKey with
    | none => .error (.other "not entity")
    | some (.str t) => .ok t
    | some _ => .error (.other "entity type key contains invalid entity type")
  | _ => .error (.other "not entity")

/-- `IsEntity`. -/
def IsEntity (h : Heap) (entity : Val) : Bool :=
  match GetEntityType h entity with
  | .ok _ => true
  | .error _ => false

/-- `IsDate`: a map whose `__type__` entry is the string `datetime`. -/
def IsDate (h : Heap) (data : Val) : Bool :=
  match data with
  | .map _ | .nilMap =>
    match index? h data "__type__" with
    | some (.str s) => s == "datetime"
    | _ => false
  | _ => false

/-! ## Identity keys (session.go, lines 198-219) -/

/-- `GetPrimaryKeyAttributes`; `none` is the nil slice. -/
def GetPrimaryKeyAttributes (s : Session) (entityType : String) : Option (List String) :=
  s.primaryKeysMap.lookup entityType

/-- The text `fmt.Sprintf("%s", v)` prints: a string as it is, the values that have no
`%s` form the way `fmt` reports them (`%!s(float64=1)` for the `float64` 1, the
value being printed with `%v`), and everything else through the library. -/
def sprintS (lib : Lib) (h : Heap) (v : Val) : String :=
  match v with
  | .str s => s
  | .null => "%!s(<nil>)"
  | .bool b => "%!s(bool=" ++ toString b ++ ")"
  | .num ty text => "%!s(" ++ ty ++ "=" ++ text ++ ")"
  | _ => lib.sprint h v

/-- `GetIdentifyingKey`: the type tag, then `,` and the printed value of every
primary-key field in schema order. -/
def GetIdentifyingKey (lib : Lib) (s : Session) (h : Heap) (entity : Val) :
    Except Err String :=
  match GetEntityType h entity with
  | .error _ => .error (.other "invalid entity")
  | .ok t =>
    match GetPrimaryKeyAttributes s t with
    | some pks =>
      .ok (pks.foldl (fun key pk => key ++ "," ++ sprintS lib h (index h entity pk)) t)
    | none => .error (.other "invalid entity")

/-! ## Decode (session.go, lines 273-332) -/

/-- The type of `Session.Decode` once session and budget are fixed. -/
abbrev Dec := Val → State → Except Err (Val × State)

/-- `decodeDateTime`: the `value` entry must be a string and the session's
`is_timezone_support_enabled` a boolean, or the type assertion panics. -/
def decodeDateTime (lib : Lib) (s : Session) (h : Heap) (data : Val) : Except Err Val :=
  match index h data "value" with
  | .str text =>
    let m := lib.parseMoment text
    match (s.ServerInformation.lookup "is_timezone_support_enabled").getD .null with
    | .bool true => .ok (.str (lib.formatMoment (m.1, 0)))
    | .bool false => .ok (.str (lib.formatMoment m))
    | _ => .error (.panic "interface conversion: interface {} is not bool")
  | _ => .error (.panic "interface conversion: interface {} is not string")

/-- Whether `reflect.Value.Set` accepts `r` for an element of the slice: an
`interface{}` element takes any value but the zero `reflect.Value` of nil, a
`map[string]interface{}` element takes maps only. -/
def assignable (typed : Bool) (r : Val) : Bool :=
  match r with
  | .map _ | .nilMap => true
  | .null => false
  | _ => !typed

/-- `value.Index(i).Set(r)` on the backing array `a`. -/
def setElem (h : Heap) (a : Nat) (i : Nat) (r : Val) : Heap :=
  match getArr h a with
  | some xs => h.set a (.arr (xs.set i r))
  | none => h

/-- `value.SetMapIndex(k, reflect.ValueOf(r))` on the map `a`: the zero
`reflect.Value` of a nil `r` deletes the key. -/
def setMapIndex (h : Heap) (a : Nat) (k : String) (r : Val) : Heap :=
  match getObj h a with
  | some kvs => h.set a (.obj (if r = .null then delField k kvs else setField k r kvs))
  | none => h

/-- The loop of the slice case of `Decode` (lines 283-285), with `m` elements left
from index `i`. -/
def decodeElems (dec : Dec) (typed : Bool) (a : Nat) : Nat → Nat → State → Except Err State
  | 0, _, st => .ok st
  | m + 1, i, st =>
    match getArr st.heap a with
    | none => .error (.panic "reflect: slice index out of range")
    | some xs =>
      match xs[i]? with
      | none => .error (.panic "reflect: slice index out of range")
      | some x =>
        match dec x st with
        | .error e => .error e
        | .ok (r, st1) =>
          if assignable typed r then
            decodeElems dec typed a m (i + 1) { st1 with heap := setElem st1.heap a i r }
          else .error (.panic "reflect: call of reflect.Value.Set on zero or unassignable Value")

/-- The loop of the plain-map case of `Decode` (lines 294-297) over the keys still
to visit. -/
def decodeFields (dec : Dec) (a : Nat) : List String → State → Except Err State
  | [], st => .ok st
  | k :: ks, st =>
    match getObj st.heap a with
    | none => .error (.panic "reflect: call of MapRange on a value that is not a map")
    | some kvs =>
      match kvs.lookup k with
      | none => decodeFields dec a ks st
      | some v =>
        match dec v st with
        | .error e => .error e
        | .ok (r, st1) =>
          decodeFields dec a ks { st1 with heap := setMapIndex st1.heap a k r }

/-- The loop of `mergeEntity` (lines 328-330): `merged[k] = session.Decode(v, identityMap)`
for the entries of `casted`, stored at `src`, into `merged`, stored at `dst`. -/
def mergeFields (dec : Dec) (src dst : Nat) : List String → State → Except Err State
  | [], st => .ok st
  | k :: ks, st =>
    match getObj st.heap src with
    | none => .error (.panic "range over a value that is not a map")
    | some kvs =>
      match kvs.lookup k with
      | none => mergeFields dec src dst ks st
      | some v =>
        match dec v st with
        | .error e => .error e
        | .ok (r, st1) =>
          match getObj st1.heap dst with
          | none => .error (.panic "assignment to entry in nil map")
          | some fs =>
            mergeFields dec src dst ks
              { st1 with heap := st1.heap.set dst (.obj (setField k r fs)) }

/-- `mergeEntity` (lines 312-332), the recursive calls of `Decode` going to `dec`. -/
def mergeEntityWith (lib : Lib) (s : Session) (dec : Dec) (entity : Val) (st : State) :
    Except Err (Val × State) :=
  match entity with
  | .map a =>
    match GetIdentifyingKey lib s st.heap entity with
    | .error _ => .ok (entity, st)
    | .ok key =>
      let identityMap :=
        match st.identityMap.lookup key with
        | some _ => st.identityMap
        | none => st.identityMap ++ [(key, a)]
      match identityMap.lookup key, getObj st.heap a with
      | some merged, some kvs =>
        match mergeFields dec a merged (kvs.map Prod.fst) { st with identityMap := identityMap } with
        | .error e => .error e
        | .ok st' => .ok (.map merged, st')
      | _, _ => .error (.panic "assignment to entry in nil map")
  | _ => .ok (entity, st)

/-- The body of `Decode` (lines 273-302), the recursive calls going to `dec`. -/
def decodeWith (lib : Lib) (s : Session) (dec : Dec) (data : Val) (st : State) :
    Except Err (Val × State) :=
  match data with
  | .slice typed a =>
    match getArr st.heap a with
    | none => .error (.panic "reflect: slice without backing array")
    | some xs =>
      match decodeElems dec typed a xs.length 0 st with
      | .error e => .error e
      | .ok st' => .ok (data, st')
  | .map a =>
    if IsDate st.heap data then
      match decodeDateTime lib s st.heap data with
      | .error e => .error e
      | .ok r => .ok (r, st)
    else if IsEntity st.heap data then
      mergeEntityWith lib s dec data st
    else
      match getObj st.heap a with
      | none => .error (.panic "reflect: call of MapRange on a value that is not a map")
      | some kvs =>
        match decodeFields dec a (kvs.map Prod.fst) st with
        | .error e => .error e
        | .ok st' => .ok (data, st')
  | _ => .ok (data, st)

/-- `Session.Decode` with a recursion budget.  The identity map is the one of the
state; a nil identity map behaves as an empty one that the caller does not see. -/
def Decode (lib : Lib) (s : Session) : Nat → Dec
  | 0 => fun _ _ => .error .fuel
  | n + 1 => decodeWith lib s (Decode lib s n)

/-- `Session.mergeEntity` with a recursion budget for the `Decode` calls it makes. -/
def mergeEntity (lib : Lib) (s : Session) (n : Nat) : Dec :=
  mergeEntityWith lib s (Decode lib s n)

/-! ## Encode (session.go, lines 221-248) -/

/-- The type of `Session.Encode` once the budget is fixed. -/
abbrev Enc := Val → Heap → Except Err (Val × Heap)

/-- The loop of the slice case of `Encode` (lines 227-229), with `m` elements left
from index `i`; `out` is the slice appended to so far. -/
def encodeElems (enc : Enc) (a : Nat) : Nat → Nat → List Val → Heap →
    Except Err (List Val × Heap)
  | 0, _, out, h => .ok (out, h)
  | m + 1, i, out, h =>
    match getArr h a with
    | none => .error (.panic "reflect: slice index out of range")
    | some xs =>
      match xs[i]? with
      | none => .error (.panic "reflect: slice index out of range")
      | some x =>
        match enc x h with
        | .error e => .error e
        | .ok (r, h1) => encodeElems enc a m (i + 1) (out ++ [r]) h1

/-- The loop of the map case of `Encode` (lines 232-235) over the keys still to
visit: `SetMapIndex` with the encoded value, which deletes the key when that value
is nil. -/
def encodeFields (enc : Enc) (a : Nat) : List String → Heap → Except Err Heap
  | [], h => .ok h
  | k :: ks, h =>
    match getObj h a with
    | none => .error (.panic "reflect: call of MapRange on a value that is not a map")
    | some kvs =>
      match kvs.lookup k with
      | none => encodeFields enc a ks h
      | some v =>
        match enc v h with
        | .error e => .error e
        | .ok (r, h1) => encodeFields enc a ks (setMapIndex h1 a k r)

/-- The body of `Encode` (lines 221-248), the recursive calls going to `enc`.  A
slice is answered with a new `[]interface{}`, which stays nil when there is nothing
to append; a map is updated in place; a `*moment.Moment` becomes a new tagged
map; any other value of `Val` is returned as it is. -/
def encodeWith (lib : Lib) (enc : Enc) (data : Val) (h : Heap) : Except Err (Val × Heap) :=
  match data with
  | .nilSlice => .ok (.nilSlice, h)
  | .slice _ a =>
    match getArr h a with
    | none => .error (.panic "reflect: slice without backing array")
    | some xs =>
      match encodeElems enc a xs.length 0 [] h with
      | .error e => .error e
      | .ok (out, h1) =>
        if out = [] then .ok (.nilSlice, h1)
        else .ok (.slice false h1.length, h1 ++ [.arr out])
  | .map a =>
    match getObj h a with
    | none => .error (.panic "reflect: call of MapRange on a value that is not a map")
    | some kvs =>
      match encodeFields enc a (kvs.map Prod.fst) h with
      | .error e => .error e
      | .ok h1 => .ok (data, h1)
  | .moment sec zone =>
    .ok (.map h.length,
      h ++ [.obj [("__type__", .str "datetime"),
                  ("value", .str (lib.formatMoment (sec, zone)))]])
  | _ => .ok (data, h)

/-- `Session.Encode` with a recursion budget. -/
def Encode (lib : Lib) : Nat → Enc
  | 0 => fun _ _ => .error .fuel
  | n + 1 => encodeWith lib (Encode lib n)

/-! ## Parsed JSON and its Go representation -/

/-- A parsed JSON text.  A number carries its literal, which `json.Unmarshal` reads
again when the target is an `int`, and the `float64` that `strconv.ParseFloat` reads
from the literal when the target is an `interface{}`, written the way `fmt` prints
it with `%v`: `1` for the literals `1` and `1.0`, `1e+06` for `1000000` and for
`1e6`.  Two literals of one `float64` are one Go value. -/
inductive Json where
  | null
  | bool (b : Bool)
  | num (lit : String) (float : String)
  | str (s : String)
  | arr (xs : List Json)
  | obj (kvs : List (String × Json))
  deriving Repr

mutual
/-- The Go value `json.Unmarshal` builds for a JSON text in an `interface{}`, and
the cells it allocates when the first free address is `lo`: every array becomes a
fresh `[]interface{}` and every object a fresh `map[string]interface{}`, the
children being built before their parent; of two entries with one key the later
wins. -/
def layout : Json → Nat → Val × List Cell
  | .null, _ => (.null, [])
  | .bool b, _ => (.bool b, [])
  | .num _ float, _ => (.num "float64" float, [])
  | .str s, _ => (.str s, [])
  | .arr xs, lo =>
    let r := layoutList xs lo
    (.slice false (lo + r.2.length), r.2 ++ [.arr r.1])
  | .obj kvs, lo =>
    let r := layoutFields kvs lo
    (.map (lo + r.2.length),
      r.2 ++ [.obj (r.1.foldl (fun acc p => setField p.1 p.2 acc) [])])
/-- The elements of an array, left to right. -/
def layoutList : List Json → Nat → List Val × List Cell
  | [], _ => ([], [])
  | x :: xs, lo =>
    let r := layout x lo
    let rs := layoutList xs (lo + r.2.length)
    (r.1 :: rs.1, r.2 ++ rs.2)
/-- The entries of an object, in the order of the text. -/
def layoutFields : List (String × Json) → Nat → List (String × Val) × List Cell
  | [], _ => ([], [])
  | (k, x) :: kvs, lo =>
    let r := layout x lo
    let rs := layoutFields kvs (lo + r.2.length)
    ((k, r.1) :: rs.1, r.2 ++ rs.2)
end

/-- `json.Unmarshal` into an `interface{}`: the value, and the heap with the new
cells at its end. -/
def alloc (j : Json) (h : Heap) : Val × Heap :=
  ((layout j h.length).1, h ++ (layout j h.length).2)

/-! ## Operations and results (operations.go) -/

/-- The operation values of operations.go; `other` is any Go value without a
`ResultFactory` method, which `Call` accepts as an `interface{}`. -/
inductive Operation where
  | query (action expression : String)
  | create (action entityType : String) (entityData : List (String × Val))
  | update (action entityType : String) (entityData : List (String × Val))
      (entityKey : List String)
  | delete (action entityType : String) (entityKey : List String)
  | queryInformation (action : String) (values : List String)
  | querySchemas (action : String)
  | getUploadMetadata (action fileName : String) (fileSize : Int) (componentId : String)
  | other (text : String)
  deriving DecidableEq, Repr

/-- The result values of operations.go.  `UpdateResult` is `CreateResult` under
another name; `QueryInformationResult` is a `map[string]interface{}` and
`QuerySchemasResult` a `[]map[string]interface{}`. -/
inductive Result where
  | query (action : String) (data : Val) (metadata : Val)
  | create (action : String) (data : Val) (metadata : Val)
  | update (action : String) (data : Val) (metadata : Val)
  | delete (action : String) (data : Bool)
  | queryInformation (fields : Val)
  | querySchemas (schemas : Val)
  | getUploadMetadata (url : String) (headers : List (String × String))
  deriving DecidableEq, Repr

/-- The kinds of result, one per `ResultFactory`. -/
inductive Kind where
  | query | create | update | delete | queryInformation | querySchemas | getUploadMetadata
  deriving DecidableEq, Repr

def Result.kind : Result → Kind
  | .query .. => .query
  | .create .. => .create
  | .update .. => .update
  | .delete .. => .delete
  | .queryInformation .. => .queryInformation
  | .querySchemas .. => .querySchemas
  | .getUploadMetadata .. => .getUploadMetadata

/-- The kind of result the operation's `ResultFactory` makes; `none` for a value
without that method. -/
def Operation.resultKind : Operation → Option Kind
  | .query .. => some .query
  | .create .. => some .create
  | .update .. => some .update
  | .delete .. => some .delete
  | .queryInformation .. => some .queryInformation
  | .querySchemas .. => some .querySchemas
  | .getUploadMetadata .. => some .getUploadMetadata
  | .other _ => none

/-- `ResultFactory`: a pointer to the zero value of the operation's result type. -/
def ResultFactory : Operation → Option Result
  | .query .. => some (.query "" .nilSlice .nilMap)
  | .create .. => some (.create "" .nilMap .nilMap)
  | .update .. => some (.update "" .nilMap .nilMap)
  | .delete .. => some (.delete "" false)
  | .queryInformation .. => some (.queryInformation .nilMap)
  | .querySchemas .. => some (.querySchemas .nilSlice)
  | .getUploadMetadata .. => some (.getUploadMetadata "" [])
  | .other _ => none

/-- `NewQueryOperation` (operations.go, lines 19-24). -/
def NewQueryOperation (expression : String) : Operation :=
  .query "query" expression

/-- The loop `for k, v := range data { op.EntityData[k] = v }` and the default of
the type tag (operations.go, lines 52-57 and 85-90), on the entries of `data`. -/
def fillEntityData (entityType : String) (data : List (String × Val)) :
    List (String × Val) :=
  let entityData := data.foldl (fun acc p => setField p.1 p.2 acc) []
  match entityData.lookup EntityTypeKey with
  | some _ => entityData
  | none => setField EntityTypeKey (.str entityType) entityData

/-- `NewCreateOperation` (operations.go, lines 46-59); `data` holds the entries of
the map the caller gives. -/
def NewCreateOperation (entityType : String) (data : List (String × Val)) : Operation :=
  .create "create" entityType (fillEntityData entityType data)

/-- `NewUpdateOperation` (operations.go, lines 78-92). -/
def NewUpdateOperation (entityType : String) (keys : List String)
    (data : List (String × Val)) : Operation :=
  .update "update" entityType (fillEntityData entityType data) keys

/-- `NewDeleteOperation` (operations.go, lines 113-119). -/
def NewDeleteOperation (entityType : String) (keys : List String) : Operation :=
  .delete "delete" entityType keys

/-- The closure `contains` of `NewQueryInformationOperation`. -/
def contains (a : List String) (e : String) : Bool :=
  match a with
  | [] => false
  | x :: rest => if x = e then true else contains rest e

/-- `NewQueryInformationOperation` (operations.go, lines 135-155); `none` is the nil
slice. -/
def NewQueryInformationOperation (values : Option (List String)) : Operation :=
  let values :=
    match values with
    | some vs =>
      if !contains vs "is_timezone_support_enabled" then
        vs ++ ["is_timezone_support_enabled"]
      else ["is_timezone_support_enabled"]
    | none => ["is_timezone_support_enabled"]
  .queryInformation "query_server_information" values

/-- `NewQuerySchemasOperation` (operations.go, lines 170-174). -/
def NewQuerySchemasOperation : Operation :=
  .querySchemas "query_schemas"

/-! ## The payload of a call (session.go, lines 334-338) -/

/-- The Go values `Encode` is handed on the way from `Call`: a value of the kinds
of `Val`, an operation (a struct), the operations of the call (a `[]interface{}`
of structs), or the address of an `interface{}` variable that holds such a value. -/
inductive Arg where
  | val (v : Val)
  | operation (op : Operation)
  | operations (ops : List Operation)
  | pointer (x : Arg)
  deriving DecidableEq, Repr

/-- `Encode` on the values of `Arg`.  A struct falls to the default case.  The
elements of the operation list are structs, so the slice case answers with the
same list.  The address of an `interface{}` variable is a pointer whose element is
of kind interface, not struct, and the pointer case returns it as it is. -/
def EncodeArg (lib : Lib) (n : Nat) : Arg → Heap → Except Err (Arg × Heap)
  | .val v, h =>
    match Encode lib n v h with
    | .error e => .error e
    | .ok (r, h1) => .ok (.val r, h1)
  | .operation op, h => .ok (.operation op, h)
  | .operations ops, h => .ok (.operations ops, h)
  | .pointer x, h => .ok (.pointer x, h)

/-- `encodeOperations` up to `json.Marshal`: `session.Encode(&operations)`, the
value that is marshalled. -/
def encodeOperations (lib : Lib) (n : Nat) (operations : List Operation) (h : Heap) :
    Except Err (Arg × Heap) :=
  EncodeArg lib n (.pointer (.operations operations)) h

/-! ## `json.Unmarshal` into the result types

What `encoding/json` does with a parsed element whose target is a result type.  The
entries of an object are stored one after the other, in the order of the text, each
in the struct field whose name matches its key when case is disregarded; an entry
that matches no field is skipped.  A null leaves a string or a boolean as it is and
makes a map or a slice nil; a value of a JSON type the field cannot hold is an
`UnmarshalTypeError`, the first of which `json.Unmarshal` returns.  An object stored
in a map that is not nil is added to that map, and an array stored in a slice is
stored element by element in what the backing array of the slice holds. -/

/-- The letter `encoding/json` compares in place of `c` when it matches the key of
an object with the name of a struct field: the capital of a letter of the Latin
alphabet, `S` for the long s and `K` for the Kelvin sign. -/
def foldRune (c : Char) : Char :=
  if 97 ≤ c.toNat ∧ c.toNat ≤ 122 then Char.ofNat (c.toNat - 32)
  else if c.toNat = 383 then Char.ofNat 83
  else if c.toNat = 8490 then Char.ofNat 75
  else c

/-- The key of an entry matches the name of a struct field. -/
def matchesField (key name : String) : Bool :=
  key.data.map foldRune = name.data.map foldRune

/-- A JSON value stored in a field of type `string` that holds `cur`. -/
def storeString (cur : String) : Json → Except Err String
  | .null => .ok cur
  | .str s => .ok s
  | _ => .error (.jsonError "json: cannot unmarshal into Go value of type string")

/-- A JSON value stored in a field of type `bool` that holds `cur`. -/
def storeBool (cur : Bool) : Json → Except Err Bool
  | .null => .ok cur
  | .bool b => .ok b
  | _ => .error (.jsonError "json: cannot unmarshal into Go value of type bool")

/-- A JSON value stored in a `map[string]interface{}` that holds `cur`: a null makes
it nil; an object is built as a new map when `cur` is nil and is added to the map
of `cur` when it is not, the values of the entries being new in both cases. -/
def storeMap (cur : Val) (v : Json) (h : Heap) : Except Err (Val × Heap) :=
  match v with
  | .null => .ok (.nilMap, h)
  | .obj kvs =>
    match cur with
    | .map a =>
      match getObj h a with
      | some fs =>
        let r := layoutFields kvs h.length
        .ok (.map a,
          (h ++ r.2).set a (.obj (r.1.foldl (fun acc p => setField p.1 p.2 acc) fs)))
      | none => .ok (alloc (.obj kvs) h)
    | _ => .ok (alloc (.obj kvs) h)
  | _ =>
    .error (.jsonError "json: cannot unmarshal into Go value of type map[string]interface {}")

/-- The elements of an array stored in the elements of a `[]map[string]interface{}`,
`slots` being what the backing array holds from the index of the first of them on
(nil maps where it holds nothing). -/
def storeMapElems : List Val → List Json → Heap → Except Err (List Val × Heap)
  | _, [], h => .ok ([], h)
  | slots, x :: xs, h =>
    match storeMap (slots.headD .nilMap) x h with
    | .error e => .error e
    | .ok (v, h1) =>
      match storeMapElems slots.tail xs h1 with
      | .error e => .error e
      | .ok (vs, h2) => .ok (v :: vs, h2)

/-- A JSON value stored in a `[]map[string]interface{}` that holds `cur`, whose
backing array holds `slots` (the elements of the slice and what an earlier, longer
array left behind them): a null makes the slice nil, an empty array makes it a new
empty slice, and the elements of any other array are stored in the elements the
backing array holds, the slice taking the length of the array.  The result is the
slice, what its backing array holds, and the heap. -/
def storeMaps (cur : Val) (slots : List Val) (v : Json) (h : Heap) :
    Except Err (Val × List Val × Heap) :=
  match v with
  | .null => .ok (.nilSlice, [], h)
  | .arr [] => .ok (.slice true h.length, [], h ++ [.arr []])
  | .arr xs =>
    match storeMapElems slots xs h with
    | .error e => .error e
    | .ok (vs, h1) =>
      match cur with
      | .slice _ a => .ok (.slice true a, vs ++ slots.drop xs.length, h1.set a (.arr vs))
      | _ => .ok (.slice true h1.length, vs ++ slots.drop xs.length, h1 ++ [.arr vs])
  | _ =>
    .error (.jsonError "json: cannot unmarshal into Go value of type []map[string]interface {}")

/-- A JSON value stored in a `map[string]string` that holds `cur`. -/
def storeHeaders (cur : List (String × String)) : Json → Except Err (List (String × String))
  | .null => .ok []
  | .obj kvs =>
    kvs.foldlM
      (fun acc p =>
        match storeString "" p.2 with
        | .error e => .error e
        | .ok s => .ok (acc.filter (fun q => q.1 ≠ p.1) ++ [(p.1, s)]))
      cur
  | _ => .error (.jsonError "json: cannot unmarshal into Go value of type map[string]string")

/-- One entry of an object stored in the result struct `r`: the value goes to the
field the key matches.  `slots` is what the backing array of the `Data` of a query
result holds. -/
def storeEntry (r : Result) (slots : List Val) (h : Heap) (key : String) (v : Json) :
    Except Err (Result × List Val × Heap) :=
  match r with
  | .query action data metadata =>
    if matchesField key "action" then
      match storeString action v with
      | .error e => .error e
      | .ok action1 => .ok (.query action1 data metadata, slots, h)
    else if matchesField key "data" then
      match storeMaps data slots v h with
      | .error e => .error e
      | .ok (data1, slots1, h1) => .ok (.query action data1 metadata, slots1, h1)
    else if matchesField key "metadata" then
      match storeMap metadata v h with
      | .error e => .error e
      | .ok (metadata1, h1) => .ok (.query action data metadata1, slots, h1)
    else .ok (r, slots, h)
  | .create action data metadata =>
    if matchesField key "action" then
      match storeString action v with
      | .error e => .error e
      | .ok action1 => .ok (.create action1 data metadata, slots, h)
    else if matchesField key "data" then
      match storeMap data v h with
      | .error e => .error e
      | .ok (data1, h1) => .ok (.create action data1 metadata, slots, h1)
    else if matchesField key "metadata" then
      match storeMap metadata v h with
      | .error e => .error e
      | .ok (metadata1, h1) => .ok (.create action data metadata1, slots, h1)
    else .ok (r, slots, h)
  | .update action data metadata =>
    if matchesField key "action" then
      match storeString action v with
      | .error e => .error e
      | .ok action1 => .ok (.update action1 data metadata, slots, h)
    else if matchesField key "data" then
      match storeMap data v h with
      | .error e => .error e
      | .ok (data1, h1) => .ok (.update action data1 metadata, slots, h1)
    else if matchesField key "metadata" then
      match storeMap metadata v h with
      | .error e => .error e
      | .ok (metadata1, h1) => .ok (.update action data metadata1, slots, h1)
    else .ok (r, slots, h)
  | .delete action data =>
    if matchesField key "action" then
      match storeString action v with
      | .error e => .error e
      | .ok action1 => .ok (.delete action1 data, slots, h)
    else if matchesField key "data" then
      match storeBool data v with
      | .error e => .error e
      | .ok data1 => .ok (.delete action data1, slots, h)
    else .ok (r, slots, h)
  | .getUploadMetadata url headers =>
    if matchesField key "url" then
      match storeString url v with
      | .error e => .error e
      | .ok url1 => .ok (.getUploadMetadata url1 headers, slots, h)
    else if matchesField key "headers" then
      match storeHeaders headers v with
      | .error e => .error e
      | .ok headers1 => .ok (.getUploadMetadata url headers1, slots, h)
    else .ok (r, slots, h)
  | .queryInformation _ | .querySchemas _ => .ok (r, slots, h)

/-- The entries of an object stored in a result struct, in the order of the text. -/
def storeEntries : List (String × Json) → Result → List Val → Heap →
    Except Err (Result × Heap)
  | [], r, _, h => .ok (r, h)
  | (key, v) :: rest, r, slots, h =>
    match storeEntry r slots h key v with
    | .error e => .error e
    | .ok (r1, slots1, h1) => storeEntries rest r1 slots1 h1

/-- `json.Unmarshal(raw, result)` for the result made by a `ResultFactory`: a map
and a slice take the value itself; a struct is left as it is by a null, takes the
entries of an object, and takes nothing else. -/
def unmarshalResult (zero : Result) (raw : Json) (h : Heap) : Except Err (Result × Heap) :=
  match zero, raw with
  | .queryInformation fields, _ =>
    match storeMap fields raw h with
    | .error e => .error e
    | .ok (v, h1) => .ok (.queryInformation v, h1)
  | .querySchemas schemas, _ =>
    match storeMaps schemas [] raw h with
    | .error e => .error e
    | .ok (v, _, h1) => .ok (.querySchemas v, h1)
  | _, .null => .ok (zero, h)
  | _, .obj kvs => storeEntries kvs zero [] h
  | _, _ => .error (.jsonError "json: cannot unmarshal into Go value of a struct type")

/-- `DecodeResult` (operations.go): the query, create and update results decode
their `Data` through the identity map and drop what `Decode` returns; the other
results do nothing. -/
def DecodeResult (lib : Lib) (s : Session) (n : Nat) (r : Result) (st : State) :
    Except Err State :=
  match r with
  | .query _ data _ | .create _ data _ | .update _ data _ =>
    match Decode lib s n data st with
    | .error e => .error e
    | .ok (_, st') => .ok st'
  | _ => .ok st

/-! ## The batch dispatcher (session.go, lines 71-110, 250-271, 588-612) -/

/-- The response of the transport: the bytes and, when they are a JSON text, its
parse. -/
structure Response where
  raw : String
  parsed : Option Json

/-- `getErrorFromResponse` (lines 250-271). -/
def getErrorFromResponse (content exception : String) (errorCode : Int) : Err :=
  if exception = "ValidationError" then
    .serverValidationError content errorCode exception
  else if exception = "FTAuthenticationError" ∨ exception = "PermissionError" then
    .serverPermissionDeniedError content errorCode exception
  else .serverError content errorCode exception

/-- The values of the entries of an object that `encoding/json` stores in the
struct field named `name`, in the order of the text. -/
def fieldValues (kvs : List (String × Json)) (name : String) : List Json :=
  (kvs.filter (fun p => p.1.data.map foldRune = name.data.map foldRune)).map Prod.snd

/-- A field of type `string` after the values `vs` are stored in it one after the
other: a null leaves the field as it is, a string replaces it, and a value of
another type makes `json.Unmarshal` return an error (`none`). -/
def storeStrings (vs : List Json) : Option String :=
  vs.foldl
    (fun acc v =>
      match acc, v with
      | none, _ => none
      | some s, .null => some s
      | some _, .str s => some s
      | some _, _ => none)
    (some "")

/-- `strconv.ParseInt(lit, 10, 64)` on the literal of a JSON number. -/
def parseInt (lit : String) : Option Int :=
  let digits : List Char → Option Nat := fun ds =>
    if ds ≠ [] ∧ ds.all Char.isDigit then
      some (ds.foldl (fun n c => 10 * n + (c.toNat - 48)) 0)
    else none
  let value : Option Int :=
    match lit.data with
    | [] => none
    | c :: ds =>
      if c.toNat = 45 then (digits ds).map (fun n => - (n : Int))
      else (digits (c :: ds)).map (fun n => (n : Int))
  value.bind (fun v => if -9223372036854775808 ≤ v ∧ v ≤ 9223372036854775807 then some v else none)

/-- A field of type `int` after the values `vs` are stored in it: a null leaves it,
a number that is an integer of 64 bits replaces it, anything else is an error. -/
def storeInts (vs : List Json) : Option Int :=
  vs.foldl
    (fun acc v =>
      match acc, v with
      | none, _ => none
      | some n, .null => some n
      | some _, .num lit _ => parseInt lit
      | some _, _ => none)
    (some 0)

/-- `json.Unmarshal(response, &errorResponse)`: the fields `content`, `exception`
and `error_code` of `ErrorResponse` (lines 112-116) when the response is an object
or null, `none` when `json.Unmarshal` returns an error. -/
def unmarshalErrorResponse : Json → Option (String × String × Int)
  | .null => some ("", "", 0)
  | .obj kvs =>
    match storeStrings (fieldValues kvs "content"),
      storeStrings (fieldValues kvs "exception"),
      storeInts (fieldValues kvs "error_code") with
    | some content, some exception, some errorCode => some (content, exception, errorCode)
    | _, _, _ => none
  | _ => none

/-- `getServerError` (lines 588-595). -/
def getServerError (response : String) (parsed : Json) : Err :=
  match unmarshalErrorResponse parsed with
  | some (content, exception, errorCode) => getErrorFromResponse content exception errorCode
  | none => .malformedResponseError response

/-- The body of the loop of `callResultWrap.UnmarshalJSON` (lines 85-107) for one
operation and its raw element: the result of the operation's factory, filled by
`json.Unmarshal` and decoded by its `DecodeResult`. -/
def decodeOne (lib : Lib) (s : Session) (n : Nat) (op : Operation) (raw : Json) (st : State) :
    Except Err (Result × State) :=
  match ResultFactory op with
  | none => .error (.other "failed to get factory with method ResultFactory")
  | some zero =>
    match unmarshalResult zero raw st.heap with
    | .error e => .error e
    | .ok (result, h1) =>
      match DecodeResult lib s n result { st with heap := h1 } with
      | .error e => .error e
      | .ok st2 => .ok (result, st2)

/-- The loop of `callResultWrap.UnmarshalJSON` (lines 84-108) over the raw elements
still to decode, `i` being the index of the first of them. -/
def unmarshalElems (lib : Lib) (s : Session) (n : Nat) (operations : List Operation) :
    List Json → Nat → List Result → State → Except Err (List Result × State)
  | [], _, results, st => .ok (results, st)
  | raw :: rest, i, results, st =>
    match operations[i]? with
    | none => .error (.panic "runtime error: index out of range")
    | some op =>
      match decodeOne lib s n op raw st with
      | .error e => .error e
      | .ok (result, st2) =>
        unmarshalElems lib s n operations rest (i + 1) (results ++ [result]) st2

/-- `callResultWrap.UnmarshalJSON` (lines 78-110) on a response that is a JSON
text: an array (or null) is decoded element by element, anything else goes to
`getServerError`. -/
def callResultWrap.UnmarshalJSON (lib : Lib) (s : Session) (n : Nat)
    (operations : List Operation) (raw : String) (data : Json) (st : State) :
    Except Err (List Result × State) :=
  match data with
  | .arr rawResults => unmarshalElems lib s n operations rawResults 0 [] st
  | .null => .ok ([], st)
  | _ => .error (getServerError raw data)

/-- The white space of a JSON text. -/
def jsonSpace (c : Char) : Bool :=
  c.toNat = 32 || c.toNat = 9 || c.toNat = 10 || c.toNat = 13

/-- The bytes `json.Unmarshal` hands to an `UnmarshalJSON` method for a text that is
one value: the text without the white space around the value. -/
def valueBytes (text : String) : String :=
  String.mk ((text.data.dropWhile jsonSpace).reverse.dropWhile jsonSpace).reverse

/-- `Session.Call` (lines 597-612) from the answer of `session.call`, the exchange
with the server, on: the identity map of the batch starts empty, and bytes that
are no JSON text are refused by `json.Unmarshal` before `UnmarshalJSON` runs. -/
def Call (lib : Lib) (s : Session) (n : Nat) (operations : List Operation)
    (response : Except Err Response) (h : Heap) : Except Err (List Result × Heap) :=
  match response with
  | .error e => .error e
  | .ok resp =>
    match resp.parsed with
    | none => .error (.jsonError "invalid character looking for beginning of value")
    | some data =>
      match callResultWrap.UnmarshalJSON lib s n operations (valueBytes resp.raw) data
          ⟨h, []⟩ with
      | .error e => .error e
      | .ok (results, st) => .ok (results, st.heap)

/-! ## URLs (utils.go, lines 8-23; session.go, lines 418-428) -/

/-- `uriParameter` (utils.go, lines 8-11). -/
structure uriParameter where
  key : String
  value : String
  deriving DecidableEq, Repr

/-- `strings.Join(elems, sep)`: nothing for no element, else the first element and
every further one after the separator. -/
def stringsJoin (elems : List String) (sep : String) : String :=
  match elems with
  | [] => ""
  | a :: rest => rest.foldl (fun acc s => acc ++ sep ++ s) a

/-- `encodeUriParameters` (utils.go, lines 17-23): the loop appends `key=value` for
each parameter to `parts`, which are then joined with `&`. -/
def encodeUriParameters (data : List uriParameter) : String :=
  stringsJoin
    (data.foldl (fun parts p => parts ++ [stringsJoin [p.key, p.value] "="]) []) "&"

/-- `GetComponentUrl` (session.go, lines 418-428); `componentId` is the text
`componentId.String()` of the UUID. -/
def GetComponentUrl (s : Session) (componentId : String) : String :=
  s.ServerUrl ++ "/component/get?" ++
    encodeUriParameters
      [⟨"id", componentId⟩, ⟨"username", s.ApiUser⟩, ⟨"apiKey", s.ApiKey⟩]

/-! ## Predicates on states used by the proofs -/

/-- A relation between the state before and after that holds across each of the
four writes `Decode` performs, and across sequences of them. -/
structure StepRel (R : State → State → Prop) : Prop where
  refl : ∀ st, R st st
  trans : ∀ {a b c}, R a b → R b c → R a c
  setElem : ∀ st a i r, R st { st with heap := setElem st.heap a i r }
  setMapIndex : ∀ st a k r, R st { st with heap := setMapIndex st.heap a k r }
  setField : ∀ st dst fs k r, getObj st.heap dst = some fs →
    R st { st with heap := st.heap.set dst (.obj (setField k r fs)) }
  register : ∀ st key a kvs, st.identityMap.lookup key = none → getObj st.heap a = some kvs →
    R st { st with identityMap := st.identityMap ++ [(key, a)] }

/-- A decoder whose successful calls are within `R`. -/
def DecRel (R : State → State → Prop) (dec : Dec) : Prop :=
  ∀ v st r st', dec v st = .ok (r, st') → R st st'

/-- The identity map `im'` is `im` with entries added at the end, under keys that
`im` does not bind. -/
def Extends (im im' : IdentityMap) : Prop :=
  ∃ added, im' = im ++ added ∧ ∀ p ∈ added, im.lookup p.1 = none

/-- The heap `h'` has the cells of `h`, each of the kind it had (a slice of the
length it had). -/
def SameShape (h h' : Heap) : Prop :=
  h'.length = h.length ∧
  (∀ (a : Nat) (kvs : List (String × Val)), h[a]? = some (.obj kvs) →
    ∃ kvs', h'[a]? = some (.obj kvs')) ∧
  (∀ (a : Nat) (xs : List Val), h[a]? = some (.arr xs) →
    ∃ xs', h'[a]? = some (.arr xs') ∧ xs'.length = xs.length)

/-- The value refers to no cell outside `S`. -/
def ValIn (S : Nat → Prop) : Val → Prop
  | .slice _ a => S a
  | .map a => S a
  | _ => True

/-- Every value stored in the cell is within `S`. -/
def CellIn (S : Nat → Prop) : Cell → Prop
  | .obj kvs => ∀ p ∈ kvs, ValIn S p.2
  | .arr xs => ∀ x ∈ xs, ValIn S x

/-- The region `S` is closed in the state: its cells refer to cells of `S` only,
and the identity map points into it. -/
structure Closed (S : Nat → Prop) (st : State) : Prop where
  cells : ∀ (a : Nat) (c : Cell), st.heap[a]? = some c → S a → CellIn S c
  targets : ∀ p ∈ st.identityMap, S p.2

/-- A decoder that, started on a value of a closed region, keeps the region closed,
answers within it, and writes to no cell outside it. -/
def DecClosed (S : Nat → Prop) (dec : Dec) : Prop :=
  ∀ v st r st', Closed S st → ValIn S v → dec v st = .ok (r, st') →
    Closed S st' ∧ ValIn S r ∧ ∀ (a : Nat), ¬ S a → st'.heap[a]? = st.heap[a]?

/-- The addresses from `lo` up to `hi`. -/
def Reg (lo hi : Nat) : Nat → Prop := fun a => lo ≤ a ∧ a < hi

/-- The heap holds the cells `cells` from the address `lo` on. -/
def Holds (h : Heap) (lo : Nat) (cells : List Cell) : Prop :=
  ∀ (k : Nat) (c : Cell), cells[k]? = some c → h[lo + k]? = some c

/-- The relation of the identity maps of two states. -/
abbrev ExtRel : State → State → Prop := fun st st' => Extends st.identityMap st'.identityMap

/-- A value that is nil, a boolean, a number or a string. -/
def Val.isScalar : Val → Bool
  | .null | .bool _ | .num _ _ | .str _ => true
  | _ => false

/-- The values of the primary-key fields of an entity of known type. -/
def primaryKeyValues (s : Session) (h : Heap) (entity : Val) : List Val :=
  match GetEntityType h entity with
  | .ok t => ((GetPrimaryKeyAttributes s t).getD []).map (index h entity)
  | .error _ => []

/-- Go `v[i]` on a slice. -/
def elemAt (h : Heap) (v : Val) (i : Nat) : Option Val :=
  match v with
  | .slice _ a => (getArr h a).bind (fun xs => xs[i]?)
  | _ => none

/-- The identity map of the state points at maps. -/
def StateOK (st : State) : Prop :=
  ∀ p ∈ st.identityMap, (getObj st.heap p.2).isSome = true

/-! ## Parsed values as trees

The syntactic counterparts of `IsDate`, `GetEntityType` and `GetIdentifyingKey` on a
parsed text, the identity keys `Decode` meets in it, and what a `Decode` call on a
freshly built value may touch. -/

/-- The Go value of a JSON scalar. -/
def Json.scalar? : Json → Option Val
  | .null => some .null
  | .bool b => some (.bool b)
  | .num _ float => some (.num "float64" float)
  | .str s => some (.str s)
  | _ => none

/-- `IsDate` on the entries of a parsed object. -/
def jsonIsDate (kvs : List (String × Json)) : Bool :=
  match kvs.lookup "__type__" with
  | some (.str s) => s == "datetime"
  | _ => false

/-- `GetEntityType` on the entries of a parsed object. -/
def jsonEntityType (kvs : List (String × Json)) : Option String :=
  match kvs.lookup EntityTypeKey with
  | some (.str t) => some t
  | _ => none

/-- The primary-key fields of a parsed object of known type hold scalars (or are
missing). -/
def scalarKey (s : Session) (kvs : List (String × Json)) : Bool :=
  match jsonEntityType kvs with
  | none => true
  | some t =>
    match GetPrimaryKeyAttributes s t with
    | none => true
    | some pks =>
      pks.all (fun pk =>
        match kvs.lookup pk with
        | none => true
        | some j => j.scalar?.isSome)

/-- `GetIdentifyingKey` on the entries of a parsed object whose primary-key fields
hold scalars. -/
def jsonKey (lib : Lib) (s : Session) (kvs : List (String × Json)) : Option String :=
  match jsonEntityType kvs with
  | none => none
  | some t =>
    match GetPrimaryKeyAttributes s t with
    | none => none
    | some pks =>
      some (pks.foldl
        (fun key pk => key ++ "," ++ sprintS lib [] (((kvs.lookup pk).bind Json.scalar?).getD .null))
        t)

mutual
/-- The identity keys of the entities `Decode` merges when it decodes the value:
those of the entities of known type that it reaches through sequences, plain
mappings and entities of known type. -/
def Json.keys (lib : Lib) (s : Session) : Json → List String
  | .arr xs => keysList lib s xs
  | .obj kvs =>
    if jsonIsDate kvs then []
    else
      match jsonEntityType kvs with
      | none => keysFields lib s kvs
      | some _ =>
        match jsonKey lib s kvs with
        | none => []
        | some k => k :: keysFields lib s kvs
  | _ => []
/-- The keys of the elements of a sequence. -/
def keysList (lib : Lib) (s : Session) : List Json → List String
  | [] => []
  | x :: xs => x.keys lib s ++ keysList lib s xs
/-- The keys of the values of a mapping. -/
def keysFields (lib : Lib) (s : Session) : List (String × Json) → List String
  | [] => []
  | (_, x) :: kvs => x.keys lib s ++ keysFields lib s kvs
end

mutual
/-- The parsed values on which `Decode` visits every mapping once: where it
reaches, no mapping has two entries with one key, the primary-key values of the
entities of known type are scalars, and no entity of known type has an entity
with the same identity key nested inside it. -/
def Json.tidy (lib : Lib) (s : Session) : Json → Bool
  | .arr xs => tidyList lib s xs
  | .obj kvs =>
    decide (kvs.map Prod.fst).Nodup &&
      (if jsonIsDate kvs then true
       else
        match jsonEntityType kvs with
        | none => tidyFields lib s kvs
        | some _ =>
          match jsonKey lib s kvs with
          | none => true
          | some k =>
            scalarKey s kvs && decide (k ∉ keysFields lib s kvs) && tidyFields lib s kvs)
  | _ => true
/-- The elements of a sequence are tidy. -/
def tidyList (lib : Lib) (s : Session) : List Json → Bool
  | [] => true
  | x :: xs => x.tidy lib s && tidyList lib s xs
/-- The values of a mapping are tidy. -/
def tidyFields (lib : Lib) (s : Session) : List (String × Json) → Bool
  | [] => true
  | (_, x) :: kvs => x.tidy lib s && tidyFields lib s kvs
end

/-- The entries of `fs'` cover those of `fs`. -/
def Covers (fs fs' : List (String × Val)) : Prop :=
  ∀ g, (fs.lookup g).isSome = true → (fs'.lookup g).isSome = true

/-- What a run from `st` to `st'` that decodes a parsed value with the identity keys
`ks` and the cells `lo` to `hi` does elsewhere, the cells in `W` apart: it writes
only to the canonical representations bound under `ks` at the start, and there
only adds or overwrites entries; the identity map gains entries under keys of
`ks`, pointing into the cells of the value; every key of `ks` ends up bound. -/
structure Outside (ks : List String) (lo hi : Nat) (W : Nat → Prop) (st st' : State) : Prop where
  frame : ∀ (a : Nat), ¬ W a → (a < lo ∨ hi ≤ a) →
    (∀ k ∈ ks, st.identityMap.lookup k ≠ some a) → st'.heap[a]? = st.heap[a]?
  added : ∃ added, st'.identityMap = st.identityMap ++ added ∧
    ∀ p ∈ added, p.1 ∈ ks ∧ lo ≤ p.2 ∧ p.2 < hi
  bound : ∀ k ∈ ks, (st'.identityMap.lookup k).isSome = true
  grows : ∀ (a : Nat), ¬ W a → (a < lo ∨ hi ≤ a) → ∀ fs, getObj st.heap a = some fs →
    ∃ fs', getObj st'.heap a = some fs' ∧ Covers fs fs'

/-- The identity map binds the keys `ks` to cells below `lo` or from `hiP` on. -/
def Targets (ks : List String) (lo hiP : Nat) (st : State) : Prop :=
  ∀ k ∈ ks, ∀ (b : Nat), st.identityMap.lookup k = some b → b < lo ∨ hiP ≤ b

/-- The decoder `dec` treats the parsed value `x` as a tree: started on its cells
as `json.Unmarshal` built them, it stays within `Outside`. -/
def SimFor (lib : Lib) (s : Session) (dec : Dec) (x : Json) : Prop :=
  ∀ (base : Nat) (st : State) (r : Val) (st' : State),
    Holds st.heap base (layout x base).2 →
    Targets (x.keys lib s) base (base + (layout x base).2.length) st →
    dec (layout x base).1 st = .ok (r, st') →
    Outside (x.keys lib s) base (base + (layout x base).2.length) (fun _ => False) st st'

/-- What the loop of `mergeEntity` over the entries `rest` of the mapping stored at
`src`, started in `st0`, leaves in the canonical representation stored at `dst`,
whose entries were `fs0` and are `fs'`: an entry the incoming mapping does not define
is as it was, and an entry it defines holds what the decoder returned on the
incoming value, as the parser built it (from the address `lo` on), in the state
the loop had reached after the entries before it. -/
def Merged (dec : Dec) (src dst : Nat) (st0 : State) (rest : List (String × Json)) (lo : Nat)
    (fs0 fs' : List (String × Val)) (st' : State) : Prop :=
  (∀ g, g ∉ rest.map Prod.fst → fs'.lookup g = fs0.lookup g) ∧
  ∀ p ∈ rest, ∃ base stt r stt',
    (p.1, (layout p.2 base).1) ∈ (layoutFields rest lo).1 ∧
    Holds stt.heap base (layout p.2 base).2 ∧
    (∃ pre post, rest = pre ++ p :: post ∧
      mergeFields dec src dst (pre.map Prod.fst) st0 = .ok stt) ∧
    dec (layout p.2 base).1 stt = .ok (r, stt') ∧
    fs'.lookup p.1 = some r ∧
    ∀ key (b : Nat), stt'.identityMap.lookup key = some b →
      st'.identityMap.lookup key = some b

/-! ## Identity keys as texts -/

/-- The comma that separates the parts of an identity key. -/
def sepChar : Char := Char.ofNat 44

/-- A string without a comma. -/
def commaFree (s : String) : Prop := sepChar ∉ s.data

instance commaFreeDecidable (s : String) : Decidable (commaFree s) := by
  unfold commaFree; infer_instance

/-- The characters of the parts `vs`, each after a comma. -/
def tailChars : List String → List Char
  | [] => []
  | v :: vs => sepChar :: (v.data ++ tailChars vs)

/-! ## Budgets -/

/-- Every result of `dec` is a result of `dec'`. -/
def DecLe (dec dec' : Dec) : Prop :=
  ∀ v st r, dec v st = .ok r → dec' v st = .ok r

/-! ## What `Decode` produces on a parsed value

The values on which `Decode` does not panic, the budget it needs, and the places of
a parsed value: a place is given by the path of indices and field names that leads
to it. -/

/-- The parsed value is the JSON null. -/
def Json.isNull : Json → Bool
  | .null => true
  | _ => false

mutual
/-- The parsed values on which `Decode` does not panic: where it reaches, no
sequence holds a null, and a date-shaped mapping holds a string under `value`, the
session's `is_timezone_support_enabled` being a boolean. -/
def Json.decodable (lib : Lib) (s : Session) : Json → Bool
  | .arr xs => decodableList lib s xs
  | .obj kvs =>
    if jsonIsDate kvs then
      (match kvs.lookup "value" with
        | some (.str _) => true
        | _ => false) &&
      (match s.ServerInformation.lookup "is_timezone_support_enabled" with
        | some (.bool _) => true
        | _ => false)
    else
      match jsonEntityType kvs with
      | none => decodableFields lib s kvs
      | some _ =>
        match jsonKey lib s kvs with
        | none => true
        | some _ => decodableFields lib s kvs
  | _ => true
/-- The elements of a sequence are decodable and none is null. -/
def decodableList (lib : Lib) (s : Session) : List Json → Bool
  | [] => true
  | x :: xs => !x.isNull && x.decodable lib s && decodableList lib s xs
/-- The values of a mapping are decodable. -/
def decodableFields (lib : Lib) (s : Session) : List (String × Json) → Bool
  | [] => true
  | (_, x) :: kvs => x.decodable lib s && decodableFields lib s kvs
end

mutual
/-- The nesting depth of a parsed value: a budget above it is enough for `Decode`. -/
def Json.depth : Json → Nat
  | .arr xs => depthList xs
  | .obj kvs => depthFields kvs
  | _ => 0
/-- One more than the depth of the deepest element. -/
def depthList : List Json → Nat
  | [] => 0
  | x :: xs => max (x.depth + 1) (depthList xs)
/-- One more than the depth of the deepest value. -/
def depthFields : List (String × Json) → Nat
  | [] => 0
  | (_, x) :: kvs => max (x.depth + 1) (depthFields kvs)
end

mutual
/-- The entities `Decode` merges when it decodes the value built from the address
`lo` on: the identity key of each and the address of its own map. -/
def Json.cells (lib : Lib) (s : Session) : Json → Nat → List (String × Nat)
  | .arr xs, lo => cellsList lib s xs lo
  | .obj kvs, lo =>
    if jsonIsDate kvs then []
    else
      match jsonEntityType kvs with
      | none => cellsFields lib s kvs lo
      | some _ =>
        match jsonKey lib s kvs with
        | none => []
        | some k => (k, lo + (layoutFields kvs lo).2.length) :: cellsFields lib s kvs lo
  | _, _ => []
/-- The entities in the elements of a sequence. -/
def cellsList (lib : Lib) (s : Session) : List Json → Nat → List (String × Nat)
  | [], _ => []
  | x :: xs, lo => x.cells lib s lo ++ cellsList lib s xs (lo + (layout x lo).2.length)
/-- The entities in the values of a mapping. -/
def cellsFields (lib : Lib) (s : Session) : List (String × Json) → Nat → List (String × Nat)
  | [], _ => []
  | (_, x) :: kvs, lo => x.cells lib s lo ++ cellsFields lib s kvs (lo + (layout x lo).2.length)
end

mutual
/-- The fields of the entities `Decode` merges when it decodes the value: the
identity key of the entity and the name of the field. -/
def Json.names (lib : Lib) (s : Session) : Json → List (String × String)
  | .arr xs => namesList lib s xs
  | .obj kvs =>
    if jsonIsDate kvs then []
    else
      match jsonEntityType kvs with
      | none => namesFields lib s kvs
      | some _ =>
        match jsonKey lib s kvs with
        | none => []
        | some k => kvs.map (fun p => (k, p.1)) ++ namesFields lib s kvs
  | _ => []
/-- The fields of the entities in the elements of a sequence. -/
def namesList (lib : Lib) (s : Session) : List Json → List (String × String)
  | [] => []
  | x :: xs => x.names lib s ++ namesList lib s xs
/-- The fields of the entities in the values of a mapping. -/
def namesFields (lib : Lib) (s : Session) : List (String × Json) → List (String × String)
  | [] => []
  | (_, x) :: kvs => x.names lib s ++ namesFields lib s kvs
end

/-- A step of a path into a value: an index of a sequence or a key of a mapping. -/
inductive Step where
  | idx (i : Nat)
  | fld (f : String)
  deriving DecidableEq, Repr

/-- The part of a parsed value that `Decode` reaches along the path: through the
elements of sequences and the fields of plain mappings and of entities of known
type, not into dates or entities of unknown type. -/
def reach (lib : Lib) (s : Session) : List Step → Json → Option Json
  | [], j => some j
  | .idx i :: p, .arr xs =>
    match xs[i]? with
    | some x => reach lib s p x
    | none => none
  | .fld f :: p, .obj kvs =>
    if jsonIsDate kvs then none
    else
      match jsonEntityType kvs with
      | none =>
        match kvs.lookup f with
        | some x => reach lib s p x
        | none => none
      | some _ =>
        match jsonKey lib s kvs with
        | none => none
        | some _ =>
          match kvs.lookup f with
          | some x => reach lib s p x
          | none => none
  | _, _ => none

/-- The identity keys of the entities of known type whose fields the path goes
through. -/
def passed (lib : Lib) (s : Session) : List Step → Json → List String
  | [], _ => []
  | .idx i :: p, .arr xs =>
    match xs[i]? with
    | some x => passed lib s p x
    | none => []
  | .fld f :: p, .obj kvs =>
    if jsonIsDate kvs then []
    else
      match jsonEntityType kvs with
      | none =>
        match kvs.lookup f with
        | some x => passed lib s p x
        | none => []
      | some _ =>
        match jsonKey lib s kvs with
        | none => []
        | some k =>
          match kvs.lookup f with
          | some x => k :: passed lib s p x
          | none => []
  | _, _ => []

/-- The Go value found in the heap along the path from `v`: `v[i]` for an index,
`v[f]` for a key. -/
def follow (h : Heap) : List Step → Val → Option Val
  | [], v => some v
  | .idx i :: p, .slice _ a =>
    match getArr h a with
    | some xs =>
      match xs[i]? with
      | some x => follow h p x
      | none => none
    | none => none
  | .fld f :: p, .map a =>
    match getObj h a with
    | some fs =>
      match fs.lookup f with
      | some x => follow h p x
      | none => none
    | none => none
  | _, _ => none

/-- The path leads from `v` to `w` in the heap, through cells that satisfy `P`. -/
def Walk (P : Nat → Prop) (h : Heap) : List Step → Val → Val → Prop
  | [], v, w => v = w
  | .idx i :: p, v, w =>
    ∃ typed a xs x, v = .slice typed a ∧ P a ∧ getArr h a = some xs ∧ xs[i]? = some x ∧
      Walk P h p x w
  | .fld f :: p, v, w =>
    ∃ a fs x, v = .map a ∧ P a ∧ getObj h a = some fs ∧ fs.lookup f = some x ∧
      Walk P h p x w

/-- A cell on the way to a place of a value built from `lo` to `hi`, whose entities
are `C`: it is the own map of no entity but those with a key in `K`, and it is a
cell of the value or the canonical representation a key of `K` was bound to. -/
def Vis (C : List (String × Nat)) (lo hi : Nat) (st : State) (K : List String) (a : Nat) :
    Prop :=
  (∀ k, (k, a) ∈ C → k ∈ K) ∧
  ((lo ≤ a ∧ a < hi) ∨ ∃ kh ∈ K, st.identityMap.lookup kh = some a)

/-- Among the keys `ks`, only `kh` is bound to the object `kh` is bound to. -/
def Sole (st : State) (ks : List String) (kh : String) : Prop :=
  ∀ k ∈ ks, ∀ (a : Nat), st.identityMap.lookup kh = some a →
    st.identityMap.lookup k = some a → k = kh

/-- The entities of known type in the parsed value `x`, decoded to `r`, are replaced
by their canonical representations: a path to such an entity, through entities
whose keys occur once among `ks` and are bound to objects of their own, leads from
`r` to the object the identity map binds under the entity's key. -/
def PathsOK (lib : Lib) (s : Session) (ks : List String) (C : List (String × Nat))
    (lo hi : Nat) (st st' : State) (x : Json) (r : Val) : Prop :=
  ∀ p kvs k, reach lib s p x = some (.obj kvs) → jsonIsDate kvs = false →
    jsonKey lib s kvs = some k →
    (∀ kh ∈ passed lib s p x, ks.count kh = 1 ∧ Sole st ks kh) →
    ∃ c, st'.identityMap.lookup k = some c ∧
      Walk (Vis C lo hi st (passed lib s p x)) st'.heap p r (.map c)

/-- The canonical representations expose the fields `N`. -/
def NamesOK (N : List (String × String)) (st' : State) : Prop :=
  ∀ q ∈ N, ∃ c fs, st'.identityMap.lookup q.1 = some c ∧ getObj st'.heap c = some fs ∧
    (fs.lookup q.2).isSome = true

/-- What a `Decode` call that started in `st` on the parsed value `x`, built from
`base` on, leaves when it returns `r` in the state `st'`. -/
structure Post (lib : Lib) (s : Session) (x : Json) (base : Nat) (st : State) (r : Val)
    (st' : State) : Prop where
  added : ∃ added, st'.identityMap = st.identityMap ++ added ∧
    ∀ p ∈ added, p ∈ x.cells lib s base
  paths : PathsOK lib s (x.keys lib s) (x.cells lib s base) base
    (base + (layout x base).2.length) st st' x r
  names : NamesOK (x.names lib s) st'
  shape : (x.isNull = false → r ≠ .null) ∧
    ∀ kvs, x = .obj kvs → jsonIsDate kvs = false → ∃ c, r = .map c
  ok : StateOK st'

/-- The decoder `dec` returns on the parsed value `x`, started on its cells as
`json.Unmarshal` built them, and leaves `Post`. -/
def FullFor (lib : Lib) (s : Session) (dec : Dec) (x : Json) : Prop :=
  ∀ (base : Nat) (st : State),
    Holds st.heap base (layout x base).2 →
    Targets (x.keys lib s) base (base + (layout x base).2.length) st →
    StateOK st →
    ∃ r st', dec (layout x base).1 st = .ok (r, st') ∧ Post lib s x base st r st'

/-! ## Well-formed response elements -/

/-- A JSON value a field of type `string` takes: a string or null. -/
def Json.isText : Json → Bool
  | .str _ | .null => true
  | _ => false

/-- A JSON value a field of type `bool` takes: a boolean or null. -/
def Json.isFlag : Json → Bool
  | .bool _ | .null => true
  | _ => false

/-- A JSON value a field of type `map[string]interface{}` takes when it is not to
be decoded: an object or null. -/
def Json.isRecord : Json → Bool
  | .obj _ | .null => true
  | _ => false

/-- A record that `Decode` can decode: a tidy, decodable object. -/
def Json.isEntityRecord (lib : Lib) (s : Session) : Json → Bool
  | .obj kvs => (Json.obj kvs).tidy lib s && (Json.obj kvs).decodable lib s
  | _ => false

/-- A record of a query result: a tidy, decodable object that is not date-shaped. -/
def Json.isQueryRecord (lib : Lib) (s : Session) : Json → Bool
  | .obj kvs => !jsonIsDate kvs && (Json.obj kvs).tidy lib s && (Json.obj kvs).decodable lib s
  | _ => false

/-- The raw element is well formed for the operation: it is a JSON value of the shape
of the result type of the operation.  For a query, create or update result it is an
object in which the entries for `action` are strings, there is at most one entry
for `data`, null or the records (an array of records for a query, one record for a
create or update), and at most one entry for `metadata`, an object or null; for a
delete result an object whose entries for `action` are strings and for `data`
booleans; for the server information an object; for the schemas an array of
objects; for the upload metadata an object whose entries for `url` are strings and
for `headers` objects of strings.  A null stands for a value that is left out, and
keys are matched to field names as `encoding/json` matches them. -/
def wellFormed (lib : Lib) (s : Session) (op : Operation) (raw : Json) : Bool :=
  match op, raw with
  | .query .., .obj kvs =>
    (fieldValues kvs "action").all Json.isText &&
    (match fieldValues kvs "data" with
      | [] => true
      | [.null] => true
      | [.arr xs] => xs.all (Json.isQueryRecord lib s)
      | _ => false) &&
    (match fieldValues kvs "metadata" with
      | [] => true
      | [v] => v.isRecord
      | _ => false)
  | .create .., .obj kvs | .update .., .obj kvs =>
    (fieldValues kvs "action").all Json.isText &&
    (match fieldValues kvs "data" with
      | [] => true
      | [.null] => true
      | [v] => v.isEntityRecord lib s
      | _ => false) &&
    (match fieldValues kvs "metadata" with
      | [] => true
      | [v] => v.isRecord
      | _ => false)
  | .delete .., .obj kvs =>
    (fieldValues kvs "action").all Json.isText && (fieldValues kvs "data").all Json.isFlag
  | .queryInformation .., .obj _ => true
  | .querySchemas .., .arr xs => xs.all Json.isRecord
  | .getUploadMetadata .., .obj kvs =>
    (fieldValues kvs "url").all Json.isText &&
    (fieldValues kvs "headers").all
      (fun v =>
        match v with
        | .null => true
        | .obj hs => hs.all (fun p => p.2.isText)
        | _ => false)
  | _, _ => false

/-- The identity map points at cells of the heap. -/
def Scoped (st : State) : Prop :=
  ∀ p ∈ st.identityMap, p.2 < st.heap.length

deriving instance DecidableEq for Except

/-! ## Fixtures -/

/-- A library whose functions are constant: the proofs below do not depend on
what it prints. -/
def libFix : Lib :=
  ⟨fun _ _ => "?", fun _ => (0, 0), fun _ => "1970-01-01T00:00:00"⟩

/-- A session that knows the primary key `id` of `Task` and of `Status`. -/
def sessionFix : Session :=
  ⟨"https://ftrack.test", "user", "key",
    [("is_timezone_support_enabled", .bool true)],
    [("Task", ["id"]), ("Status", ["id"])]⟩

/-- A parsed sequence in which the first two records are the same `Task`. -/
def seqFix : List Json :=
  [.obj [("id", .str "t1"), ("__entity_type__", .str "Task"), ("name", .str "foo")],
   .obj [("id", .str "t1"), ("__entity_type__", .str "Task"), ("status", .str "done")],
   .obj [("id", .str "t2"), ("__entity_type__", .str "Task"), ("name", .str "bar")]]

/-- The state `Decode` leaves after `seqFix`, started on the empty heap and
identity map. -/
def seqFixAfter : State :=
  ⟨[.obj [("id", .str "t1"), ("__entity_type__", .str "Task"), ("name", .str "foo"),
          ("status", .str "done")],
    .obj [("id", .str "t1"), ("__entity_type__", .str "Task"), ("status", .str "done")],
    .obj [("id", .str "t2"), ("__entity_type__", .str "Task"), ("name", .str "bar")],
    .arr [.map 0, .map 0, .map 2]],
   [("Task,t1", 0), ("Task,t2", 2)]⟩

/-- A state whose identity map holds the canonical `Task` `t1`. -/
def knownFix : State :=
  ⟨[.obj [("__entity_type__", .str "Task"), ("id", .str "t1"), ("name", .str "foo")]],
   [("Task,t1", 0)]⟩

/-- A parsed sequence with a record of the `Task` `t1` and one of a new `Task`. -/
def moreFix : Json :=
  .arr [.obj [("__entity_type__", .str "Task"), ("id", .str "t1"), ("status", .str "done")],
        .obj [("__entity_type__", .str "Task"), ("id", .str "t2")]]

/-- The state `knownFix` once `moreFix` is parsed. -/
def moreFixBefore : State :=
  ⟨(alloc moreFix knownFix.heap).2, knownFix.identityMap⟩

/-- The state `Decode` leaves after `moreFix`, started on `moreFixBefore`. -/
def moreFixAfter : State :=
  ⟨[.obj [("__entity_type__", .str "Task"), ("id", .str "t1"), ("name", .str "foo"),
          ("status", .str "done")],
    .obj [("__entity_type__", .str "Task"), ("id", .str "t1"), ("status", .str "done")],
    .obj [("__entity_type__", .str "Task"), ("id", .str "t2")],
    .arr [.map 0, .map 2]],
   [("Task,t1", 0), ("Task,t2", 2)]⟩

/-- An entity of a type without known primary keys that holds a date and a `Task`. -/
def unknownFix : Json :=
  .obj [("__entity_type__", .str "Note"),
        ("date", .obj [("__type__", .str "datetime"), ("value", .str "2020-01-01T00:00:00")]),
        ("task", .obj [("__entity_type__", .str "Task"), ("id", .str "t1")])]

/-- The batch `create`, `update`, `delete` on one `Task`. -/
def taskOps (id : String) : List Operation :=
  [.create "create" "Task" [("name", .str "X"), ("__entity_type__", .str "Task")],
   .update "update" "Task" [("name", .str "Y"), ("__entity_type__", .str "Task")] [id],
   NewDeleteOperation "Task" [id]]

/-- The answer to `taskOps`: the created record, the updated record of the same
`Task`, and the delete record. -/
def taskResponse (id : String) : Json :=
  .arr [.obj [("action", .str "create"),
              ("data", .obj [("__entity_type__", .str "Task"), ("id", .str id),
                             ("name", .str "X")])],
        .obj [("action", .str "update"),
              ("data", .obj [("__entity_type__", .str "Task"), ("id", .str id),
                             ("name", .str "Y")])],
        .obj [("action", .str "delete"), ("data", .bool true)]]

/-- A batch that creates a `Task` and updates it. -/
def pairOps : List Operation :=
  [.create "create" "Task" [("name", .str "X"), ("__entity_type__", .str "Task")],
   .update "update" "Task" [("name", .str "Y"), ("__entity_type__", .str "Task")] ["t1"]]

/-- The answer to `pairOps`: the created record carries a `status`, the updated
record of the same `Task` an `end` date. -/
def pairResponse : Json :=
  .arr [.obj [("action", .str "create"),
              ("data", .obj [("__entity_type__", .str "Task"), ("id", .str "t1"),
                             ("name", .str "X"), ("status", .str "open")])],
        .obj [("action", .str "update"),
              ("data", .obj [("__entity_type__", .str "Task"), ("id", .str "t1"),
                             ("name", .str "Y"),
                             ("end", .obj [("__type__", .str "datetime"),
                                           ("value", .str "2020-01-01T00:00:00")])])]]

/-- Two delete operations. -/
def deleteOps : List Operation :=
  [NewDeleteOperation "Task" ["t1"], NewDeleteOperation "Task" ["t2"]]

/-- A delete record. -/
def deleteRecord : Json :=
  .obj [("action", .str "delete"), ("data", .bool true)]

/-- A batch of three kinds of operation. -/
def mixedOps : List Operation :=
  [NewDeleteOperation "Task" ["t1"], NewQueryOperation "select id from Task where id is t9",
   NewQueryInformationOperation none]

/-- An answer to `mixedOps`: a delete record, a query record with the `Task` `t9`,
and the server information. -/
def mixedRecords : List Json :=
  [deleteRecord,
   .obj [("action", .str "query"),
         ("data", .arr [.obj [("__entity_type__", .str "Task"), ("id", .str "t9")]]),
         ("metadata", .obj [])],
   .obj [("is_timezone_support_enabled", .bool true)]]

/-- The state the dispatcher leaves after `pairResponse`, started on the empty heap. -/
def pairAfter : State :=
  ⟨[.obj [("__entity_type__", .str "Task"), ("id", .str "t1"), ("name", .str "Y"),
          ("status", .str "open"), ("end", .str "1970-01-01T00:00:00")],
    .obj [("__type__", .str "datetime"), ("value", .str "2020-01-01T00:00:00")],
    .obj [("__entity_type__", .str "Task"), ("id", .str "t1"), ("name", .str "Y"),
          ("end", .map 1)]],
   [("Task,t1", 0)]⟩

/-- The entries of the canonical `Task` `t1` of `knownFix`. -/
def knownFields : List (String × Val) :=
  [("__entity_type__", .str "Task"), ("id", .str "t1"), ("name", .str "foo")]

/-- A record of the `Task` `t1` that carries its status and no name. -/
def statusFields : List (String × Json) :=
  [("__entity_type__", .str "Task"), ("id", .str "t1"), ("status", .str "done")]

/-- The state `knownFix` once the record `statusFields` is parsed. -/
def statusBefore : State :=
  ⟨(alloc (.obj statusFields) knownFix.heap).2, knownFix.identityMap⟩

/-- The state `Decode` leaves after the record `statusFields`, started on
`statusBefore`. -/
def statusAfter : State :=
  ⟨[.obj [("__entity_type__", .str "Task"), ("id", .str "t1"), ("name", .str "foo"),
          ("status", .str "done")],
    .obj [("__entity_type__", .str "Task"), ("id", .str "t1"), ("status", .str "done")]],
   [("Task,t1", 0)]⟩

/-- A record of the `Task` `t1` without a name, in whose field `parent` the same
`Task` is nested with a name. -/
def selfFix : Json :=
  .obj [("__entity_type__", .str "Task"), ("id", .str "t1"),
        ("parent", .obj [("__entity_type__", .str "Task"), ("id", .str "t1"),
                         ("name", .str "bar")])]

/-- The state `Decode` leaves after `selfFix`, started on `knownFix` with `selfFix`
parsed. -/
def selfFixAfter : State :=
  ⟨[.obj [("__entity_type__", .str "Task"), ("id", .str "t1"), ("name", .str "bar"),
          ("parent", .map 0)],
    .obj [("__entity_type__", .str "Task"), ("id", .str "t1"), ("name", .str "bar")],
    .obj [("__entity_type__", .str "Task"), ("id", .str "t1"), ("parent", .map 1)]],
   [("Task,t1", 0)]⟩

/-- A `Task` that refers to the `Status` `s1` in its field `link` and in which the
same `Task` is nested with the `Status` `s2` in that field. -/
def relinkFix : Json :=
  .obj [("__entity_type__", .str "Task"), ("id", .str "t1"),
        ("link", .obj [("__entity_type__", .str "Status"), ("id", .str "s1")]),
        ("again", .obj [("__entity_type__", .str "Task"), ("id", .str "t1"),
                        ("link", .obj [("__entity_type__", .str "Status"),
                                       ("id", .str "s2")])])]

/-- The state `Decode` leaves after `relinkFix`, started on the empty heap and
identity map. -/
def relinkAfter : State :=
  ⟨[.obj [("__entity_type__", .str "Status"), ("id", .str "s1")],
    .obj [("__entity_type__", .str "Status"), ("id", .str "s2")],
    .obj [("__entity_type__", .str "Task"), ("id", .str "t1"), ("link", .map 1)],
    .obj [("__entity_type__", .str "Task"), ("id", .str "t1"), ("link", .map 1),
          ("again", .map 3)]],
   [("Task,t1", 3), ("Status,s1", 0), ("Status,s2", 1)]⟩

/-- The `Task` of `relinkFix` with the nested `Task` ahead of the field `link`, for
the visiting order in which the nested `Task` comes first. -/
def relinkLateFix : Json :=
  .obj [("__entity_type__", .str "Task"), ("id", .str "t1"),
        ("again", .obj [("__entity_type__", .str "Task"), ("id", .str "t1"),
                        ("link", .obj [("__entity_type__", .str "Status"),
                                       ("id", .str "s2")])]),
        ("link", .obj [("__entity_type__", .str "Status"), ("id", .str "s1")])]

/-- The state `Decode` leaves after `relinkLateFix`, started on the empty heap and
identity map. -/
def relinkLateAfter : State :=
  ⟨[.obj [("__entity_type__", .str "Status"), ("id", .str "s2")],
    .obj [("__entity_type__", .str "Task"), ("id", .str "t1"), ("link", .map 0)],
    .obj [("__entity_type__", .str "Status"), ("id", .str "s1")],
    .obj [("__entity_type__", .str "Task"), ("id", .str "t1"), ("again", .map 3),
          ("link", .map 0)]],
   [("Task,t1", 3), ("Status,s2", 0)]⟩

/-- A new `Task` that refers to the `Status` `s1` by type and key, and, inside a
sequence of plain mappings, to the `Task` `t1`. -/
def nestedFields : List (String × Json) :=
  [("__entity_type__", .str "Task"), ("id", .str "t2"),
   ("status", .obj [("__entity_type__", .str "Status"), ("id", .str "s1")]),
   ("links", .arr [.obj [("to", .obj [("__entity_type__", .str "Task"),
                                      ("id", .str "t1")])]])]

/-- A state whose identity map holds the `Task` `t1` and the `Status` `s1`, each
with a name, once `nestedFields` is parsed. -/
def nestedBefore : State :=
  ⟨(alloc (.obj nestedFields)
      [.obj [("__entity_type__", .str "Task"), ("id", .str "t1"), ("name", .str "foo")],
       .obj [("__entity_type__", .str "Status"), ("id", .str "s1"),
             ("name", .str "open")]]).2,
   [("Task,t1", 0), ("Status,s1", 1)]⟩

/-- The state `Decode` leaves after `nestedFields`, started on `nestedBefore`. -/
def nestedAfter : State :=
  ⟨[.obj [("__entity_type__", .str "Task"), ("id", .str "t1"), ("name", .str "foo")],
    .obj [("__entity_type__", .str "Status"), ("id", .str "s1"), ("name", .str "open")],
    .obj [("__entity_type__", .str "Status"), ("id", .str "s1")],
    .obj [("__entity_type__", .str "Task"), ("id", .str "t1")],
    .obj [("to", .map 0)],
    .arr [.map 4],
    .obj [("__entity_type__", .str "Task"), ("id", .str "t2"), ("status", .map 1),
          ("links", .slice false 5)]],
   [("Task,t1", 0), ("Status,s1", 1), ("Task,t2", 6)]⟩

/-- An object that names no field of `ErrorResponse`. -/
def strayObject : Json := .obj [("foo", .num "1" "1")]

/-- An object with the three fields of an error description. -/
def errorObject (exception : String) : Json :=
  .obj [("content", .str "no such entity"), ("exception", .str exception),
        ("error_code", .num "404" "404")]

/-- A date-tagged mapping whose value is no timestamp. -/
def garbageDate : State :=
  ⟨[.obj [("__type__", .str "datetime"), ("value", .str "garbage")]], []⟩

/-- The entries of a map with a nil value, a date and an empty slice. -/
def nilEntryHeap : Heap :=
  [.obj [("a", .null), ("t", .moment 0 0), ("xs", .slice false 1)], .arr []]

/-- A session that knows the two primary keys of `Link`. -/
def linkSession : Session :=
  ⟨"https://ftrack.test", "user", "key", [], [("Link", ["from", "to"])]⟩

/-- Two `Link` entities with different primary-key values. -/
def linkHeap : Heap :=
  [.obj [("__entity_type__", .str "Link"), ("from", .str "a,b"), ("to", .str "c")],
   .obj [("__entity_type__", .str "Link"), ("from", .str "a"), ("to", .str "b,c")]]

/-- A `Task` in whose fields `a` and `b` the same `Task` is nested, each time with
the same `Task` nested in the other field. -/
def loopFix : Json :=
  .obj [("__entity_type__", .str "Task"), ("id", .str "t1"),
        ("a", .obj [("__entity_type__", .str "Task"), ("id", .str "t1"),
                    ("b", .obj [("__entity_type__", .str "Task"), ("id", .str "t1")])]),
        ("b", .obj [("__entity_type__", .str "Task"), ("id", .str "t1"),
                    ("a", .obj [("__entity_type__", .str "Task"), ("id", .str "t1")])])]

/-- The cells of `loopFix` below the cell of the outer `Task`. -/
def loopInner : Heap :=
  [.obj [("__entity_type__", .str "Task"), ("id", .str "t1")],
   .obj [("__entity_type__", .str "Task"), ("id", .str "t1"), ("b", .map 0)],
   .obj [("__entity_type__", .str "Task"), ("id", .str "t1")],
   .obj [("__entity_type__", .str "Task"), ("id", .str "t1"), ("a", .map 2)]]

/-- The entries of the outer `Task` when its fields `a` and `b` hold `x` and `y`. -/
def loopFields (x y : Val) : List (String × Val) :=
  [("__entity_type__", .str "Task"), ("id", .str "t1"), ("a", x), ("b", y)]

/-- The state in which the outer `Task` of `loopFix`, with the fields `x` and `y`, is
the canonical representation of its key. -/
def loopState (x y : Val) : State :=
  ⟨loopInner ++ [.obj (loopFields x y)], [("Task,t1", 4)]⟩

/-- The `Task` of `loopFix` with the field `b` ahead of the field `a`, for the
visiting order in which `b` comes first. -/
def loopLateFix : Json :=
  .obj [("__entity_type__", .str "Task"), ("id", .str "t1"),
        ("b", .obj [("__entity_type__", .str "Task"), ("id", .str "t1"),
                    ("a", .obj [("__entity_type__", .str "Task"), ("id", .str "t1")])]),
        ("a", .obj [("__entity_type__", .str "Task"), ("id", .str "t1"),
                    ("b", .obj [("__entity_type__", .str "Task"), ("id", .str "t1")])])]

/-- The cells of `loopLateFix` below the cell of the outer `Task`. -/
def loopLateInner : Heap :=
  [.obj [("__entity_type__", .str "Task"), ("id", .str "t1")],
   .obj [("__entity_type__", .str "Task"), ("id", .str "t1"), ("a", .map 0)],
   .obj [("__entity_type__", .str "Task"), ("id", .str "t1")],
   .obj [("__entity_type__", .str "Task"), ("id", .str "t1"), ("b", .map 2)]]

/-- The entries of the outer `Task` of `loopLateFix` when its fields `b` and `a` hold
`y` and `x`. -/
def loopLateFields (y x : Val) : List (String × Val) :=
  [("__entity_type__", .str "Task"), ("id", .str "t1"), ("b", y), ("a", x)]

/-- The state in which the outer `Task` of `loopLateFix` is the canonical
representation of its key. -/
def loopLateState (y x : Val) : State :=
  ⟨loopLateInner ++ [.obj (loopLateFields y x)], [("Task,t1", 4)]⟩

/-- Two records of the `Task` `t1` that also carry the tag of a date. -/
def datedFix : List Json :=
  [.obj [("__entity_type__", .str "Task"), ("id", .str "t1"), ("__type__", .str "datetime"),
         ("value", .str "1970-01-01T00:00:00")],
   .obj [("__entity_type__", .str "Task"), ("id", .str "t1"), ("__type__", .str "datetime"),
         ("value", .str "1970-01-01T00:00:00"), ("name", .str "foo")]]

/-- A sequence with two records of the `Task` `t1`, the first referring to the
`Status` `s1` in its field `link`, the second to the `Status` `s2`. -/
def siblingFix : Json :=
  .arr [.obj [("__entity_type__", .str "Task"), ("id", .str "t1"),
              ("link", .obj [("__entity_type__", .str "Status"), ("id", .str "s1")])],
        .obj [("__entity_type__", .str "Task"), ("id", .str "t1"),
              ("link", .obj [("__entity_type__", .str "Status"), ("id", .str "s2")])]]

/-- The state `Decode` leaves after `datedFix`, started on the empty heap and
identity map. -/
def datedFixAfter : State :=
  ⟨[.obj [("__entity_type__", .str "Task"), ("id", .str "t1"), ("__type__", .str "datetime"),
          ("value", .str "1970-01-01T00:00:00")],
    .obj [("__entity_type__", .str "Task"), ("id", .str "t1"), ("__type__", .str "datetime"),
          ("value", .str "1970-01-01T00:00:00"), ("name", .str "foo")],
    .arr [.str "1970-01-01T00:00:00", .str "1970-01-01T00:00:00"]],
   []⟩

/-- The state `Decode` leaves after `siblingFix`, started on the empty heap and
identity map. -/
def siblingAfter : State :=
  ⟨[.obj [("__entity_type__", .str "Status"), ("id", .str "s1")],
    .obj [("__entity_type__", .str "Task"), ("id", .str "t1"), ("link", .map 2)],
    .obj [("__entity_type__", .str "Status"), ("id", .str "s2")],
    .obj [("__entity_type__", .str "Task"), ("id", .str "t1"), ("link", .map 2)],
    .arr [.map 1, .map 1]],
   [("Task,t1", 1), ("Status,s1", 0), ("Status,s2", 2)]⟩

/-! ## State relations kept by every step of `Decode` -/

theorem decodeElems_rel {R : State → State → Prop} (hR : StepRel R) {dec : Dec}
    (hdec : DecRel R dec) (typed : Bool) (a : Nat) :
    ∀ m i st st', decodeElems dec typed a m i st = .ok st' → R st st' := by
  intro m
  induction m with
  | zero =>
    intro i st st' h
    simp only [decodeElems, Except.ok.injEq] at h
    subst h
    exact hR.refl _
  | succ m ih =>
    intro i st st' h
    simp only [decodeElems] at h
    split at h
    · cases h
    · split at h
      · cases h
      · split at h
        · cases h
        · rename_i r st1 hd
          split at h
          · have h2 := ih _ _ _ h
            exact hR.trans (hdec _ _ _ _ hd) (hR.trans (hR.setElem _ _ _ _) h2)
          · cases h

theorem decodeFields_rel {R : State → State → Prop} (hR : StepRel R) {dec : Dec}
    (hdec : DecRel R dec) (a : Nat) :
    ∀ ks st st', decodeFields dec a ks st = .ok st' → R st st' := by
  intro ks
  induction ks with
  | nil =>
    intro st st' h
    simp only [decodeFields, Except.ok.injEq] at h
    subst h
    exact hR.refl _
  | cons k ks ih =>
    intro st st' h
    simp only [decodeFields] at h
    split at h
    · cases h
    · split at h
      · exact ih _ _ h
      · split at h
        · cases h
        · rename_i r st1 hd
          have h2 := ih _ _ h
          exact hR.trans (hdec _ _ _ _ hd) (hR.trans (hR.setMapIndex _ _ _ _) h2)

theorem mergeFields_rel {R : State → State → Prop} (hR : StepRel R) {dec : Dec}
    (hdec : DecRel R dec) (src dst : Nat) :
    ∀ ks st st', mergeFields dec src dst ks st = .ok st' → R st st' := by
  intro ks
  induction ks with
  | nil =>
    intro st st' h
    simp only [mergeFields, Except.ok.injEq] at h
    subst h
    exact hR.refl _
  | cons k ks ih =>
    intro st st' h
    simp only [mergeFields] at h
    split at h
    · cases h
    · split at h
      · exact ih _ _ h
      · split at h
        · cases h
        · rename_i r st1 hd
          split at h
          · cases h
          · rename_i fs hfs
            have h2 := ih _ _ h
            exact hR.trans (hdec _ _ _ _ hd) (hR.trans (hR.setField _ _ _ _ _ hfs) h2)

theorem mergeEntityWith_rel {R : State → State → Prop} (hR : StepRel R) {lib : Lib}
    {s : Session} {dec : Dec} (hdec : DecRel R dec) : DecRel R (mergeEntityWith lib s dec) := by
  intro v st r st' h
  unfold mergeEntityWith at h
  split at h
  · split at h
    · simp only [Except.ok.injEq, Prod.mk.injEq] at h
      rw [← h.2]; exact hR.refl _
    · rename_i a key hk
      simp only at h
      split at h
      · rename_i merged kvs hl hobj
        split at h
        · cases h
        · rename_i st2 hm
          simp only [Except.ok.injEq, Prod.mk.injEq] at h
          rw [← h.2]
          have h2 := mergeFields_rel hR hdec _ _ _ _ _ hm
          refine hR.trans ?_ h2
          split
          · exact hR.refl _
          · rename_i hnone
            exact hR.register _ _ _ _ hnone hobj
      · cases h
  · simp only [Except.ok.injEq, Prod.mk.injEq] at h
    rw [← h.2]; exact hR.refl _

theorem decodeWith_rel {R : State → State → Prop} (hR : StepRel R) {lib : Lib}
    {s : Session} {dec : Dec} (hdec : DecRel R dec) : DecRel R (decodeWith lib s dec) := by
  intro v st r st' h
  unfold decodeWith at h
  split at h
  · split at h
    · cases h
    · split at h
      · cases h
      · rename_i st2 hm
        simp only [Except.ok.injEq, Prod.mk.injEq] at h
        rw [← h.2]
        exact decodeElems_rel hR hdec _ _ _ _ _ _ hm
  · split at h
    · split at h
      · cases h
      · simp only [Except.ok.injEq, Prod.mk.injEq] at h
        rw [← h.2]; exact hR.refl _
    · split at h
      · exact mergeEntityWith_rel hR hdec _ _ _ _ h
      · split at h
        · cases h
        · split at h
          · cases h
          · rename_i st2 hm
            simp only [Except.ok.injEq, Prod.mk.injEq] at h
            rw [← h.2]
            exact decodeFields_rel hR hdec _ _ _ _ hm
  · simp only [Except.ok.injEq, Prod.mk.injEq] at h
    rw [← h.2]; exact hR.refl _

theorem Decode_rel {R : State → State → Prop} (hR : StepRel R) (lib : Lib) (s : Session) :
    ∀ n, DecRel R (Decode lib s n) := by
  intro n
  induction n with
  | zero => intro v st r st' h; simp [Decode] at h
  | succ n ih => exact decodeWith_rel hR ih

/-! ### The identity map only grows -/

theorem lookup_append_of_some {im added : IdentityMap} {key : String} {a : Nat}
    (h : im.lookup key = some a) : (im ++ added).lookup key = some a := by
  induction im with
  | nil => simp at h
  | cons p rest ih =>
    obtain ⟨k, v⟩ := p
    simp only [List.cons_append, List.lookup_cons] at h ⊢
    split <;> simp_all

theorem lookup_append_none {im added : IdentityMap} {key : String}
    (h : (im ++ added).lookup key = none) : im.lookup key = none := by
  cases hk : im.lookup key with
  | none => rfl
  | some a => rw [lookup_append_of_some hk] at h; cases h

theorem Extends.lookup {im im' : IdentityMap} (h : Extends im im') {key : String} {a : Nat}
    (hk : im.lookup key = some a) : im'.lookup key = some a := by
  obtain ⟨x, rfl, _⟩ := h
  exact lookup_append_of_some hk

theorem extends_stepRel : StepRel (fun st st' => Extends st.identityMap st'.identityMap) where
  refl := fun _ => ⟨[], by simp⟩
  trans := by
    intro a b c h1 h2
    obtain ⟨x, hx, fx⟩ := h1
    obtain ⟨y, hy, fy⟩ := h2
    refine ⟨x ++ y, by rw [hy, hx]; simp, ?_⟩
    intro p hp
    rcases List.mem_append.mp hp with hp | hp
    · exact fx p hp
    · have := fy p hp
      rw [hx] at this
      exact lookup_append_none this
  setElem := fun _ _ _ _ => ⟨[], by simp⟩
  setMapIndex := fun _ _ _ _ => ⟨[], by simp⟩
  setField := fun _ _ _ _ _ _ => ⟨[], by simp⟩
  register := by
    intro st key a kvs hnone _
    exact ⟨[(key, a)], rfl, by simpa using hnone⟩

/-! ### Cells keep their kind -/

theorem SameShape.refl (h : Heap) : SameShape h h :=
  ⟨rfl, fun _ kvs hk => ⟨kvs, hk⟩, fun _ xs hx => ⟨xs, hx, rfl⟩⟩

theorem SameShape.trans {a b c : Heap} (h1 : SameShape a b) (h2 : SameShape b c) :
    SameShape a c := by
  refine ⟨h2.1.trans h1.1, ?_, ?_⟩
  · intro x kvs hk
    obtain ⟨k1, hk1⟩ := h1.2.1 x kvs hk
    exact h2.2.1 x k1 hk1
  · intro x xs hx
    obtain ⟨x1, hx1, l1⟩ := h1.2.2 x xs hx
    obtain ⟨x2, hx2, l2⟩ := h2.2.2 x x1 hx1
    exact ⟨x2, hx2, l2.trans l1⟩

theorem lt_length_of_getElem? {α : Type} {h : List α} {a : Nat} {c : α}
    (ha : h[a]? = some c) : a < h.length := by
  rcases Nat.lt_or_ge a h.length with hl | hl
  · exact hl
  · rw [List.getElem?_eq_none hl] at ha; cases ha

theorem sameShape_set_obj {h : Heap} {a : Nat} {kvs kvs' : List (String × Val)}
    (ha : h[a]? = some (.obj kvs)) : SameShape h (h.set a (.obj kvs')) := by
  have hlt : a < h.length := lt_length_of_getElem? ha
  refine ⟨by simp, ?_, ?_⟩
  · intro b k hb
    rw [List.getElem?_set]
    by_cases hab : a = b
    · subst hab
      exact ⟨kvs', by simp [hlt]⟩
    · exact ⟨k, by simp [hab, hb]⟩
  · intro b xs hb
    rw [List.getElem?_set]
    by_cases hab : a = b
    · subst hab; rw [ha] at hb; cases hb
    · exact ⟨xs, by simp [hab, hb], rfl⟩

theorem sameShape_set_arr {h : Heap} {a : Nat} {xs xs' : List Val}
    (ha : h[a]? = some (.arr xs)) (hl : xs'.length = xs.length) :
    SameShape h (h.set a (.arr xs')) := by
  have hlt : a < h.length := lt_length_of_getElem? ha
  refine ⟨by simp, ?_, ?_⟩
  · intro b k hb
    rw [List.getElem?_set]
    by_cases hab : a = b
    · subst hab; rw [ha] at hb; cases hb
    · exact ⟨k, by simp [hab, hb]⟩
  · intro b ys hb
    rw [List.getElem?_set]
    by_cases hab : a = b
    · subst hab
      rw [ha] at hb
      simp only [Option.some.injEq, Cell.arr.injEq] at hb
      subst hb
      exact ⟨xs', by simp [hlt], hl⟩
    · exact ⟨ys, by simp [hab, hb], rfl⟩

theorem getObj_eq_some {h : Heap} {a : Nat} {kvs : List (String × Val)} :
    getObj h a = some kvs ↔ h[a]? = some (.obj kvs) := by
  unfold getObj
  split
  · rename_i k hk; simp [hk]
  · rename_i hne
    constructor
    · intro h1; cases h1
    · intro h1; exact absurd h1 (hne kvs)

theorem getArr_eq_some {h : Heap} {a : Nat} {xs : List Val} :
    getArr h a = some xs ↔ h[a]? = some (.arr xs) := by
  unfold getArr
  split
  · rename_i k hk; simp [hk]
  · rename_i hne
    constructor
    · intro h1; cases h1
    · intro h1; exact absurd h1 (hne xs)

theorem sameShape_setElem (h : Heap) (a : Nat) (i : Nat) (r : Val) :
    SameShape h (setElem h a i r) := by
  unfold setElem
  split
  · rename_i xs hx
    exact sameShape_set_arr (getArr_eq_some.mp hx) (by simp)
  · exact SameShape.refl _

theorem sameShape_setMapIndex (h : Heap) (a : Nat) (k : String) (r : Val) :
    SameShape h (setMapIndex h a k r) := by
  unfold setMapIndex
  split
  · rename_i kvs hx
    exact sameShape_set_obj (getObj_eq_some.mp hx)
  · exact SameShape.refl _

theorem sameShape_stepRel : StepRel (fun st st' => SameShape st.heap st'.heap) where
  refl := fun _ => SameShape.refl _
  trans := fun h1 h2 => SameShape.trans h1 h2
  setElem := fun _ _ _ _ => sameShape_setElem _ _ _ _
  setMapIndex := fun _ _ _ _ => sameShape_setMapIndex _ _ _ _
  setField := fun _ _ _ _ _ hfs => sameShape_set_obj (getObj_eq_some.mp hfs)
  register := fun _ _ _ _ _ _ => SameShape.refl _

/-! ## Regions of the heap that `Decode` does not leave -/

theorem lookup_mem {β : Type} {kvs : List (String × β)} {k : String} {v : β}
    (h : kvs.lookup k = some v) : (k, v) ∈ kvs := by
  induction kvs with
  | nil => simp at h
  | cons p rest ih =>
    obtain ⟨k', v'⟩ := p
    simp only [List.lookup_cons] at h
    split at h
    · rename_i heq
      simp only [Option.some.injEq] at h
      have : k = k' := by simpa using heq
      subst this; subst h
      exact List.mem_cons_self _ _
    · exact List.mem_cons_of_mem _ (ih h)

theorem mem_setField {k : String} {r : Val} {fs : List (String × Val)} {p : String × Val}
    (hp : p ∈ setField k r fs) : p ∈ fs ∨ p.2 = r := by
  induction fs with
  | nil =>
    simp only [setField, List.mem_singleton] at hp
    right; rw [hp]
  | cons q rest ih =>
    obtain ⟨k', v'⟩ := q
    simp only [setField] at hp
    split at hp
    · rcases List.mem_cons.mp hp with h1 | h1
      · right; rw [h1]
      · left; exact List.mem_cons_of_mem _ h1
    · rcases List.mem_cons.mp hp with h1 | h1
      · left; rw [h1]; exact List.mem_cons_self _ _
      · rcases ih h1 with h2 | h2
        · left; exact List.mem_cons_of_mem _ h2
        · right; exact h2

theorem cellIn_setField {S : Nat → Prop} {k : String} {r : Val} {fs : List (String × Val)}
    (hfs : CellIn S (.obj fs)) (hr : ValIn S r) : CellIn S (.obj (setField k r fs)) := by
  intro p hp
  rcases mem_setField hp with h1 | h1
  · exact hfs p h1
  · rw [h1]; exact hr

theorem cellIn_delField {S : Nat → Prop} {k : String} {fs : List (String × Val)}
    (hfs : CellIn S (.obj fs)) : CellIn S (.obj (delField k fs)) := by
  intro p hp
  exact hfs p (List.mem_of_mem_filter hp)

theorem cellIn_set {S : Nat → Prop} {i : Nat} {r : Val} {xs : List Val}
    (hxs : CellIn S (.arr xs)) (hr : ValIn S r) : CellIn S (.arr (xs.set i r)) := by
  intro x hx
  rcases List.mem_or_eq_of_mem_set hx with h1 | h1
  · exact hxs x h1
  · rw [h1]; exact hr

theorem closed_set {S : Nat → Prop} {st : State} {a : Nat} {c : Cell}
    (hc : Closed S st) (hin : S a → CellIn S c) :
    Closed S { st with heap := st.heap.set a c } := by
  refine ⟨?_, hc.targets⟩
  intro b d hb hS
  simp only [List.getElem?_set] at hb
  split at hb
  · rename_i hab
    subst hab
    split at hb
    · simp only [Option.some.injEq] at hb
      subst hb; exact hin hS
    · cases hb
  · exact hc.cells b d hb hS

theorem frame_set {S : Nat → Prop} {h : Heap} {a : Nat} {c : Cell} (ha : S a) :
    ∀ (b : Nat), ¬ S b → (h.set a c)[b]? = h[b]? := by
  intro b hb
  have : a ≠ b := fun hab => hb (hab ▸ ha)
  simp [List.getElem?_set, this]

theorem closed_setElem {S : Nat → Prop} {st : State} {a : Nat} {i : Nat} {r : Val}
    (hc : Closed S st) (hr : ValIn S r) :
    Closed S { st with heap := setElem st.heap a i r } := by
  unfold setElem
  split
  · rename_i xs hx
    exact closed_set hc (fun hS => cellIn_set (hc.cells a _ (getArr_eq_some.mp hx) hS) hr)
  · exact hc

theorem frame_setElem {S : Nat → Prop} {h : Heap} {a : Nat} {i : Nat} {r : Val} (ha : S a) :
    ∀ (b : Nat), ¬ S b → (setElem h a i r)[b]? = h[b]? := by
  unfold setElem
  split
  · exact frame_set ha
  · intro _ _; rfl

theorem closed_setMapIndex {S : Nat → Prop} {st : State} {a : Nat} {k : String} {r : Val}
    (hc : Closed S st) (hr : ValIn S r) :
    Closed S { st with heap := setMapIndex st.heap a k r } := by
  unfold setMapIndex
  split
  · rename_i kvs hx
    refine closed_set hc (fun hS => ?_)
    have := hc.cells a _ (getObj_eq_some.mp hx) hS
    split
    · exact cellIn_delField this
    · exact cellIn_setField this hr
  · exact hc

theorem frame_setMapIndex {S : Nat → Prop} {h : Heap} {a : Nat} {k : String} {r : Val}
    (ha : S a) : ∀ (b : Nat), ¬ S b → (setMapIndex h a k r)[b]? = h[b]? := by
  unfold setMapIndex
  split
  · exact frame_set ha
  · intro _ _; rfl

theorem decodeDateTime_str {lib : Lib} {s : Session} {h : Heap} {data d : Val}
    (hd : decodeDateTime lib s h data = .ok d) : ∃ t, d = .str t := by
  unfold decodeDateTime at hd
  split at hd
  · split at hd
    · simp only [Except.ok.injEq] at hd; exact ⟨_, hd.symm⟩
    · simp only [Except.ok.injEq] at hd; exact ⟨_, hd.symm⟩
    · cases hd
  · cases hd

theorem decodeElems_closed {S : Nat → Prop} {dec : Dec} (hdec : DecClosed S dec)
    (typed : Bool) (a : Nat) (ha : S a) :
    ∀ m i st st', Closed S st → decodeElems dec typed a m i st = .ok st' →
      Closed S st' ∧ ∀ (b : Nat), ¬ S b → st'.heap[b]? = st.heap[b]? := by
  intro m
  induction m with
  | zero =>
    intro i st st' hc h
    simp only [decodeElems, Except.ok.injEq] at h
    subst h
    exact ⟨hc, fun _ _ => rfl⟩
  | succ m ih =>
    intro i st st' hc h
    simp only [decodeElems] at h
    split at h
    · cases h
    · rename_i xs hxs
      split at h
      · cases h
      · rename_i x hx
        split at h
        · cases h
        · rename_i r st1 hd
          split at h
          · have hxin : ValIn S x :=
              hc.cells a _ (getArr_eq_some.mp hxs) ha x (List.getElem?_mem hx)
            obtain ⟨hc1, hr, hf1⟩ := hdec _ _ _ _ hc hxin hd
            obtain ⟨hc2, hf2⟩ := ih _ _ _ (closed_setElem hc1 hr) h
            refine ⟨hc2, fun b hb => ?_⟩
            rw [hf2 b hb]
            simp only
            rw [frame_setElem ha b hb, hf1 b hb]
          · cases h

theorem decodeFields_closed {S : Nat → Prop} {dec : Dec} (hdec : DecClosed S dec)
    (a : Nat) (ha : S a) :
    ∀ ks st st', Closed S st → decodeFields dec a ks st = .ok st' →
      Closed S st' ∧ ∀ (b : Nat), ¬ S b → st'.heap[b]? = st.heap[b]? := by
  intro ks
  induction ks with
  | nil =>
    intro st st' hc h
    simp only [decodeFields, Except.ok.injEq] at h
    subst h
    exact ⟨hc, fun _ _ => rfl⟩
  | cons k ks ih =>
    intro st st' hc h
    simp only [decodeFields] at h
    split at h
    · cases h
    · rename_i kvs hkvs
      split at h
      · exact ih _ _ hc h
      · rename_i v hv
        split at h
        · cases h
        · rename_i r st1 hd
          have hvin : ValIn S v :=
            hc.cells a _ (getObj_eq_some.mp hkvs) ha _ (lookup_mem hv)
          obtain ⟨hc1, hr, hf1⟩ := hdec _ _ _ _ hc hvin hd
          obtain ⟨hc2, hf2⟩ := ih _ _ (closed_setMapIndex hc1 hr) h
          refine ⟨hc2, fun b hb => ?_⟩
          rw [hf2 b hb]
          simp only
          rw [frame_setMapIndex ha b hb, hf1 b hb]

theorem mergeFields_closed {S : Nat → Prop} {dec : Dec} (hdec : DecClosed S dec)
    (src dst : Nat) (hsrc : S src) (hdst : S dst) :
    ∀ ks st st', Closed S st → mergeFields dec src dst ks st = .ok st' →
      Closed S st' ∧ ∀ (b : Nat), ¬ S b → st'.heap[b]? = st.heap[b]? := by
  intro ks
  induction ks with
  | nil =>
    intro st st' hc h
    simp only [mergeFields, Except.ok.injEq] at h
    subst h
    exact ⟨hc, fun _ _ => rfl⟩
  | cons k ks ih =>
    intro st st' hc h
    simp only [mergeFields] at h
    split at h
    · cases h
    · rename_i kvs hkvs
      split at h
      · exact ih _ _ hc h
      · rename_i v hv
        split at h
        · cases h
        · rename_i r st1 hd
          have hvin : ValIn S v :=
            hc.cells src _ (getObj_eq_some.mp hkvs) hsrc _ (lookup_mem hv)
          obtain ⟨hc1, hr, hf1⟩ := hdec _ _ _ _ hc hvin hd
          split at h
          · cases h
          · rename_i fs hfs
            have hc1' : Closed S { st1 with heap := st1.heap.set dst (.obj (setField k r fs)) } :=
              closed_set hc1
                (fun hS => cellIn_setField (hc1.cells dst _ (getObj_eq_some.mp hfs) hS) hr)
            obtain ⟨hc2, hf2⟩ := ih _ _ hc1' h
            refine ⟨hc2, fun b hb => ?_⟩
            rw [hf2 b hb]
            simp only
            rw [frame_set hdst b hb, hf1 b hb]

theorem mergeEntityWith_closed {S : Nat → Prop} {lib : Lib} {s : Session} {dec : Dec}
    (hdec : DecClosed S dec) : DecClosed S (mergeEntityWith lib s dec) := by
  intro v st r st' hc hv h
  unfold mergeEntityWith at h
  split at h
  · rename_i a
    split at h
    · simp only [Except.ok.injEq, Prod.mk.injEq] at h
      obtain ⟨h1, h2⟩ := h
      subst h1; subst h2
      exact ⟨hc, hv, fun _ _ => rfl⟩
    · rename_i key hk
      simp only at h
      split at h
      · rename_i merged kvs hl hobj
        split at h
        · cases h
        · rename_i st2 hm
          simp only [Except.ok.injEq, Prod.mk.injEq] at h
          obtain ⟨h1, h2⟩ := h
          subst h1; subst h2
          have hS : S a := hv
          have hc0 : Closed S { st with identityMap :=
              match st.identityMap.lookup key with
              | some _ => st.identityMap
              | none => st.identityMap ++ [(key, a)] } := by
            refine ⟨hc.cells, ?_⟩
            intro p hp
            simp only at hp
            split at hp
            · exact hc.targets p hp
            · rcases List.mem_append.mp hp with h3 | h3
              · exact hc.targets p h3
              · simp only [List.mem_singleton] at h3
                rw [h3]; exact hS
          have hmS : S merged := hc0.targets (key, merged) (lookup_mem hl)
          obtain ⟨hc2, hf2⟩ := mergeFields_closed hdec a merged hS hmS _ _ _ hc0 hm
          exact ⟨hc2, hmS, hf2⟩
      · cases h
  · simp only [Except.ok.injEq, Prod.mk.injEq] at h
    obtain ⟨h1, h2⟩ := h
    subst h1; subst h2
    exact ⟨hc, hv, fun _ _ => rfl⟩

theorem decodeWith_closed {S : Nat → Prop} {lib : Lib} {s : Session} {dec : Dec}
    (hdec : DecClosed S dec) : DecClosed S (decodeWith lib s dec) := by
  intro v st r st' hc hv h
  unfold decodeWith at h
  split at h
  · rename_i typed a
    split at h
    · cases h
    · split at h
      · cases h
      · rename_i st2 hm
        simp only [Except.ok.injEq, Prod.mk.injEq] at h
        obtain ⟨h1, h2⟩ := h
        subst h1; subst h2
        obtain ⟨hc2, hf2⟩ := decodeElems_closed hdec typed a hv _ _ _ _ hc hm
        exact ⟨hc2, hv, hf2⟩
  · rename_i a
    split at h
    · split at h
      · cases h
      · rename_i d hd
        simp only [Except.ok.injEq, Prod.mk.injEq] at h
        obtain ⟨h1, h2⟩ := h
        subst h1; subst h2
        refine ⟨hc, ?_, fun _ _ => rfl⟩
        obtain ⟨t, ht⟩ := decodeDateTime_str hd
        rw [ht]; trivial
    · split at h
      · exact mergeEntityWith_closed hdec _ _ _ _ hc hv h
      · split at h
        · cases h
        · split at h
          · cases h
          · rename_i st2 hm
            simp only [Except.ok.injEq, Prod.mk.injEq] at h
            obtain ⟨h1, h2⟩ := h
            subst h1; subst h2
            obtain ⟨hc2, hf2⟩ := decodeFields_closed hdec a hv _ _ _ hc hm
            exact ⟨hc2, hv, hf2⟩
  · simp only [Except.ok.injEq, Prod.mk.injEq] at h
    obtain ⟨h1, h2⟩ := h
    subst h1; subst h2
    exact ⟨hc, hv, fun _ _ => rfl⟩

theorem Decode_closed (S : Nat → Prop) (lib : Lib) (s : Session) :
    ∀ n, DecClosed S (Decode lib s n) := by
  intro n
  induction n with
  | zero => intro v st r st' _ _ h; simp [Decode] at h
  | succ n ih => exact decodeWith_closed ih

/-! ## The cells of a parsed JSON text -/

theorem Reg.intro {lo hi : Nat} {a : Nat} (h1 : lo ≤ a) (h2 : a < hi) : Reg lo hi a := ⟨h1, h2⟩

theorem Reg.widen {lo hi lo' hi' : Nat} {a : Nat} (h : Reg lo hi a) (h1 : lo' ≤ lo)
    (h2 : hi ≤ hi') : Reg lo' hi' a := ⟨Nat.le_trans h1 h.1, Nat.lt_of_lt_of_le h.2 h2⟩

theorem ValIn.weaken {S T : Nat → Prop} (hST : ∀ a, S a → T a) {v : Val} (hv : ValIn S v) :
    ValIn T v := by
  cases v <;> first | trivial | exact hST _ hv

theorem CellIn.relax {S T : Nat → Prop} (hST : ∀ a, S a → T a) {c : Cell} (hc : CellIn S c) :
    CellIn T c := by
  cases c with
  | obj kvs => exact fun p hp => (hc p hp).weaken hST
  | arr xs => exact fun x hx => (hc x hx).weaken hST

theorem mem_foldl_setField {fs acc : List (String × Val)} {p : String × Val}
    (hp : p ∈ fs.foldl (fun acc q => setField q.1 q.2 acc) acc) :
    p ∈ acc ∨ ∃ q ∈ fs, p.2 = q.2 := by
  induction fs generalizing acc with
  | nil => left; simpa using hp
  | cons q rest ih =>
    simp only [List.foldl_cons] at hp
    rcases ih hp with h1 | ⟨q', hq', he⟩
    · rcases mem_setField h1 with h2 | h2
      · left; exact h2
      · right; exact ⟨q, List.mem_cons_self _ _, h2⟩
    · right; exact ⟨q', List.mem_cons_of_mem _ hq', he⟩

mutual
theorem layout_in : ∀ (j : Json) (lo : Nat),
    ValIn (Reg lo (lo + (layout j lo).2.length)) (layout j lo).1 ∧
    ∀ c ∈ (layout j lo).2, CellIn (Reg lo (lo + (layout j lo).2.length)) c
  | .null, lo => by simp [layout, ValIn]
  | .bool b, lo => by simp [layout, ValIn]
  | .num lit float, lo => by simp [layout, ValIn]
  | .str s, lo => by simp [layout, ValIn]
  | .arr xs, lo => by
    have ih := layoutList_in xs lo
    simp only [layout, List.length_append, List.length_singleton]
    refine ⟨show Reg _ _ _ from Reg.intro (Nat.le_add_right _ _) (by omega), ?_⟩
    intro c hc
    rcases List.mem_append.mp hc with h1 | h1
    · exact (ih.2 c h1).relax (fun a ha => ha.widen (by omega) (by omega))
    · simp only [List.mem_singleton] at h1
      subst h1
      exact fun x hx => (ih.1 x hx).weaken (fun a ha => ha.widen (by omega) (by omega))
  | .obj kvs, lo => by
    have ih := layoutFields_in kvs lo
    simp only [layout, List.length_append, List.length_singleton]
    refine ⟨show Reg _ _ _ from Reg.intro (Nat.le_add_right _ _) (by omega), ?_⟩
    intro c hc
    rcases List.mem_append.mp hc with h1 | h1
    · exact (ih.2 c h1).relax (fun a ha => ha.widen (by omega) (by omega))
    · simp only [List.mem_singleton] at h1
      subst h1
      intro p hp
      rcases mem_foldl_setField hp with h2 | ⟨q, hq, he⟩
      · simp at h2
      · rw [he]
        exact (ih.1 q hq).weaken (fun a ha => ha.widen (by omega) (by omega))
theorem layoutList_in : ∀ (xs : List Json) (lo : Nat),
    (∀ v ∈ (layoutList xs lo).1, ValIn (Reg lo (lo + (layoutList xs lo).2.length)) v) ∧
    ∀ c ∈ (layoutList xs lo).2, CellIn (Reg lo (lo + (layoutList xs lo).2.length)) c
  | [], lo => by simp [layoutList]
  | x :: xs, lo => by
    have ih1 := layout_in x lo
    have ih2 := layoutList_in xs (lo + (layout x lo).2.length)
    simp only [layoutList, List.length_append, List.mem_cons, List.mem_append]
    refine ⟨?_, ?_⟩
    · intro v hv
      rcases hv with h1 | h1
      · subst h1
        exact ih1.1.weaken (fun a ha => ha.widen (by omega) (by omega))
      · exact (ih2.1 v h1).weaken (fun a ha => ha.widen (by omega) (by omega))
    · intro c hc
      rcases hc with h1 | h1
      · exact (ih1.2 c h1).relax (fun a ha => ha.widen (by omega) (by omega))
      · exact (ih2.2 c h1).relax (fun a ha => ha.widen (by omega) (by omega))
theorem layoutFields_in : ∀ (kvs : List (String × Json)) (lo : Nat),
    (∀ p ∈ (layoutFields kvs lo).1, ValIn (Reg lo (lo + (layoutFields kvs lo).2.length)) p.2) ∧
    ∀ c ∈ (layoutFields kvs lo).2, CellIn (Reg lo (lo + (layoutFields kvs lo).2.length)) c
  | [], lo => by simp [layoutFields]
  | (k, x) :: kvs, lo => by
    have ih1 := layout_in x lo
    have ih2 := layoutFields_in kvs (lo + (layout x lo).2.length)
    simp only [layoutFields, List.length_append, List.mem_cons, List.mem_append]
    refine ⟨?_, ?_⟩
    · intro v hv
      rcases hv with h1 | h1
      · subst h1
        exact ih1.1.weaken (fun a ha => ha.widen (by omega) (by omega))
      · exact (ih2.1 v h1).weaken (fun a ha => ha.widen (by omega) (by omega))
    · intro c hc
      rcases hc with h1 | h1
      · exact (ih1.2 c h1).relax (fun a ha => ha.widen (by omega) (by omega))
      · exact (ih2.2 c h1).relax (fun a ha => ha.widen (by omega) (by omega))
end

theorem layoutList_length : ∀ (xs : List Json) (lo : Nat), (layoutList xs lo).1.length = xs.length
  | [], _ => rfl
  | x :: xs, lo => by simp [layoutList, layoutList_length xs]

theorem Holds.left {h : Heap} {lo : Nat} {c1 c2 : List Cell} (hh : Holds h lo (c1 ++ c2)) :
    Holds h lo c1 := by
  intro k c hk
  apply hh
  rw [List.getElem?_append_left (lt_length_of_getElem? hk)]
  exact hk

theorem Holds.right {h : Heap} {lo : Nat} {c1 c2 : List Cell} (hh : Holds h lo (c1 ++ c2)) :
    Holds h (lo + c1.length) c2 := by
  intro k c hk
  have := hh (c1.length + k) c (by
    rw [List.getElem?_append_right (by omega)]
    simpa using hk)
  rw [← this]; congr 1; omega

theorem Holds.frame {h h' : Heap} {lo : Nat} {cells : List Cell} (hh : Holds h lo cells)
    (hf : ∀ (a : Nat), lo ≤ a → a < lo + cells.length → h'[a]? = h[a]?) : Holds h' lo cells := by
  intro k c hk
  have := lt_length_of_getElem? hk
  rw [hf _ (by omega) (by omega)]
  exact hh k c hk

theorem holds_append (h : Heap) (cells : List Cell) : Holds (h ++ cells) h.length cells := by
  intro k c hk
  rw [List.getElem?_append_right (by omega)]
  simpa using hk

theorem closed_of_holds {st : State} {lo : Nat} {cells : List Cell}
    (hc : Closed (· < lo) st) (hh : Holds st.heap lo cells)
    (hin : ∀ c ∈ cells, CellIn (Reg lo (lo + cells.length)) c) :
    Closed (· < lo + cells.length) st := by
  refine ⟨?_, fun p hp => Nat.lt_of_lt_of_le (hc.targets p hp) (Nat.le_add_right _ _)⟩
  intro b c hb hS
  by_cases hlt : b < lo
  · exact (hc.cells b c hb hlt).relax (fun a ha => Nat.lt_of_lt_of_le ha (Nat.le_add_right _ _))
  · have hk : b - lo < cells.length := by
      have : b < lo + cells.length := hS
      omega
    have h1 := hh (b - lo) cells[b - lo] (by simp [hk])
    have hb' : lo + (b - lo) = b := by omega
    rw [hb', hb] at h1
    simp only [Option.some.injEq] at h1
    subst h1
    exact (hin _ (List.getElem_mem _)).relax (fun a ha => ha.2)

theorem set_append_length {xs ys : List Val} {v r : Val} :
    (xs ++ v :: ys).set xs.length r = xs ++ r :: ys := by
  induction xs with
  | nil => rfl
  | cons x xs ih => simp [ih]

theorem getElem?_append_length {α : Type} {xs ys : List α} {v : α} :
    (xs ++ v :: ys)[xs.length]? = some v := by
  induction xs with
  | nil => simp
  | cons x xs ih => simpa using ih

/-- The loop over the elements of a slice that `json.Unmarshal` has just built:
each element is decoded in a state in which its own cells are still as built. -/
theorem decodeElems_layout {dec : Dec} (hcl : ∀ S, DecClosed S dec) (hext : DecRel ExtRel dec)
    (typed : Bool) (a : Nat) :
    ∀ (rest : List Json) (lo i : Nat) (done : List Val) (st st' : State),
      Holds st.heap lo (layoutList rest lo).2 →
      Closed (· < lo) st →
      getArr st.heap a = some (done ++ (layoutList rest lo).1) →
      done.length = i →
      lo + (layoutList rest lo).2.length ≤ a →
      decodeElems dec typed a rest.length i st = .ok st' →
      ∃ rs, getArr st'.heap a = some (done ++ rs) ∧ rs.length = rest.length ∧
        Closed (· < lo + (layoutList rest lo).2.length) st' ∧
        (∀ (b : Nat), lo + (layoutList rest lo).2.length ≤ b → b ≠ a →
          st'.heap[b]? = st.heap[b]?) ∧
        ∀ (t : Nat) (x : Json), rest[t]? = some x → ∃ base stt r stt',
          lo ≤ base ∧ base + (layout x base).2.length ≤ lo + (layoutList rest lo).2.length ∧
          (layoutList rest lo).1[t]? = some (layout x base).1 ∧
          Holds st.heap base (layout x base).2 ∧
          Holds stt.heap base (layout x base).2 ∧
          dec (layout x base).1 stt = .ok (r, stt') ∧ rs[t]? = some r ∧
          Extends st.identityMap stt.identityMap ∧
          Extends stt'.identityMap st'.identityMap := by
  intro rest
  induction rest with
  | nil =>
    intro lo i done st st' _ hc harr _ _ h
    simp only [List.length_nil, decodeElems, Except.ok.injEq] at h
    subst h
    refine ⟨[], by simpa [layoutList] using harr, rfl, ?_, fun _ _ _ => rfl, ?_⟩
    · simpa [layoutList] using hc
    · intro t x hx; simp at hx
  | cons x rest ih =>
    intro lo i done st st' hh hc harr hlen hle h
    subst hlen
    simp only [layoutList] at hh harr hle ⊢
    simp only [List.length_append] at hle ⊢
    simp only [List.length_cons, decodeElems, harr] at h
    simp only [getElem?_append_length] at h
    split at h
    · cases h
    · rename_i r st1 hd
      split at h
      swap
      · cases h
      have hc1 : Closed (· < lo + (layout x lo).2.length) st :=
        closed_of_holds hc hh.left (layout_in x lo).2
      have hv : ValIn (· < lo + (layout x lo).2.length) (layout x lo).1 :=
        (layout_in x lo).1.weaken (fun a ha => ha.2)
      obtain ⟨hc1', _, hf1⟩ := hcl _ _ _ _ _ hc1 hv hd
      have ha1 : ¬ a < lo + (layout x lo).2.length := by omega
      have harr1 : getArr st1.heap a
          = some (done ++ (layout x lo).1 :: (layoutList rest (lo + (layout x lo).2.length)).1) := by
        rw [getArr_eq_some, hf1 a ha1]
        exact getArr_eq_some.mp harr
      have hset : setElem st1.heap a done.length r = st1.heap.set a
          (.arr (done ++ r :: (layoutList rest (lo + (layout x lo).2.length)).1)) := by
        unfold setElem
        rw [harr1]
        simp only [set_append_length]
      rw [hset] at h
      have halt : a < st1.heap.length := lt_length_of_getElem? (getArr_eq_some.mp harr1)
      have hh2 : Holds (st1.heap.set a
          (.arr (done ++ r :: (layoutList rest (lo + (layout x lo).2.length)).1)))
          (lo + (layout x lo).2.length) (layoutList rest (lo + (layout x lo).2.length)).2 := by
        refine hh.right.frame ?_
        intro b hb hb2
        rw [List.getElem?_set_ne (by omega)]
        exact hf1 b (by omega)
      have hc2 : Closed (· < lo + (layout x lo).2.length)
          { st1 with heap := (st1.heap.set a
            (.arr (done ++ r :: (layoutList rest (lo + (layout x lo).2.length)).1))) } :=
        closed_set hc1' (fun hS => absurd hS ha1)
      have harr2 : getArr (st1.heap.set a
          (.arr (done ++ r :: (layoutList rest (lo + (layout x lo).2.length)).1))) a
          = some ((done ++ [r]) ++ (layoutList rest (lo + (layout x lo).2.length)).1) := by
        rw [getArr_eq_some, List.getElem?_set_self halt]
        simp
      obtain ⟨rs, hrs, hrl, hcf, hff, htr⟩ :=
        ih (lo + (layout x lo).2.length) (done.length + 1) (done ++ [r]) _ st' hh2 hc2 harr2
          (by simp) (by omega) h
      refine ⟨r :: rs, by simpa using hrs, by simp [hrl], ?_, ?_, ?_⟩
      · simpa [Nat.add_assoc] using hcf
      · intro b hb hba
        rw [hff b (by omega) hba]
        simp only
        rw [List.getElem?_set_ne (fun e => hba e.symm)]
        exact hf1 b (by omega)
      · intro t y hy
        cases t with
        | zero =>
          simp only [List.getElem?_cons_zero, Option.some.injEq] at hy
          subst hy
          refine ⟨lo, st, r, st1, Nat.le_refl _, by omega, by simp, hh.left, hh.left, hd,
            by simp, ?_, ?_⟩
          · exact extends_stepRel.refl st
          · have := decodeElems_rel extends_stepRel hext _ _ _ _ _ _ h
            exact this
        | succ t =>
          simp only [List.getElem?_cons_succ] at hy
          obtain ⟨base, stt, r', stt', b1, b2, e1, e2, e3, e4, e5, e6, e7⟩ := htr t y hy
          refine ⟨base, stt, r', stt', by omega, by omega, by simpa using e1, ?_, e3, e4,
            by simpa using e5, ?_, e7⟩
          · refine e2.frame ?_
            intro b hb hb2
            simp only
            rw [List.getElem?_set_ne (by omega)]
            exact (hf1 b (by omega)).symm
          · exact extends_stepRel.trans (hext _ _ _ _ hd) e6

theorem index?_congr {h h' : Heap} {a : Nat} (hc : h'[a]? = h[a]?) (k : String) :
    index? h' (.map a) k = index? h (.map a) k := by
  simp only [index?, getObj, hc]

theorem index_congr {h h' : Heap} {a : Nat} (hc : h'[a]? = h[a]?) (k : String) :
    index h' (.map a) k = index h (.map a) k := by
  simp only [index, getObj, hc]

theorem GetEntityType_congr {h h' : Heap} {a : Nat} (hc : h'[a]? = h[a]?) :
    GetEntityType h' (.map a) = GetEntityType h (.map a) := by
  simp only [GetEntityType, index?_congr hc]

theorem IsDate_congr {h h' : Heap} {a : Nat} (hc : h'[a]? = h[a]?) :
    IsDate h' (.map a) = IsDate h (.map a) := by
  simp only [IsDate, index?_congr hc]

theorem IsEntity_congr {h h' : Heap} {a : Nat} (hc : h'[a]? = h[a]?) :
    IsEntity h' (.map a) = IsEntity h (.map a) := by
  simp only [IsEntity, GetEntityType_congr hc]

theorem sprintS_scalar (lib : Lib) (h h' : Heap) {v : Val} (hv : v.isScalar = true) :
    sprintS lib h' v = sprintS lib h v := by
  cases v <;> first | rfl | simp [Val.isScalar] at hv

theorem foldl_key_congr (lib : Lib) (h h' : Heap) (e : Val) :
    ∀ (pks : List String) (acc : String),
      (∀ pk ∈ pks, (index h e pk).isScalar = true) →
      (∀ pk, index h' e pk = index h e pk) →
      pks.foldl (fun key pk => key ++ "," ++ sprintS lib h' (index h' e pk)) acc
        = pks.foldl (fun key pk => key ++ "," ++ sprintS lib h (index h e pk)) acc := by
  intro pks
  induction pks with
  | nil => intro acc _ _; rfl
  | cons pk pks ih =>
    intro acc hs hi
    simp only [List.foldl_cons]
    rw [hi pk, sprintS_scalar lib h h' (hs pk (List.mem_cons_self _ _))]
    exact ih _ (fun q hq => hs q (List.mem_cons_of_mem _ hq)) hi

/-- The identity key of an entity whose primary-key values are scalars depends on
the entries of the entity alone. -/
theorem GetIdentifyingKey_congr (lib : Lib) (s : Session) {h h' : Heap} {a : Nat}
    (hc : h'[a]? = h[a]?)
    (hs : ∀ x ∈ primaryKeyValues s h (.map a), x.isScalar = true) :
    GetIdentifyingKey lib s h' (.map a) = GetIdentifyingKey lib s h (.map a) := by
  unfold GetIdentifyingKey
  rw [GetEntityType_congr hc]
  cases ht : GetEntityType h (.map a) with
  | error e => rfl
  | ok t =>
    simp only
    cases hp : GetPrimaryKeyAttributes s t with
    | none => rfl
    | some pks =>
      simp only
      congr 1
      apply foldl_key_congr
      · intro pk hpk
        apply hs
        simp only [primaryKeyValues, ht, hp, Option.getD_some, List.mem_map]
        exact ⟨pk, hpk, rfl⟩
      · intro pk; exact index_congr hc pk

theorem GetIdentifyingKey_ok_map {lib : Lib} {s : Session} {h : Heap} {v : Val} {key : String}
    (hk : GetIdentifyingKey lib s h v = .ok key) : ∃ a, v = .map a ∧ IsEntity h v = true := by
  unfold GetIdentifyingKey at hk
  cases ht : GetEntityType h v with
  | error e => rw [ht] at hk; cases hk
  | ok t =>
    have hent : IsEntity h v = true := by simp [IsEntity, ht]
    cases v with
    | map a => exact ⟨a, rfl, hent⟩
    | nilMap => simp [GetEntityType, index?] at ht
    | _ => simp [GetEntityType] at ht

/-- `Decode` answers an entity of known type with the canonical representation the
identity map holds under its key. -/
theorem decodeWith_entity {lib : Lib} {s : Session} {dec : Dec} (hext : DecRel ExtRel dec)
    {v : Val} {st : State} {r : Val} {st' : State} {key : String}
    (hdate : IsDate st.heap v = false)
    (hkey : GetIdentifyingKey lib s st.heap v = .ok key)
    (h : decodeWith lib s dec v st = .ok (r, st')) :
    ∃ c, r = .map c ∧ st'.identityMap.lookup key = some c := by
  obtain ⟨a, rfl, hent⟩ := GetIdentifyingKey_ok_map hkey
  simp only [decodeWith, hdate, hent, Bool.false_eq_true, if_false, if_true] at h
  simp only [mergeEntityWith, hkey] at h
  split at h
  · rename_i merged kvs hl hobj
    split at h
    · cases h
    · rename_i st2 hm
      simp only [Except.ok.injEq, Prod.mk.injEq] at h
      obtain ⟨h1, h2⟩ := h
      subst h1; subst h2
      have hx := mergeFields_rel extends_stepRel hext _ _ _ _ _ hm
      exact ⟨merged, rfl, hx.lookup hl⟩
  · cases h

theorem closed_append {S : Nat → Prop} {h0 : Heap} {im : IdentityMap} (cells : List Cell)
    (hS : ∀ a, S a → a < h0.length) (hc : Closed S ⟨h0, im⟩) : Closed S ⟨h0 ++ cells, im⟩ := by
  refine ⟨?_, hc.targets⟩
  intro a c ha hSa
  have : (h0 ++ cells)[a]? = h0[a]? := List.getElem?_append_left (hS a hSa)
  exact hc.cells a c (by simpa [this] using ha) hSa

theorem holds_agree {h h' : Heap} {lo : Nat} {cells : List Cell} (h1 : Holds h lo cells)
    (h2 : Holds h' lo cells) {a : Nat} (ha : Reg lo (lo + cells.length) a) : h'[a]? = h[a]? := by
  have hk : a - lo < cells.length := by have := ha.1; have := ha.2; omega
  have e1 := h1 (a - lo) cells[a - lo] (by simp [hk])
  have e2 := h2 (a - lo) cells[a - lo] (by simp [hk])
  have hb : lo + (a - lo) = a := by have := ha.1; omega
  rw [hb] at e1 e2
  rw [e1, e2]

/-- An element of a freshly parsed sequence that is an entity of known type (and
not date-shaped) is answered with the canonical representation of its key. -/
theorem decoded_element_canonical {lib : Lib} {s : Session} {n : Nat} {h1 : Heap}
    {x : Json} {base : Nat} {stt stt' st' : State} {v r : Val} {key : String}
    (hv : v = (layout x base).1)
    (e2 : Holds h1 base (layout x base).2) (e3 : Holds stt.heap base (layout x base).2)
    (e4 : Decode lib s n v stt = .ok (r, stt'))
    (e7 : Extends stt'.identityMap st'.identityMap)
    (hd : IsDate h1 v = false) (hk : GetIdentifyingKey lib s h1 v = .ok key)
    (hp : ∀ y ∈ primaryKeyValues s h1 v, y.isScalar = true) :
    ∃ c, r = .map c ∧ st'.identityMap.lookup key = some c := by
  obtain ⟨a, rfl, _⟩ := GetIdentifyingKey_ok_map hk
  have hreg : Reg base (base + (layout x base).2.length) a := by
    have := (layout_in x base).1
    rw [← hv] at this
    exact this
  have hc : stt.heap[a]? = h1[a]? := holds_agree e2 e3 hreg
  cases n with
  | zero => simp [Decode] at e4
  | succ n =>
    have hd' : IsDate stt.heap (.map a) = false := by rw [IsDate_congr hc]; exact hd
    have hk' : GetIdentifyingKey lib s stt.heap (.map a) = .ok key := by
      rw [GetIdentifyingKey_congr lib s hc hp]; exact hk
    obtain ⟨c, hr, hl⟩ := decodeWith_entity (Decode_rel extends_stepRel lib s n) hd' hk' e4
    exact ⟨c, hr, e7.lookup hl⟩

/-! ## Reads and writes at the end of the heap -/

theorem getElem?_append_two0 (h : Heap) (c d : Cell) : (h ++ [c, d])[h.length]? = some c := by
  rw [List.getElem?_append_right (Nat.le_refl _)]; simp

theorem getElem?_append_two1 (h : Heap) (c d : Cell) : (h ++ [c, d])[h.length + 1]? = some d := by
  rw [List.getElem?_append_right (by omega)]; simp

theorem set_append_one (h : Heap) (c d : Cell) : (h ++ [c]).set h.length d = h ++ [d] := by
  simp [List.set_append]

theorem set_append_two0 (h : Heap) (c d e : Cell) : (h ++ [c, d]).set h.length e = h ++ [e, d] := by
  simp [List.set_append]

theorem getObj_append_one (h : Heap) (kvs : List (String × Val)) :
    getObj (h ++ [.obj kvs]) h.length = some kvs := by
  simp [getObj]

theorem getObj_append_two0 (h : Heap) (kvs : List (String × Val)) (d : Cell) :
    getObj (h ++ [.obj kvs, d]) h.length = some kvs := by
  unfold getObj
  rw [getElem?_append_two0]

theorem getObj_append_two1 (h : Heap) (kvs : List (String × Val)) (c : Cell) :
    getObj (h ++ [c, .obj kvs]) (h.length + 1) = some kvs := by
  unfold getObj
  rw [getElem?_append_two1]

theorem matchesField_action : matchesField "action" "action" = true := by decide

theorem matchesField_data : matchesField "data" "data" = true := by decide

theorem matchesField_data_action : matchesField "data" "action" = false := by decide

/-- The batch of `taskOps` answered by `taskResponse`: the create result holds the
first record, which is the canonical representation and takes the name of the
update; the update result holds the second record. -/
theorem Call_taskOps (lib : Lib) (s : Session) (n : Nat) (id raw : String) (h : Heap)
    (hpk : GetPrimaryKeyAttributes s "Task" = some ["id"]) :
    Call lib s (n + 2) (taskOps id) (.ok ⟨raw, some (taskResponse id)⟩) h
      = .ok ([.create "create" (.map h.length) .nilMap,
              .update "update" (.map (h.length + 1)) .nilMap,
              .delete "delete" true],
             h ++ [.obj [("__entity_type__", .str "Task"), ("id", .str id), ("name", .str "Y")],
                   .obj [("__entity_type__", .str "Task"), ("id", .str id), ("name", .str "Y")]]) := by
  simp [Call, callResultWrap.UnmarshalJSON, taskOps, taskResponse, unmarshalElems, decodeOne,
    ResultFactory,
    unmarshalResult, storeEntries, storeEntry, matchesField_action, matchesField_data,
    matchesField_data_action, storeString, storeMap, storeBool, alloc, layout, layoutFields,
    setField, DecodeResult, Decode, decodeWith, IsDate, IsEntity, GetEntityType, index?, index,
    mergeEntityWith, GetIdentifyingKey, hpk, sprintS, EntityTypeKey, mergeFields,
    NewDeleteOperation, getObj_append_one, getObj_append_two0, getObj_append_two1,
    set_append_one, set_append_two0, List.lookup]

/-! ## The loop of the dispatcher -/

theorem unmarshalElems_take (lib : Lib) (s : Session) (n : Nat) (ops : List Operation) :
    ∀ (rest : List Json) (i : Nat) (acc : List Result) (st : State),
      i + rest.length ≤ ops.length →
      unmarshalElems lib s n ops rest i acc st
        = unmarshalElems lib s n (ops.take (i + rest.length)) rest i acc st := by
  intro rest
  induction rest with
  | nil => intro i acc st _; simp [unmarshalElems]
  | cons x rest ih =>
    intro i acc st hle
    simp only [List.length_cons] at hle
    have hi : (ops.take (i + (x :: rest).length))[i]? = ops[i]? := by
      rw [List.getElem?_take]
      simp
    simp only [unmarshalElems, hi]
    cases ops[i]? with
    | none => rfl
    | some op =>
      simp only
      cases decodeOne lib s n op x st with
      | error e => rfl
      | ok p =>
        obtain ⟨result, st2⟩ := p
        simp only
        have e : i + (x :: rest).length = i + 1 + rest.length := by
          simp only [List.length_cons]; omega
        rw [e]
        exact ih (i + 1) (acc ++ [result]) st2 (by omega)

theorem unmarshalElems_length (lib : Lib) (s : Session) (n : Nat) (ops : List Operation) :
    ∀ (rest : List Json) (i : Nat) (acc : List Result) (st : State) (rs : List Result)
      (st' : State),
      unmarshalElems lib s n ops rest i acc st = .ok (rs, st') →
      rs.length = acc.length + rest.length := by
  intro rest
  induction rest with
  | nil =>
    intro i acc st rs st' h
    simp only [unmarshalElems, Except.ok.injEq, Prod.mk.injEq] at h
    rw [← h.1]; simp
  | cons x rest ih =>
    intro i acc st rs st' h
    simp only [unmarshalElems] at h
    split at h
    · cases h
    · split at h
      · cases h
      · have := ih _ _ _ _ _ h
        simp only [List.length_append, List.length_singleton, List.length_cons,
          List.length_nil] at this ⊢
        omega

theorem storeEntry_kind {r : Result} {slots : List Val} {h : Heap} {key : String} {v : Json}
    {r1 : Result} {slots1 : List Val} {h1 : Heap}
    (hu : storeEntry r slots h key v = .ok (r1, slots1, h1)) : r1.kind = r.kind := by
  unfold storeEntry at hu
  split at hu
  all_goals
    repeat' split at hu
    all_goals first
      | (cases hu; rfl)
      | cases hu

theorem storeEntries_kind : ∀ (kvs : List (String × Json)) (r : Result) (slots : List Val)
    (h : Heap) (r1 : Result) (h1 : Heap),
    storeEntries kvs r slots h = .ok (r1, h1) → r1.kind = r.kind
  | [], r, _, h, r1, h1, hu => by
    simp only [storeEntries, Except.ok.injEq, Prod.mk.injEq] at hu
    rw [← hu.1]
  | (key, v) :: rest, r, slots, h, r1, h1, hu => by
    simp only [storeEntries] at hu
    split at hu
    · cases hu
    · rename_i r2 slots2 h2 he
      rw [storeEntries_kind rest r2 slots2 h2 r1 h1 hu, storeEntry_kind he]

theorem unmarshalResult_kind {zero : Result} {raw : Json} {h : Heap} {r : Result} {h' : Heap}
    (hu : unmarshalResult zero raw h = .ok (r, h')) : r.kind = zero.kind := by
  unfold unmarshalResult at hu
  split at hu
  · split at hu
    · cases hu
    · simp only [Except.ok.injEq, Prod.mk.injEq] at hu
      rw [← hu.1]; rfl
  · split at hu
    · cases hu
    · simp only [Except.ok.injEq, Prod.mk.injEq] at hu
      rw [← hu.1]; rfl
  · simp only [Except.ok.injEq, Prod.mk.injEq] at hu
    rw [← hu.1]
  · exact storeEntries_kind _ _ _ _ _ _ hu
  · cases hu

theorem ResultFactory_kind {op : Operation} {zero : Result} (hf : ResultFactory op = some zero) :
    op.resultKind = some zero.kind := by
  cases op <;> simp only [ResultFactory, Option.some.injEq] at hf <;>
    first | (subst hf; rfl) | cases hf

theorem decodeOne_kind {lib : Lib} {s : Session} {n : Nat} {op : Operation} {raw : Json}
    {st : State} {r : Result} {st' : State}
    (hd : decodeOne lib s n op raw st = .ok (r, st')) : op.resultKind = some r.kind := by
  unfold decodeOne at hd
  split at hd
  · cases hd
  · rename_i zero hz
    split at hd
    · cases hd
    · rename_i result h1 hu
      split at hd
      · cases hd
      · simp only [Except.ok.injEq, Prod.mk.injEq] at hd
        rw [← hd.1, unmarshalResult_kind hu]
        exact ResultFactory_kind hz

/-! ## `Decode` on a freshly built value

On the cells the parser has just built, `Decode` visits a tidy value as a tree: each
call stays within the cells of its argument and the canonical representations bound
under the keys of the entities in it. -/

theorem layout_scalar {j : Json} {v : Val} (h : j.scalar? = some v) (b : Nat) :
    (layout j b).1 = v := by
  cases j <;> simp [Json.scalar?] at h <;> simp [layout, h]

theorem layout_str {j : Json} {b : Nat} {t : String} (h : (layout j b).1 = .str t) :
    j = .str t := by
  cases j <;> simp [layout] at h
  rw [h]

theorem layout_isScalar {j : Json} {b : Nat} (h : (layout j b).1.isScalar = true) :
    j.scalar? = some (layout j b).1 := by
  cases j <;> simp [layout, Val.isScalar, Json.scalar?] at h ⊢

theorem layoutFields_keys : ∀ (kvs : List (String × Json)) (lo : Nat),
    (layoutFields kvs lo).1.map Prod.fst = kvs.map Prod.fst
  | [], _ => rfl
  | (k, x) :: kvs, lo => by simp [layoutFields, layoutFields_keys kvs]

theorem lookup_layoutFields : ∀ (kvs : List (String × Json)) (lo : Nat) (k : String),
    (kvs.lookup k = none ∧ (layoutFields kvs lo).1.lookup k = none) ∨
    ∃ j b, kvs.lookup k = some j ∧ (layoutFields kvs lo).1.lookup k = some (layout j b).1
  | [], _, _ => by simp [layoutFields]
  | (k', x) :: kvs, lo, k => by
    simp only [layoutFields, List.lookup_cons]
    cases hk : k == k' with
    | true => right; exact ⟨x, lo, rfl, rfl⟩
    | false => exact lookup_layoutFields kvs _ k

theorem setField_append_new {k : String} {v : Val} {acc : List (String × Val)}
    (hk : k ∉ acc.map Prod.fst) : setField k v acc = acc ++ [(k, v)] := by
  induction acc with
  | nil => rfl
  | cons p rest ih =>
    obtain ⟨k', v'⟩ := p
    simp only [List.map_cons, List.mem_cons, not_or] at hk
    simp only [setField]
    rw [if_neg (fun e => hk.1 e.symm), ih hk.2]
    rfl

theorem foldl_setField_nodup : ∀ (fs acc : List (String × Val)),
    (fs.map Prod.fst).Nodup → (∀ k ∈ fs.map Prod.fst, k ∉ acc.map Prod.fst) →
    fs.foldl (fun acc p => setField p.1 p.2 acc) acc = acc ++ fs
  | [], acc, _, _ => by simp
  | p :: fs, acc, hn, hd => by
    simp only [List.map_cons, List.nodup_cons] at hn
    simp only [List.foldl_cons]
    rw [setField_append_new (hd p.1 (by simp))]
    rw [foldl_setField_nodup fs _ hn.2]
    · simp
    · intro k hk
      simp only [List.map_append, List.map_cons, List.map_nil, List.mem_append,
        List.mem_singleton, not_or]
      exact ⟨hd k (by simp [hk]), fun e => hn.1 (e ▸ hk)⟩

/-- The cell of a parsed object without repeated keys holds its entries in the
order of the text. -/
theorem layout_obj_nodup (kvs : List (String × Json)) (lo : Nat)
    (hn : (kvs.map Prod.fst).Nodup) :
    layout (.obj kvs) lo = (.map (lo + (layoutFields kvs lo).2.length),
      (layoutFields kvs lo).2 ++ [.obj (layoutFields kvs lo).1]) := by
  simp only [layout]
  rw [foldl_setField_nodup _ [] (by rw [layoutFields_keys]; exact hn) (by simp)]
  simp

theorem index?_layoutFields {h : Heap} {a : Nat} {kvs : List (String × Json)} {lo : Nat}
    (hc : getObj h a = some (layoutFields kvs lo).1) (k : String) :
    index? h (.map a) k = (layoutFields kvs lo).1.lookup k := by
  simp only [index?, hc]

theorem IsDate_layout {h : Heap} {a : Nat} {kvs : List (String × Json)} {lo : Nat}
    (hc : getObj h a = some (layoutFields kvs lo).1) :
    IsDate h (.map a) = jsonIsDate kvs := by
  simp only [IsDate, jsonIsDate, index?_layoutFields hc]
  rcases lookup_layoutFields kvs lo "__type__" with ⟨h1, h2⟩ | ⟨j, b, h1, h2⟩
  · rw [h1, h2]
  · rw [h1, h2]
    cases j <;> simp [layout]

theorem GetEntityType_layout {h : Heap} {a : Nat} {kvs : List (String × Json)} {lo : Nat}
    (hc : getObj h a = some (layoutFields kvs lo).1) :
    (GetEntityType h (.map a)).toOption = jsonEntityType kvs := by
  simp only [GetEntityType, jsonEntityType, index?_layoutFields hc]
  rcases lookup_layoutFields kvs lo EntityTypeKey with ⟨h1, h2⟩ | ⟨j, b, h1, h2⟩
  · rw [h1, h2]; rfl
  · rw [h1, h2]
    cases j <;> simp [layout, Except.toOption]

theorem IsEntity_layout {h : Heap} {a : Nat} {kvs : List (String × Json)} {lo : Nat}
    (hc : getObj h a = some (layoutFields kvs lo).1) :
    IsEntity h (.map a) = (jsonEntityType kvs).isSome := by
  rw [← GetEntityType_layout hc]
  simp only [IsEntity]
  cases GetEntityType h (.map a) <;> rfl

theorem foldl_congr_mem {f g : String → String → String} :
    ∀ (pks : List String) (acc : String), (∀ acc pk, pk ∈ pks → f acc pk = g acc pk) →
      pks.foldl f acc = pks.foldl g acc
  | [], _, _ => rfl
  | pk :: pks, acc, h => by
    simp only [List.foldl_cons]
    rw [h acc pk (List.mem_cons_self _ _)]
    exact foldl_congr_mem pks _ (fun acc q hq => h acc q (List.mem_cons_of_mem _ hq))

/-- On the cell of a parsed object whose primary-key values are scalars,
`GetIdentifyingKey` computes the key of the text. -/
theorem GetIdentifyingKey_layout (lib : Lib) (s : Session) {h : Heap} {a : Nat}
    {kvs : List (String × Json)} {lo : Nat}
    (hc : getObj h a = some (layoutFields kvs lo).1) (hs : scalarKey s kvs = true) :
    (GetIdentifyingKey lib s h (.map a)).toOption = jsonKey lib s kvs := by
  have ht := GetEntityType_layout hc
  unfold GetIdentifyingKey jsonKey
  unfold scalarKey at hs
  cases hty : GetEntityType h (.map a) with
  | error e =>
    rw [hty] at ht
    simp only [Except.toOption] at ht
    rw [← ht]; rfl
  | ok t =>
    rw [hty] at ht
    simp only [Except.toOption] at ht
    rw [← ht] at hs ⊢
    simp only at hs ⊢
    cases hp : GetPrimaryKeyAttributes s t with
    | none => rfl
    | some pks =>
      rw [hp] at hs
      simp only [List.all_eq_true] at hs
      simp only [Except.toOption, Option.some.injEq]
      apply foldl_congr_mem
      intro acc pk hpk
      have hpk' := hs pk hpk
      simp only [index, hc]
      rcases lookup_layoutFields kvs lo pk with ⟨h1, h2⟩ | ⟨j, b, h1, h2⟩
      · rw [h1, h2]; rfl
      · rw [h1] at hpk'
        rw [h1, h2]
        simp only [Option.isSome_iff_exists] at hpk'
        obtain ⟨v, hv⟩ := hpk'
        rw [layout_scalar hv]
        simp only [Option.bind_some, hv, Option.getD_some]
        cases j <;> simp [Json.scalar?] at hv <;> subst hv <;> rfl

theorem GetIdentifyingKey_layout_ok (lib : Lib) (s : Session) {h : Heap} {a : Nat}
    {kvs : List (String × Json)} {lo : Nat} {k : String}
    (hc : getObj h a = some (layoutFields kvs lo).1) (hs : scalarKey s kvs = true)
    (hk : jsonKey lib s kvs = some k) : GetIdentifyingKey lib s h (.map a) = .ok k := by
  have := GetIdentifyingKey_layout lib s hc hs
  rw [hk] at this
  cases hg : GetIdentifyingKey lib s h (.map a) with
  | error e => rw [hg] at this; cases this
  | ok k' =>
    rw [hg] at this
    simp only [Except.toOption, Option.some.injEq] at this
    rw [this]

/-- An object of a type without known primary keys has no identity key, whatever
its primary-key fields hold. -/
theorem GetIdentifyingKey_layout_none (lib : Lib) (s : Session) {h : Heap} {a : Nat}
    {kvs : List (String × Json)} {lo : Nat}
    (hc : getObj h a = some (layoutFields kvs lo).1)
    (hk : jsonKey lib s kvs = none) : ∃ e, GetIdentifyingKey lib s h (.map a) = .error e := by
  have ht := GetEntityType_layout hc
  unfold GetIdentifyingKey
  unfold jsonKey at hk
  cases hty : GetEntityType h (.map a) with
  | error e => exact ⟨_, rfl⟩
  | ok t =>
    rw [hty] at ht
    simp only [Except.toOption] at ht
    rw [← ht] at hk
    simp only at hk ⊢
    cases hp : GetPrimaryKeyAttributes s t with
    | none => exact ⟨_, rfl⟩
    | some pks => rw [hp] at hk; cases hk

theorem covers_refl (fs : List (String × Val)) : Covers fs fs := fun _ h => h

theorem covers_trans {a b c : List (String × Val)} (h1 : Covers a b) (h2 : Covers b c) :
    Covers a c := fun g h => h2 g (h1 g h)

theorem lookup_append_cases {im added : IdentityMap} {k : String} {b : Nat}
    (h : (im ++ added).lookup k = some b) : im.lookup k = some b ∨ (k, b) ∈ added := by
  induction im with
  | nil => right; exact lookup_mem (by simpa using h)
  | cons p rest ih =>
    obtain ⟨k', v⟩ := p
    simp only [List.cons_append, List.lookup_cons] at h ⊢
    cases hkk : k == k' with
    | true => rw [hkk] at h; left; exact h
    | false => rw [hkk] at h; exact ih h

theorem lookup_setField_self (k : String) (r : Val) (fs : List (String × Val)) :
    (setField k r fs).lookup k = some r := by
  induction fs with
  | nil => simp [setField]
  | cons p rest ih =>
    obtain ⟨k', v'⟩ := p
    simp only [setField]
    split
    · rename_i he; subst he; simp
    · rename_i hne
      simp only [List.lookup_cons]
      have : (k == k') = false := by simpa using fun e => hne e.symm
      rw [this]
      exact ih

theorem lookup_setField_ne {k g : String} (r : Val) (fs : List (String × Val)) (hne : g ≠ k) :
    (setField k r fs).lookup g = fs.lookup g := by
  induction fs with
  | nil =>
    have : (g == k) = false := by simpa using hne
    simp [setField, List.lookup_cons, this]
  | cons p rest ih =>
    obtain ⟨k', v'⟩ := p
    simp only [setField]
    split
    · rename_i he
      subst he
      have : (g == k') = false := by simpa using hne
      simp [List.lookup_cons, this]
    · simp only [List.lookup_cons]
      split
      · rfl
      · exact ih

theorem covers_setField (k : String) (r : Val) (fs : List (String × Val)) :
    Covers fs (setField k r fs) := by
  intro g hg
  by_cases hgk : g = k
  · subst hgk; rw [lookup_setField_self]; rfl
  · rw [lookup_setField_ne r fs hgk]; exact hg

theorem lookup_delField_ne {k g : String} (fs : List (String × Val)) (hne : g ≠ k) :
    (delField k fs).lookup g = fs.lookup g := by
  induction fs with
  | nil => rfl
  | cons p rest ih =>
    obtain ⟨k', v'⟩ := p
    simp only [delField, List.filter_cons]
    by_cases hk : k' = k
    · subst hk
      have h1 : (g == k') = false := by simpa using hne
      simp only [ne_eq, not_true_eq_false, decide_False, Bool.false_eq_true, if_false,
        List.lookup_cons, h1]
      exact ih
    · simp only [ne_eq, hk, not_false_eq_true, decide_True, if_true, List.lookup_cons]
      split
      · rfl
      · exact ih

theorem Targets.step {ks : List String} {lo mid hiP : Nat} {st st1 : State}
    (hT : Targets ks lo hiP st) (hmid : lo ≤ mid)
    (hadd : ∃ added, st1.identityMap = st.identityMap ++ added ∧
      ∀ p ∈ added, lo ≤ p.2 ∧ p.2 < mid) :
    Targets ks mid hiP st1 := by
  intro k hk b hb
  obtain ⟨added, he, ha⟩ := hadd
  rw [he] at hb
  rcases lookup_append_cases hb with h1 | h1
  · rcases hT k hk b h1 with h2 | h2
    · left; omega
    · right; exact h2
  · left; exact (ha _ h1).2

/-- A step of a loop and the rest of the loop, one after the other. -/
theorem Outside.seq {ks1 ks2 : List String} {lo mid hi : Nat} (w : Nat)
    {st st1 : State} (st1' : State) {st2 : State}
    (hlm : lo ≤ mid) (hmh : mid ≤ hi)
    (h1 : Outside ks1 lo mid (fun _ => False) st st1)
    (hwi : st1'.identityMap = st1.identityMap)
    (hwf : ∀ (a : Nat), a ≠ w → st1'.heap[a]? = st1.heap[a]?)
    (h2 : Outside ks2 mid hi (· = w) st1' st2) :
    Outside (ks1 ++ ks2) lo hi (· = w) st st2 := by
  obtain ⟨add1, he1, ha1⟩ := h1.added
  obtain ⟨add2, he2, ha2⟩ := h2.added
  have key2 : ∀ (a : Nat), (a < lo ∨ hi ≤ a) →
      (∀ k ∈ ks1 ++ ks2, st.identityMap.lookup k ≠ some a) →
      ∀ k ∈ ks2, st1'.identityMap.lookup k ≠ some a := by
    intro a hout hk k hk2 hl
    rw [hwi, he1] at hl
    rcases lookup_append_cases hl with h3 | h3
    · exact hk k (List.mem_append_right _ hk2) h3
    · have := ha1 _ h3
      omega
  refine ⟨?_, ?_, ?_, ?_⟩
  · intro a hw hout hk
    rw [h2.frame a hw (by omega) (key2 a hout hk), hwf a hw]
    exact h1.frame a (fun f => f) (by omega)
      (fun k hk1 => hk k (List.mem_append_left _ hk1))
  · refine ⟨add1 ++ add2, by rw [he2, hwi, he1]; simp, ?_⟩
    intro p hp
    rcases List.mem_append.mp hp with h3 | h3
    · have := ha1 p h3
      exact ⟨List.mem_append_left _ this.1, this.2.1, by omega⟩
    · have := ha2 p h3
      exact ⟨List.mem_append_right _ this.1, by omega, this.2.2⟩
  · intro k hk
    rcases List.mem_append.mp hk with h3 | h3
    · have hb := h1.bound k h3
      rw [Option.isSome_iff_exists] at hb
      obtain ⟨b, hb⟩ := hb
      rw [he2, hwi, lookup_append_of_some hb]
      rfl
    · exact h2.bound k h3
  · intro a hw hout fs hfs
    obtain ⟨fs1, hfs1, hc1⟩ := h1.grows a (fun f => f) (by omega) fs hfs
    have hfs1' : getObj st1'.heap a = some fs1 := by
      rw [getObj_eq_some, hwf a hw]
      exact getObj_eq_some.mp hfs1
    obtain ⟨fs2, hfs2, hc2⟩ := h2.grows a hw (by omega) fs1 hfs1'
    exact ⟨fs2, hfs2, covers_trans hc1 hc2⟩

theorem Outside.nil (lo : Nat) (W : Nat → Prop) (st : State) : Outside [] lo lo W st st :=
  ⟨fun _ _ _ _ => rfl, ⟨[], by simp, by simp⟩, by simp,
    fun _ _ _ fs hfs => ⟨fs, hfs, covers_refl fs⟩⟩

theorem Targets.keysLeft {ks1 ks2 : List String} {lo hiP : Nat} {st : State}
    (h : Targets (ks1 ++ ks2) lo hiP st) : Targets ks1 lo hiP st :=
  fun k hk b hb => h k (List.mem_append_left _ hk) b hb

theorem Targets.keysRight {ks1 ks2 : List String} {lo hiP : Nat} {st : State}
    (h : Targets (ks1 ++ ks2) lo hiP st) : Targets ks2 lo hiP st :=
  fun k hk b hb => h k (List.mem_append_right _ hk) b hb

theorem Targets.shrink {ks : List String} {lo hi hiP : Nat} {st : State}
    (h : Targets ks lo hiP st) (hh : hi ≤ hiP) : Targets ks lo hi st := by
  intro k hk b hb
  rcases h k hk b hb with h1 | h1
  · left; exact h1
  · right; omega

/-- A cell between the cells of a child and `hiP` is left alone by the child. -/
theorem Outside.untouched {ks : List String} {lo mid hiP : Nat} {st st1 : State}
    (h1 : Outside ks lo mid (fun _ => False) st st1) (hT : Targets ks lo hiP st)
    (hlm : lo ≤ mid) {a : Nat} (ha1 : mid ≤ a) (ha2 : a < hiP) :
    st1.heap[a]? = st.heap[a]? := by
  apply h1.frame a (fun f => f) (Or.inr ha1)
  intro k hk hl
  rcases hT k hk a hl with h2 | h2 <;> omega

/-- The loop over the elements of a freshly built slice, for a decoder that treats
the elements as trees. -/
theorem decodeElems_sim (lib : Lib) (s : Session) {dec : Dec} (typed : Bool) (a hiP : Nat) :
    ∀ (rest : List Json) (lo : Nat) (done : List Val) (st st' : State),
      (∀ x ∈ rest, SimFor lib s dec x) →
      Holds st.heap lo (layoutList rest lo).2 →
      getArr st.heap a = some (done ++ (layoutList rest lo).1) →
      lo + (layoutList rest lo).2.length ≤ a → a < hiP →
      Targets (keysList lib s rest) lo hiP st →
      decodeElems dec typed a rest.length done.length st = .ok st' →
      Outside (keysList lib s rest) lo (lo + (layoutList rest lo).2.length) (· = a) st st' := by
  intro rest
  induction rest with
  | nil =>
    intro lo done st st' _ _ _ _ _ _ h
    simp only [List.length_nil, decodeElems, Except.ok.injEq] at h
    subst h
    simpa [layoutList, keysList] using Outside.nil lo (· = a) st
  | cons x rest ih =>
    intro lo done st st' hsim hh harr hle hap hT h
    simp only [layoutList, keysList] at hh harr hle hT ⊢
    simp only [List.length_append] at hle ⊢
    simp only [List.length_cons, decodeElems, harr, getElem?_append_length] at h
    split at h
    · cases h
    · rename_i r st1 hd
      split at h
      swap
      · cases h
      have hchild := hsim x (List.mem_cons_self _ _) lo st r st1 hh.left
        (hT.keysLeft.shrink (by omega)) hd
      have hframe1 : ∀ (b : Nat), lo + (layout x lo).2.length ≤ b → b < hiP →
          st1.heap[b]? = st.heap[b]? :=
        fun b hb1 hb2 => hchild.untouched hT.keysLeft (Nat.le_add_right _ _) hb1 hb2
      have harr1 : getArr st1.heap a
          = some (done ++ (layout x lo).1 :: (layoutList rest (lo + (layout x lo).2.length)).1) := by
        rw [getArr_eq_some, hframe1 a (by omega) hap]
        exact getArr_eq_some.mp harr
      have hset : setElem st1.heap a done.length r = st1.heap.set a
          (.arr (done ++ r :: (layoutList rest (lo + (layout x lo).2.length)).1)) := by
        unfold setElem
        rw [harr1]
        simp only [set_append_length]
      rw [hset] at h
      have halt : a < st1.heap.length := lt_length_of_getElem? (getArr_eq_some.mp harr1)
      have hh2 : Holds (st1.heap.set a
          (.arr (done ++ r :: (layoutList rest (lo + (layout x lo).2.length)).1)))
          (lo + (layout x lo).2.length) (layoutList rest (lo + (layout x lo).2.length)).2 := by
        refine hh.right.frame ?_
        intro b hb hb2
        rw [List.getElem?_set_ne (by omega)]
        exact hframe1 b hb (by omega)
      have harr2 : getArr (st1.heap.set a
          (.arr (done ++ r :: (layoutList rest (lo + (layout x lo).2.length)).1))) a
          = some ((done ++ [r]) ++ (layoutList rest (lo + (layout x lo).2.length)).1) := by
        rw [getArr_eq_some, List.getElem?_set_self halt]
        simp
      have hT2 : Targets (keysList lib s rest) (lo + (layout x lo).2.length) hiP
          { st1 with heap := (st1.heap.set a
            (.arr (done ++ r :: (layoutList rest (lo + (layout x lo).2.length)).1))) } := by
        obtain ⟨add1, he1, ha1⟩ := hchild.added
        exact hT.keysRight.step (Nat.le_add_right _ _) ⟨add1, he1, fun p hp => (ha1 p hp).2⟩
      have hrest := ih (lo + (layout x lo).2.length) (done ++ [r]) _ st'
        (fun y hy => hsim y (List.mem_cons_of_mem _ hy)) hh2 harr2 (by omega) hap hT2
        (by simpa using h)
      have := Outside.seq a { st1 with heap := (st1.heap.set a
          (.arr (done ++ r :: (layoutList rest (lo + (layout x lo).2.length)).1))) }
        (Nat.le_add_right _ _) (Nat.le_add_right _ _) hchild rfl
        (fun b hb => List.getElem?_set_ne (fun e => hb e.symm)) hrest
      simpa [Nat.add_assoc] using this

theorem layoutFields_lookup_head {k : String} {v : Val} {fs : List (String × Val)}
    {cell : List (String × Val)}
    (hcell : ∀ p ∈ (k, v) :: fs, cell.lookup p.1 = some p.2) : cell.lookup k = some v :=
  hcell (k, v) (List.mem_cons_self _ _)

/-- The loop over the entries of a freshly built plain mapping, for a decoder that
treats the values as trees. -/
theorem decodeFields_sim (lib : Lib) (s : Session) {dec : Dec} (a hiP : Nat) :
    ∀ (rest : List (String × Json)) (lo : Nat) (st st' : State),
      (∀ p ∈ rest, SimFor lib s dec p.2) →
      (rest.map Prod.fst).Nodup →
      Holds st.heap lo (layoutFields rest lo).2 →
      (∃ cell, getObj st.heap a = some cell ∧
        ∀ p ∈ (layoutFields rest lo).1, cell.lookup p.1 = some p.2) →
      lo + (layoutFields rest lo).2.length ≤ a → a < hiP →
      Targets (keysFields lib s rest) lo hiP st →
      decodeFields dec a (rest.map Prod.fst) st = .ok st' →
      Outside (keysFields lib s rest) lo (lo + (layoutFields rest lo).2.length) (· = a) st st' := by
  intro rest
  induction rest with
  | nil =>
    intro lo st st' _ _ _ _ _ _ _ h
    simp only [List.map_nil, decodeFields, Except.ok.injEq] at h
    subst h
    simpa [layoutFields, keysFields] using Outside.nil lo (· = a) st
  | cons p rest ih =>
    obtain ⟨k, x⟩ := p
    intro lo st st' hsim hnd hh hcell hle hap hT h
    obtain ⟨cell, hobj, hlook⟩ := hcell
    simp only [layoutFields, keysFields] at hh hlook hle hT ⊢
    simp only [List.length_append] at hle ⊢
    simp only [List.map_cons, List.nodup_cons] at hnd
    have hk : cell.lookup k = some (layout x lo).1 := hlook _ (List.mem_cons_self _ _)
    simp only [List.map_cons, decodeFields, hobj, hk] at h
    split at h
    · cases h
    · rename_i r st1 hd
      have hsx : SimFor lib s dec x := hsim (k, x) (List.mem_cons_self _ _)
      have hchild := hsx lo st r st1 hh.left (hT.keysLeft.shrink (by omega)) hd
      have hframe1 : ∀ (b : Nat), lo + (layout x lo).2.length ≤ b → b < hiP →
          st1.heap[b]? = st.heap[b]? :=
        fun b hb1 hb2 => hchild.untouched hT.keysLeft (Nat.le_add_right _ _) hb1 hb2
      have hobj1 : getObj st1.heap a = some cell := by
        rw [getObj_eq_some, hframe1 a (by omega) hap]
        exact getObj_eq_some.mp hobj
      have hset : setMapIndex st1.heap a k r = st1.heap.set a
          (.obj (if r = .null then delField k cell else setField k r cell)) := by
        unfold setMapIndex
        rw [hobj1]
      rw [hset] at h
      have halt : a < st1.heap.length := lt_length_of_getElem? (getObj_eq_some.mp hobj1)
      have hh2 : Holds (st1.heap.set a
          (.obj (if r = .null then delField k cell else setField k r cell)))
          (lo + (layout x lo).2.length) (layoutFields rest (lo + (layout x lo).2.length)).2 := by
        refine hh.right.frame ?_
        intro b hb hb2
        rw [List.getElem?_set_ne (by omega)]
        exact hframe1 b hb (by omega)
      have hcell2 : ∃ cell', getObj (st1.heap.set a
          (.obj (if r = .null then delField k cell else setField k r cell))) a = some cell' ∧
          ∀ p ∈ (layoutFields rest (lo + (layout x lo).2.length)).1,
            cell'.lookup p.1 = some p.2 := by
        refine ⟨_, by rw [getObj_eq_some, List.getElem?_set_self halt], ?_⟩
        intro p hp
        have hpk : p.1 ≠ k := by
          intro e
          apply hnd.1
          rw [← layoutFields_keys rest (lo + (layout x lo).2.length), ← e]
          exact List.mem_map_of_mem _ hp
        have := hlook p (List.mem_cons_of_mem _ hp)
        split
        · rw [lookup_delField_ne _ hpk]; exact this
        · rw [lookup_setField_ne _ _ hpk]; exact this
      have hT2 : Targets (keysFields lib s rest) (lo + (layout x lo).2.length) hiP
          { st1 with heap := (st1.heap.set a
            (.obj (if r = .null then delField k cell else setField k r cell))) } := by
        obtain ⟨add1, he1, ha1⟩ := hchild.added
        exact hT.keysRight.step (Nat.le_add_right _ _) ⟨add1, he1, fun p hp => (ha1 p hp).2⟩
      have hrest := ih (lo + (layout x lo).2.length) _ st'
        (fun y hy => hsim y (List.mem_cons_of_mem _ hy)) hnd.2 hh2 hcell2 (by omega) hap hT2 h
      have := Outside.seq a { st1 with heap := (st1.heap.set a
          (.obj (if r = .null then delField k cell else setField k r cell))) }
        (Nat.le_add_right _ _) (Nat.le_add_right _ _) hchild rfl
        (fun b hb => List.getElem?_set_ne (fun e => hb e.symm)) hrest
      simpa [Nat.add_assoc] using this

/-- The loop of `mergeEntity` over the entries of a freshly built entity, for a
decoder that treats the values as trees. -/
theorem mergeFields_sim (lib : Lib) (s : Session) {dec : Dec} (src dst hiP : Nat) :
    ∀ (rest : List (String × Json)) (lo : Nat) (st st' : State),
      (∀ p ∈ rest, SimFor lib s dec p.2) →
      (rest.map Prod.fst).Nodup →
      Holds st.heap lo (layoutFields rest lo).2 →
      (∃ cell, getObj st.heap src = some cell ∧
        ∀ p ∈ (layoutFields rest lo).1, cell.lookup p.1 = some p.2) →
      lo + (layoutFields rest lo).2.length ≤ src → src < hiP →
      (dst = src ∨ dst < lo ∨ hiP ≤ dst) →
      Targets (keysFields lib s rest) lo hiP st →
      mergeFields dec src dst (rest.map Prod.fst) st = .ok st' →
      Outside (keysFields lib s rest) lo (lo + (layoutFields rest lo).2.length) (· = dst) st st' ∧
      ∀ fs0, getObj st.heap dst = some fs0 →
        ∃ fs', getObj st'.heap dst = some fs' ∧ Covers fs0 fs' ∧
          ((∀ k ∈ keysFields lib s rest, st.identityMap.lookup k ≠ some dst) →
            Merged dec src dst st rest lo fs0 fs' st') := by
  intro rest
  induction rest with
  | nil =>
    intro lo st st' _ _ _ _ _ _ _ _ h
    simp only [List.map_nil, mergeFields, Except.ok.injEq] at h
    subst h
    refine ⟨by simpa [layoutFields, keysFields] using Outside.nil lo (· = dst) st, ?_⟩
    intro fs0 hfs0
    exact ⟨fs0, hfs0, covers_refl _, fun _ => ⟨fun _ _ => rfl, fun p hp => by simp at hp⟩⟩
  | cons p rest ih =>
    obtain ⟨k, x⟩ := p
    intro lo st st' hsim hnd hh hcell hle hap hdst hT h
    obtain ⟨cell, hobj, hlook⟩ := hcell
    simp only [layoutFields, keysFields] at hh hlook hle hT ⊢
    simp only [List.length_append] at hle ⊢
    simp only [List.map_cons, List.nodup_cons] at hnd
    have hk : cell.lookup k = some (layout x lo).1 := hlook _ (List.mem_cons_self _ _)
    simp only [List.map_cons, mergeFields, hobj, hk] at h
    split at h
    · cases h
    · rename_i r st1 hd
      split at h
      · cases h
      rename_i fs1 hfs1
      have hsx : SimFor lib s dec x := hsim (k, x) (List.mem_cons_self _ _)
      have hchild := hsx lo st r st1 hh.left (hT.keysLeft.shrink (by omega)) hd
      have hframe1 : ∀ (b : Nat), lo + (layout x lo).2.length ≤ b → b < hiP →
          st1.heap[b]? = st.heap[b]? :=
        fun b hb1 hb2 => hchild.untouched hT.keysLeft (Nat.le_add_right _ _) hb1 hb2
      have hobj1 : getObj st1.heap src = some cell := by
        rw [getObj_eq_some, hframe1 src (by omega) hap]
        exact getObj_eq_some.mp hobj
      have hdlt : dst < st1.heap.length := lt_length_of_getElem? (getObj_eq_some.mp hfs1)
      have hdout : dst < lo ∨ lo + (layout x lo).2.length ≤ dst := by
        rcases hdst with h1 | h1 | h1 <;> omega
      have hh2 : Holds (st1.heap.set dst (.obj (setField k r fs1)))
          (lo + (layout x lo).2.length) (layoutFields rest (lo + (layout x lo).2.length)).2 := by
        refine hh.right.frame ?_
        intro b hb hb2
        rw [List.getElem?_set_ne (by rcases hdst with h1 | h1 | h1 <;> omega)]
        exact hframe1 b hb (by omega)
      have hcell2 : ∃ cell', getObj (st1.heap.set dst (.obj (setField k r fs1))) src = some cell' ∧
          ∀ p ∈ (layoutFields rest (lo + (layout x lo).2.length)).1,
            cell'.lookup p.1 = some p.2 := by
        by_cases hds : dst = src
        · subst hds
          have hfc : fs1 = cell := by
            rw [hobj1] at hfs1
            exact (Option.some.inj hfs1).symm
          subst hfc
          refine ⟨_, by rw [getObj_eq_some, List.getElem?_set_self hdlt], ?_⟩
          intro p hp
          have hpk : p.1 ≠ k := by
            intro e
            apply hnd.1
            rw [← layoutFields_keys rest (lo + (layout x lo).2.length), ← e]
            exact List.mem_map_of_mem _ hp
          rw [lookup_setField_ne _ _ hpk]
          exact hlook p (List.mem_cons_of_mem _ hp)
        · refine ⟨cell, ?_, fun p hp => hlook p (List.mem_cons_of_mem _ hp)⟩
          rw [getObj_eq_some, List.getElem?_set_ne hds]
          exact getObj_eq_some.mp hobj1
      have hT2 : Targets (keysFields lib s rest) (lo + (layout x lo).2.length) hiP
          { st1 with heap := (st1.heap.set dst (.obj (setField k r fs1))) } := by
        obtain ⟨add1, he1, ha1⟩ := hchild.added
        exact hT.keysRight.step (Nat.le_add_right _ _) ⟨add1, he1, fun p hp => (ha1 p hp).2⟩
      obtain ⟨hrest, hmerged⟩ := ih (lo + (layout x lo).2.length) _ st'
        (fun y hy => hsim y (List.mem_cons_of_mem _ hy)) hnd.2 hh2 hcell2 (by omega) hap
        (by rcases hdst with h1 | h1 | h1 <;> omega) hT2 h
      have hseq := Outside.seq dst { st1 with heap := (st1.heap.set dst (.obj (setField k r fs1))) }
        (Nat.le_add_right _ _) (Nat.le_add_right _ _) hchild rfl
        (fun b hb => List.getElem?_set_ne (fun e => hb e.symm)) hrest
      refine ⟨by simpa [Nat.add_assoc] using hseq, ?_⟩
      intro fs0 hfs0
      obtain ⟨fs', hfs', hcov, hm⟩ := hmerged (setField k r fs1)
        (by rw [getObj_eq_some, List.getElem?_set_self hdlt])
      obtain ⟨fsc, hfsc, hcovc⟩ := hchild.grows dst (fun f => f) hdout fs0 hfs0
      have hfsc1 : fsc = fs1 := by
        rw [hfs1] at hfsc
        exact (Option.some.inj hfsc).symm
      subst hfsc1
      refine ⟨fs', hfs', covers_trans (covers_trans hcovc (covers_setField k r fsc)) hcov, ?_⟩
      intro hfree
      have hsame : fsc = fs0 := by
        have := hchild.frame dst (fun f => f) hdout
          (fun k' hk' => hfree k' (List.mem_append_left _ hk'))
        have h2 : getObj st1.heap dst = getObj st.heap dst := by
          unfold getObj; rw [this]
        rw [hfs1, hfs0] at h2
        exact Option.some.inj h2
      subst hsame
      obtain ⟨add1, he1, ha1⟩ := hchild.added
      have hfree2 : ∀ k' ∈ keysFields lib s rest,
          st1.identityMap.lookup k' ≠ some dst := by
        intro k' hk' hl
        rw [he1] at hl
        rcases lookup_append_cases hl with h3 | h3
        · exact hfree k' (List.mem_append_right _ hk') h3
        · have := ha1 _ h3
          omega
      obtain ⟨hm1, hm2⟩ := hm hfree2
      obtain ⟨add2, he2, _⟩ := hrest.added
      refine ⟨?_, ?_⟩
      · intro g hg
        simp only [List.map_cons, List.mem_cons, not_or] at hg
        rw [hm1 g hg.2, lookup_setField_ne _ _ hg.1]
      · intro p hp
        rcases List.mem_cons.mp hp with h3 | h3
        · subst h3
          refine ⟨lo, st, r, st1, by simp [layoutFields], hh.left,
            ⟨[], rest, rfl, by simp [mergeFields]⟩, hd, ?_, ?_⟩
          · rw [hm1 k hnd.1, lookup_setField_self]
          · intro key b hb
            rw [he2]
            exact lookup_append_of_some hb
        · obtain ⟨b, stt, v, stt', hmem, hholds, ⟨pre, post, hsplit, hpre⟩, hrest4⟩ := hm2 p h3
          refine ⟨b, stt, v, stt', by simp only [layoutFields]; exact List.mem_cons_of_mem _ hmem,
            hholds, ⟨(k, x) :: pre, post, by rw [hsplit]; rfl, ?_⟩, hrest4⟩
          simp only [List.map_cons, mergeFields, hobj, hk, hd, hfs1]
          exact hpre

theorem Outside.same (lo hi : Nat) (W : Nat → Prop) (st : State) : Outside [] lo hi W st st :=
  ⟨fun _ _ _ _ => rfl, ⟨[], by simp, by simp⟩, by simp,
    fun _ _ _ fs hfs => ⟨fs, hfs, covers_refl fs⟩⟩

/-- A loop that wrote to the parent's own cell, seen from outside the parent. -/
theorem Outside.close {ks : List String} {lo hi : Nat} {st st' : State}
    (h : Outside ks lo hi (· = hi) st st') (hle : lo ≤ hi) :
    Outside ks lo (hi + 1) (fun _ => False) st st' := by
  refine ⟨?_, ?_, h.bound, ?_⟩
  · intro a _ hout hk
    exact h.frame a (by omega) (by omega) hk
  · obtain ⟨added, he, ha⟩ := h.added
    exact ⟨added, he, fun p hp => ⟨(ha p hp).1, (ha p hp).2.1, by have := (ha p hp).2.2; omega⟩⟩
  · intro a _ hout fs hfs
    exact h.grows a (by omega) (by omega) fs hfs

theorem lookup_append_new {k : String} {a : Nat} : ∀ {im : IdentityMap},
    im.lookup k = none → (im ++ [(k, a)]).lookup k = some a
  | [], _ => by simp [List.lookup_cons]
  | (k', v') :: rest, hl => by
    simp only [List.cons_append, List.lookup_cons] at hl ⊢
    cases hkk : k == k' with
    | true => rw [hkk] at hl; cases hl
    | false =>
      rw [hkk] at hl
      exact lookup_append_new hl

theorem lookup_of_mem_nodup {β : Type} : ∀ (l : List (String × β)),
    (l.map Prod.fst).Nodup → ∀ p ∈ l, l.lookup p.1 = some p.2
  | [], _, p, hp => by simp at hp
  | (k, v) :: l, hn, p, hp => by
    simp only [List.map_cons, List.nodup_cons] at hn
    rcases List.mem_cons.mp hp with h1 | h1
    · subst h1
      simp [List.lookup_cons]
    · have hne : p.1 ≠ k := fun e => hn.1 (e ▸ List.mem_map_of_mem _ h1)
      simp only [List.lookup_cons]
      have : (p.1 == k) = false := by simpa using hne
      rw [this]
      exact lookup_of_mem_nodup l hn.2 p h1

theorem tidyList_mem {lib : Lib} {s : Session} : ∀ {xs : List Json},
    tidyList lib s xs = true → ∀ x ∈ xs, x.tidy lib s = true
  | [], _, x, hx => by simp at hx
  | y :: ys, h, x, hx => by
    simp only [tidyList, Bool.and_eq_true] at h
    rcases List.mem_cons.mp hx with h1 | h1
    · subst h1; exact h.1
    · exact tidyList_mem h.2 x h1

theorem tidyFields_mem {lib : Lib} {s : Session} : ∀ {kvs : List (String × Json)},
    tidyFields lib s kvs = true → ∀ p ∈ kvs, p.2.tidy lib s = true
  | [], _, x, hx => by simp at hx
  | (k, y) :: ys, h, x, hx => by
    simp only [tidyFields, Bool.and_eq_true] at h
    rcases List.mem_cons.mp hx with h1 | h1
    · subst h1; exact h.1
    · exact tidyFields_mem h.2 x h1

/-- The cell of a parsed object without repeated keys, in a heap that holds its
cells. -/
theorem holds_obj {h : Heap} {base : Nat} {kvs : List (String × Json)}
    (hn : (kvs.map Prod.fst).Nodup) (hh : Holds h base (layout (.obj kvs) base).2) :
    Holds h base (layoutFields kvs base).2 ∧
    getObj h (base + (layoutFields kvs base).2.length) = some (layoutFields kvs base).1 := by
  rw [layout_obj_nodup kvs base hn] at hh
  refine ⟨hh.left, ?_⟩
  rw [getObj_eq_some]
  exact hh _ _ getElem?_append_length

/-- One level of `Decode` treats a tidy parsed value as a tree when its recursive
calls do. -/
theorem decodeWith_sim (lib : Lib) (s : Session) {dec : Dec}
    (hdec : ∀ j, j.tidy lib s = true → SimFor lib s dec j) :
    ∀ j, j.tidy lib s = true → SimFor lib s (decodeWith lib s dec) j := by
  intro j ht base st r st' hh hT h
  cases j with
  | null =>
    simp only [layout, decodeWith, Except.ok.injEq, Prod.mk.injEq] at h
    obtain ⟨_, rfl⟩ := h
    simpa [Json.keys, layout] using Outside.same base base (fun _ => False) st
  | bool b =>
    simp only [layout, decodeWith, Except.ok.injEq, Prod.mk.injEq] at h
    obtain ⟨_, rfl⟩ := h
    simpa [Json.keys, layout] using Outside.same base base (fun _ => False) st
  | num lit float =>
    simp only [layout, decodeWith, Except.ok.injEq, Prod.mk.injEq] at h
    obtain ⟨_, rfl⟩ := h
    simpa [Json.keys, layout] using Outside.same base base (fun _ => False) st
  | str t =>
    simp only [layout, decodeWith, Except.ok.injEq, Prod.mk.injEq] at h
    obtain ⟨_, rfl⟩ := h
    simpa [Json.keys, layout] using Outside.same base base (fun _ => False) st
  | arr xs =>
    simp only [Json.tidy] at ht
    simp only [layout, Json.keys, List.length_append, List.length_singleton] at hh hT h ⊢
    have harr : getArr st.heap (base + (layoutList xs base).2.length) =
        some (layoutList xs base).1 := by
      rw [getArr_eq_some]
      exact hh _ _ getElem?_append_length
    simp only [decodeWith, harr] at h
    split at h
    · cases h
    · rename_i st2 hloop
      simp only [Except.ok.injEq, Prod.mk.injEq] at h
      obtain ⟨_, rfl⟩ := h
      rw [layoutList_length] at hloop
      have := decodeElems_sim lib s false (base + (layoutList xs base).2.length)
        (base + ((layoutList xs base).2.length + 1)) xs base [] st st2
        (fun x hx => hdec x (tidyList_mem ht x hx)) hh.left (by simpa using harr)
        (Nat.le_refl _) (by omega) hT (by simpa using hloop)
      simpa [Nat.add_assoc] using this.close (Nat.le_add_right _ _)
  | obj kvs =>
    simp only [Json.tidy, Bool.and_eq_true, decide_eq_true_eq] at ht
    obtain ⟨hn, ht⟩ := ht
    obtain ⟨hsub, hcell⟩ := holds_obj hn hh
    rw [layout_obj_nodup kvs base hn] at h hT ⊢
    simp only [List.length_append, List.length_singleton] at hT h ⊢
    have hdate := IsDate_layout hcell
    have hent := IsEntity_layout hcell
    simp only [Json.keys] at hT ⊢
    by_cases hd : jsonIsDate kvs = true
    · simp only [hd, if_true] at hT ⊢
      rw [hd] at hdate
      simp only [decodeWith, hdate, if_true] at h
      split at h
      · cases h
      · simp only [Except.ok.injEq, Prod.mk.injEq] at h
        obtain ⟨_, rfl⟩ := h
        exact Outside.same _ _ _ st
    · simp only [hd, Bool.false_eq_true, if_false] at hT ht ⊢
      have hd' : jsonIsDate kvs = false := by simpa using hd
      rw [hd'] at hdate
      simp only [decodeWith, hdate, Bool.false_eq_true, if_false] at h
      cases hty : jsonEntityType kvs with
      | none =>
        rw [hty] at hent
        simp only [hty] at hT ht ⊢
        simp only [Option.isSome_none] at hent
        simp only [hent, Bool.false_eq_true, if_false, hcell] at h
        split at h
        · cases h
        · rename_i st2 hloop
          simp only [Except.ok.injEq, Prod.mk.injEq] at h
          obtain ⟨_, rfl⟩ := h
          rw [layoutFields_keys] at hloop
          have := decodeFields_sim lib s (base + (layoutFields kvs base).2.length)
            (base + ((layoutFields kvs base).2.length + 1)) kvs base st st2
            (fun p hp => hdec p.2 (tidyFields_mem ht p hp)) hn hsub
            ⟨_, hcell, lookup_of_mem_nodup _ (by rw [layoutFields_keys]; exact hn)⟩
            (Nat.le_refl _) (by omega) hT hloop
          simpa [Nat.add_assoc] using this.close (Nat.le_add_right _ _)
      | some t =>
        rw [hty] at hent
        simp only [hty] at hT ht ⊢
        simp only [Option.isSome_some] at hent
        simp only [hent, if_true] at h
        cases hkey : jsonKey lib s kvs with
        | none =>
          simp only [hkey] at hT ⊢
          obtain ⟨e, he⟩ := GetIdentifyingKey_layout_none lib s hcell hkey
          simp only [mergeEntityWith, he, Except.ok.injEq, Prod.mk.injEq] at h
          obtain ⟨_, rfl⟩ := h
          exact Outside.same _ _ _ st
        | some k =>
          simp only [hkey, Bool.and_eq_true, decide_eq_true_eq] at hT ht ⊢
          obtain ⟨⟨hsk, hfresh⟩, htf⟩ := ht
          have hk := GetIdentifyingKey_layout_ok lib s hcell hsk hkey
          simp only [mergeEntityWith, hk] at h
          have hTf : Targets (keysFields lib s kvs) base
              (base + ((layoutFields kvs base).2.length + 1)) st :=
            fun k' hk' => hT k' (List.mem_cons_of_mem _ hk')
          cases hl : st.identityMap.lookup k with
          | some c =>
            simp only [hl, hcell] at h
            split at h
            · cases h
            rename_i st2 hloop
            simp only [Except.ok.injEq, Prod.mk.injEq] at h
            obtain ⟨_, rfl⟩ := h
            rw [layoutFields_keys] at hloop
            have hc := hT k (List.mem_cons_self _ _) c hl
            obtain ⟨hout, hdst⟩ := mergeFields_sim lib s
              (base + (layoutFields kvs base).2.length) c
              (base + ((layoutFields kvs base).2.length + 1)) kvs base st st2
              (fun p hp => hdec p.2 (tidyFields_mem htf p hp)) hn hsub
              ⟨_, hcell, lookup_of_mem_nodup _ (by rw [layoutFields_keys]; exact hn)⟩
              (Nat.le_refl _) (by omega) (Or.inr hc) hTf hloop
            obtain ⟨added, hea, ha⟩ := hout.added
            refine ⟨?_, ?_, ?_, ?_⟩
            · intro a _ hreg hks
              refine hout.frame a ?_ (by omega) (fun k' hk' => hks k' (List.mem_cons_of_mem _ hk'))
              intro e
              exact hks k (List.mem_cons_self _ _) (e ▸ hl)
            · exact ⟨added, hea, fun p hp => ⟨List.mem_cons_of_mem _ (ha p hp).1, (ha p hp).2.1,
                by have := (ha p hp).2.2; omega⟩⟩
            · intro k' hk'
              rcases List.mem_cons.mp hk' with h1 | h1
              · subst h1
                rw [hea, lookup_append_of_some hl]; rfl
              · exact hout.bound k' h1
            · intro a _ hreg fs hfs
              by_cases hac : a = c
              · subst hac
                obtain ⟨fs', h1, h2, _⟩ := hdst fs hfs
                exact ⟨fs', h1, h2⟩
              · exact hout.grows a hac (by omega) fs hfs
          | none =>
            have hl2 : (st.identityMap ++ [(k, base + (layoutFields kvs base).2.length)]).lookup k
                = some (base + (layoutFields kvs base).2.length) := lookup_append_new hl
            simp only [hl, hl2, hcell] at h
            split at h
            · cases h
            rename_i st2 hloop
            simp only [Except.ok.injEq, Prod.mk.injEq] at h
            obtain ⟨_, rfl⟩ := h
            rw [layoutFields_keys] at hloop
            have hT2 : Targets (keysFields lib s kvs) base
                (base + ((layoutFields kvs base).2.length + 1))
                { st with identityMap :=
                  (st.identityMap ++ [(k, base + (layoutFields kvs base).2.length)]) } := by
              intro k' hk' b hb
              rcases lookup_append_cases hb with h3 | h3
              · exact hTf k' hk' b h3
              · simp only [List.mem_singleton, Prod.mk.injEq] at h3
                exact absurd (h3.1 ▸ hk') hfresh
            obtain ⟨hout, _⟩ := mergeFields_sim lib s
              (base + (layoutFields kvs base).2.length) (base + (layoutFields kvs base).2.length)
              (base + ((layoutFields kvs base).2.length + 1)) kvs base
              { st with identityMap :=
                (st.identityMap ++ [(k, base + (layoutFields kvs base).2.length)]) } st2
              (fun p hp => hdec p.2 (tidyFields_mem htf p hp)) hn hsub
              ⟨_, hcell, lookup_of_mem_nodup _ (by rw [layoutFields_keys]; exact hn)⟩
              (Nat.le_refl _) (by omega) (Or.inl rfl) hT2 hloop
            obtain ⟨added, hea, ha⟩ := hout.added
            refine ⟨?_, ?_, ?_, ?_⟩
            · intro a _ hreg hks
              refine hout.frame a (by omega) (by omega) ?_
              intro k' hk' hb
              rcases lookup_append_cases hb with h3 | h3
              · exact hks k' (List.mem_cons_of_mem _ hk') h3
              · simp only [List.mem_singleton, Prod.mk.injEq] at h3
                omega
            · refine ⟨(k, base + (layoutFields kvs base).2.length) :: added, ?_, ?_⟩
              · rw [hea]; simp
              · intro p hp
                rcases List.mem_cons.mp hp with h1 | h1
                · subst h1
                  exact ⟨List.mem_cons_self _ _, by simp, by simp⟩
                · exact ⟨List.mem_cons_of_mem _ (ha p h1).1, (ha p h1).2.1,
                    by have := (ha p h1).2.2; omega⟩
            · intro k' hk'
              rcases List.mem_cons.mp hk' with h1 | h1
              · subst h1
                rw [hea, lookup_append_of_some hl2]; rfl
              · exact hout.bound k' h1
            · intro a _ hreg fs hfs
              exact hout.grows a (by omega) (by omega) fs hfs

/-- `Decode` treats a tidy parsed value as a tree, whatever its budget. -/
theorem Decode_sim (lib : Lib) (s : Session) :
    ∀ (n : Nat) (j : Json), j.tidy lib s = true → SimFor lib s (Decode lib s n) j
  | 0, _, _ => by
    intro base st r st' _ _ h
    simp [Decode] at h
  | n + 1, j, ht => decodeWith_sim lib s (Decode_sim lib s n) j ht

theorem jsonKey_type {lib : Lib} {s : Session} {kvs : List (String × Json)} {k : String}
    (hk : jsonKey lib s kvs = some k) : ∃ t, jsonEntityType kvs = some t := by
  unfold jsonKey at hk
  cases ht : jsonEntityType kvs with
  | none => rw [ht] at hk; cases hk
  | some t => exact ⟨t, rfl⟩

/-- What `tidy` says of an entity of known type that is not date-shaped. -/
theorem tidy_known {lib : Lib} {s : Session} {kvs : List (String × Json)} {k : String}
    (ht : (Json.obj kvs).tidy lib s = true) (hd : jsonIsDate kvs = false)
    (hk : jsonKey lib s kvs = some k) :
    (kvs.map Prod.fst).Nodup ∧ scalarKey s kvs = true ∧ k ∉ keysFields lib s kvs ∧
      tidyFields lib s kvs = true := by
  obtain ⟨t, hty⟩ := jsonKey_type hk
  simp only [Json.tidy, hd, hty, hk, Bool.and_eq_true, decide_eq_true_eq, Bool.false_eq_true,
    if_false] at ht
  exact ⟨ht.1, ht.2.1.1, ht.2.1.2, ht.2.2⟩

theorem tidy_nodup {lib : Lib} {s : Session} {kvs : List (String × Json)}
    (ht : (Json.obj kvs).tidy lib s = true) : (kvs.map Prod.fst).Nodup := by
  simp only [Json.tidy, Bool.and_eq_true, decide_eq_true_eq] at ht
  exact ht.1

/-- The identity key the code computes on the cell of a tidy parsed object is the
key of the text. -/
theorem jsonKey_of_ok {lib : Lib} {s : Session} {h : Heap} {a : Nat}
    {kvs : List (String × Json)} {lo : Nat} {key : String}
    (hc : getObj h a = some (layoutFields kvs lo).1)
    (ht : (Json.obj kvs).tidy lib s = true) (hd : jsonIsDate kvs = false)
    (hk : GetIdentifyingKey lib s h (.map a) = .ok key) : jsonKey lib s kvs = some key := by
  cases hjk : jsonKey lib s kvs with
  | none =>
    obtain ⟨e, he⟩ := GetIdentifyingKey_layout_none lib s hc hjk
    rw [he] at hk; cases hk
  | some k' =>
    have := GetIdentifyingKey_layout_ok lib s hc (tidy_known ht hd hjk).2.1 hjk
    rw [this] at hk
    simp only [Except.ok.injEq] at hk
    rw [hk]

/-- The loop of `mergeEntity` reads the canonical representation once the first
value is decoded: where the loop returns, the canonical representation was a map. -/
theorem mergeFields_reads (lib : Lib) (s : Session) {dec : Dec} (src dst hiP : Nat)
    (k : String) (x : Json) (rest : List (String × Json)) (lo : Nat) (st st' : State)
    (hsx : SimFor lib s dec x)
    (hh : Holds st.heap lo (layoutFields ((k, x) :: rest) lo).2)
    (hcell : ∃ cell, getObj st.heap src = some cell ∧
      ∀ p ∈ (layoutFields ((k, x) :: rest) lo).1, cell.lookup p.1 = some p.2)
    (hle : lo + (layoutFields ((k, x) :: rest) lo).2.length ≤ src) (hap : src < hiP)
    (hdst : dst = src ∨ dst < lo ∨ hiP ≤ dst)
    (hT : Targets (keysFields lib s ((k, x) :: rest)) lo hiP st)
    (hfree : ∀ k' ∈ keysFields lib s ((k, x) :: rest), st.identityMap.lookup k' ≠ some dst)
    (h : mergeFields dec src dst (((k, x) :: rest).map Prod.fst) st = .ok st') :
    ∃ fs0, getObj st.heap dst = some fs0 := by
  obtain ⟨cell, hobj, hlook⟩ := hcell
  simp only [layoutFields, keysFields] at hh hlook hle hT hfree
  simp only [List.length_append] at hle
  have hk : cell.lookup k = some (layout x lo).1 := hlook _ (List.mem_cons_self _ _)
  simp only [List.map_cons, mergeFields, hobj, hk] at h
  split at h
  · cases h
  · rename_i r st1 hd
    split at h
    · cases h
    rename_i fs1 hfs1
    have hchild := hsx lo st r st1 hh.left (hT.keysLeft.shrink (by omega)) hd
    have hdout : dst < lo ∨ lo + (layout x lo).2.length ≤ dst := by
      rcases hdst with h1 | h1 | h1 <;> omega
    have := hchild.frame dst (fun f => f) hdout
      (fun k' hk' => hfree k' (List.mem_append_left _ hk'))
    refine ⟨fs1, ?_⟩
    rw [getObj_eq_some, ← this]
    exact getObj_eq_some.mp hfs1

/-- `Decode` on a freshly built entity of known type that is tidy and not
date-shaped: it answers with the canonical representation of the entity's key, the
one the identity map held or else the entity itself, and leaves it `Merged`. -/
theorem decodeWith_known (lib : Lib) (s : Session) {dec : Dec}
    (hdec : ∀ j, j.tidy lib s = true → SimFor lib s dec j)
    {kvs : List (String × Json)} {base : Nat} {st : State} {r : Val} {st' : State}
    {key : String}
    (htidy : (Json.obj kvs).tidy lib s = true)
    (hh : Holds st.heap base (layout (.obj kvs) base).2)
    (hT : Targets ((Json.obj kvs).keys lib s) base
      (base + (layout (.obj kvs) base).2.length) st)
    (hdate : jsonIsDate kvs = false) (hkey : jsonKey lib s kvs = some key)
    (hone : ∀ k (c : Nat), st.identityMap.lookup key = some c →
      st.identityMap.lookup k = some c → k = key)
    (hrun : decodeWith lib s dec (layout (.obj kvs) base).1 st = .ok (r, st')) :
    ∃ cp st0, r = .map cp ∧ st'.identityMap.lookup key = some cp ∧
      ((st.identityMap.lookup key = some cp ∧ st0 = st) ∨
        (st.identityMap.lookup key = none ∧ cp = base + (layoutFields kvs base).2.length ∧
          st0 = { st with identityMap := st.identityMap ++ [(key, cp)] })) ∧
      ∃ fs0 fs', getObj st.heap cp = some fs0 ∧ getObj st'.heap cp = some fs' ∧
        Covers fs0 fs' ∧
        Merged dec (base + (layoutFields kvs base).2.length) cp st0 kvs base fs0 fs' st' := by
  obtain ⟨hn, hsk, hfresh, htf⟩ := tidy_known htidy hdate hkey
  obtain ⟨t, hty⟩ := jsonKey_type hkey
  obtain ⟨hsub, hcell⟩ := holds_obj hn hh
  rw [layout_obj_nodup kvs base hn] at hrun hT
  simp only [List.length_append, List.length_singleton] at hT hrun
  have hd1 := IsDate_layout hcell
  have hent := IsEntity_layout hcell
  rw [hdate] at hd1
  rw [hty] at hent
  simp only [Option.isSome_some] at hent
  simp only [Json.keys, hdate, hty, hkey, Bool.false_eq_true, if_false] at hT
  have hk := GetIdentifyingKey_layout_ok lib s hcell hsk hkey
  simp only [decodeWith, hd1, hent, Bool.false_eq_true, if_false, if_true, mergeEntityWith, hk]
    at hrun
  have hTf : Targets (keysFields lib s kvs) base
      (base + ((layoutFields kvs base).2.length + 1)) st :=
    fun k' hk' => hT k' (List.mem_cons_of_mem _ hk')
  cases hl : st.identityMap.lookup key with
  | some c =>
    simp only [hl, hcell] at hrun
    split at hrun
    · cases hrun
    rename_i st2 hloop
    simp only [Except.ok.injEq, Prod.mk.injEq] at hrun
    obtain ⟨rfl, rfl⟩ := hrun
    rw [layoutFields_keys] at hloop
    have hc := hT key (List.mem_cons_self _ _) c hl
    obtain ⟨hout, hdst⟩ := mergeFields_sim lib s
      (base + (layoutFields kvs base).2.length) c
      (base + ((layoutFields kvs base).2.length + 1)) kvs base st st2
      (fun p hp => hdec p.2 (tidyFields_mem htf p hp)) hn hsub
      ⟨_, hcell, lookup_of_mem_nodup _ (by rw [layoutFields_keys]; exact hn)⟩
      (Nat.le_refl _) (by omega) (Or.inr hc) hTf hloop
    obtain ⟨added, hea, _⟩ := hout.added
    have hfree : ∀ k' ∈ keysFields lib s kvs, st.identityMap.lookup k' ≠ some c :=
      fun k' hk' hl' => hfresh (hone k' c hl hl' ▸ hk')
    have hread : ∃ fs0, getObj st.heap c = some fs0 := by
      cases kvs with
      | nil => simp [jsonEntityType] at hty
      | cons p rest =>
        obtain ⟨k0, x0⟩ := p
        exact mergeFields_reads lib s (base + (layoutFields ((k0, x0) :: rest) base).2.length) c
          (base + ((layoutFields ((k0, x0) :: rest) base).2.length + 1)) k0 x0 rest base st st2
          (hdec x0 (tidyFields_mem htf (k0, x0) (List.mem_cons_self _ _))) hsub
          ⟨_, hcell, lookup_of_mem_nodup _ (by rw [layoutFields_keys]; exact hn)⟩
          (Nat.le_refl _) (by omega) (Or.inr hc) hTf hfree hloop
    obtain ⟨fs0, hfs0⟩ := hread
    obtain ⟨fs', h1, h2, h3⟩ := hdst fs0 hfs0
    exact ⟨c, st, rfl, by rw [hea]; exact lookup_append_of_some hl, Or.inl ⟨rfl, rfl⟩, fs0, fs',
      hfs0, h1, h2, h3 hfree⟩
  | none =>
    have hl2 : (st.identityMap ++ [(key, base + (layoutFields kvs base).2.length)]).lookup key
        = some (base + (layoutFields kvs base).2.length) := lookup_append_new hl
    simp only [hl, hl2, hcell] at hrun
    split at hrun
    · cases hrun
    rename_i st2 hloop
    simp only [Except.ok.injEq, Prod.mk.injEq] at hrun
    obtain ⟨rfl, rfl⟩ := hrun
    rw [layoutFields_keys] at hloop
    have hfree : ∀ k' ∈ keysFields lib s kvs,
        (st.identityMap ++ [(key, base + (layoutFields kvs base).2.length)]).lookup k'
          ≠ some (base + (layoutFields kvs base).2.length) := by
      intro k' hk' hb
      rcases lookup_append_cases hb with h3 | h3
      · have := hTf k' hk' _ h3
        omega
      · simp only [List.mem_singleton, Prod.mk.injEq] at h3
        exact hfresh (h3.1 ▸ hk')
    have hT2 : Targets (keysFields lib s kvs) base
        (base + ((layoutFields kvs base).2.length + 1))
        { st with identityMap :=
          (st.identityMap ++ [(key, base + (layoutFields kvs base).2.length)]) } := by
      intro k' hk' b hb
      rcases lookup_append_cases hb with h3 | h3
      · exact hTf k' hk' b h3
      · simp only [List.mem_singleton, Prod.mk.injEq] at h3
        exact absurd (h3.1 ▸ hk') hfresh
    obtain ⟨hout, hdst⟩ := mergeFields_sim lib s
      (base + (layoutFields kvs base).2.length) (base + (layoutFields kvs base).2.length)
      (base + ((layoutFields kvs base).2.length + 1)) kvs base
      { st with identityMap :=
        (st.identityMap ++ [(key, base + (layoutFields kvs base).2.length)]) } st2
      (fun p hp => hdec p.2 (tidyFields_mem htf p hp)) hn hsub
      ⟨_, hcell, lookup_of_mem_nodup _ (by rw [layoutFields_keys]; exact hn)⟩
      (Nat.le_refl _) (by omega) (Or.inl rfl) hT2 hloop
    obtain ⟨added, hea, _⟩ := hout.added
    obtain ⟨fs', h1, h2, h3⟩ := hdst _ hcell
    exact ⟨_, _, rfl, by rw [hea]; exact lookup_append_of_some hl2, Or.inr ⟨rfl, rfl, rfl⟩, _, fs',
      hcell, h1, h2, h3 hfree⟩

/-- An entry of the cell of a parsed object comes from an entry of the text, whose
cells the heap holds. -/
theorem layoutFields_mem_holds {h : Heap} : ∀ (kvs : List (String × Json)) (lo : Nat)
    (f : String) (v : Val), Holds h lo (layoutFields kvs lo).2 →
    (f, v) ∈ (layoutFields kvs lo).1 →
    ∃ j b, (f, j) ∈ kvs ∧ v = (layout j b).1 ∧ Holds h b (layout j b).2
  | [], _, _, _, _, hm => by simp [layoutFields] at hm
  | (k, x) :: kvs, lo, f, v, hh, hm => by
    simp only [layoutFields] at hh hm
    rcases List.mem_cons.mp hm with h1 | h1
    · simp only [Prod.mk.injEq] at h1
      obtain ⟨rfl, rfl⟩ := h1
      exact ⟨x, lo, List.mem_cons_self _ _, rfl, hh.left⟩
    · obtain ⟨j, b, h2, h3, h4⟩ := layoutFields_mem_holds kvs _ f v hh.right h1
      exact ⟨j, b, List.mem_cons_of_mem _ h2, h3, h4⟩

theorem mem_nodup_unique {β : Type} {l : List (String × β)} (hn : (l.map Prod.fst).Nodup)
    {f : String} {x y : β} (hx : (f, x) ∈ l) (hy : (f, y) ∈ l) : x = y := by
  have h1 := lookup_of_mem_nodup l hn _ hx
  have h2 := lookup_of_mem_nodup l hn _ hy
  simp only at h1 h2
  rw [h1] at h2
  exact Option.some.inj h2

theorem keysFields_mem {lib : Lib} {s : Session} : ∀ {kvs : List (String × Json)}
    {p : String × Json} {k : String}, p ∈ kvs → k ∈ p.2.keys lib s → k ∈ keysFields lib s kvs
  | [], _, _, hp, _ => by simp at hp
  | (f, x) :: kvs, p, k, hp, hk => by
    simp only [keysFields]
    rcases List.mem_cons.mp hp with h1 | h1
    · subst h1; exact List.mem_append_left _ hk
    · exact List.mem_append_right _ (keysFields_mem h1 hk)

/-- What a field of a freshly built tidy object holds, when the code finds an
identity key for it: an entity of known type, not date-shaped unless `IsDate`
says so, with that key. -/
theorem field_entity {lib : Lib} {s : Session} {h : Heap} {kvs : List (String × Json)}
    {base : Nat} {f ke : String}
    (htf : tidyFields lib s kvs = true)
    (hsub : Holds h base (layoutFields kvs base).2)
    (hcell : getObj h (base + (layoutFields kvs base).2.length) = some (layoutFields kvs base).1)
    (hd : IsDate h (index h (.map (base + (layoutFields kvs base).2.length)) f) = false)
    (hk : GetIdentifyingKey lib s h
      (index h (.map (base + (layoutFields kvs base).2.length)) f) = .ok ke) :
    ∃ kvs', (f, Json.obj kvs') ∈ kvs ∧ jsonIsDate kvs' = false ∧
      jsonKey lib s kvs' = some ke := by
  obtain ⟨ax, hax, _⟩ := GetIdentifyingKey_ok_map hk
  rw [hax] at hd hk
  simp only [index, hcell] at hax
  have hl : (layoutFields kvs base).1.lookup f = some (.map ax) := by
    cases hlk : (layoutFields kvs base).1.lookup f with
    | none => rw [hlk] at hax; cases hax
    | some v => rw [hlk] at hax; simp only [Option.getD_some] at hax; rw [hax]
  obtain ⟨j, b, hj, hv, hhj⟩ := layoutFields_mem_holds kvs base f _ hsub (lookup_mem hl)
  have htj := tidyFields_mem htf (f, j) hj
  cases j with
  | obj kvs' =>
    obtain ⟨_, hc'⟩ := holds_obj (tidy_nodup htj) hhj
    rw [layout_obj_nodup kvs' b (tidy_nodup htj)] at hv
    simp only [Val.map.injEq] at hv
    subst hv
    have hd' : jsonIsDate kvs' = false := by rw [← IsDate_layout hc']; exact hd
    exact ⟨kvs', hj, hd', jsonKey_of_ok hc' htj hd' hk⟩
  | null => simp [layout] at hv
  | bool _ => simp [layout] at hv
  | num _ _ => simp [layout] at hv
  | str _ => simp [layout] at hv
  | arr _ => simp [layout] at hv

/-- An identity map that points below `lo` binds every key outside the cells from
`lo` on. -/
theorem targets_of_scope {ks : List String} {lo hiP : Nat} {st : State}
    (h : ∀ k (b : Nat), st.identityMap.lookup k = some b → b < lo) : Targets ks lo hiP st :=
  fun k _ b hb => Or.inl (h k b hb)

/-! ## Operations, error responses and identity keys -/

theorem fillEntityData_lookup (T : String) (d : List (String × Val))
    (hd : (d.map Prod.fst).Nodup) :
    (fillEntityData T d).lookup EntityTypeKey = some ((d.lookup EntityTypeKey).getD (.str T)) ∧
    (∀ k, k ≠ EntityTypeKey → (fillEntityData T d).lookup k = d.lookup k) := by
  have hf : d.foldl (fun acc p => setField p.1 p.2 acc) [] = d := by
    rw [foldl_setField_nodup d [] hd (by simp)]; simp
  unfold fillEntityData
  simp only [hf]
  cases hl : d.lookup EntityTypeKey with
  | some v => exact ⟨by simp [hl], fun _ _ => rfl⟩
  | none =>
    refine ⟨by simpa using lookup_setField_self EntityTypeKey (.str T) d, ?_⟩
    intro k hk
    exact lookup_setField_ne _ _ hk

/-- `Call` on a response that is an object: the error `getServerError` makes of it. -/
theorem Call_object (lib : Lib) (s : Session) (n : Nat) (ops : List Operation) (raw : String)
    (kvs : List (String × Json)) (h : Heap) :
    Call lib s n ops (.ok ⟨raw, some (.obj kvs)⟩) h
      = .error (getServerError (valueBytes raw) (.obj kvs)) := rfl

theorem foldl_key_data (vs : List String) : ∀ (t : String),
    (vs.foldl (fun key v => key ++ "," ++ v) t).data = t.data ++ tailChars vs := by
  induction vs with
  | nil => intro t; simp [tailChars]
  | cons v vs ih =>
    intro t
    have hs : ",".data = [sepChar] := by decide
    rw [List.foldl_cons, ih, String.data_append, String.data_append, hs]
    simp [tailChars]

/-- Two texts that start with a part without comma and go on with a comma agree on
the part and on what follows. -/
theorem split_at_comma : ∀ (a b r r' : List Char), sepChar ∉ a → sepChar ∉ b →
    a ++ sepChar :: r = b ++ sepChar :: r' → a = b ∧ r = r'
  | [], [], _, _, _, _, h => by simpa using h
  | [], c :: b, _, _, _, hb, h => by
    simp only [List.nil_append, List.cons_append, List.cons.injEq] at h
    exact absurd (h.1 ▸ List.mem_cons_self _ _) hb
  | c :: a, [], _, _, ha, _, h => by
    simp only [List.nil_append, List.cons_append, List.cons.injEq] at h
    exact absurd (h.1 ▸ List.mem_cons_self _ _) ha
  | c :: a, d :: b, r, r', ha, hb, h => by
    simp only [List.cons_append, List.cons.injEq] at h
    obtain ⟨h1, h2⟩ := split_at_comma a b r r'
      (fun hm => ha (List.mem_cons_of_mem _ hm)) (fun hm => hb (List.mem_cons_of_mem _ hm)) h.2
    exact ⟨by rw [h.1, h1], h2⟩

/-- The parts of a key can be read off the key when none of them has a comma. -/
theorem key_parts_unique : ∀ (vs vs' : List String) (t t' : String),
    commaFree t → commaFree t' → (∀ v ∈ vs, commaFree v) → (∀ v ∈ vs', commaFree v) →
    t.data ++ tailChars vs = t'.data ++ tailChars vs' → t = t' ∧ vs = vs'
  | [], [], t, t', _, _, _, _, h => by
    simp only [tailChars, List.append_nil] at h
    exact ⟨String.ext h, rfl⟩
  | [], v' :: vs', t, t', ht, _, _, _, h => by
    simp only [tailChars, List.append_nil] at h
    exact absurd (by rw [h]; simp) ht
  | v :: vs, [], t, t', _, ht', _, _, h => by
    simp only [tailChars, List.append_nil] at h
    exact absurd (by rw [← h]; simp) ht'
  | v :: vs, v' :: vs', t, t', ht, ht', hv, hv', h => by
    simp only [tailChars] at h
    obtain ⟨h1, h2⟩ := split_at_comma _ _ _ _ ht ht' h
    obtain ⟨h3, h4⟩ := key_parts_unique vs vs' v v' (hv v (List.mem_cons_self _ _))
      (hv' v' (List.mem_cons_self _ _)) (fun x hx => hv x (List.mem_cons_of_mem _ hx))
      (fun x hx => hv' x (List.mem_cons_of_mem _ hx)) h2
    exact ⟨String.ext h1, by rw [h3, h4]⟩

/-- The identity key of an entity whose type is `t` with the primary keys `pks`. -/
theorem GetIdentifyingKey_eq {lib : Lib} {s : Session} {h : Heap} {e : Val} {t key : String}
    {pks : List String}
    (ht : GetEntityType h e = .ok t) (hp : GetPrimaryKeyAttributes s t = some pks)
    (hk : GetIdentifyingKey lib s h e = .ok key) :
    key = (pks.map (fun pk => sprintS lib h (index h e pk))).foldl
      (fun key v => key ++ "," ++ v) t := by
  simp only [GetIdentifyingKey, ht, hp, Except.ok.injEq] at hk
  rw [← hk, List.foldl_map]

/-! ## URLs -/

theorem foldl_snoc_map {α β : Type} (f : α → β) : ∀ (xs : List α) (acc : List β),
    xs.foldl (fun parts p => parts ++ [f p]) acc = acc ++ xs.map f
  | [], acc => by simp
  | x :: xs, acc => by simp [foldl_snoc_map f xs]

theorem intercalate_go_foldl (sep : String) : ∀ (rest : List String) (acc : String),
    String.intercalate.go acc sep rest = rest.foldl (fun acc s => acc ++ sep ++ s) acc
  | [], _ => rfl
  | a :: rest, acc => by
    simp only [String.intercalate.go, List.foldl_cons]
    exact intercalate_go_foldl sep rest _

theorem stringsJoin_intercalate (elems : List String) (sep : String) :
    stringsJoin elems sep = sep.intercalate elems := by
  cases elems with
  | nil => rfl
  | cons a rest =>
    simp only [stringsJoin, String.intercalate]
    exact (intercalate_go_foldl sep rest a).symm

/-! ## A larger budget, and a value on which no budget is enough -/

theorem decodeElems_mono {dec dec' : Dec} (hle : DecLe dec dec') (typed : Bool) (a : Nat) :
    ∀ m i st st', decodeElems dec typed a m i st = .ok st' →
      decodeElems dec' typed a m i st = .ok st' := by
  intro m
  induction m with
  | zero => intro i st st' h; simpa [decodeElems] using h
  | succ m ih =>
    intro i st st' h
    simp only [decodeElems] at h ⊢
    split at h
    · cases h
    rename_i xs hxs
    split at h
    · cases h
    rename_i x hx
    split at h
    · cases h
    rename_i r st1 hd
    simp only [hle _ _ _ hd]
    split at h
    · rename_i hass
      simp only [hass, if_true]
      exact ih _ _ _ h
    · cases h

theorem decodeFields_mono {dec dec' : Dec} (hle : DecLe dec dec') (a : Nat) :
    ∀ ks st st', decodeFields dec a ks st = .ok st' → decodeFields dec' a ks st = .ok st' := by
  intro ks
  induction ks with
  | nil => intro st st' h; simpa [decodeFields] using h
  | cons k ks ih =>
    intro st st' h
    simp only [decodeFields] at h ⊢
    split at h
    · cases h
    rename_i kvs hk
    split at h
    · exact ih _ _ h
    rename_i v hv
    split at h
    · cases h
    rename_i r st1 hd
    simp only [hle _ _ _ hd]
    exact ih _ _ h

theorem mergeFields_mono {dec dec' : Dec} (hle : DecLe dec dec') (src dst : Nat) :
    ∀ ks st st', mergeFields dec src dst ks st = .ok st' →
      mergeFields dec' src dst ks st = .ok st' := by
  intro ks
  induction ks with
  | nil => intro st st' h; simpa [mergeFields] using h
  | cons k ks ih =>
    intro st st' h
    simp only [mergeFields] at h ⊢
    split at h
    · cases h
    rename_i kvs hk
    split at h
    · exact ih _ _ h
    rename_i v hv
    split at h
    · cases h
    rename_i r st1 hd
    simp only [hle _ _ _ hd]
    split at h
    · cases h
    rename_i fs hfs
    exact ih _ _ h

theorem decodeWith_mono (lib : Lib) (s : Session) {dec dec' : Dec} (hle : DecLe dec dec') :
    DecLe (decodeWith lib s dec) (decodeWith lib s dec') := by
  intro v st r h
  cases v with
  | slice typed a =>
    simp only [decodeWith] at h ⊢
    split at h
    · cases h
    split at h
    · cases h
    rename_i st' hl
    rw [decodeElems_mono hle _ _ _ _ _ _ hl]
    exact h
  | map a =>
    simp only [decodeWith] at h ⊢
    cases hd : IsDate st.heap (.map a) with
    | true =>
      simp only [hd, if_true] at h ⊢
      exact h
    | false =>
      simp only [hd, Bool.false_eq_true, if_false] at h ⊢
      cases he : IsEntity st.heap (.map a) with
      | true =>
        simp only [he, if_true, mergeEntityWith] at h ⊢
        cases hk : GetIdentifyingKey lib s st.heap (.map a) with
        | error e =>
          simp only [hk] at h ⊢
          exact h
        | ok key =>
          simp only [hk] at h ⊢
          split at h
          · rename_i merged kvs hl ho
            split at h
            · cases h
            rename_i st' hm
            rw [mergeFields_mono hle _ _ _ _ _ hm]
            exact h
          · cases h
      | false =>
        simp only [he, Bool.false_eq_true, if_false] at h ⊢
        split at h
        · cases h
        rename_i kvs hk
        split at h
        · cases h
        rename_i st' hf
        simp only [decodeFields_mono hle _ _ _ _ hf]
        exact h
  | null => exact h
  | bool _ => exact h
  | num _ _ => exact h
  | str _ => exact h
  | moment _ _ => exact h
  | nilSlice => exact h
  | nilMap => exact h

/-- A larger budget keeps every result. -/
theorem Decode_fuel_le (lib : Lib) (s : Session) :
    ∀ (n k : Nat), DecLe (Decode lib s n) (Decode lib s (n + k)) := by
  intro n
  induction n with
  | zero => intro k v st r h; simp [Decode] at h
  | succ n ih =>
    intro k
    have : n + 1 + k = (n + k) + 1 := by omega
    rw [this]
    exact decodeWith_mono lib s (ih k)

/-- The loop of `mergeEntity` at an entry whose value is decoded. -/
theorem mergeFields_cons_ok {dec : Dec} {src dst : Nat} {k : String} {ks : List String}
    {st st1 : State} {kvs fs : List (String × Val)} {v r : Val} (st2 : State)
    (hobj : getObj st.heap src = some kvs) (hv : kvs.lookup k = some v)
    (hd : dec v st = .ok (r, st1)) (hfs : getObj st1.heap dst = some fs)
    (hst : st2 = { st1 with heap := (st1.heap.set dst (.obj (setField k r fs))) }) :
    mergeFields dec src dst (k :: ks) st = mergeFields dec src dst ks st2 := by
  simp only [mergeFields, hobj, hv, hd, hfs, hst]

/-- The loop of `mergeEntity` at an entry whose value is not decoded. -/
theorem mergeFields_cons_error {dec : Dec} {src dst : Nat} {k : String} {ks : List String}
    {st : State} {kvs : List (String × Val)} {v : Val} {e : Err}
    (hobj : getObj st.heap src = some kvs) (hv : kvs.lookup k = some v)
    (hd : dec v st = .error e) :
    mergeFields dec src dst (k :: ks) st = .error e := by
  simp only [mergeFields, hobj, hv, hd]

/-- `Decode` on an entity whose key is bound, when the loop of `mergeEntity` fails. -/
theorem decodeWith_bound_error {lib : Lib} {s : Session} {dec : Dec} {a c : Nat} {st : State}
    {key : String} {kvs : List (String × Val)} {e : Err}
    (hd : IsDate st.heap (.map a) = false) (he : IsEntity st.heap (.map a) = true)
    (hk : GetIdentifyingKey lib s st.heap (.map a) = .ok key)
    (hl : st.identityMap.lookup key = some c) (ho : getObj st.heap a = some kvs)
    (hm : mergeFields dec a c (kvs.map Prod.fst) st = .error e) :
    decodeWith lib s dec (.map a) st = .error e := by
  simp only [decodeWith, hd, he, Bool.false_eq_true, if_false, if_true, mergeEntityWith, hk, hl,
    ho]
  rw [show ({ heap := st.heap, identityMap := st.identityMap } : State) = st from rfl, hm]

/-- `Decode` on an entity whose key is not bound, when the loop of `mergeEntity`
fails. -/
theorem decodeWith_new_error {lib : Lib} {s : Session} {dec : Dec} {a : Nat} {st : State}
    {key : String} {kvs : List (String × Val)} {e : Err}
    (hd : IsDate st.heap (.map a) = false) (he : IsEntity st.heap (.map a) = true)
    (hk : GetIdentifyingKey lib s st.heap (.map a) = .ok key)
    (hl : st.identityMap.lookup key = none) (ho : getObj st.heap a = some kvs)
    (hm : mergeFields dec a a (kvs.map Prod.fst) ⟨st.heap, st.identityMap ++ [(key, a)]⟩
      = .error e) :
    decodeWith lib s dec (.map a) st = .error e := by
  simp only [decodeWith, hd, he, Bool.false_eq_true, if_false, if_true, mergeEntityWith, hk, hl,
    ho, lookup_append_new hl, hm]

theorem Decode_succ_str (lib : Lib) (s : Session) (n : Nat) (t : String) (st : State) :
    Decode lib s (n + 1) (.str t) st = .ok (.str t, st) := rfl

/-- One level of `Decode` on the knot, the outer `Task` whose fields `a` and `b` hold
the `Task` itself: it fails as the recursive call on the field `a` does. -/
theorem knot_step (dec : Dec)
    (h1 : dec (.str "Task") (loopState (.map 4) (.map 4))
      = .ok (.str "Task", loopState (.map 4) (.map 4)))
    (h2 : dec (.str "t1") (loopState (.map 4) (.map 4))
      = .ok (.str "t1", loopState (.map 4) (.map 4)))
    (h3 : dec (.map 4) (loopState (.map 4) (.map 4)) = .error .fuel) :
    decodeWith libFix sessionFix dec (.map 4) (loopState (.map 4) (.map 4)) = .error .fuel := by
  have ho : getObj (loopState (.map 4) (.map 4)).heap 4 = some (loopFields (.map 4) (.map 4)) := by
    decide!
  refine decodeWith_bound_error (by decide!) (by decide!)
    (show GetIdentifyingKey libFix sessionFix _ _ = .ok "Task,t1" by decide!)
    (show _ = some 4 by decide!) ho ?_
  show mergeFields dec 4 4 ["__entity_type__", "id", "a", "b"] _ = _
  rw [mergeFields_cons_ok (loopState (.map 4) (.map 4)) ho (by decide!) h1 ho (by decide!),
    mergeFields_cons_ok (loopState (.map 4) (.map 4)) ho (by decide!) h2 ho (by decide!)]
  exact mergeFields_cons_error ho (show _ = some (.map 4) by decide!) h3

/-- On the knot `Decode` returns with no budget. -/
theorem Decode_knot : ∀ n,
    Decode libFix sessionFix n (.map 4) (loopState (.map 4) (.map 4)) = .error .fuel
  | 0 => rfl
  | 1 => by decide!
  | n + 2 => knot_step (Decode libFix sessionFix (n + 1)) (Decode_succ_str _ _ _ _ _)
      (Decode_succ_str _ _ _ _ _) (Decode_knot (n + 1))

/-- One level of `Decode` on the parsed `loopFix`: the field `a` is decoded, which
ties the knot, and the call on the field `b` fails. -/
theorem start_step (dec : Dec)
    (h1 : dec (.str "Task") (loopState (.map 1) (.map 3))
      = .ok (.str "Task", loopState (.map 1) (.map 3)))
    (h2 : dec (.str "t1") (loopState (.map 1) (.map 3))
      = .ok (.str "t1", loopState (.map 1) (.map 3)))
    (h3 : dec (.map 1) (loopState (.map 1) (.map 3))
      = .ok (.map 4, loopState (.map 1) (.map 4)))
    (h4 : dec (.map 4) (loopState (.map 4) (.map 4)) = .error .fuel) :
    decodeWith libFix sessionFix dec (alloc loopFix []).1 ⟨(alloc loopFix []).2, []⟩
      = .error .fuel := by
  have ho : getObj (loopState (.map 1) (.map 3)).heap 4 = some (loopFields (.map 1) (.map 3)) := by
    decide!
  have ho1 : getObj (loopState (.map 1) (.map 4)).heap 4
      = some (loopFields (.map 1) (.map 4)) := by decide!
  have ho2 : getObj (loopState (.map 4) (.map 4)).heap 4
      = some (loopFields (.map 4) (.map 4)) := by decide!
  have hv : (alloc loopFix []).1 = .map 4 := by decide!
  rw [hv]
  refine decodeWith_new_error (by decide!) (by decide!)
    (show GetIdentifyingKey libFix sessionFix _ _ = .ok "Task,t1" by decide!)
    (by decide!) (show _ = some (loopFields (.map 1) (.map 3)) by decide!) ?_
  show mergeFields dec 4 4 ["__entity_type__", "id", "a", "b"] (loopState (.map 1) (.map 3)) = _
  rw [mergeFields_cons_ok (loopState (.map 1) (.map 3)) ho (by decide!) h1 ho (by decide!),
    mergeFields_cons_ok (loopState (.map 1) (.map 3)) ho (by decide!) h2 ho (by decide!),
    mergeFields_cons_ok (loopState (.map 4) (.map 4)) ho (show _ = some (.map 1) by decide!) h3
      ho1 (by decide!)]
  exact mergeFields_cons_error ho2 (show _ = some (.map 4) by decide!) h4

/-- No budget lets `Decode` return on the parsed `loopFix`. -/
theorem Decode_loopFix : ∀ n,
    Decode libFix sessionFix n (alloc loopFix []).1 ⟨(alloc loopFix []).2, []⟩ = .error .fuel
  | 0 => rfl
  | 1 => by decide!
  | 2 => by decide!
  | 3 => by decide!
  | n + 4 =>
    start_step (Decode libFix sessionFix (n + 3)) (Decode_succ_str _ _ _ _ _)
      (Decode_succ_str _ _ _ _ _)
      (by
        have h := Decode_fuel_le libFix sessionFix 3 n (.map 1) (loopState (.map 1) (.map 3))
          (.map 4, loopState (.map 1) (.map 4)) (by decide!)
        rw [show n + 3 = 3 + n by omega]
        exact h)
      (Decode_knot (n + 3))

theorem knotLate_step (dec : Dec)
    (h1 : dec (.str "Task") (loopLateState (.map 4) (.map 4))
      = .ok (.str "Task", loopLateState (.map 4) (.map 4)))
    (h2 : dec (.str "t1") (loopLateState (.map 4) (.map 4))
      = .ok (.str "t1", loopLateState (.map 4) (.map 4)))
    (h3 : dec (.map 4) (loopLateState (.map 4) (.map 4)) = .error .fuel) :
    decodeWith libFix sessionFix dec (.map 4) (loopLateState (.map 4) (.map 4))
      = .error .fuel := by
  have ho : getObj (loopLateState (.map 4) (.map 4)).heap 4
      = some (loopLateFields (.map 4) (.map 4)) := by decide!
  refine decodeWith_bound_error (by decide!) (by decide!)
    (show GetIdentifyingKey libFix sessionFix _ _ = .ok "Task,t1" by decide!)
    (show _ = some 4 by decide!) ho ?_
  show mergeFields dec 4 4 ["__entity_type__", "id", "b", "a"] _ = _
  rw [mergeFields_cons_ok (loopLateState (.map 4) (.map 4)) ho (by decide!) h1 ho (by decide!),
    mergeFields_cons_ok (loopLateState (.map 4) (.map 4)) ho (by decide!) h2 ho (by decide!)]
  exact mergeFields_cons_error ho (show _ = some (.map 4) by decide!) h3

theorem Decode_knotLate : ∀ n,
    Decode libFix sessionFix n (.map 4) (loopLateState (.map 4) (.map 4)) = .error .fuel
  | 0 => rfl
  | 1 => by decide!
  | n + 2 => knotLate_step (Decode libFix sessionFix (n + 1)) (Decode_succ_str _ _ _ _ _)
      (Decode_succ_str _ _ _ _ _) (Decode_knotLate (n + 1))

theorem startLate_step (dec : Dec)
    (h1 : dec (.str "Task") (loopLateState (.map 1) (.map 3))
      = .ok (.str "Task", loopLateState (.map 1) (.map 3)))
    (h2 : dec (.str "t1") (loopLateState (.map 1) (.map 3))
      = .ok (.str "t1", loopLateState (.map 1) (.map 3)))
    (h3 : dec (.map 1) (loopLateState (.map 1) (.map 3))
      = .ok (.map 4, loopLateState (.map 1) (.map 4)))
    (h4 : dec (.map 4) (loopLateState (.map 4) (.map 4)) = .error .fuel) :
    decodeWith libFix sessionFix dec (alloc loopLateFix []).1 ⟨(alloc loopLateFix []).2, []⟩
      = .error .fuel := by
  have ho : getObj (loopLateState (.map 1) (.map 3)).heap 4
      = some (loopLateFields (.map 1) (.map 3)) := by decide!
  have ho1 : getObj (loopLateState (.map 1) (.map 4)).heap 4
      = some (loopLateFields (.map 1) (.map 4)) := by decide!
  have ho2 : getObj (loopLateState (.map 4) (.map 4)).heap 4
      = some (loopLateFields (.map 4) (.map 4)) := by decide!
  have hv : (alloc loopLateFix []).1 = .map 4 := by decide!
  rw [hv]
  refine decodeWith_new_error (by decide!) (by decide!)
    (show GetIdentifyingKey libFix sessionFix _ _ = .ok "Task,t1" by decide!)
    (by decide!) (show _ = some (loopLateFields (.map 1) (.map 3)) by decide!) ?_
  show mergeFields dec 4 4 ["__entity_type__", "id", "b", "a"]
    (loopLateState (.map 1) (.map 3)) = _
  rw [mergeFields_cons_ok (loopLateState (.map 1) (.map 3)) ho (by decide!) h1 ho (by decide!),
    mergeFields_cons_ok (loopLateState (.map 1) (.map 3)) ho (by decide!) h2 ho (by decide!),
    mergeFields_cons_ok (loopLateState (.map 4) (.map 4)) ho (show _ = some (.map 1) by decide!)
      h3 ho1 (by decide!)]
  exact mergeFields_cons_error ho2 (show _ = some (.map 4) by decide!) h4

/-- No budget lets `Decode` return on the parsed `loopLateFix`. -/
theorem Decode_loopLateFix : ∀ n,
    Decode libFix sessionFix n (alloc loopLateFix []).1 ⟨(alloc loopLateFix []).2, []⟩
      = .error .fuel
  | 0 => rfl
  | 1 => by decide!
  | 2 => by decide!
  | 3 => by decide!
  | n + 4 =>
    startLate_step (Decode libFix sessionFix (n + 3)) (Decode_succ_str _ _ _ _ _)
      (Decode_succ_str _ _ _ _ _)
      (by
        have h := Decode_fuel_le libFix sessionFix 3 n (.map 1)
          (loopLateState (.map 1) (.map 3)) (.map 4, loopLateState (.map 1) (.map 4))
          (by decide!)
        rw [show n + 3 = 3 + n by omega]
        exact h)
      (Decode_knotLate (n + 3))

/-! ## Results that `Decode` produces on a freshly built value -/

mutual
theorem cells_keys (lib : Lib) (s : Session) : ∀ (j : Json) (lo : Nat),
    (j.cells lib s lo).map Prod.fst = j.keys lib s
  | .null, _ => by simp [Json.cells, Json.keys]
  | .bool _, _ => by simp [Json.cells, Json.keys]
  | .num _ _, _ => by simp [Json.cells, Json.keys]
  | .str _, _ => by simp [Json.cells, Json.keys]
  | .arr xs, lo => by simp only [Json.cells, Json.keys]; exact cellsList_keys lib s xs lo
  | .obj kvs, lo => by
    simp only [Json.cells, Json.keys]
    split
    · rfl
    · split
      · exact cellsFields_keys lib s kvs lo
      · split
        · rfl
        · simp only [List.map_cons, cellsFields_keys lib s kvs lo]
theorem cellsList_keys (lib : Lib) (s : Session) : ∀ (xs : List Json) (lo : Nat),
    (cellsList lib s xs lo).map Prod.fst = keysList lib s xs
  | [], _ => rfl
  | x :: xs, lo => by
    simp only [cellsList, keysList, List.map_append, cells_keys lib s x lo,
      cellsList_keys lib s xs]
theorem cellsFields_keys (lib : Lib) (s : Session) : ∀ (kvs : List (String × Json)) (lo : Nat),
    (cellsFields lib s kvs lo).map Prod.fst = keysFields lib s kvs
  | [], _ => rfl
  | (_, x) :: kvs, lo => by
    simp only [cellsFields, keysFields, List.map_append, cells_keys lib s x lo,
      cellsFields_keys lib s kvs]
end

theorem layout_arr_length (xs : List Json) (lo : Nat) :
    (layout (.arr xs) lo).2.length = (layoutList xs lo).2.length + 1 := by
  simp [layout]

theorem layout_obj_length (kvs : List (String × Json)) (lo : Nat) :
    (layout (.obj kvs) lo).2.length = (layoutFields kvs lo).2.length + 1 := by
  simp [layout]

mutual
theorem cells_region (lib : Lib) (s : Session) : ∀ (j : Json) (lo : Nat),
    ∀ p ∈ j.cells lib s lo, lo ≤ p.2 ∧ p.2 < lo + (layout j lo).2.length
  | .null, _ => by simp [Json.cells]
  | .bool _, _ => by simp [Json.cells]
  | .num _ _, _ => by simp [Json.cells]
  | .str _, _ => by simp [Json.cells]
  | .arr xs, lo => by
    intro p hp
    simp only [Json.cells] at hp
    have := cellsList_region lib s xs lo p hp
    rw [layout_arr_length]
    omega
  | .obj kvs, lo => by
    intro p hp
    rw [layout_obj_length]
    simp only [Json.cells] at hp
    split at hp
    · simp at hp
    · split at hp
      · have := cellsFields_region lib s kvs lo p hp
        omega
      · split at hp
        · simp at hp
        · rcases List.mem_cons.mp hp with h1 | h1
          · subst h1
            simp only
            omega
          · have := cellsFields_region lib s kvs lo p h1
            omega
theorem cellsList_region (lib : Lib) (s : Session) : ∀ (xs : List Json) (lo : Nat),
    ∀ p ∈ cellsList lib s xs lo, lo ≤ p.2 ∧ p.2 < lo + (layoutList xs lo).2.length
  | [], _ => by simp [cellsList]
  | x :: xs, lo => by
    intro p hp
    simp only [cellsList, List.mem_append] at hp
    simp only [layoutList, List.length_append]
    rcases hp with h1 | h1
    · have := cells_region lib s x lo p h1
      omega
    · have := cellsList_region lib s xs _ p h1
      omega
theorem cellsFields_region (lib : Lib) (s : Session) : ∀ (kvs : List (String × Json)) (lo : Nat),
    ∀ p ∈ cellsFields lib s kvs lo, lo ≤ p.2 ∧ p.2 < lo + (layoutFields kvs lo).2.length
  | [], _ => by simp [cellsFields]
  | (_, x) :: kvs, lo => by
    intro p hp
    simp only [cellsFields, List.mem_append] at hp
    simp only [layoutFields, List.length_append]
    rcases hp with h1 | h1
    · have := cells_region lib s x lo p h1
      omega
    · have := cellsFields_region lib s kvs _ p h1
      omega
end

theorem cells_mem_keys {lib : Lib} {s : Session} {j : Json} {lo : Nat} {p : String × Nat}
    (hp : p ∈ j.cells lib s lo) : p.1 ∈ j.keys lib s := by
  rw [← cells_keys lib s j lo]
  exact List.mem_map_of_mem _ hp

theorem cellsList_mem_keys {lib : Lib} {s : Session} {xs : List Json} {lo : Nat}
    {p : String × Nat} (hp : p ∈ cellsList lib s xs lo) : p.1 ∈ keysList lib s xs := by
  rw [← cellsList_keys lib s xs lo]
  exact List.mem_map_of_mem _ hp

theorem cellsFields_mem_keys {lib : Lib} {s : Session} {kvs : List (String × Json)} {lo : Nat}
    {p : String × Nat} (hp : p ∈ cellsFields lib s kvs lo) : p.1 ∈ keysFields lib s kvs := by
  rw [← cellsFields_keys lib s kvs lo]
  exact List.mem_map_of_mem _ hp

theorem keysList_mem {lib : Lib} {s : Session} : ∀ {xs : List Json} {x : Json} {k : String},
    x ∈ xs → k ∈ x.keys lib s → k ∈ keysList lib s xs
  | [], _, _, hx, _ => by simp at hx
  | y :: ys, x, k, hx, hk => by
    simp only [keysList]
    rcases List.mem_cons.mp hx with h1 | h1
    · subst h1; exact List.mem_append_left _ hk
    · exact List.mem_append_right _ (keysList_mem h1 hk)

theorem mem_of_getElem? {α : Type} : ∀ {xs : List α} {i : Nat} {x : α},
    xs[i]? = some x → x ∈ xs
  | [], _, _, h => by simp at h
  | y :: ys, 0, x, h => by
    simp only [List.getElem?_cons_zero, Option.some.injEq] at h
    subst h; exact List.mem_cons_self _ _
  | y :: ys, i + 1, x, h => by
    simp only [List.getElem?_cons_succ] at h
    exact List.mem_cons_of_mem _ (mem_of_getElem? h)

theorem passed_subset (lib : Lib) (s : Session) : ∀ (p : List Step) (x : Json),
    ∀ kh ∈ passed lib s p x, kh ∈ x.keys lib s
  | [], _ => by simp [passed]
  | .idx i :: p, x => by
    intro kh hk
    cases x with
    | arr xs =>
      simp only [passed] at hk
      split at hk
      · rename_i y hy
        simp only [Json.keys]
        exact keysList_mem (mem_of_getElem? hy) (passed_subset lib s p y kh hk)
      · simp at hk
    | null => simp [passed] at hk
    | bool _ => simp [passed] at hk
    | num _ _ => simp [passed] at hk
    | str _ => simp [passed] at hk
    | obj _ => simp [passed] at hk
  | .fld f :: p, x => by
    intro kh hk
    cases x with
    | obj kvs =>
      simp only [passed] at hk
      simp only [Json.keys]
      split at hk
      · simp at hk
      · rename_i hd
        simp only [hd, if_false]
        split at hk
        · rename_i hty
          try simp only [hty]
          split at hk
          · rename_i y hy
            exact keysFields_mem (lookup_mem hy) (passed_subset lib s p y kh hk)
          · simp at hk
        · rename_i t hty
          try simp only [hty]
          split at hk
          · simp at hk
          · rename_i k hkey
            try simp only [hkey]
            split at hk
            · rename_i y hy
              rcases List.mem_cons.mp hk with h1 | h1
              · subst h1; exact List.mem_cons_self _ _
              · exact List.mem_cons_of_mem _
                  (keysFields_mem (lookup_mem hy) (passed_subset lib s p y kh h1))
            · simp at hk
    | null => simp [passed] at hk
    | bool _ => simp [passed] at hk
    | num _ _ => simp [passed] at hk
    | str _ => simp [passed] at hk
    | arr _ => simp [passed] at hk

/-! ### Walks -/

theorem Walk.mono {P Q : Nat → Prop} {h h' : Heap} :
    ∀ {p : List Step} {v w : Val}, Walk P h p v w →
      (∀ (a : Nat), P a → Q a ∧ h'[a]? = h[a]?) → Walk Q h' p v w
  | [], _, _, hw, _ => hw
  | .idx i :: p, v, w, hw, hpq => by
    obtain ⟨typed, a, xs, x, hv, hp, harr, hx, hrest⟩ := hw
    refine ⟨typed, a, xs, x, hv, (hpq a hp).1, ?_, hx, hrest.mono hpq⟩
    rw [getArr_eq_some, (hpq a hp).2]
    exact getArr_eq_some.mp harr
  | .fld f :: p, v, w, hw, hpq => by
    obtain ⟨a, fs, x, hv, hp, hobj, hx, hrest⟩ := hw
    refine ⟨a, fs, x, hv, (hpq a hp).1, ?_, hx, hrest.mono hpq⟩
    rw [getObj_eq_some, (hpq a hp).2]
    exact getObj_eq_some.mp hobj

theorem Walk.nonnull {P : Nat → Prop} {h : Heap} {p : List Step} {v : Val} {c : Nat}
    (hw : Walk P h p v (.map c)) : v ≠ .null := by
  cases p with
  | nil => simp only [Walk] at hw; rw [hw]; simp
  | cons st p =>
    cases st with
    | idx i =>
      obtain ⟨typed, a, xs, x, hv, _⟩ := hw
      rw [hv]; simp
    | fld f =>
      obtain ⟨a, fs, x, hv, _⟩ := hw
      rw [hv]; simp

theorem Walk.follow {P : Nat → Prop} {h : Heap} :
    ∀ {p : List Step} {v w : Val}, Walk P h p v w → follow h p v = some w
  | [], _, _, hw => by simp only [Walk] at hw; simp [Ftrack.follow, hw]
  | .idx i :: p, v, w, hw => by
    obtain ⟨typed, a, xs, x, hv, _, harr, hx, hrest⟩ := hw
    subst hv
    simp only [Ftrack.follow, harr, hx]
    exact hrest.follow
  | .fld f :: p, v, w, hw => by
    obtain ⟨a, fs, x, hv, _, hobj, hx, hrest⟩ := hw
    subst hv
    simp only [Ftrack.follow, hobj, hx]
    exact hrest.follow

/-! ### The identity map points at maps -/

theorem StateOK.set_obj {st : State} (hok : StateOK st) (a : Nat) (fs : List (String × Val)) :
    StateOK { st with heap := st.heap.set a (.obj fs) } := by
  intro p hp
  have := hok p hp
  by_cases hpa : p.2 = a
  · rw [Option.isSome_iff_exists] at this
    obtain ⟨kvs, hk⟩ := this
    have hlt : a < st.heap.length := hpa ▸ lt_length_of_getElem? (getObj_eq_some.mp hk)
    rw [hpa]
    simp only [getObj, List.getElem?_set_self hlt]
    rfl
  · simp only [getObj, List.getElem?_set_ne (fun e => hpa e.symm)]
    exact this

theorem StateOK.set_arr {st : State} (hok : StateOK st) {a : Nat} {xs : List Val}
    (harr : getArr st.heap a = some xs) (ys : List Val) :
    StateOK { st with heap := st.heap.set a (.arr ys) } := by
  intro p hp
  have := hok p hp
  by_cases hpa : p.2 = a
  · rw [hpa] at this
    simp only [getObj, getArr_eq_some.mp harr] at this
    cases this
  · simp only [getObj, List.getElem?_set_ne (fun e => hpa e.symm)]
    exact this

theorem StateOK.register {st : State} (hok : StateOK st) {k : String} {a : Nat}
    {fs : List (String × Val)} (hobj : getObj st.heap a = some fs) :
    StateOK { st with identityMap := st.identityMap ++ [(k, a)] } := by
  intro p hp
  rcases List.mem_append.mp hp with h1 | h1
  · exact hok p h1
  · simp only [List.mem_singleton] at h1
    subst h1
    simp only [hobj]
    rfl

/-! ### Places kept by the rest of a loop -/

theorem count_one_left {ks1 ks2 : List String} {k : String}
    (hc : (ks1 ++ ks2).count k = 1) (hk : k ∈ ks1) : ks1.count k = 1 ∧ k ∉ ks2 := by
  rw [List.count_append] at hc
  have h1 : 0 < ks1.count k := List.count_pos_iff.mpr hk
  have h2 : ks2.count k = 0 := by omega
  exact ⟨by omega, List.count_eq_zero.mp h2⟩

theorem count_one_right {ks1 ks2 : List String} {k : String}
    (hc : (ks1 ++ ks2).count k = 1) (hk : k ∈ ks2) : ks2.count k = 1 ∧ k ∉ ks1 := by
  rw [List.count_append] at hc
  have h1 : 0 < ks2.count k := List.count_pos_iff.mpr hk
  have h2 : ks1.count k = 0 := by omega
  exact ⟨by omega, List.count_eq_zero.mp h2⟩

/-- The places of the value a step of a loop decoded, after the rest of the loop. -/
theorem PathsOK.head {lib : Lib} {s : Session} {x : Json} {r : Val} (ks2 : List String)
    {C1 : List (String × Nat)} (C2 : List (String × Nat)) {lo mid hi : Nat} (hiP : Nat)
    {st st1 st' : State} (w : Nat)
    (hpx : PathsOK lib s (x.keys lib s) C1 lo mid st st1 x r)
    (hlm : lo ≤ mid) (hmh : mid ≤ hi) (hhp : hi ≤ hiP)
    (hC2 : ∀ q ∈ C2, mid ≤ q.2 ∧ q.2 < hi)
    (hT : Targets (x.keys lib s ++ ks2) lo hiP st)
    (hadd : ∃ add1, st1.identityMap = st.identityMap ++ add1 ∧ ∀ q ∈ add1, q ∈ C1)
    (hext : ∀ key (b : Nat), st1.identityMap.lookup key = some b →
      st'.identityMap.lookup key = some b)
    (hne : ∀ K (a' : Nat), (∀ kh ∈ K, kh ∈ x.keys lib s) → Vis C1 lo mid st K a' → a' ≠ w)
    (hframe : ∀ (a' : Nat), a' ≠ w → (a' < mid ∨ hi ≤ a') →
      (∀ k' ∈ ks2, st1.identityMap.lookup k' ≠ some a') → st'.heap[a']? = st1.heap[a']?) :
    PathsOK lib s (x.keys lib s ++ ks2) (C1 ++ C2) lo hi st st' x r := by
  intro p kvs k hr hd hk hK
  have hsub := passed_subset lib s p x
  have hK1 : ∀ kh ∈ passed lib s p x,
      (x.keys lib s).count kh = 1 ∧ Sole st (x.keys lib s) kh := by
    intro kh hkh
    refine ⟨(count_one_left (hK kh hkh).1 (hsub kh hkh)).1, ?_⟩
    intro k' hk' a h1 h2
    exact (hK kh hkh).2 k' (List.mem_append_left _ hk') a h1 h2
  obtain ⟨c, hc, hwalk⟩ := hpx p kvs k hr hd hk hK1
  refine ⟨c, hext _ _ hc, hwalk.mono ?_⟩
  intro a' hv
  obtain ⟨add1, he1, ha1⟩ := hadd
  have hout : (lo ≤ a' ∧ a' < mid) ∨ (a' < lo ∨ hiP ≤ a') := by
    rcases hv.2 with h1 | ⟨kh, hkh, hl⟩
    · left; exact h1
    · right; exact hT kh (List.mem_append_left _ (hsub kh hkh)) a' hl
  refine ⟨⟨?_, ?_⟩, ?_⟩
  · intro k' hk'
    rcases List.mem_append.mp hk' with h1 | h1
    · exact hv.1 k' h1
    · have := hC2 _ h1
      simp only at this
      omega
  · rcases hv.2 with h1 | h1
    · left; omega
    · right; exact h1
  · apply hframe a' (hne _ a' hsub hv) (by omega)
    intro k' hk' hl
    rw [he1] at hl
    rcases lookup_append_cases hl with h3 | h3
    · have hT3 := hT k' (List.mem_append_right _ hk') a' h3
      rcases hv.2 with h1 | ⟨kh, hkh, hl2⟩
      · omega
      · have := (hK kh hkh).2 k' (List.mem_append_right _ hk') a' hl2 h3
        subst this
        exact (count_one_left (hK k' hkh).1 (hsub k' hkh)).2 hk'
    · have hk1 := hv.1 k' (ha1 _ h3)
      exact (count_one_left (hK k' hk1).1 (hsub k' hk1)).2 hk'

/-- The places of a value decoded by the rest of a loop, seen from the start of the
loop. -/
theorem PathsOK.tail {lib : Lib} {s : Session} {x : Json} {r : Val} (ks1 : List String)
    {ks2 : List String} (C1 : List (String × Nat)) {C2 : List (String × Nat)} (lo : Nat)
    {mid hi : Nat} (hiP : Nat) (st : State) {σ st' : State}
    (hpx : PathsOK lib s ks2 C2 mid hi σ st' x r)
    (hx : ∀ k ∈ x.keys lib s, k ∈ ks2)
    (hlm : lo ≤ mid) (hmh : mid ≤ hi) (hhp : hi ≤ hiP)
    (hC1 : ∀ q ∈ C1, q.1 ∈ ks1 ∧ lo ≤ q.2 ∧ q.2 < mid)
    (hT : Targets (ks1 ++ ks2) lo hiP st)
    (hadd : ∃ add1, σ.identityMap = st.identityMap ++ add1 ∧ ∀ q ∈ add1, q ∈ C1) :
    PathsOK lib s (ks1 ++ ks2) (C1 ++ C2) lo hi st st' x r := by
  intro p kvs k hr hd hk hK
  have hsub := passed_subset lib s p x
  obtain ⟨add1, he1, ha1⟩ := hadd
  have hback : ∀ kh ∈ passed lib s p x, ∀ (a : Nat), σ.identityMap.lookup kh = some a →
      st.identityMap.lookup kh = some a := by
    intro kh hkh a hl
    rw [he1] at hl
    rcases lookup_append_cases hl with h3 | h3
    · exact h3
    · exact absurd (hC1 _ (ha1 _ h3)).1
        (count_one_right (hK kh hkh).1 (hx kh (hsub kh hkh))).2
  have hK2 : ∀ kh ∈ passed lib s p x, ks2.count kh = 1 ∧ Sole σ ks2 kh := by
    intro kh hkh
    refine ⟨(count_one_right (hK kh hkh).1 (hx kh (hsub kh hkh))).1, ?_⟩
    intro k' hk' a h1 h2
    have h1' := hback kh hkh a h1
    rw [he1] at h2
    rcases lookup_append_cases h2 with h3 | h3
    · exact (hK kh hkh).2 k' (List.mem_append_right _ hk') a h1' h3
    · have hr1 := hC1 _ (ha1 _ h3)
      have := hT kh (List.mem_append_right _ (hx kh (hsub kh hkh))) a h1'
      simp only at hr1
      omega
  obtain ⟨c, hc, hwalk⟩ := hpx p kvs k hr hd hk hK2
  refine ⟨c, hc, hwalk.mono ?_⟩
  intro a' hv
  refine ⟨⟨?_, ?_⟩, rfl⟩
  · intro k' hk'
    rcases List.mem_append.mp hk' with h1 | h1
    · have hr1 := hC1 _ h1
      simp only at hr1
      rcases hv.2 with h2 | ⟨kh, hkh, hl⟩
      · omega
      · have := hT kh (List.mem_append_right _ (hx kh (hsub kh hkh))) a' (hback kh hkh a' hl)
        omega
    · exact hv.1 k' h1
  · rcases hv.2 with h1 | ⟨kh, hkh, hl⟩
    · left; omega
    · right; exact ⟨kh, hkh, hback kh hkh a' hl⟩

theorem NamesOK.keep {N : List (String × String)} {st1 st' : State} (h : NamesOK N st1)
    (hext : ∀ key (b : Nat), st1.identityMap.lookup key = some b →
      st'.identityMap.lookup key = some b)
    (hgrow : ∀ q ∈ N, ∀ (c : Nat) fs, st1.identityMap.lookup q.1 = some c →
      getObj st1.heap c = some fs → ∃ fs', getObj st'.heap c = some fs' ∧ Covers fs fs') :
    NamesOK N st' := by
  intro q hq
  obtain ⟨c, fs, h1, h2, h3⟩ := h q hq
  obtain ⟨fs', h4, h5⟩ := hgrow q hq c fs h1 h2
  exact ⟨c, fs', hext _ _ h1, h4, h5 _ h3⟩

theorem NamesOK.append {N1 N2 : List (String × String)} {st' : State} (h1 : NamesOK N1 st')
    (h2 : NamesOK N2 st') : NamesOK (N1 ++ N2) st' := by
  intro q hq
  rcases List.mem_append.mp hq with h | h
  · exact h1 q h
  · exact h2 q h

mutual
theorem names_keys (lib : Lib) (s : Session) : ∀ (j : Json),
    ∀ q ∈ j.names lib s, q.1 ∈ j.keys lib s
  | .null => by simp [Json.names]
  | .bool _ => by simp [Json.names]
  | .num _ _ => by simp [Json.names]
  | .str _ => by simp [Json.names]
  | .arr xs => by
    intro q hq
    simp only [Json.names] at hq
    simp only [Json.keys]
    exact namesList_keys lib s xs q hq
  | .obj kvs => by
    intro q hq
    simp only [Json.names] at hq
    simp only [Json.keys]
    split at hq
    · simp at hq
    · rename_i hd
      try simp only [hd, if_false]
      split at hq
      · exact namesFields_keys lib s kvs q hq
      · split at hq
        · simp at hq
        · rcases List.mem_append.mp hq with h1 | h1
          · obtain ⟨p, _, rfl⟩ := List.mem_map.mp h1
            exact List.mem_cons_self _ _
          · exact List.mem_cons_of_mem _ (namesFields_keys lib s kvs q h1)
theorem namesList_keys (lib : Lib) (s : Session) : ∀ (xs : List Json),
    ∀ q ∈ namesList lib s xs, q.1 ∈ keysList lib s xs
  | [] => by simp [namesList]
  | x :: xs => by
    intro q hq
    simp only [namesList, List.mem_append] at hq
    simp only [keysList, List.mem_append]
    rcases hq with h | h
    · left; exact names_keys lib s x q h
    · right; exact namesList_keys lib s xs q h
theorem namesFields_keys (lib : Lib) (s : Session) : ∀ (kvs : List (String × Json)),
    ∀ q ∈ namesFields lib s kvs, q.1 ∈ keysFields lib s kvs
  | [] => by simp [namesFields]
  | (_, x) :: kvs => by
    intro q hq
    simp only [namesFields, List.mem_append] at hq
    simp only [keysFields, List.mem_append]
    rcases hq with h | h
    · left; exact names_keys lib s x q h
    · right; exact namesFields_keys lib s kvs q h
end

theorem extends_lookup_append {im add : IdentityMap} {key : String} {b : Nat}
    (h : im.lookup key = some b) : (im ++ add).lookup key = some b :=
  lookup_append_of_some h

/-- The loop over the elements of a freshly built slice returns when the decoder
returns on the elements, and leaves each element replaced as `PathsOK` says. -/
theorem decodeElems_full (lib : Lib) (s : Session) {dec : Dec} (typed : Bool) (a hiP : Nat) :
    ∀ (rest : List Json) (lo : Nat) (done : List Val) (st : State),
      (∀ x ∈ rest, SimFor lib s dec x) →
      (∀ x ∈ rest, FullFor lib s dec x) →
      (∀ x ∈ rest, ∀ base st r st', Post lib s x base st r st' → assignable typed r = true) →
      Holds st.heap lo (layoutList rest lo).2 →
      getArr st.heap a = some (done ++ (layoutList rest lo).1) →
      lo + (layoutList rest lo).2.length ≤ a → a < hiP →
      Targets (keysList lib s rest) lo hiP st →
      StateOK st →
      ∃ st', decodeElems dec typed a rest.length done.length st = .ok st' ∧
        (∃ added, st'.identityMap = st.identityMap ++ added ∧
          ∀ p ∈ added, p ∈ cellsList lib s rest lo) ∧
        (∃ rs, getArr st'.heap a = some (done ++ rs) ∧
          ∀ (i : Nat) x, rest[i]? = some x → ∃ r, rs[i]? = some r ∧
            PathsOK lib s (keysList lib s rest) (cellsList lib s rest lo) lo
              (lo + (layoutList rest lo).2.length) st st' x r) ∧
        NamesOK (namesList lib s rest) st' ∧ StateOK st' := by
  intro rest
  induction rest with
  | nil =>
    intro lo done st _ _ _ _ harr _ _ _ hok
    refine ⟨st, by simp [decodeElems], ⟨[], by simp, by simp⟩, ⟨[], ?_, ?_⟩, ?_, hok⟩
    · simpa [layoutList] using harr
    · intro i x hx; simp at hx
    · intro q hq; simp [namesList] at hq
  | cons x rest ih =>
    intro lo done st hsim hfull hasg hh harr hle hap hT hok
    simp only [layoutList, keysList, cellsList, namesList] at hh harr hle hT ⊢
    simp only [List.length_append] at hle ⊢
    obtain ⟨r, st1, hd, hpost⟩ := hfull x (List.mem_cons_self _ _) lo st hh.left
      (hT.keysLeft.shrink (by omega)) hok
    have hchild := hsim x (List.mem_cons_self _ _) lo st r st1 hh.left
      (hT.keysLeft.shrink (by omega)) hd
    have hframe1 : ∀ (b : Nat), lo + (layout x lo).2.length ≤ b → b < hiP →
        st1.heap[b]? = st.heap[b]? :=
      fun b hb1 hb2 => hchild.untouched hT.keysLeft (Nat.le_add_right _ _) hb1 hb2
    have harr1 : getArr st1.heap a
        = some (done ++ (layout x lo).1 :: (layoutList rest (lo + (layout x lo).2.length)).1) := by
      rw [getArr_eq_some, hframe1 a (by omega) hap]
      exact getArr_eq_some.mp harr
    have hset : setElem st1.heap a done.length r = st1.heap.set a
        (.arr (done ++ r :: (layoutList rest (lo + (layout x lo).2.length)).1)) := by
      unfold setElem
      rw [harr1]
      simp only [set_append_length]
    have halt : a < st1.heap.length := lt_length_of_getElem? (getArr_eq_some.mp harr1)
    have hh2 : Holds (st1.heap.set a
        (.arr (done ++ r :: (layoutList rest (lo + (layout x lo).2.length)).1)))
        (lo + (layout x lo).2.length) (layoutList rest (lo + (layout x lo).2.length)).2 := by
      refine hh.right.frame ?_
      intro b hb hb2
      rw [List.getElem?_set_ne (by omega)]
      exact hframe1 b hb (by omega)
    have harr2 : getArr (st1.heap.set a
        (.arr (done ++ r :: (layoutList rest (lo + (layout x lo).2.length)).1))) a
        = some ((done ++ [r]) ++ (layoutList rest (lo + (layout x lo).2.length)).1) := by
      rw [getArr_eq_some, List.getElem?_set_self halt]
      simp
    obtain ⟨add1, he1, ha1⟩ := hpost.added
    have hT2 : Targets (keysList lib s rest) (lo + (layout x lo).2.length) hiP
        { st1 with heap := (st1.heap.set a
          (.arr (done ++ r :: (layoutList rest (lo + (layout x lo).2.length)).1))) } :=
      hT.keysRight.step (Nat.le_add_right _ _)
        ⟨add1, he1, fun p hp => cells_region lib s x lo p (ha1 p hp)⟩
    have hok2 : StateOK { st1 with heap := (st1.heap.set a
          (.arr (done ++ r :: (layoutList rest (lo + (layout x lo).2.length)).1))) } :=
      hpost.ok.set_arr harr1 _
    obtain ⟨st', hrun, ⟨add2, he2, ha2⟩, ⟨rs, hrs, hel⟩, hnames2, hok'⟩ :=
      ih (lo + (layout x lo).2.length) (done ++ [r]) _
        (fun y hy => hsim y (List.mem_cons_of_mem _ hy))
        (fun y hy => hfull y (List.mem_cons_of_mem _ hy))
        (fun y hy => hasg y (List.mem_cons_of_mem _ hy)) hh2 harr2 (by omega) hap hT2 hok2
    have hrestOut := decodeElems_sim lib s typed a hiP rest (lo + (layout x lo).2.length)
      (done ++ [r]) _ st' (fun y hy => hsim y (List.mem_cons_of_mem _ hy)) hh2 harr2
      (by omega) hap hT2 hrun
    have hext : ∀ key (b : Nat), st1.identityMap.lookup key = some b →
        st'.identityMap.lookup key = some b := by
      intro key b hb
      rw [he2]
      exact lookup_append_of_some hb
    have hfr : ∀ (a' : Nat), a' ≠ a →
        (a' < lo + (layout x lo).2.length ∨
          lo + (layout x lo).2.length + (layoutList rest (lo + (layout x lo).2.length)).2.length
            ≤ a') →
        (∀ k' ∈ keysList lib s rest, st1.identityMap.lookup k' ≠ some a') →
        st'.heap[a']? = st1.heap[a']? := by
      intro a' hne hreg hk
      rw [hrestOut.frame a' hne hreg hk]
      exact List.getElem?_set_ne (fun e => hne e.symm)
    refine ⟨st', ?_, ?_, ?_, ?_, hok'⟩
    · simp only [List.length_cons, decodeElems, harr, getElem?_append_length, hd,
        hasg x (List.mem_cons_self _ _) lo st r st1 hpost, if_true, hset]
      simpa using hrun
    · refine ⟨add1 ++ add2, by rw [he2, he1]; simp, ?_⟩
      intro p hp
      rcases List.mem_append.mp hp with h1 | h1
      · exact List.mem_append_left _ (ha1 p h1)
      · exact List.mem_append_right _ (ha2 p h1)
    · refine ⟨r :: rs, by simpa using hrs, ?_⟩
      intro i y hy
      cases i with
      | zero =>
        simp only [List.getElem?_cons_zero, Option.some.injEq] at hy
        subst hy
        refine ⟨r, by simp, ?_⟩
        have := PathsOK.head (keysList lib s rest)
          (cellsList lib s rest (lo + (layout x lo).2.length)) hiP a hpost.paths
          (Nat.le_add_right _ _) (Nat.le_add_right _ _) (by omega)
          (fun q hq => by
            have := cellsList_region lib s rest _ q hq
            omega)
          hT ⟨add1, he1, ha1⟩ hext
          (fun K a' hK hv => by
            rcases hv.2 with h1 | ⟨kh, hkh, hl⟩
            · omega
            · have := hT kh (List.mem_append_left _ (hK kh hkh)) a' hl
              omega)
          hfr
        simpa [Nat.add_assoc] using this
      | succ i =>
        simp only [List.getElem?_cons_succ] at hy
        obtain ⟨r', hr', hp'⟩ := hel i y hy
        refine ⟨r', by simpa using hr', ?_⟩
        have := PathsOK.tail (x.keys lib s) (x.cells lib s lo) lo hiP st hp'
          (fun k hk => keysList_mem (mem_of_getElem? hy) hk)
          (Nat.le_add_right _ _) (Nat.le_add_right _ _) (by omega)
          (fun q hq => ⟨cells_mem_keys hq, cells_region lib s x lo q hq⟩)
          hT ⟨add1, he1, ha1⟩
        simpa [Nat.add_assoc] using this
    · refine NamesOK.append ?_ hnames2
      refine hpost.names.keep hext ?_
      intro q hq c fs hc hfs
      have hck : lo ≤ c ∧ c < lo + (layout x lo).2.length ∨ (c < lo ∨ hiP ≤ c) := by
        rw [he1] at hc
        rcases lookup_append_cases hc with h3 | h3
        · right
          exact hT q.1 (List.mem_append_left _ (names_keys lib s x q hq)) c h3
        · left
          exact cells_region lib s x lo _ (ha1 _ h3)
      have hca : c ≠ a := by omega
      have hfs2 : getObj (st1.heap.set a
          (.arr (done ++ r :: (layoutList rest (lo + (layout x lo).2.length)).1))) c
          = some fs := by
        rw [getObj_eq_some, List.getElem?_set_ne (fun e => hca e.symm)]
        exact getObj_eq_some.mp hfs
      exact hrestOut.grows c hca (by omega) fs hfs2

/-- The loop over the entries of a freshly built plain mapping returns when the
decoder returns on the values, and leaves each value replaced as `PathsOK` says. -/
theorem decodeFields_full (lib : Lib) (s : Session) {dec : Dec} (a hiP : Nat) :
    ∀ (rest : List (String × Json)) (lo : Nat) (st : State) (cell : List (String × Val)),
      (∀ p ∈ rest, SimFor lib s dec p.2) →
      (∀ p ∈ rest, FullFor lib s dec p.2) →
      (rest.map Prod.fst).Nodup →
      Holds st.heap lo (layoutFields rest lo).2 →
      getObj st.heap a = some cell →
      (∀ p ∈ (layoutFields rest lo).1, cell.lookup p.1 = some p.2) →
      lo + (layoutFields rest lo).2.length ≤ a → a < hiP →
      Targets (keysFields lib s rest) lo hiP st →
      StateOK st →
      ∃ st', decodeFields dec a (rest.map Prod.fst) st = .ok st' ∧
        (∃ added, st'.identityMap = st.identityMap ++ added ∧
          ∀ p ∈ added, p ∈ cellsFields lib s rest lo) ∧
        (∃ fs', getObj st'.heap a = some fs' ∧
          (∀ g, g ∉ rest.map Prod.fst → fs'.lookup g = cell.lookup g) ∧
          ∀ p ∈ rest, ∃ r, (r ≠ .null → fs'.lookup p.1 = some r) ∧
            PathsOK lib s (keysFields lib s rest) (cellsFields lib s rest lo) lo
              (lo + (layoutFields rest lo).2.length) st st' p.2 r) ∧
        NamesOK (namesFields lib s rest) st' ∧ StateOK st' := by
  intro rest
  induction rest with
  | nil =>
    intro lo st cell _ _ _ _ hobj _ _ _ _ hok
    refine ⟨st, by simp [decodeFields], ⟨[], by simp, by simp⟩, ⟨cell, hobj, fun _ _ => rfl, ?_⟩,
      ?_, hok⟩
    · intro p hp; simp at hp
    · intro q hq; simp [namesFields] at hq
  | cons p rest ih =>
    obtain ⟨k, x⟩ := p
    intro lo st cell hsim hfull hnd hh hobj hlook hle hap hT hok
    simp only [layoutFields, keysFields, cellsFields, namesFields] at hh hlook hle hT ⊢
    simp only [List.length_append] at hle ⊢
    simp only [List.map_cons, List.nodup_cons] at hnd
    have hk : cell.lookup k = some (layout x lo).1 := hlook _ (List.mem_cons_self _ _)
    have hfx : FullFor lib s dec x := hfull (k, x) (List.mem_cons_self _ _)
    have hsx : SimFor lib s dec x := hsim (k, x) (List.mem_cons_self _ _)
    obtain ⟨r, st1, hd, hpost⟩ := hfx lo st hh.left (hT.keysLeft.shrink (by omega)) hok
    have hchild := hsx lo st r st1 hh.left (hT.keysLeft.shrink (by omega)) hd
    have hframe1 : ∀ (b : Nat), lo + (layout x lo).2.length ≤ b → b < hiP →
        st1.heap[b]? = st.heap[b]? :=
      fun b hb1 hb2 => hchild.untouched hT.keysLeft (Nat.le_add_right _ _) hb1 hb2
    have hobj1 : getObj st1.heap a = some cell := by
      rw [getObj_eq_some, hframe1 a (by omega) hap]
      exact getObj_eq_some.mp hobj
    have hset : setMapIndex st1.heap a k r = st1.heap.set a
        (.obj (if r = .null then delField k cell else setField k r cell)) := by
      unfold setMapIndex
      rw [hobj1]
    have halt : a < st1.heap.length := lt_length_of_getElem? (getObj_eq_some.mp hobj1)
    have hh2 : Holds (st1.heap.set a
        (.obj (if r = .null then delField k cell else setField k r cell)))
        (lo + (layout x lo).2.length) (layoutFields rest (lo + (layout x lo).2.length)).2 := by
      refine hh.right.frame ?_
      intro b hb hb2
      rw [List.getElem?_set_ne (by omega)]
      exact hframe1 b hb (by omega)
    have hobj2 : getObj (st1.heap.set a
        (.obj (if r = .null then delField k cell else setField k r cell))) a
        = some (if r = .null then delField k cell else setField k r cell) := by
      rw [getObj_eq_some, List.getElem?_set_self halt]
    have hlook2 : ∀ p ∈ (layoutFields rest (lo + (layout x lo).2.length)).1,
        (if r = .null then delField k cell else setField k r cell).lookup p.1 = some p.2 := by
      intro p hp
      have hpk : p.1 ≠ k := by
        intro e
        apply hnd.1
        rw [← layoutFields_keys rest (lo + (layout x lo).2.length), ← e]
        exact List.mem_map_of_mem _ hp
      have := hlook p (List.mem_cons_of_mem _ hp)
      split
      · rw [lookup_delField_ne _ hpk]; exact this
      · rw [lookup_setField_ne _ _ hpk]; exact this
    obtain ⟨add1, he1, ha1⟩ := hpost.added
    have hT2 : Targets (keysFields lib s rest) (lo + (layout x lo).2.length) hiP
        { st1 with heap := (st1.heap.set a
          (.obj (if r = .null then delField k cell else setField k r cell))) } :=
      hT.keysRight.step (Nat.le_add_right _ _)
        ⟨add1, he1, fun p hp => cells_region lib s x lo p (ha1 p hp)⟩
    have hok2 : StateOK { st1 with heap := (st1.heap.set a
          (.obj (if r = .null then delField k cell else setField k r cell))) } :=
      hpost.ok.set_obj a _
    obtain ⟨st', hrun, ⟨add2, he2, ha2⟩, ⟨fs', hfs', hkeep, hel⟩, hnames2, hok'⟩ :=
      ih (lo + (layout x lo).2.length) _ _
        (fun y hy => hsim y (List.mem_cons_of_mem _ hy))
        (fun y hy => hfull y (List.mem_cons_of_mem _ hy)) hnd.2 hh2 hobj2 hlook2
        (by omega) hap hT2 hok2
    have hrestOut := decodeFields_sim lib s a hiP rest (lo + (layout x lo).2.length)
      _ st' (fun y hy => hsim y (List.mem_cons_of_mem _ hy)) hnd.2 hh2 ⟨_, hobj2, hlook2⟩
      (by omega) hap hT2 hrun
    have hext : ∀ key (b : Nat), st1.identityMap.lookup key = some b →
        st'.identityMap.lookup key = some b := by
      intro key b hb
      rw [he2]
      exact lookup_append_of_some hb
    have hfr : ∀ (a' : Nat), a' ≠ a →
        (a' < lo + (layout x lo).2.length ∨
          lo + (layout x lo).2.length + (layoutFields rest (lo + (layout x lo).2.length)).2.length
            ≤ a') →
        (∀ k' ∈ keysFields lib s rest, st1.identityMap.lookup k' ≠ some a') →
        st'.heap[a']? = st1.heap[a']? := by
      intro a' hne hreg hk
      rw [hrestOut.frame a' hne hreg hk]
      exact List.getElem?_set_ne (fun e => hne e.symm)
    refine ⟨st', ?_, ?_, ?_, ?_, hok'⟩
    · simp only [List.map_cons, decodeFields, hobj, hk, hd, hset]
      exact hrun
    · refine ⟨add1 ++ add2, by rw [he2, he1]; simp, ?_⟩
      intro p hp
      rcases List.mem_append.mp hp with h1 | h1
      · exact List.mem_append_left _ (ha1 p h1)
      · exact List.mem_append_right _ (ha2 p h1)
    · refine ⟨fs', hfs', ?_, ?_⟩
      · intro g hg
        simp only [List.map_cons, List.mem_cons, not_or] at hg
        rw [hkeep g hg.2]
        split
        · exact lookup_delField_ne _ hg.1
        · exact lookup_setField_ne _ _ hg.1
      · intro p hp
        rcases List.mem_cons.mp hp with h1 | h1
        · subst h1
          refine ⟨r, ?_, ?_⟩
          · intro hr
            simp only
            rw [hkeep k hnd.1, if_neg hr, lookup_setField_self]
          · have := PathsOK.head (keysFields lib s rest)
              (cellsFields lib s rest (lo + (layout x lo).2.length)) hiP a hpost.paths
              (Nat.le_add_right _ _) (Nat.le_add_right _ _) (by omega)
              (fun q hq => by
                have := cellsFields_region lib s rest _ q hq
                omega)
              hT ⟨add1, he1, ha1⟩ hext
              (fun K a' hK hv => by
                rcases hv.2 with h1 | ⟨kh, hkh, hl⟩
                · omega
                · have := hT kh (List.mem_append_left _ (hK kh hkh)) a' hl
                  omega)
              hfr
            simpa [Nat.add_assoc] using this
        · obtain ⟨r', hr', hp'⟩ := hel p h1
          refine ⟨r', hr', ?_⟩
          have := PathsOK.tail (x.keys lib s) (x.cells lib s lo) lo hiP st hp'
            (fun k' hk' => keysFields_mem h1 hk')
            (Nat.le_add_right _ _) (Nat.le_add_right _ _) (by omega)
            (fun q hq => ⟨cells_mem_keys hq, cells_region lib s x lo q hq⟩)
            hT ⟨add1, he1, ha1⟩
          simpa [Nat.add_assoc] using this
    · refine NamesOK.append ?_ hnames2
      refine hpost.names.keep hext ?_
      intro q hq c fs hc hfs
      have hck : lo ≤ c ∧ c < lo + (layout x lo).2.length ∨ (c < lo ∨ hiP ≤ c) := by
        rw [he1] at hc
        rcases lookup_append_cases hc with h3 | h3
        · right
          exact hT q.1 (List.mem_append_left _ (names_keys lib s x q hq)) c h3
        · left
          exact cells_region lib s x lo _ (ha1 _ h3)
      have hca : c ≠ a := by omega
      have hfs2 : getObj (st1.heap.set a
          (.obj (if r = .null then delField k cell else setField k r cell))) c
          = some fs := by
        rw [getObj_eq_some, List.getElem?_set_ne (fun e => hca e.symm)]
        exact getObj_eq_some.mp hfs
      exact hrestOut.grows c hca (by omega) fs hfs2

/-- The loop of `mergeEntity` over the entries of a freshly built entity returns when
the decoder returns on the values; the canonical representation keeps its fields
and gains those of the entity, and when none of the nested entities is bound to it,
each field holds the decoded value, replaced as `PathsOK` says. -/
theorem mergeFields_full (lib : Lib) (s : Session) {dec : Dec} (src dst hiP : Nat) :
    ∀ (rest : List (String × Json)) (lo : Nat) (st : State) (cell fs0 : List (String × Val)),
      (∀ p ∈ rest, SimFor lib s dec p.2) →
      (∀ p ∈ rest, FullFor lib s dec p.2) →
      (rest.map Prod.fst).Nodup →
      Holds st.heap lo (layoutFields rest lo).2 →
      getObj st.heap src = some cell →
      (∀ p ∈ (layoutFields rest lo).1, cell.lookup p.1 = some p.2) →
      lo + (layoutFields rest lo).2.length ≤ src → src < hiP →
      (dst = src ∨ dst < lo ∨ hiP ≤ dst) →
      Targets (keysFields lib s rest) lo hiP st →
      StateOK st →
      getObj st.heap dst = some fs0 →
      ∃ st', mergeFields dec src dst (rest.map Prod.fst) st = .ok st' ∧
        (∃ added, st'.identityMap = st.identityMap ++ added ∧
          ∀ p ∈ added, p ∈ cellsFields lib s rest lo) ∧
        (∃ fs', getObj st'.heap dst = some fs' ∧ Covers fs0 fs' ∧
          (∀ p ∈ rest, (fs'.lookup p.1).isSome = true) ∧
          ((∀ k ∈ keysFields lib s rest, st.identityMap.lookup k ≠ some dst) →
            (∀ g, g ∉ rest.map Prod.fst → fs'.lookup g = fs0.lookup g) ∧
            ∀ p ∈ rest, ∃ r, fs'.lookup p.1 = some r ∧
              PathsOK lib s (keysFields lib s rest) (cellsFields lib s rest lo) lo
                (lo + (layoutFields rest lo).2.length) st st' p.2 r)) ∧
        NamesOK (namesFields lib s rest) st' ∧ StateOK st' := by
  intro rest
  induction rest with
  | nil =>
    intro lo st cell fs0 _ _ _ _ _ _ _ _ _ _ hok hfs0
    refine ⟨st, by simp [mergeFields], ⟨[], by simp, by simp⟩,
      ⟨fs0, hfs0, covers_refl _, ?_, fun _ => ⟨fun _ _ => rfl, ?_⟩⟩, ?_, hok⟩
    · intro p hp; simp at hp
    · intro p hp; simp at hp
    · intro q hq; simp [namesFields] at hq
  | cons p rest ih =>
    obtain ⟨k, x⟩ := p
    intro lo st cell fs0 hsim hfull hnd hh hobj hlook hle hap hdst hT hok hfs0
    simp only [layoutFields, keysFields, cellsFields, namesFields] at hh hlook hle hT ⊢
    simp only [List.length_append] at hle ⊢
    simp only [List.map_cons, List.nodup_cons] at hnd
    have hk : cell.lookup k = some (layout x lo).1 := hlook _ (List.mem_cons_self _ _)
    have hfx : FullFor lib s dec x := hfull (k, x) (List.mem_cons_self _ _)
    have hsx : SimFor lib s dec x := hsim (k, x) (List.mem_cons_self _ _)
    obtain ⟨r, st1, hd, hpost⟩ := hfx lo st hh.left (hT.keysLeft.shrink (by omega)) hok
    have hchild := hsx lo st r st1 hh.left (hT.keysLeft.shrink (by omega)) hd
    have hframe1 : ∀ (b : Nat), lo + (layout x lo).2.length ≤ b → b < hiP →
        st1.heap[b]? = st.heap[b]? :=
      fun b hb1 hb2 => hchild.untouched hT.keysLeft (Nat.le_add_right _ _) hb1 hb2
    have hobj1 : getObj st1.heap src = some cell := by
      rw [getObj_eq_some, hframe1 src (by omega) hap]
      exact getObj_eq_some.mp hobj
    have hdout : dst < lo ∨ lo + (layout x lo).2.length ≤ dst := by
      rcases hdst with h1 | h1 | h1 <;> omega
    obtain ⟨fs1, hfs1, hcov1⟩ := hchild.grows dst (fun f => f) hdout fs0 hfs0
    have hdlt : dst < st1.heap.length := lt_length_of_getElem? (getObj_eq_some.mp hfs1)
    have hh2 : Holds (st1.heap.set dst (.obj (setField k r fs1)))
        (lo + (layout x lo).2.length) (layoutFields rest (lo + (layout x lo).2.length)).2 := by
      refine hh.right.frame ?_
      intro b hb hb2
      rw [List.getElem?_set_ne (by rcases hdst with h1 | h1 | h1 <;> omega)]
      exact hframe1 b hb (by omega)
    have hcell2 : ∃ cell', getObj (st1.heap.set dst (.obj (setField k r fs1))) src = some cell' ∧
        ∀ p ∈ (layoutFields rest (lo + (layout x lo).2.length)).1,
          cell'.lookup p.1 = some p.2 := by
      by_cases hds : dst = src
      · subst hds
        have hfc : fs1 = cell := by
          rw [hobj1] at hfs1
          exact (Option.some.inj hfs1).symm
        subst hfc
        refine ⟨_, by rw [getObj_eq_some, List.getElem?_set_self hdlt], ?_⟩
        intro p hp
        have hpk : p.1 ≠ k := by
          intro e
          apply hnd.1
          rw [← layoutFields_keys rest (lo + (layout x lo).2.length), ← e]
          exact List.mem_map_of_mem _ hp
        rw [lookup_setField_ne _ _ hpk]
        exact hlook p (List.mem_cons_of_mem _ hp)
      · refine ⟨cell, ?_, fun p hp => hlook p (List.mem_cons_of_mem _ hp)⟩
        rw [getObj_eq_some, List.getElem?_set_ne hds]
        exact getObj_eq_some.mp hobj1
    obtain ⟨cell', hobj2, hlook2⟩ := hcell2
    have hdst2 : getObj (st1.heap.set dst (.obj (setField k r fs1))) dst
        = some (setField k r fs1) := by
      rw [getObj_eq_some, List.getElem?_set_self hdlt]
    obtain ⟨add1, he1, ha1⟩ := hpost.added
    have hT2 : Targets (keysFields lib s rest) (lo + (layout x lo).2.length) hiP
        { st1 with heap := (st1.heap.set dst (.obj (setField k r fs1))) } :=
      hT.keysRight.step (Nat.le_add_right _ _)
        ⟨add1, he1, fun p hp => cells_region lib s x lo p (ha1 p hp)⟩
    have hok2 : StateOK { st1 with heap := (st1.heap.set dst (.obj (setField k r fs1))) } :=
      hpost.ok.set_obj dst _
    obtain ⟨st', hrun, ⟨add2, he2, ha2⟩, ⟨fs', hfs', hcov2, hsome2, hcond2⟩, hnames2, hok'⟩ :=
      ih (lo + (layout x lo).2.length) _ cell' (setField k r fs1)
        (fun y hy => hsim y (List.mem_cons_of_mem _ hy))
        (fun y hy => hfull y (List.mem_cons_of_mem _ hy)) hnd.2 hh2 hobj2 hlook2
        (by omega) hap (by rcases hdst with h1 | h1 | h1 <;> omega) hT2 hok2 hdst2
    have hrestOut := (mergeFields_sim lib s src dst hiP rest (lo + (layout x lo).2.length)
      _ st' (fun y hy => hsim y (List.mem_cons_of_mem _ hy)) hnd.2 hh2 ⟨_, hobj2, hlook2⟩
      (by omega) hap (by rcases hdst with h1 | h1 | h1 <;> omega) hT2 hrun).1
    have hext : ∀ key (b : Nat), st1.identityMap.lookup key = some b →
        st'.identityMap.lookup key = some b := by
      intro key b hb
      rw [he2]
      exact lookup_append_of_some hb
    have hfr : ∀ (a' : Nat), a' ≠ dst →
        (a' < lo + (layout x lo).2.length ∨
          lo + (layout x lo).2.length + (layoutFields rest (lo + (layout x lo).2.length)).2.length
            ≤ a') →
        (∀ k' ∈ keysFields lib s rest, st1.identityMap.lookup k' ≠ some a') →
        st'.heap[a']? = st1.heap[a']? := by
      intro a' hne hreg hk
      rw [hrestOut.frame a' hne hreg hk]
      exact List.getElem?_set_ne (fun e => hne e.symm)
    refine ⟨st', ?_, ?_, ?_, ?_, hok'⟩
    · simp only [List.map_cons, mergeFields, hobj, hk, hd, hfs1]
      exact hrun
    · refine ⟨add1 ++ add2, by rw [he2, he1]; simp, ?_⟩
      intro p hp
      rcases List.mem_append.mp hp with h1 | h1
      · exact List.mem_append_left _ (ha1 p h1)
      · exact List.mem_append_right _ (ha2 p h1)
    · refine ⟨fs', hfs', covers_trans (covers_trans hcov1 (covers_setField k r fs1)) hcov2,
        ?_, ?_⟩
      · intro p hp
        rcases List.mem_cons.mp hp with h1 | h1
        · subst h1
          apply hcov2
          simp only
          rw [lookup_setField_self]
          rfl
        · exact hsome2 p h1
      · intro hfree
        have hsame : fs1 = fs0 := by
          have := hchild.frame dst (fun f => f) hdout
            (fun k' hk' => hfree k' (List.mem_append_left _ hk'))
          have h2 : getObj st1.heap dst = getObj st.heap dst := by
            unfold getObj; rw [this]
          rw [hfs1, hfs0] at h2
          exact Option.some.inj h2
        subst hsame
        have hfree2 : ∀ k' ∈ keysFields lib s rest,
            st1.identityMap.lookup k' ≠ some dst := by
          intro k' hk' hl
          rw [he1] at hl
          rcases lookup_append_cases hl with h3 | h3
          · exact hfree k' (List.mem_append_right _ hk') h3
          · have := cells_region lib s x lo _ (ha1 _ h3)
            simp only at this
            omega
        obtain ⟨hkeep2, hel2⟩ := hcond2 hfree2
        refine ⟨?_, ?_⟩
        · intro g hg
          simp only [List.map_cons, List.mem_cons, not_or] at hg
          rw [hkeep2 g hg.2, lookup_setField_ne _ _ hg.1]
        · intro p hp
          rcases List.mem_cons.mp hp with h1 | h1
          · subst h1
            refine ⟨r, ?_, ?_⟩
            · simp only
              rw [hkeep2 k hnd.1, lookup_setField_self]
            · have := PathsOK.head (keysFields lib s rest)
                (cellsFields lib s rest (lo + (layout x lo).2.length)) hiP dst hpost.paths
                (Nat.le_add_right _ _) (Nat.le_add_right _ _) (by omega)
                (fun q hq => by
                  have := cellsFields_region lib s rest _ q hq
                  omega)
                hT ⟨add1, he1, ha1⟩ hext
                (fun K a' hK hv => by
                  rcases hv.2 with h1 | ⟨kh, hkh, hl⟩
                  · rcases hdst with h2 | h2 | h2 <;> omega
                  · intro e
                    subst e
                    exact hfree kh (List.mem_append_left _ (hK kh hkh)) hl)
                hfr
              simpa [Nat.add_assoc] using this
          · obtain ⟨r', hr', hp'⟩ := hel2 p h1
            refine ⟨r', hr', ?_⟩
            have := PathsOK.tail (x.keys lib s) (x.cells lib s lo) lo hiP st hp'
              (fun k' hk' => keysFields_mem h1 hk')
              (Nat.le_add_right _ _) (Nat.le_add_right _ _) (by omega)
              (fun q hq => ⟨cells_mem_keys hq, cells_region lib s x lo q hq⟩)
              hT ⟨add1, he1, ha1⟩
            simpa [Nat.add_assoc] using this
    · refine NamesOK.append ?_ hnames2
      refine hpost.names.keep hext ?_
      intro q hq c fs hc hfs
      have hck : lo ≤ c ∧ c < lo + (layout x lo).2.length ∨ (c < lo ∨ hiP ≤ c) := by
        rw [he1] at hc
        rcases lookup_append_cases hc with h3 | h3
        · right
          exact hT q.1 (List.mem_append_left _ (names_keys lib s x q hq)) c h3
        · left
          exact cells_region lib s x lo _ (ha1 _ h3)
      by_cases hcd : c = dst
      · subst hcd
        have hfe : fs = fs1 := by
          rw [hfs1] at hfs
          exact (Option.some.inj hfs).symm
        subst hfe
        exact ⟨fs', hfs', covers_trans (covers_setField k r fs) hcov2⟩
      · have hfs2 : getObj (st1.heap.set dst (.obj (setField k r fs1))) c = some fs := by
          rw [getObj_eq_some, List.getElem?_set_ne (fun e => hcd e.symm)]
          exact getObj_eq_some.mp hfs
        exact hrestOut.grows c hcd (by omega) fs hfs2

theorem depthList_mem : ∀ {xs : List Json} {x : Json}, x ∈ xs → x.depth < depthList xs
  | [], _, hx => by simp at hx
  | y :: ys, x, hx => by
    simp only [depthList]
    rcases List.mem_cons.mp hx with h1 | h1
    · subst h1; omega
    · have := depthList_mem h1
      omega

theorem depthFields_mem : ∀ {kvs : List (String × Json)} {p : String × Json},
    p ∈ kvs → p.2.depth < depthFields kvs
  | [], _, hp => by simp at hp
  | (k, y) :: ys, p, hp => by
    simp only [depthFields]
    rcases List.mem_cons.mp hp with h1 | h1
    · subst h1; simp only; omega
    · have := depthFields_mem h1
      omega

theorem decodableList_mem {lib : Lib} {s : Session} : ∀ {xs : List Json},
    decodableList lib s xs = true → ∀ x ∈ xs, x.isNull = false ∧ x.decodable lib s = true
  | [], _, x, hx => by simp at hx
  | y :: ys, h, x, hx => by
    simp only [decodableList, Bool.and_eq_true, Bool.not_eq_true'] at h
    rcases List.mem_cons.mp hx with h1 | h1
    · subst h1; exact h.1
    · exact decodableList_mem h.2 x h1

theorem decodableFields_mem {lib : Lib} {s : Session} : ∀ {kvs : List (String × Json)},
    decodableFields lib s kvs = true → ∀ p ∈ kvs, p.2.decodable lib s = true
  | [], _, x, hx => by simp at hx
  | (k, y) :: ys, h, x, hx => by
    simp only [decodableFields, Bool.and_eq_true] at h
    rcases List.mem_cons.mp hx with h1 | h1
    · subst h1; exact h.1
    · exact decodableFields_mem h.2 x h1

theorem assignable_nonnull {r : Val} (h : r ≠ .null) : assignable false r = true := by
  cases r <;> simp [assignable] at h ⊢

/-- What a call leaves that touches nothing: a value without entities. -/
theorem Post.still {lib : Lib} {s : Session} {x : Json} {base : Nat} {st : State} {r : Val}
    (hn : x.names lib s = [])
    (hp : ∀ p kvs k, reach lib s p x = some (.obj kvs) → jsonIsDate kvs = false →
      jsonKey lib s kvs = some k → False)
    (hs : (x.isNull = false → r ≠ .null) ∧
      ∀ kvs, x = .obj kvs → jsonIsDate kvs = false → ∃ c, r = .map c)
    (hok : StateOK st) : Post lib s x base st r st :=
  ⟨⟨[], by simp, by simp⟩, fun p kvs k h1 h2 h3 _ => (hp p kvs k h1 h2 h3).elim,
    fun q hq => by rw [hn] at hq; simp at hq, hs, hok⟩

theorem reach_scalar {lib : Lib} {s : Session} (x : Json) {v : Val} (hx : x.scalar? = some v)
    (p : List Step) (kvs : List (String × Json)) : reach lib s p x ≠ some (.obj kvs) := by
  cases p with
  | nil => cases x <;> simp [Json.scalar?, reach] at hx ⊢
  | cons st p =>
    cases st <;> cases x <;> simp [Json.scalar?, reach] at hx ⊢

theorem count_cons_one {k kh : String} {ks : List String} (hc : (k :: ks).count kh = 1)
    (hk : kh ∈ ks) : kh ≠ k ∧ ks.count kh = 1 := by
  have e : k :: ks = [k] ++ ks := rfl
  rw [e] at hc
  obtain ⟨h1, h2⟩ := count_one_right hc hk
  exact ⟨fun e => h2 (by simp [e]), h1⟩

/-- One level of `Decode` returns on a tidy, decodable parsed value when its
recursive calls do on values less deep, and leaves `Post`. -/
theorem decodeWith_full (lib : Lib) (s : Session) {dec : Dec} (n : Nat)
    (hsim : ∀ j, j.tidy lib s = true → SimFor lib s dec j)
    (hfull : ∀ j, j.tidy lib s = true → j.decodable lib s = true → j.depth < n →
      FullFor lib s dec j) :
    ∀ j, j.tidy lib s = true → j.decodable lib s = true → j.depth < n + 1 →
      FullFor lib s (decodeWith lib s dec) j := by
  intro j ht hdc hdp base st hh hT hok
  cases j with
  | null =>
    refine ⟨.null, st, rfl, Post.still rfl ?_
      ⟨fun h => by simp [Json.isNull] at h, fun kvs h => by cases h⟩ hok⟩
    intro p kvs k h
    exact absurd h (reach_scalar .null rfl p kvs)
  | bool b =>
    refine ⟨.bool b, st, rfl, Post.still rfl ?_ ⟨fun _ => by simp, fun kvs h => by cases h⟩ hok⟩
    intro p kvs k h
    exact absurd h (reach_scalar (.bool b) rfl p kvs)
  | num lit float =>
    refine ⟨.num "float64" float, st, rfl, Post.still rfl ?_
      ⟨fun _ => by simp, fun kvs h => by cases h⟩ hok⟩
    intro p kvs k h
    exact absurd h (reach_scalar (.num lit float) rfl p kvs)
  | str t =>
    refine ⟨.str t, st, rfl, Post.still rfl ?_ ⟨fun _ => by simp, fun kvs h => by cases h⟩ hok⟩
    intro p kvs k h
    exact absurd h (reach_scalar (.str t) rfl p kvs)
  | arr xs =>
    simp only [Json.tidy] at ht
    simp only [Json.decodable] at hdc
    simp only [Json.depth] at hdp
    simp only [layout, Json.keys, List.length_append, List.length_singleton] at hh hT ⊢
    have harr : getArr st.heap (base + (layoutList xs base).2.length) =
        some (layoutList xs base).1 := by
      rw [getArr_eq_some]
      exact hh _ _ getElem?_append_length
    obtain ⟨st', hrun, hadd, ⟨rs, hrs, hel⟩, hnames, hok'⟩ :=
      decodeElems_full lib s false (base + (layoutList xs base).2.length)
        (base + ((layoutList xs base).2.length + 1)) xs base [] st
        (fun x hx => hsim x (tidyList_mem ht x hx))
        (fun x hx => hfull x (tidyList_mem ht x hx) (decodableList_mem hdc x hx).2
          (by have := depthList_mem hx; omega))
        (fun x hx b σ r σ' hp => assignable_nonnull (hp.shape.1 (decodableList_mem hdc x hx).1))
        hh.left (by simpa using harr) (Nat.le_refl _) (by omega) hT hok
    refine ⟨.slice false (base + (layoutList xs base).2.length), st', ?_,
      ⟨hadd, ?_, hnames, ⟨fun _ => by simp, fun kvs h => by cases h⟩, hok'⟩⟩
    · simp only [decodeWith, harr, layoutList_length]
      simp only [List.length_nil] at hrun
      rw [hrun]
    · have hlen := layout_arr_length xs base
      intro p kvs k hr hd hk hK
      cases p with
      | nil => simp [reach] at hr
      | cons stp p =>
        cases stp with
        | fld f => simp [reach] at hr
        | idx i =>
          simp only [reach] at hr
          simp only [passed] at hK ⊢
          split at hr
          swap
          · cases hr
          rename_i x hx
          simp only [hx] at hK ⊢
          obtain ⟨r, hr1, hp1⟩ := hel i x hx
          obtain ⟨c, hc, hw⟩ := hp1 p kvs k hr hd hk hK
          refine ⟨c, hc, false, _, rs, r, rfl, ⟨?_, ?_⟩, by simpa using hrs, hr1, hw.mono ?_⟩
          · intro k' hk'
            have := cellsList_region lib s xs base _ hk'
            simp only at this
            omega
          · left; omega
          · intro a' hv
            refine ⟨⟨hv.1, ?_⟩, rfl⟩
            rcases hv.2 with h1 | h1
            · left; omega
            · right; exact h1
  | obj kvs =>
    simp only [Json.tidy, Bool.and_eq_true, decide_eq_true_eq] at ht
    obtain ⟨hn, ht⟩ := ht
    obtain ⟨hsub, hcell⟩ := holds_obj hn hh
    have hlen := layout_obj_length kvs base
    have hval : (layout (.obj kvs) base).1 = .map (base + (layoutFields kvs base).2.length) := by
      rw [layout_obj_nodup kvs base hn]
    rw [hval]
    rw [hlen] at hT
    simp only [Json.decodable] at hdc
    simp only [Json.depth] at hdp
    have hdate := IsDate_layout hcell
    have hent := IsEntity_layout hcell
    have hlookall : ∀ p ∈ (layoutFields kvs base).1,
        (layoutFields kvs base).1.lookup p.1 = some p.2 :=
      lookup_of_mem_nodup _ (by rw [layoutFields_keys]; exact hn)
    by_cases hd : jsonIsDate kvs = true
    · simp only [hd, if_true, Bool.and_eq_true] at hdc
      rw [hd] at hdate
      obtain ⟨hv, hflag⟩ := hdc
      have hv' : ∃ text, index st.heap (.map (base + (layoutFields kvs base).2.length)) "value"
          = .str text := by
        split at hv
        · rename_i text hl
          refine ⟨text, ?_⟩
          simp only [index, hcell]
          rcases lookup_layoutFields kvs base "value" with ⟨h1, _⟩ | ⟨j, b, h1, h2⟩
          · rw [hl] at h1; cases h1
          · rw [hl] at h1
            simp only [Option.some.injEq] at h1
            subst h1
            rw [h2]
            simp [layout]
        · cases hv
      obtain ⟨text, htext⟩ := hv'
      have hf' : ∃ b, s.ServerInformation.lookup "is_timezone_support_enabled"
          = some (.bool b) := by
        split at hflag
        · rename_i b hb; exact ⟨b, hb⟩
        · cases hflag
      obtain ⟨b, hb⟩ := hf'
      refine ⟨.str (lib.formatMoment
        (if b then ((lib.parseMoment text).1, 0) else lib.parseMoment text)), st, ?_,
        Post.still (by simp [Json.names, hd]) ?_
          ⟨fun _ => by simp, fun kvs' h hd' => ?_⟩ hok⟩
      · simp only [decodeWith, hdate, if_true, decodeDateTime, htext, hb, Option.getD_some]
        cases b <;> rfl
      · intro p kvs' k hr hd' _
        cases p with
        | nil =>
          simp only [reach, Option.some.injEq, Json.obj.injEq] at hr
          subst hr
          rw [hd] at hd'; cases hd'
        | cons stp p => cases stp <;> simp [reach, hd] at hr
      · simp only [Json.obj.injEq] at h
        subst h
        rw [hd] at hd'; cases hd'
    · have hd' : jsonIsDate kvs = false := by simpa using hd
      simp only [hd', Bool.false_eq_true, if_false] at hdc ht
      rw [hd'] at hdate
      cases hty : jsonEntityType kvs with
      | none =>
        rw [hty] at hent
        simp only [hty] at hdc ht
        simp only [Option.isSome_none] at hent
        have hkeys : (Json.obj kvs).keys lib s = keysFields lib s kvs := by
          simp [Json.keys, hd', hty]
        have hcells : (Json.obj kvs).cells lib s base = cellsFields lib s kvs base := by
          simp [Json.cells, hd', hty]
        have hnames' : (Json.obj kvs).names lib s = namesFields lib s kvs := by
          simp [Json.names, hd', hty]
        rw [hkeys] at hT
        obtain ⟨st', hrun, hadd, ⟨fs', hfs', hkeep, hel⟩, hnames, hok'⟩ :=
          decodeFields_full lib s (base + (layoutFields kvs base).2.length)
            (base + ((layoutFields kvs base).2.length + 1)) kvs base st (layoutFields kvs base).1
            (fun p hp => hsim p.2 (tidyFields_mem ht p hp))
            (fun p hp => hfull p.2 (tidyFields_mem ht p hp) (decodableFields_mem hdc p hp)
              (by have := depthFields_mem hp; omega))
            hn hsub hcell hlookall (Nat.le_refl _) (by omega) hT hok
        refine ⟨.map (base + (layoutFields kvs base).2.length), st', ?_,
          ⟨by rw [hcells]; exact hadd, ?_, by rw [hnames']; exact hnames,
            ⟨fun _ => by simp, fun _ _ _ => ⟨_, rfl⟩⟩, hok'⟩⟩
        · simp only [decodeWith, hdate, hent, Bool.false_eq_true, if_false, hcell,
            layoutFields_keys, hrun]
        · rw [hkeys, hcells, hlen]
          intro p kvs' k hr hdd hk hK
          cases p with
          | nil =>
            simp only [reach, Option.some.injEq, Json.obj.injEq] at hr
            subst hr
            obtain ⟨t, htt⟩ := jsonKey_type hk
            rw [hty] at htt; cases htt
          | cons stp p =>
            cases stp with
            | idx i => simp [reach] at hr
            | fld f =>
              simp only [reach, hd', hty, Bool.false_eq_true, if_false] at hr
              simp only [passed, hd', hty, Bool.false_eq_true, if_false] at hK ⊢
              split at hr
              swap
              · cases hr
              rename_i x hx
              simp only [hx] at hK ⊢
              obtain ⟨r, hr1, hp1⟩ := hel (f, x) (lookup_mem hx)
              obtain ⟨c, hc, hw⟩ := hp1 p kvs' k hr hdd hk hK
              refine ⟨c, hc, _, fs', r, rfl, ⟨?_, ?_⟩, hfs', hr1 hw.nonnull, hw.mono ?_⟩
              · intro k' hk'
                have := cellsFields_region lib s kvs base _ hk'
                simp only at this
                omega
              · left; omega
              · intro a' hv
                refine ⟨⟨hv.1, ?_⟩, rfl⟩
                rcases hv.2 with h1 | h1
                · left; omega
                · right; exact h1
      | some t =>
        rw [hty] at hent
        simp only [hty] at hdc ht
        simp only [Option.isSome_some] at hent
        cases hkey : jsonKey lib s kvs with
        | none =>
          obtain ⟨e, he⟩ := GetIdentifyingKey_layout_none lib s hcell hkey
          refine ⟨.map (base + (layoutFields kvs base).2.length), st, ?_,
            Post.still (by simp [Json.names, hd', hty, hkey]) ?_
              ⟨fun _ => by simp, fun _ _ _ => ⟨_, rfl⟩⟩ hok⟩
          · simp only [decodeWith, hdate, hent, Bool.false_eq_true, if_false, if_true,
              mergeEntityWith, he]
          · intro p kvs' k hr _ hk
            cases p with
            | nil =>
              simp only [reach, Option.some.injEq, Json.obj.injEq] at hr
              subst hr
              rw [hkey] at hk; cases hk
            | cons stp p => cases stp <;> simp [reach, hd', hty, hkey] at hr
        | some k =>
          simp only [hkey, Bool.and_eq_true, decide_eq_true_eq] at hdc ht
          obtain ⟨⟨hsk, hfresh⟩, htf⟩ := ht
          have hk := GetIdentifyingKey_layout_ok lib s hcell hsk hkey
          have hkeys : (Json.obj kvs).keys lib s = k :: keysFields lib s kvs := by
            simp [Json.keys, hd', hty, hkey]
          have hcells : (Json.obj kvs).cells lib s base
              = (k, base + (layoutFields kvs base).2.length) :: cellsFields lib s kvs base := by
            simp [Json.cells, hd', hty, hkey]
          have hnames' : (Json.obj kvs).names lib s
              = kvs.map (fun p => (k, p.1)) ++ namesFields lib s kvs := by
            simp [Json.names, hd', hty, hkey]
          rw [hkeys] at hT
          have hTf : Targets (keysFields lib s kvs) base
              (base + ((layoutFields kvs base).2.length + 1)) st :=
            fun k' hk' => hT k' (List.mem_cons_of_mem _ hk')
          have hsimf : ∀ p ∈ kvs, SimFor lib s dec p.2 :=
            fun p hp => hsim p.2 (tidyFields_mem htf p hp)
          have hfullf : ∀ p ∈ kvs, FullFor lib s dec p.2 :=
            fun p hp => hfull p.2 (tidyFields_mem htf p hp) (decodableFields_mem hdc p hp)
              (by have := depthFields_mem hp; omega)
          cases hl : st.identityMap.lookup k with
          | some c =>
            have hc := hT k (List.mem_cons_self _ _) c hl
            obtain ⟨fs0, hfs0⟩ := Option.isSome_iff_exists.mp (hok (k, c) (lookup_mem hl))
            obtain ⟨st', hrun, ⟨added, hea, ha⟩, ⟨fs', hfs', hcov, hsome, hcond⟩, hnames, hok'⟩ :=
              mergeFields_full lib s (base + (layoutFields kvs base).2.length) c
                (base + ((layoutFields kvs base).2.length + 1)) kvs base st
                (layoutFields kvs base).1 fs0 hsimf hfullf hn hsub hcell hlookall
                (Nat.le_refl _) (by omega) (Or.inr hc) hTf hok hfs0
            have hbound : st'.identityMap.lookup k = some c := by
              rw [hea]; exact lookup_append_of_some hl
            refine ⟨.map c, st', ?_, ⟨?_, ?_, ?_, ⟨fun _ => by simp, fun _ _ _ => ⟨_, rfl⟩⟩, hok'⟩⟩
            · simp only [decodeWith, hdate, hent, Bool.false_eq_true, if_false, if_true,
                mergeEntityWith, hk, hl, hcell, layoutFields_keys, hrun]
            · rw [hcells]
              exact ⟨added, hea, fun p hp => List.mem_cons_of_mem _ (ha p hp)⟩
            · rw [hkeys, hcells, hlen]
              intro p kvs' k' hr hdd hk' hK
              cases p with
              | nil =>
                simp only [reach, Option.some.injEq, Json.obj.injEq] at hr
                subst hr
                rw [hkey] at hk'
                simp only [Option.some.injEq] at hk'
                subst hk'
                exact ⟨c, hbound, rfl⟩
              | cons stp p =>
                cases stp with
                | idx i => simp [reach] at hr
                | fld f =>
                  simp only [reach, hd', hty, hkey, Bool.false_eq_true, if_false] at hr
                  simp only [passed, hd', hty, hkey, Bool.false_eq_true, if_false] at hK ⊢
                  split at hr
                  swap
                  · cases hr
                  rename_i x hx
                  simp only [hx] at hK ⊢
                  have hKk := hK k (List.mem_cons_self _ _)
                  have hfree : ∀ k'' ∈ keysFields lib s kvs,
                      st.identityMap.lookup k'' ≠ some c := by
                    intro k'' hk'' hl''
                    have := hKk.2 k'' (List.mem_cons_of_mem _ hk'') c hl hl''
                    exact hfresh (this ▸ hk'')
                  obtain ⟨hkeep, hel⟩ := hcond hfree
                  obtain ⟨r, hr1, hp1⟩ := hel (f, x) (lookup_mem hx)
                  have hpsub : ∀ kh ∈ passed lib s p x, kh ∈ keysFields lib s kvs :=
                    fun kh hkh => keysFields_mem (lookup_mem hx) (passed_subset lib s p x kh hkh)
                  have hK' : ∀ kh ∈ passed lib s p x,
                      (keysFields lib s kvs).count kh = 1 ∧ Sole st (keysFields lib s kvs) kh := by
                    intro kh hkh
                    have h1 := hK kh (List.mem_cons_of_mem _ hkh)
                    refine ⟨(count_cons_one h1.1 (hpsub kh hkh)).2, ?_⟩
                    intro k'' hk'' a h2 h3
                    exact h1.2 k'' (List.mem_cons_of_mem _ hk'') a h2 h3
                  obtain ⟨cc, hcc, hw⟩ := hp1 p kvs' k' hr hdd hk' hK'
                  refine ⟨cc, hcc, c, fs', r, rfl, ⟨?_, ?_⟩, hfs', hr1, hw.mono ?_⟩
                  · intro k'' hk''
                    rcases List.mem_cons.mp hk'' with h1 | h1
                    · simp only [Prod.mk.injEq] at h1
                      omega
                    · have := cellsFields_region lib s kvs base _ h1
                      simp only at this
                      omega
                  · right; exact ⟨k, List.mem_cons_self _ _, hl⟩
                  · intro a' hv
                    refine ⟨⟨?_, ?_⟩, rfl⟩
                    · intro k'' hk''
                      rcases List.mem_cons.mp hk'' with h1 | h1
                      · simp only [Prod.mk.injEq] at h1
                        rw [h1.1]
                        exact List.mem_cons_self _ _
                      · exact List.mem_cons_of_mem _ (hv.1 k'' h1)
                    · rcases hv.2 with h1 | ⟨kh, hkh, hlk⟩
                      · left; omega
                      · right; exact ⟨kh, List.mem_cons_of_mem _ hkh, hlk⟩
            · rw [hnames']
              refine NamesOK.append ?_ hnames
              intro q hq
              obtain ⟨p, hp, rfl⟩ := List.mem_map.mp hq
              exact ⟨c, fs', hbound, hfs', hsome p hp⟩
          | none =>
            have hl2 : (st.identityMap ++ [(k, base + (layoutFields kvs base).2.length)]).lookup k
                = some (base + (layoutFields kvs base).2.length) := lookup_append_new hl
            have hT2 : Targets (keysFields lib s kvs) base
                (base + ((layoutFields kvs base).2.length + 1))
                { st with identityMap :=
                  (st.identityMap ++ [(k, base + (layoutFields kvs base).2.length)]) } := by
              intro k' hk' b hb
              rcases lookup_append_cases hb with h3 | h3
              · exact hTf k' hk' b h3
              · simp only [List.mem_singleton, Prod.mk.injEq] at h3
                exact absurd (h3.1 ▸ hk') hfresh
            have hback : ∀ kh, kh ≠ k → ∀ (a : Nat),
                (st.identityMap ++ [(k, base + (layoutFields kvs base).2.length)]).lookup kh
                  = some a → st.identityMap.lookup kh = some a := by
              intro kh hne a hb
              rcases lookup_append_cases hb with h3 | h3
              · exact h3
              · simp only [List.mem_singleton, Prod.mk.injEq] at h3
                exact absurd h3.1 hne
            obtain ⟨st', hrun, ⟨added, hea, ha⟩, ⟨fs', hfs', hcov, hsome, hcond⟩, hnames, hok'⟩ :=
              mergeFields_full lib s (base + (layoutFields kvs base).2.length)
                (base + (layoutFields kvs base).2.length)
                (base + ((layoutFields kvs base).2.length + 1)) kvs base
                { st with identityMap :=
                  (st.identityMap ++ [(k, base + (layoutFields kvs base).2.length)]) }
                (layoutFields kvs base).1 (layoutFields kvs base).1 hsimf hfullf hn hsub hcell
                hlookall (Nat.le_refl _) (by omega) (Or.inl rfl) hT2 (hok.register hcell) hcell
            have hbound : st'.identityMap.lookup k
                = some (base + (layoutFields kvs base).2.length) := by
              rw [hea]; exact lookup_append_of_some hl2
            have hfree : ∀ k'' ∈ keysFields lib s kvs,
                (st.identityMap ++ [(k, base + (layoutFields kvs base).2.length)]).lookup k''
                  ≠ some (base + (layoutFields kvs base).2.length) := by
              intro k'' hk'' hb
              rcases lookup_append_cases hb with h3 | h3
              · have := hTf k'' hk'' _ h3
                omega
              · simp only [List.mem_singleton, Prod.mk.injEq] at h3
                exact hfresh (h3.1 ▸ hk'')
            refine ⟨.map (base + (layoutFields kvs base).2.length), st', ?_,
              ⟨?_, ?_, ?_, ⟨fun _ => by simp, fun _ _ _ => ⟨_, rfl⟩⟩, hok'⟩⟩
            · simp only [decodeWith, hdate, hent, Bool.false_eq_true, if_false, if_true,
                mergeEntityWith, hk, hl, hl2, hcell, layoutFields_keys, hrun]
            · rw [hcells]
              refine ⟨(k, base + (layoutFields kvs base).2.length) :: added, ?_, ?_⟩
              · rw [hea]; simp
              · intro p hp
                rcases List.mem_cons.mp hp with h1 | h1
                · subst h1; exact List.mem_cons_self _ _
                · exact List.mem_cons_of_mem _ (ha p h1)
            · rw [hkeys, hcells, hlen]
              intro p kvs' k' hr hdd hk' hK
              cases p with
              | nil =>
                simp only [reach, Option.some.injEq, Json.obj.injEq] at hr
                subst hr
                rw [hkey] at hk'
                simp only [Option.some.injEq] at hk'
                subst hk'
                exact ⟨_, hbound, rfl⟩
              | cons stp p =>
                cases stp with
                | idx i => simp [reach] at hr
                | fld f =>
                  simp only [reach, hd', hty, hkey, Bool.false_eq_true, if_false] at hr
                  simp only [passed, hd', hty, hkey, Bool.false_eq_true, if_false] at hK ⊢
                  split at hr
                  swap
                  · cases hr
                  rename_i x hx
                  simp only [hx] at hK ⊢
                  obtain ⟨hkeep, hel⟩ := hcond hfree
                  obtain ⟨r, hr1, hp1⟩ := hel (f, x) (lookup_mem hx)
                  have hpsub : ∀ kh ∈ passed lib s p x, kh ∈ keysFields lib s kvs :=
                    fun kh hkh => keysFields_mem (lookup_mem hx) (passed_subset lib s p x kh hkh)
                  have hpne : ∀ kh ∈ passed lib s p x, kh ≠ k :=
                    fun kh hkh e => hfresh (e ▸ hpsub kh hkh)
                  have hK' : ∀ kh ∈ passed lib s p x,
                      (keysFields lib s kvs).count kh = 1 ∧
                      Sole { st with identityMap :=
                        (st.identityMap ++ [(k, base + (layoutFields kvs base).2.length)]) }
                        (keysFields lib s kvs) kh := by
                    intro kh hkh
                    have h1 := hK kh (List.mem_cons_of_mem _ hkh)
                    refine ⟨(count_cons_one h1.1 (hpsub kh hkh)).2, ?_⟩
                    intro k'' hk'' a h2 h3
                    exact h1.2 k'' (List.mem_cons_of_mem _ hk'') a
                      (hback kh (hpne kh hkh) a h2)
                      (hback k'' (fun e => hfresh (e ▸ hk'')) a h3)
                  obtain ⟨cc, hcc, hw⟩ := hp1 p kvs' k' hr hdd hk' hK'
                  refine ⟨cc, hcc, _, fs', r, rfl, ⟨?_, ?_⟩, hfs', hr1, hw.mono ?_⟩
                  · intro k'' hk''
                    rcases List.mem_cons.mp hk'' with h1 | h1
                    · simp only [Prod.mk.injEq] at h1
                      rw [h1.1]
                      exact List.mem_cons_self _ _
                    · have := cellsFields_region lib s kvs base _ h1
                      simp only at this
                      omega
                  · left; omega
                  · intro a' hv
                    refine ⟨⟨?_, ?_⟩, rfl⟩
                    · intro k'' hk''
                      rcases List.mem_cons.mp hk'' with h1 | h1
                      · simp only [Prod.mk.injEq] at h1
                        rw [h1.1]
                        exact List.mem_cons_self _ _
                      · exact List.mem_cons_of_mem _ (hv.1 k'' h1)
                    · rcases hv.2 with h1 | ⟨kh, hkh, hlk⟩
                      · left; omega
                      · right
                        exact ⟨kh, List.mem_cons_of_mem _ hkh, hback kh (hpne kh hkh) a' hlk⟩
            · rw [hnames']
              refine NamesOK.append ?_ hnames
              intro q hq
              obtain ⟨p, hp, rfl⟩ := List.mem_map.mp hq
              exact ⟨_, fs', hbound, hfs', hsome p hp⟩

/-- `Decode` returns on a tidy, decodable parsed value when its budget is above the
depth of the value, and leaves `Post`. -/
theorem Decode_full (lib : Lib) (s : Session) :
    ∀ (n : Nat) (j : Json), j.tidy lib s = true → j.decodable lib s = true → j.depth < n →
      FullFor lib s (Decode lib s n) j
  | 0, _, _, _, hd => by omega
  | n + 1, j, ht, hdc, hd =>
    decodeWith_full lib s n (Decode_sim lib s n) (Decode_full lib s n) j ht hdc hd

/-! ### Entities reached along a path -/

theorem namesList_mem {lib : Lib} {s : Session} : ∀ {xs : List Json} {x : Json}
    {q : String × String}, x ∈ xs → q ∈ x.names lib s → q ∈ namesList lib s xs
  | [], _, _, hx, _ => by simp at hx
  | y :: ys, x, q, hx, hq => by
    simp only [namesList]
    rcases List.mem_cons.mp hx with h1 | h1
    · subst h1; exact List.mem_append_left _ hq
    · exact List.mem_append_right _ (namesList_mem h1 hq)

theorem namesFields_mem {lib : Lib} {s : Session} : ∀ {kvs : List (String × Json)}
    {p : String × Json} {q : String × String}, p ∈ kvs → q ∈ p.2.names lib s →
    q ∈ namesFields lib s kvs
  | [], _, _, hp, _ => by simp at hp
  | (f, x) :: kvs, p, q, hp, hq => by
    simp only [namesFields]
    rcases List.mem_cons.mp hp with h1 | h1
    · subst h1; exact List.mem_append_left _ hq
    · exact List.mem_append_right _ (namesFields_mem h1 hq)

/-- An entity of known type that `Decode` reaches in a parsed value is among the
entities of the value, with its fields. -/
theorem reach_mem (lib : Lib) (s : Session) : ∀ (p : List Step) (x : Json)
    (kvs : List (String × Json)) (k : String),
    reach lib s p x = some (.obj kvs) → jsonIsDate kvs = false → jsonKey lib s kvs = some k →
    k ∈ x.keys lib s ∧ ∀ f, (kvs.lookup f).isSome = true → (k, f) ∈ x.names lib s
  | [], x, kvs, k, hr, hd, hk => by
    simp only [reach, Option.some.injEq] at hr
    subst hr
    obtain ⟨t, hty⟩ := jsonKey_type hk
    refine ⟨by simp [Json.keys, hd, hty, hk], ?_⟩
    intro f hf
    simp only [Json.names, hd, hty, hk, Bool.false_eq_true, if_false]
    apply List.mem_append_left
    obtain ⟨v, hv⟩ := Option.isSome_iff_exists.mp hf
    exact List.mem_map.mpr ⟨(f, v), lookup_mem hv, rfl⟩
  | .idx i :: p, x, kvs, k, hr, hd, hk => by
    cases x with
    | arr xs =>
      simp only [reach] at hr
      split at hr
      · rename_i y hy
        obtain ⟨h1, h2⟩ := reach_mem lib s p y kvs k hr hd hk
        exact ⟨by simp only [Json.keys]; exact keysList_mem (mem_of_getElem? hy) h1,
          fun f hf => by
            simp only [Json.names]
            exact namesList_mem (mem_of_getElem? hy) (h2 f hf)⟩
      · cases hr
    | null => simp [reach] at hr
    | bool _ => simp [reach] at hr
    | num _ _ => simp [reach] at hr
    | str _ => simp [reach] at hr
    | obj _ => simp [reach] at hr
  | .fld g :: p, x, kvs, k, hr, hd, hk => by
    cases x with
    | obj kvs0 =>
      simp only [reach] at hr
      split at hr
      · cases hr
      · rename_i hd0
        have hd0' : jsonIsDate kvs0 = false := by simpa using hd0
        split at hr
        · rename_i hty
          split at hr
          · rename_i y hy
            obtain ⟨h1, h2⟩ := reach_mem lib s p y kvs k hr hd hk
            refine ⟨?_, fun f hf => ?_⟩
            · simp only [Json.keys, hd0', hty, Bool.false_eq_true, if_false]
              exact keysFields_mem (lookup_mem hy) h1
            · simp only [Json.names, hd0', hty, Bool.false_eq_true, if_false]
              exact namesFields_mem (lookup_mem hy) (h2 f hf)
          · cases hr
        · rename_i t hty
          split at hr
          · cases hr
          · rename_i k0 hk0
            split at hr
            · rename_i y hy
              obtain ⟨h1, h2⟩ := reach_mem lib s p y kvs k hr hd hk
              refine ⟨?_, fun f hf => ?_⟩
              · simp only [Json.keys, hd0', hty, hk0, Bool.false_eq_true, if_false]
                exact List.mem_cons_of_mem _ (keysFields_mem (lookup_mem hy) h1)
              · simp only [Json.names, hd0', hty, hk0, Bool.false_eq_true, if_false]
                exact List.mem_append_right _ (namesFields_mem (lookup_mem hy) (h2 f hf))
            · cases hr
    | null => simp [reach] at hr
    | bool _ => simp [reach] at hr
    | num _ _ => simp [reach] at hr
    | str _ => simp [reach] at hr
    | arr _ => simp [reach] at hr

/-- `Decode` returns a nil, a boolean, a number and a string as they are. -/
theorem Decode_scalar {lib : Lib} {s : Session} {m : Nat} {x v : Val} {st st' : State}
    (hx : x.isScalar = true) (h : Decode lib s m x st = .ok (v, st')) : v = x := by
  cases m with
  | zero => simp [Decode] at h
  | succ m =>
    cases x <;> simp [Val.isScalar] at hx <;>
      simp only [Decode, decodeWith, Except.ok.injEq, Prod.mk.injEq] at h <;> exact h.1.symm

/-! ## Well-formed response elements are decoded -/

theorem fieldValues_cons (k : String) (v : Json) (rest : List (String × Json)) (name : String) :
    fieldValues ((k, v) :: rest) name
      = if matchesField k name = true then v :: fieldValues rest name
        else fieldValues rest name := by
  simp only [fieldValues, matchesField, List.filter_cons]
  split <;> rfl

theorem matchesField_other {k a b : String} (hk : matchesField k a = true)
    (hab : a.data.map foldRune ≠ b.data.map foldRune) : matchesField k b = false := by
  simp only [matchesField, decide_eq_true_eq, decide_eq_false_iff_not] at hk ⊢
  rw [hk]
  exact hab

theorem fold_action_data : "action".data.map foldRune ≠ "data".data.map foldRune := by decide

theorem fold_action_metadata : "action".data.map foldRune ≠ "metadata".data.map foldRune := by
  decide

theorem fold_data_metadata : "data".data.map foldRune ≠ "metadata".data.map foldRune := by decide

theorem fold_metadata_data : "metadata".data.map foldRune ≠ "data".data.map foldRune := by decide

theorem fold_url_headers : "url".data.map foldRune ≠ "headers".data.map foldRune := by decide

theorem storeString_text {cur : String} {v : Json} (hv : v.isText = true) :
    ∃ t, storeString cur v = .ok t := by
  cases v <;> simp [Json.isText] at hv <;> exact ⟨_, rfl⟩

theorem storeBool_flag {cur : Bool} {v : Json} (hv : v.isFlag = true) :
    ∃ t, storeBool cur v = .ok t := by
  cases v <;> simp [Json.isFlag] at hv <;> exact ⟨_, rfl⟩

theorem Holds.extend {h : Heap} {lo : Nat} {cells : List Cell} (hh : Holds h lo cells)
    (ext : List Cell) : Holds (h ++ ext) lo cells := by
  intro k c hk
  have := hh k c hk
  rw [List.getElem?_append_left (lt_length_of_getElem? this)]
  exact this

theorem getObj_append_left {h : Heap} {a : Nat} (cells : List Cell)
    (ha : (getObj h a).isSome = true) : (getObj (h ++ cells) a).isSome = true := by
  unfold getObj at ha ⊢
  split at ha
  · rename_i kvs hk
    rw [List.getElem?_append_left (lt_length_of_getElem? hk), hk]
    rfl
  · cases ha

theorem StateOK.onAppend {h : Heap} {im : IdentityMap} (cells : List Cell)
    (hok : StateOK ⟨h, im⟩) : StateOK ⟨h ++ cells, im⟩ :=
  fun p hp => getObj_append_left cells (hok p hp)

theorem Scoped.afterAppend {h : Heap} {im : IdentityMap} (cells : List Cell)
    (hs : Scoped ⟨h, im⟩) : Scoped ⟨h ++ cells, im⟩ := by
  intro p hp
  have := hs p hp
  simp only [List.length_append] at this ⊢
  omega

/-- The elements of an array of records, stored in a new slice: the maps the parser
builds for them, one after the other. -/
theorem storeMapElems_records (lib : Lib) (s : Session) : ∀ (xs : List Json) (h : Heap),
    xs.all (Json.isQueryRecord lib s) = true →
    storeMapElems [] xs h
      = .ok ((layoutList xs h.length).1, h ++ (layoutList xs h.length).2)
  | [], h, _ => by simp [storeMapElems, layoutList]
  | x :: xs, h, hx => by
    simp only [List.all_cons, Bool.and_eq_true] at hx
    cases x with
    | obj kvs =>
      have ih := storeMapElems_records lib s xs (h ++ (layout (.obj kvs) h.length).2) hx.2
      simp only [storeMapElems, List.headD_nil, storeMap, alloc, List.tail_nil, ih,
        layoutList, List.length_append, List.append_assoc]
    | null => simp [Json.isQueryRecord] at hx
    | bool _ => simp [Json.isQueryRecord] at hx
    | num _ _ => simp [Json.isQueryRecord] at hx
    | str _ => simp [Json.isQueryRecord] at hx
    | arr _ => simp [Json.isQueryRecord] at hx

/-- The elements of an array of objects and nulls can be stored in a new slice, and
the heap only gains cells. -/
theorem storeMapElems_ok : ∀ (xs : List Json) (h : Heap),
    xs.all Json.isRecord = true →
    ∃ vs ext, storeMapElems [] xs h = .ok (vs, h ++ ext)
  | [], h, _ => ⟨[], [], by simp [storeMapElems]⟩
  | x :: xs, h, hx => by
    simp only [List.all_cons, Bool.and_eq_true] at hx
    cases x with
    | obj kvs =>
      obtain ⟨vs, ext, ih⟩ := storeMapElems_ok xs (h ++ (layout (.obj kvs) h.length).2) hx.2
      exact ⟨(layout (.obj kvs) h.length).1 :: vs, (layout (.obj kvs) h.length).2 ++ ext, by
        simp only [storeMapElems, List.headD_nil, storeMap, alloc, List.tail_nil, ih,
          List.append_assoc]⟩
    | null =>
      obtain ⟨vs, ext, ih⟩ := storeMapElems_ok xs h hx.2
      exact ⟨.nilMap :: vs, ext, by
        simp only [storeMapElems, List.headD_nil, storeMap, List.tail_nil, ih]⟩
    | bool _ => simp [Json.isRecord] at hx
    | num _ _ => simp [Json.isRecord] at hx
    | str _ => simp [Json.isRecord] at hx
    | arr _ => simp [Json.isRecord] at hx

theorem mem_fieldValues {kvs : List (String × Json)} {name : String} {v : Json}
    (hv : v ∈ fieldValues kvs name) : ∃ k, (k, v) ∈ kvs := by
  simp only [fieldValues, List.mem_map, List.mem_filter] at hv
  obtain ⟨p, hp, e⟩ := hv
  exact ⟨p.1, by rw [← e]; exact hp.1⟩

theorem Holds.bound {h : Heap} {lo : Nat} {cells : List Cell} (hh : Holds h lo cells)
    (hpos : 0 < cells.length) : lo + cells.length ≤ h.length := by
  have hlast : cells[cells.length - 1]? = some (cells[cells.length - 1]) :=
    List.getElem?_eq_getElem (by omega)
  have := lt_length_of_getElem? (hh _ _ hlast)
  omega

/-- The entries of an object stored in a create result whose `Data` and `Metadata`
are still nil when an entry for them comes: the call returns, the heap gains cells,
and `Data` is as it was, nil, or the map the parser builds for the object under
`data`. -/
theorem storeEntries_create : ∀ (kvs : List (String × Json)) (action : String)
    (data metadata : Val) (slots : List Val) (h : Heap),
    (fieldValues kvs "action").all Json.isText = true →
    (fieldValues kvs "data" = [] ∨ (data = .nilMap ∧
      (fieldValues kvs "data" = [.null] ∨ ∃ kv, fieldValues kvs "data" = [.obj kv]))) →
    (fieldValues kvs "metadata" = [] ∨ (metadata = .nilMap ∧
      ∃ v, fieldValues kvs "metadata" = [v] ∧ v.isRecord = true)) →
    ∃ action1 data1 metadata1 ext,
      storeEntries kvs (.create action data metadata) slots h
        = .ok (.create action1 data1 metadata1, h ++ ext) ∧
      (data1 = data ∨ data1 = .nilMap ∨ ∃ kv pre, .obj kv ∈ fieldValues kvs "data" ∧
        data1 = (layout (.obj kv) (h.length + pre)).1 ∧
        Holds (h ++ ext) (h.length + pre) (layout (.obj kv) (h.length + pre)).2)
  | [], action, data, metadata, slots, h, _, _, _ =>
    ⟨action, data, metadata, [], by simp [storeEntries], .inl rfl⟩
  | (k, v) :: rest, action, data, metadata, slots, h, hA, hD, hM => by
    rw [fieldValues_cons] at hA hD hM
    by_cases ha : matchesField k "action" = true
    · have hd : matchesField k "data" = false := matchesField_other ha fold_action_data
      have hm : matchesField k "metadata" = false := matchesField_other ha fold_action_metadata
      simp only [ha, hd, hm, if_true, Bool.false_eq_true, if_false, List.all_cons,
        Bool.and_eq_true] at hA hD hM
      obtain ⟨t, ht⟩ := @storeString_text action v hA.1
      obtain ⟨a1, d1, m1, ext, hrun, hres⟩ :=
        storeEntries_create rest t data metadata slots h hA.2 hD hM
      refine ⟨a1, d1, m1, ext, ?_, ?_⟩
      · simp only [storeEntries, storeEntry, ha, if_true, ht, hrun]
      · rw [fieldValues_cons]
        simp only [hd, Bool.false_eq_true, if_false]
        exact hres
    · by_cases hd : matchesField k "data" = true
      · have hm : matchesField k "metadata" = false := matchesField_other hd fold_data_metadata
        simp only [ha, hd, hm, if_true, Bool.false_eq_true, if_false] at hA hD hM
        rcases hD with hD | ⟨hnil, hD⟩
        · cases hD
        have hrestD : fieldValues rest "data" = [] := by
          rcases hD with hD | ⟨kv, hD⟩
          · exact (List.cons.inj hD).2
          · exact (List.cons.inj hD).2
        subst hnil
        rcases hD with hD | ⟨kv, hD⟩
        · have hv : v = .null := (List.cons.inj hD).1
          subst hv
          obtain ⟨a1, d1, m1, ext, hrun, hres⟩ :=
            storeEntries_create rest action .nilMap metadata slots h hA (.inl hrestD) hM
          refine ⟨a1, d1, m1, ext, ?_, ?_⟩
          · simp only [storeEntries, storeEntry, ha, hd, if_true, Bool.false_eq_true, if_false,
              storeMap, hrun]
          · rcases hres with h1 | h1 | ⟨kv, pre, hmem, _⟩
            · exact .inl h1
            · exact .inl h1
            · rw [hrestD] at hmem; cases hmem
        · have hv : v = .obj kv := (List.cons.inj hD).1
          subst hv
          obtain ⟨a1, d1, m1, ext, hrun, hres⟩ :=
            storeEntries_create rest action (layout (.obj kv) h.length).1 metadata slots
              (h ++ (layout (.obj kv) h.length).2) hA (.inl hrestD) hM
          refine ⟨a1, d1, m1, (layout (.obj kv) h.length).2 ++ ext, ?_, ?_⟩
          · simp only [storeEntries, storeEntry, ha, hd, if_true, Bool.false_eq_true, if_false,
              storeMap, alloc, hrun, List.append_assoc]
          · rcases hres with h1 | h1 | ⟨kv1, pre, hmem, _⟩
            · refine .inr (.inr ⟨kv, 0, ?_, by simpa using h1, ?_⟩)
              · rw [fieldValues_cons]; simp [hd]
              · rw [← List.append_assoc]
                exact (holds_append h _).extend ext
            · exact .inr (.inl h1)
            · rw [hrestD] at hmem; cases hmem
      · by_cases hm : matchesField k "metadata" = true
        · simp only [ha, hd, hm, if_true, Bool.false_eq_true, if_false] at hA hD hM
          rcases hM with hM | ⟨hnil, w, hM, hw⟩
          · cases hM
          have hv : v = w := (List.cons.inj hM).1
          have hrestM : fieldValues rest "metadata" = [] := (List.cons.inj hM).2
          subst hv
          subst hnil
          have hstore : ∃ mv cells, storeMap .nilMap v h = .ok (mv, h ++ cells) := by
            cases v with
            | null => exact ⟨.nilMap, [], by simp [storeMap]⟩
            | obj kv =>
              exact ⟨(layout (.obj kv) h.length).1, (layout (.obj kv) h.length).2, by
                simp only [storeMap, alloc]⟩
            | bool _ => simp [Json.isRecord] at hw
            | num _ _ => simp [Json.isRecord] at hw
            | str _ => simp [Json.isRecord] at hw
            | arr _ => simp [Json.isRecord] at hw
          obtain ⟨mv, cells, hst⟩ := hstore
          obtain ⟨a1, d1, m1, ext, hrun, hres⟩ :=
            storeEntries_create rest action data mv slots (h ++ cells) hA hD (.inl hrestM)
          refine ⟨a1, d1, m1, cells ++ ext, ?_, ?_⟩
          · simp only [storeEntries, storeEntry, ha, hd, hm, if_true, Bool.false_eq_true,
              if_false, hst, hrun, List.append_assoc]
          · rw [fieldValues_cons]
            simp only [hd, Bool.false_eq_true, if_false]
            rcases hres with h1 | h1 | ⟨kv1, pre, hmem, hval, hh⟩
            · exact .inl h1
            · exact .inr (.inl h1)
            · refine .inr (.inr ⟨kv1, cells.length + pre, hmem, ?_, ?_⟩)
              · rw [hval]; simp only [List.length_append, Nat.add_assoc]
              · simp only [List.length_append, Nat.add_assoc, List.append_assoc] at hh ⊢
                exact hh
        · simp only [ha, hd, hm, if_true, Bool.false_eq_true, if_false] at hA hD hM
          obtain ⟨a1, d1, m1, ext, hrun, hres⟩ :=
            storeEntries_create rest action data metadata slots h hA hD hM
          refine ⟨a1, d1, m1, ext, ?_, ?_⟩
          · simp only [storeEntries, storeEntry, ha, hd, hm, Bool.false_eq_true, if_false, hrun]
          · rw [fieldValues_cons]
            simp only [hd, Bool.false_eq_true, if_false]
            exact hres

/-- The entries of an object stored in an update result whose `Data` and `Metadata`
are still nil when an entry for them comes: the call returns, the heap gains cells,
and `Data` is as it was, nil, or the map the parser builds for the object under
`data`. -/
theorem storeEntries_update : ∀ (kvs : List (String × Json)) (action : String)
    (data metadata : Val) (slots : List Val) (h : Heap),
    (fieldValues kvs "action").all Json.isText = true →
    (fieldValues kvs "data" = [] ∨ (data = .nilMap ∧
      (fieldValues kvs "data" = [.null] ∨ ∃ kv, fieldValues kvs "data" = [.obj kv]))) →
    (fieldValues kvs "metadata" = [] ∨ (metadata = .nilMap ∧
      ∃ v, fieldValues kvs "metadata" = [v] ∧ v.isRecord = true)) →
    ∃ action1 data1 metadata1 ext,
      storeEntries kvs (.update action data metadata) slots h
        = .ok (.update action1 data1 metadata1, h ++ ext) ∧
      (data1 = data ∨ data1 = .nilMap ∨ ∃ kv pre, .obj kv ∈ fieldValues kvs "data" ∧
        data1 = (layout (.obj kv) (h.length + pre)).1 ∧
        Holds (h ++ ext) (h.length + pre) (layout (.obj kv) (h.length + pre)).2)
  | [], action, data, metadata, slots, h, _, _, _ =>
    ⟨action, data, metadata, [], by simp [storeEntries], .inl rfl⟩
  | (k, v) :: rest, action, data, metadata, slots, h, hA, hD, hM => by
    rw [fieldValues_cons] at hA hD hM
    by_cases ha : matchesField k "action" = true
    · have hd : matchesField k "data" = false := matchesField_other ha fold_action_data
      have hm : matchesField k "metadata" = false := matchesField_other ha fold_action_metadata
      simp only [ha, hd, hm, if_true, Bool.false_eq_true, if_false, List.all_cons,
        Bool.and_eq_true] at hA hD hM
      obtain ⟨t, ht⟩ := @storeString_text action v hA.1
      obtain ⟨a1, d1, m1, ext, hrun, hres⟩ :=
        storeEntries_update rest t data metadata slots h hA.2 hD hM
      refine ⟨a1, d1, m1, ext, ?_, ?_⟩
      · simp only [storeEntries, storeEntry, ha, if_true, ht, hrun]
      · rw [fieldValues_cons]
        simp only [hd, Bool.false_eq_true, if_false]
        exact hres
    · by_cases hd : matchesField k "data" = true
      · have hm : matchesField k "metadata" = false := matchesField_other hd fold_data_metadata
        simp only [ha, hd, hm, if_true, Bool.false_eq_true, if_false] at hA hD hM
        rcases hD with hD | ⟨hnil, hD⟩
        · cases hD
        have hrestD : fieldValues rest "data" = [] := by
          rcases hD with hD | ⟨kv, hD⟩
          · exact (List.cons.inj hD).2
          · exact (List.cons.inj hD).2
        subst hnil
        rcases hD with hD | ⟨kv, hD⟩
        · have hv : v = .null := (List.cons.inj hD).1
          subst hv
          obtain ⟨a1, d1, m1, ext, hrun, hres⟩ :=
            storeEntries_update rest action .nilMap metadata slots h hA (.inl hrestD) hM
          refine ⟨a1, d1, m1, ext, ?_, ?_⟩
          · simp only [storeEntries, storeEntry, ha, hd, if_true, Bool.false_eq_true, if_false,
              storeMap, hrun]
          · rcases hres with h1 | h1 | ⟨kv, pre, hmem, _⟩
            · exact .inl h1
            · exact .inl h1
            · rw [hrestD] at hmem; cases hmem
        · have hv : v = .obj kv := (List.cons.inj hD).1
          subst hv
          obtain ⟨a1, d1, m1, ext, hrun, hres⟩ :=
            storeEntries_update rest action (layout (.obj kv) h.length).1 metadata slots
              (h ++ (layout (.obj kv) h.length).2) hA (.inl hrestD) hM
          refine ⟨a1, d1, m1, (layout (.obj kv) h.length).2 ++ ext, ?_, ?_⟩
          · simp only [storeEntries, storeEntry, ha, hd, if_true, Bool.false_eq_true, if_false,
              storeMap, alloc, hrun, List.append_assoc]
          · rcases hres with h1 | h1 | ⟨kv1, pre, hmem, _⟩
            · refine .inr (.inr ⟨kv, 0, ?_, by simpa using h1, ?_⟩)
              · rw [fieldValues_cons]; simp [hd]
              · rw [← List.append_assoc]
                exact (holds_append h _).extend ext
            · exact .inr (.inl h1)
            · rw [hrestD] at hmem; cases hmem
      · by_cases hm : matchesField k "metadata" = true
        · simp only [ha, hd, hm, if_true, Bool.false_eq_true, if_false] at hA hD hM
          rcases hM with hM | ⟨hnil, w, hM, hw⟩
          · cases hM
          have hv : v = w := (List.cons.inj hM).1
          have hrestM : fieldValues rest "metadata" = [] := (List.cons.inj hM).2
          subst hv
          subst hnil
          have hstore : ∃ mv cells, storeMap .nilMap v h = .ok (mv, h ++ cells) := by
            cases v with
            | null => exact ⟨.nilMap, [], by simp [storeMap]⟩
            | obj kv =>
              exact ⟨(layout (.obj kv) h.length).1, (layout (.obj kv) h.length).2, by
                simp only [storeMap, alloc]⟩
            | bool _ => simp [Json.isRecord] at hw
            | num _ _ => simp [Json.isRecord] at hw
            | str _ => simp [Json.isRecord] at hw
            | arr _ => simp [Json.isRecord] at hw
          obtain ⟨mv, cells, hst⟩ := hstore
          obtain ⟨a1, d1, m1, ext, hrun, hres⟩ :=
            storeEntries_update rest action data mv slots (h ++ cells) hA hD (.inl hrestM)
          refine ⟨a1, d1, m1, cells ++ ext, ?_, ?_⟩
          · simp only [storeEntries, storeEntry, ha, hd, hm, if_true, Bool.false_eq_true,
              if_false, hst, hrun, List.append_assoc]
          · rw [fieldValues_cons]
            simp only [hd, Bool.false_eq_true, if_false]
            rcases hres with h1 | h1 | ⟨kv1, pre, hmem, hval, hh⟩
            · exact .inl h1
            · exact .inr (.inl h1)
            · refine .inr (.inr ⟨kv1, cells.length + pre, hmem, ?_, ?_⟩)
              · rw [hval]; simp only [List.length_append, Nat.add_assoc]
              · simp only [List.length_append, Nat.add_assoc, List.append_assoc] at hh ⊢
                exact hh
        · simp only [ha, hd, hm, if_true, Bool.false_eq_true, if_false] at hA hD hM
          obtain ⟨a1, d1, m1, ext, hrun, hres⟩ :=
            storeEntries_update rest action data metadata slots h hA hD hM
          refine ⟨a1, d1, m1, ext, ?_, ?_⟩
          · simp only [storeEntries, storeEntry, ha, hd, hm, Bool.false_eq_true, if_false, hrun]
          · rw [fieldValues_cons]
            simp only [hd, Bool.false_eq_true, if_false]
            exact hres

/-- An array of records stored in a nil slice: the slice and the cells the parser
builds for the array. -/
theorem storeMaps_records (lib : Lib) (s : Session) (xs : List Json) (h : Heap)
    (hx : xs.all (Json.isQueryRecord lib s) = true) :
    ∃ sl, storeMaps .nilSlice [] (.arr xs) h
      = .ok (.slice true (h.length + (layoutList xs h.length).2.length), sl,
          h ++ ((layoutList xs h.length).2 ++ [.arr (layoutList xs h.length).1])) := by
  cases xs with
  | nil => exact ⟨[], by simp [storeMaps, layoutList]⟩
  | cons x xs =>
    refine ⟨(layoutList (x :: xs) h.length).1 ++ [], ?_⟩
    simp only [storeMaps, storeMapElems_records lib s (x :: xs) h hx, List.length_append,
      List.drop_nil, List.append_assoc]

/-- The entries of an object stored in a query result whose `Data` and `Metadata`
are still nil when an entry for them comes: the call returns, the heap gains cells,
and `Data` is as it was, nil, or the slice of the maps the parser builds for the
records under `data`. -/
theorem storeEntries_query (lib : Lib) (s : Session) : ∀ (kvs : List (String × Json))
    (action : String) (data metadata : Val) (slots : List Val) (h : Heap),
    (fieldValues kvs "action").all Json.isText = true →
    (fieldValues kvs "data" = [] ∨ (data = .nilSlice ∧ slots = [] ∧
      (fieldValues kvs "data" = [.null] ∨
        ∃ xs, fieldValues kvs "data" = [.arr xs] ∧
          xs.all (Json.isQueryRecord lib s) = true))) →
    (fieldValues kvs "metadata" = [] ∨ (metadata = .nilMap ∧
      ∃ v, fieldValues kvs "metadata" = [v] ∧ v.isRecord = true)) →
    ∃ action1 data1 metadata1 ext,
      storeEntries kvs (.query action data metadata) slots h
        = .ok (.query action1 data1 metadata1, h ++ ext) ∧
      (data1 = data ∨ data1 = .nilSlice ∨ ∃ xs pre, .arr xs ∈ fieldValues kvs "data" ∧
        data1 = .slice true (h.length + pre + (layoutList xs (h.length + pre)).2.length) ∧
        Holds (h ++ ext) (h.length + pre)
          ((layoutList xs (h.length + pre)).2 ++ [.arr (layoutList xs (h.length + pre)).1]))
  | [], action, data, metadata, slots, h, _, _, _ =>
    ⟨action, data, metadata, [], by simp [storeEntries], .inl rfl⟩
  | (k, v) :: rest, action, data, metadata, slots, h, hA, hD, hM => by
    rw [fieldValues_cons] at hA hD hM
    by_cases ha : matchesField k "action" = true
    · have hd : matchesField k "data" = false := matchesField_other ha fold_action_data
      have hm : matchesField k "metadata" = false := matchesField_other ha fold_action_metadata
      simp only [ha, hd, hm, if_true, Bool.false_eq_true, if_false, List.all_cons,
        Bool.and_eq_true] at hA hD hM
      obtain ⟨t, ht⟩ := @storeString_text action v hA.1
      obtain ⟨a1, d1, m1, ext, hrun, hres⟩ :=
        storeEntries_query lib s rest t data metadata slots h hA.2 hD hM
      refine ⟨a1, d1, m1, ext, ?_, ?_⟩
      · simp only [storeEntries, storeEntry, ha, if_true, ht, hrun]
      · rw [fieldValues_cons]
        simp only [hd, Bool.false_eq_true, if_false]
        exact hres
    · by_cases hd : matchesField k "data" = true
      · have hm : matchesField k "metadata" = false := matchesField_other hd fold_data_metadata
        simp only [ha, hd, hm, if_true, Bool.false_eq_true, if_false] at hA hD hM
        rcases hD with hD | ⟨hnil, hsl, hD⟩
        · cases hD
        have hrestD : fieldValues rest "data" = [] := by
          rcases hD with hD | ⟨xs, hD, _⟩
          · exact (List.cons.inj hD).2
          · exact (List.cons.inj hD).2
        subst hnil
        subst hsl
        rcases hD with hD | ⟨xs, hD, hxs⟩
        · have hv : v = .null := (List.cons.inj hD).1
          subst hv
          obtain ⟨a1, d1, m1, ext, hrun, hres⟩ :=
            storeEntries_query lib s rest action .nilSlice metadata [] h hA (.inl hrestD) hM
          refine ⟨a1, d1, m1, ext, ?_, ?_⟩
          · simp only [storeEntries, storeEntry, ha, hd, if_true, Bool.false_eq_true, if_false,
              storeMaps, hrun]
          · rcases hres with h1 | h1 | ⟨xs, pre, hmem, _⟩
            · exact .inl h1
            · exact .inl h1
            · rw [hrestD] at hmem; cases hmem
        · have hv : v = .arr xs := (List.cons.inj hD).1
          subst hv
          obtain ⟨sl, hst⟩ := storeMaps_records lib s xs h hxs
          obtain ⟨a1, d1, m1, ext, hrun, hres⟩ :=
            storeEntries_query lib s rest action
              (.slice true (h.length + (layoutList xs h.length).2.length)) metadata sl
              (h ++ ((layoutList xs h.length).2 ++ [.arr (layoutList xs h.length).1]))
              hA (.inl hrestD) hM
          refine ⟨a1, d1, m1,
            ((layoutList xs h.length).2 ++ [.arr (layoutList xs h.length).1]) ++ ext, ?_, ?_⟩
          · simp only [storeEntries, storeEntry, ha, hd, if_true, Bool.false_eq_true, if_false,
              hst, hrun, List.append_assoc]
          · rcases hres with h1 | h1 | ⟨xs1, pre, hmem, _⟩
            · refine .inr (.inr ⟨xs, 0, ?_, by simpa using h1, ?_⟩)
              · rw [fieldValues_cons]; simp [hd]
              · rw [← List.append_assoc]
                exact (holds_append h _).extend ext
            · exact .inr (.inl h1)
            · rw [hrestD] at hmem; cases hmem
      · by_cases hm : matchesField k "metadata" = true
        · simp only [ha, hd, hm, if_true, Bool.false_eq_true, if_false] at hA hD hM
          rcases hM with hM | ⟨hnil, w, hM, hw⟩
          · cases hM
          have hv : v = w := (List.cons.inj hM).1
          have hrestM : fieldValues rest "metadata" = [] := (List.cons.inj hM).2
          subst hv
          subst hnil
          have hstore : ∃ mv cells, storeMap .nilMap v h = .ok (mv, h ++ cells) := by
            cases v with
            | null => exact ⟨.nilMap, [], by simp [storeMap]⟩
            | obj kv =>
              exact ⟨(layout (.obj kv) h.length).1, (layout (.obj kv) h.length).2, by
                simp only [storeMap, alloc]⟩
            | bool _ => simp [Json.isRecord] at hw
            | num _ _ => simp [Json.isRecord] at hw
            | str _ => simp [Json.isRecord] at hw
            | arr _ => simp [Json.isRecord] at hw
          obtain ⟨mv, cells, hst⟩ := hstore
          obtain ⟨a1, d1, m1, ext, hrun, hres⟩ :=
            storeEntries_query lib s rest action data mv slots (h ++ cells) hA hD (.inl hrestM)
          refine ⟨a1, d1, m1, cells ++ ext, ?_, ?_⟩
          · simp only [storeEntries, storeEntry, ha, hd, hm, if_true, Bool.false_eq_true,
              if_false, hst, hrun, List.append_assoc]
          · rw [fieldValues_cons]
            simp only [hd, Bool.false_eq_true, if_false]
            rcases hres with h1 | h1 | ⟨xs1, pre, hmem, hval, hh⟩
            · exact .inl h1
            · exact .inr (.inl h1)
            · refine .inr (.inr ⟨xs1, cells.length + pre, hmem, ?_, ?_⟩)
              · rw [hval]; simp only [List.length_append, Nat.add_assoc]
              · simp only [List.length_append, Nat.add_assoc, List.append_assoc] at hh ⊢
                exact hh
        · simp only [ha, hd, hm, if_true, Bool.false_eq_true, if_false] at hA hD hM
          obtain ⟨a1, d1, m1, ext, hrun, hres⟩ :=
            storeEntries_query lib s rest action data metadata slots h hA hD hM
          refine ⟨a1, d1, m1, ext, ?_, ?_⟩
          · simp only [storeEntries, storeEntry, ha, hd, hm, Bool.false_eq_true, if_false, hrun]
          · rw [fieldValues_cons]
            simp only [hd, Bool.false_eq_true, if_false]
            exact hres

/-- The entries of an object stored in a delete result: the call returns and the
heap is as it was. -/
theorem storeEntries_delete : ∀ (kvs : List (String × Json)) (action : String) (data : Bool)
    (slots : List Val) (h : Heap),
    (fieldValues kvs "action").all Json.isText = true →
    (fieldValues kvs "data").all Json.isFlag = true →
    ∃ r1, storeEntries kvs (.delete action data) slots h = .ok (r1, h)
  | [], action, data, slots, h, _, _ => ⟨.delete action data, by simp [storeEntries]⟩
  | (k, v) :: rest, action, data, slots, h, hA, hD => by
    rw [fieldValues_cons] at hA hD
    by_cases ha : matchesField k "action" = true
    · have hd : matchesField k "data" = false := matchesField_other ha fold_action_data
      simp only [ha, hd, if_true, Bool.false_eq_true, if_false, List.all_cons,
        Bool.and_eq_true] at hA hD
      obtain ⟨t, ht⟩ := @storeString_text action v hA.1
      obtain ⟨r1, hrun⟩ := storeEntries_delete rest t data slots h hA.2 hD
      exact ⟨r1, by simp only [storeEntries, storeEntry, ha, if_true, ht, hrun]⟩
    · by_cases hd : matchesField k "data" = true
      · simp only [ha, hd, if_true, Bool.false_eq_true, if_false, List.all_cons,
          Bool.and_eq_true] at hA hD
        obtain ⟨t, ht⟩ := @storeBool_flag data v hD.1
        obtain ⟨r1, hrun⟩ := storeEntries_delete rest action t slots h hA hD.2
        exact ⟨r1, by
          simp only [storeEntries, storeEntry, ha, hd, if_true, Bool.false_eq_true, if_false,
            ht, hrun]⟩
      · simp only [ha, hd, Bool.false_eq_true, if_false] at hA hD
        obtain ⟨r1, hrun⟩ := storeEntries_delete rest action data slots h hA hD
        exact ⟨r1, by
          simp only [storeEntries, storeEntry, ha, hd, Bool.false_eq_true, if_false, hrun]⟩

theorem storeHeaders_fold : ∀ (hs : List (String × Json)) (cur : List (String × String)),
    hs.all (fun p => p.2.isText) = true →
    ∃ t, hs.foldlM
      (fun acc p =>
        match storeString "" p.2 with
        | .error e => (.error e : Except Err (List (String × String)))
        | .ok s => .ok (acc.filter (fun (q : String × String) => q.1 ≠ p.1) ++ [(p.1, s)]))
      cur = .ok t
  | [], cur, _ => ⟨cur, rfl⟩
  | p :: hs, cur, hp => by
    simp only [List.all_cons, Bool.and_eq_true] at hp
    obtain ⟨t, ht⟩ := @storeString_text "" p.2 hp.1
    obtain ⟨t1, h1⟩ := storeHeaders_fold hs (cur.filter (fun q => q.1 ≠ p.1) ++ [(p.1, t)]) hp.2
    refine ⟨t1, ?_⟩
    simp only [List.foldlM_cons, ht]
    exact h1

theorem storeHeaders_ok {cur : List (String × String)} {v : Json}
    (hv : (match v with
      | .null => true
      | .obj hs => hs.all (fun p => p.2.isText)
      | _ => false) = true) : ∃ t, storeHeaders cur v = .ok t := by
  cases v with
  | null => exact ⟨[], rfl⟩
  | obj hs =>
    simp only at hv
    obtain ⟨t, ht⟩ := storeHeaders_fold hs cur hv
    exact ⟨t, by simp only [storeHeaders]; exact ht⟩
  | bool _ => simp at hv
  | num _ _ => simp at hv
  | str _ => simp at hv
  | arr _ => simp at hv

/-- The entries of an object stored in an upload-metadata result: the call returns
and the heap is as it was. -/
theorem storeEntries_upload : ∀ (kvs : List (String × Json)) (url : String)
    (headers : List (String × String)) (slots : List Val) (h : Heap),
    (fieldValues kvs "url").all Json.isText = true →
    (fieldValues kvs "headers").all
      (fun v =>
        match v with
        | .null => true
        | .obj hs => hs.all (fun p => p.2.isText)
        | _ => false) = true →
    ∃ r1, storeEntries kvs (.getUploadMetadata url headers) slots h = .ok (r1, h)
  | [], url, headers, slots, h, _, _ =>
    ⟨.getUploadMetadata url headers, by simp [storeEntries]⟩
  | (k, v) :: rest, url, headers, slots, h, hA, hD => by
    rw [fieldValues_cons] at hA hD
    by_cases ha : matchesField k "url" = true
    · have hd : matchesField k "headers" = false := matchesField_other ha fold_url_headers
      simp only [ha, hd, if_true, Bool.false_eq_true, if_false, List.all_cons,
        Bool.and_eq_true] at hA hD
      obtain ⟨t, ht⟩ := @storeString_text url v hA.1
      obtain ⟨r1, hrun⟩ := storeEntries_upload rest t headers slots h hA.2 hD
      exact ⟨r1, by simp only [storeEntries, storeEntry, ha, if_true, ht, hrun]⟩
    · by_cases hd : matchesField k "headers" = true
      · simp only [ha, hd, if_true, Bool.false_eq_true, if_false, List.all_cons,
          Bool.and_eq_true] at hA hD
        obtain ⟨t, ht⟩ := @storeHeaders_ok headers v hD.1
        obtain ⟨r1, hrun⟩ := storeEntries_upload rest url t slots h hA hD.2
        exact ⟨r1, by
          simp only [storeEntries, storeEntry, ha, hd, if_true, Bool.false_eq_true, if_false,
            ht, hrun]⟩
      · simp only [ha, hd, Bool.false_eq_true, if_false] at hA hD
        obtain ⟨r1, hrun⟩ := storeEntries_upload rest url headers slots h hA hD
        exact ⟨r1, by
          simp only [storeEntries, storeEntry, ha, hd, Bool.false_eq_true, if_false, hrun]⟩

/-! ### `DecodeResult` on what `json.Unmarshal` stored -/

theorem isQueryRecord_obj {lib : Lib} {s : Session} {x : Json}
    (hx : x.isQueryRecord lib s = true) :
    ∃ kvs, x = .obj kvs ∧ jsonIsDate kvs = false ∧ x.tidy lib s = true ∧
      x.decodable lib s = true := by
  cases x with
  | obj kvs =>
    simp only [Json.isQueryRecord, Bool.and_eq_true, Bool.not_eq_true'] at hx
    exact ⟨kvs, rfl, hx.1.1, hx.1.2, hx.2⟩
  | null => simp [Json.isQueryRecord] at hx
  | bool _ => simp [Json.isQueryRecord] at hx
  | num _ _ => simp [Json.isQueryRecord] at hx
  | str _ => simp [Json.isQueryRecord] at hx
  | arr _ => simp [Json.isQueryRecord] at hx

theorem scoped_below {st : State} (hs : Scoped st) {lo : Nat} (hlo : st.heap.length ≤ lo)
    (k : String) (b : Nat) (hb : st.identityMap.lookup k = some b) : b < lo := by
  have := hs (k, b) (lookup_mem hb)
  simp only at this
  omega

/-- The record stored in the `Data` of a create or update result is decoded. -/
theorem Decode_record (lib : Lib) (s : Session) (n : Nat) (kv : List (String × Json))
    (base : Nat) (st : State)
    (ht : (Json.obj kv).tidy lib s = true) (hdc : (Json.obj kv).decodable lib s = true)
    (hn : (Json.obj kv).depth < n)
    (hh : Holds st.heap base (layout (.obj kv) base).2)
    (hok : StateOK st) (hsc : ∀ p ∈ st.identityMap, p.2 < base) :
    ∃ r st', Decode lib s n (layout (.obj kv) base).1 st = .ok (r, st') ∧
      StateOK st' ∧ Scoped st' := by
  have hT : Targets ((Json.obj kv).keys lib s) base
      (base + (layout (.obj kv) base).2.length) st :=
    targets_of_scope (fun k b hb => hsc (k, b) (lookup_mem hb))
  obtain ⟨r, st', hrun, hpost⟩ := Decode_full lib s n (.obj kv) ht hdc hn base st hh hT hok
  refine ⟨r, st', hrun, hpost.ok, ?_⟩
  have hlen : st'.heap.length = st.heap.length :=
    (Decode_rel sameShape_stepRel lib s n _ _ _ _ hrun).1
  have hb : base + (layout (.obj kv) base).2.length ≤ st.heap.length :=
    hh.bound (by rw [layout_obj_length]; omega)
  obtain ⟨added, hadd, hin⟩ := hpost.added
  intro p hp
  rw [hadd] at hp
  rw [hlen]
  rcases List.mem_append.mp hp with h1 | h1
  · have := hsc p h1
    omega
  · have := cells_region lib s (.obj kv) base p (hin p h1)
    omega

/-- The records stored in the `Data` of a query result are decoded. -/
theorem Decode_records (lib : Lib) (s : Session) (n : Nat) (xs : List Json)
    (base : Nat) (st : State)
    (hx : xs.all (Json.isQueryRecord lib s) = true) (hn : 0 < n)
    (hd : ∀ x ∈ xs, x.depth + 1 < n)
    (hh : Holds st.heap base ((layoutList xs base).2 ++ [.arr (layoutList xs base).1]))
    (hok : StateOK st) (hsc : ∀ p ∈ st.identityMap, p.2 < base) :
    ∃ r st', Decode lib s n (.slice true (base + (layoutList xs base).2.length)) st
        = .ok (r, st') ∧ StateOK st' ∧ Scoped st' := by
  obtain ⟨m, rfl⟩ : ∃ m, n = m + 1 := ⟨n - 1, by omega⟩
  have harr : getArr st.heap (base + (layoutList xs base).2.length)
      = some ([] ++ (layoutList xs base).1) := by
    have := hh.right 0 (.arr (layoutList xs base).1) (by simp)
    simp only [Nat.add_zero] at this
    simp only [getArr, this, List.nil_append]
  have hrec : ∀ x ∈ xs, ∃ kvs, x = .obj kvs ∧ jsonIsDate kvs = false ∧
      x.tidy lib s = true ∧ x.decodable lib s = true := fun x hxm =>
    isQueryRecord_obj (List.all_eq_true.mp hx x hxm)
  obtain ⟨st', hrun, ⟨added, hadd, hin⟩, _, _, hok'⟩ :=
    decodeElems_full lib s true (base + (layoutList xs base).2.length)
      (base + (layoutList xs base).2.length + 1) xs base [] st
      (fun x hxm => by
        obtain ⟨kvs, _, _, ht, _⟩ := hrec x hxm
        exact Decode_sim lib s m x ht)
      (fun x hxm => by
        obtain ⟨kvs, _, _, ht, hdc⟩ := hrec x hxm
        exact Decode_full lib s m x ht hdc (by have := hd x hxm; omega))
      (fun x hxm b σ r σ' hpost => by
        obtain ⟨kvs, he, hdate, _, _⟩ := hrec x hxm
        obtain ⟨c, hc⟩ := hpost.shape.2 kvs he hdate
        rw [hc]; rfl)
      hh.left harr (Nat.le_refl _) (Nat.lt_succ_self _)
      (targets_of_scope (fun k b hb => hsc (k, b) (lookup_mem hb))) hok
  have hlen : st'.heap.length = st.heap.length :=
    (decodeElems_rel sameShape_stepRel (Decode_rel sameShape_stepRel lib s m) true _ _ _ _ _
      hrun).1
  have hb : base + ((layoutList xs base).2 ++ [Cell.arr (layoutList xs base).1]).length
      ≤ st.heap.length := hh.bound (by simp)
  simp only [List.length_append, List.length_singleton] at hb
  refine ⟨.slice true (base + (layoutList xs base).2.length), st', ?_, hok', ?_⟩
  · simp only [Decode, decodeWith, harr, List.nil_append, layoutList_length]
    simp only [List.length_nil] at hrun
    rw [hrun]
  · intro p hp
    rw [hadd] at hp
    rw [hlen]
    rcases List.mem_append.mp hp with h1 | h1
    · have := hsc p h1
      omega
    · have := cellsList_region lib s xs base p (hin p h1)
      omega

/-! ### One element of the response -/

theorem data_record_cases {lib : Lib} {s : Session} {l : List Json}
    (h : (match l with
      | [] => true
      | [.null] => true
      | [v] => v.isEntityRecord lib s
      | _ => false) = true) :
    l = [] ∨ l = [.null] ∨ ∃ kv, l = [.obj kv] ∧ (Json.obj kv).tidy lib s = true ∧
      (Json.obj kv).decodable lib s = true := by
  split at h
  · exact .inl rfl
  · exact .inr (.inl rfl)
  · rename_i v _
    cases v with
    | obj kv =>
      simp only [Json.isEntityRecord, Bool.and_eq_true] at h
      exact .inr (.inr ⟨kv, rfl, h.1, h.2⟩)
    | null => simp [Json.isEntityRecord] at h
    | bool _ => simp [Json.isEntityRecord] at h
    | num _ _ => simp [Json.isEntityRecord] at h
    | str _ => simp [Json.isEntityRecord] at h
    | arr _ => simp [Json.isEntityRecord] at h
  · cases h

theorem data_records_cases {lib : Lib} {s : Session} {l : List Json}
    (h : (match l with
      | [] => true
      | [.null] => true
      | [.arr xs] => xs.all (Json.isQueryRecord lib s)
      | _ => false) = true) :
    l = [] ∨ l = [.null] ∨ ∃ xs, l = [.arr xs] ∧ xs.all (Json.isQueryRecord lib s) = true := by
  split at h
  · exact .inl rfl
  · exact .inr (.inl rfl)
  · rename_i xs
    exact .inr (.inr ⟨xs, rfl, h⟩)
  · cases h

theorem metadata_cases {l : List Json}
    (h : (match l with
      | [] => true
      | [v] => v.isRecord
      | _ => false) = true) :
    l = [] ∨ ∃ v, l = [v] ∧ v.isRecord = true := by
  split at h
  · exact .inl rfl
  · rename_i v
    exact .inr ⟨v, rfl, h⟩
  · cases h

theorem Decode_nilMap (lib : Lib) (s : Session) {n : Nat} (hn : 0 < n) (st : State) :
    Decode lib s n .nilMap st = .ok (.nilMap, st) := by
  obtain ⟨m, rfl⟩ : ∃ m, n = m + 1 := ⟨n - 1, by omega⟩
  simp [Decode, decodeWith]

theorem Decode_nilSlice (lib : Lib) (s : Session) {n : Nat} (hn : 0 < n) (st : State) :
    Decode lib s n .nilSlice st = .ok (.nilSlice, st) := by
  obtain ⟨m, rfl⟩ : ∃ m, n = m + 1 := ⟨n - 1, by omega⟩
  simp [Decode, decodeWith]

/-- The element of a create operation: a well-formed element is unmarshalled and
decoded. -/
theorem decodeOne_create (lib : Lib) (s : Session) (n : Nat) (action entityType : String)
    (entityData : List (String × Val)) (raw : Json) (st : State)
    (hwf : wellFormed lib s (.create action entityType entityData) raw = true)
    (hd : raw.depth < n) (hok : StateOK st) (hsc : Scoped st) :
    ∃ r st', decodeOne lib s n (.create action entityType entityData) raw st = .ok (r, st') ∧
      StateOK st' ∧ Scoped st' := by
  cases raw with
  | obj kvs =>
    simp only [wellFormed, Bool.and_eq_true] at hwf
    obtain ⟨⟨hA, hD⟩, hM⟩ := hwf
    have hD := data_record_cases hD
    have hM := metadata_cases hM
    obtain ⟨a1, d1, m1, ext, hrun, hres⟩ :=
      storeEntries_create kvs "" .nilMap .nilMap [] st.heap hA
        (by
          rcases hD with h1 | h1 | ⟨kv, h1, _⟩
          · exact .inl h1
          · exact .inr ⟨rfl, .inl h1⟩
          · exact .inr ⟨rfl, .inr ⟨kv, h1⟩⟩)
        (by
          rcases hM with h1 | h1
          · exact .inl h1
          · exact .inr ⟨rfl, h1⟩)
    have hok1 : StateOK ⟨st.heap ++ ext, st.identityMap⟩ := StateOK.onAppend ext hok
    have hsc1 : Scoped ⟨st.heap ++ ext, st.identityMap⟩ := Scoped.afterAppend ext hsc
    have hdec : ∃ r st', Decode lib s n d1 ⟨st.heap ++ ext, st.identityMap⟩ = .ok (r, st') ∧
        StateOK st' ∧ Scoped st' := by
      rcases hres with h1 | h1 | ⟨kv, pre, hmem, hval, hh⟩
      · rw [h1]; exact ⟨_, _, Decode_nilMap lib s (by omega) _, hok1, hsc1⟩
      · rw [h1]; exact ⟨_, _, Decode_nilMap lib s (by omega) _, hok1, hsc1⟩
      · obtain ⟨k, hk⟩ := mem_fieldValues hmem
        have hdep := depthFields_mem hk
        simp only [Json.depth] at hd hdep
        have hgood : (Json.obj kv).tidy lib s = true ∧ (Json.obj kv).decodable lib s = true := by
          rcases hD with h1 | h1 | ⟨kv1, h1, ht, hdc⟩
          · rw [h1] at hmem; cases hmem
          · rw [h1] at hmem; simp at hmem
          · rw [h1] at hmem
            simp only [List.mem_singleton, Json.obj.injEq] at hmem
            subst hmem
            exact ⟨ht, hdc⟩
        rw [hval]
        exact Decode_record lib s n kv (st.heap.length + pre) ⟨st.heap ++ ext, st.identityMap⟩
          hgood.1 hgood.2 (by simp only [Json.depth]; omega) hh hok1
          (fun p hp => by have := hsc p hp; omega)
    obtain ⟨r, st', hrun2, hok2, hsc2⟩ := hdec
    refine ⟨.create a1 d1 m1, st', ?_, hok2, hsc2⟩
    simp only [decodeOne, ResultFactory, unmarshalResult, hrun, DecodeResult, hrun2]
  | null => simp [wellFormed] at hwf
  | bool _ => simp [wellFormed] at hwf
  | num _ _ => simp [wellFormed] at hwf
  | str _ => simp [wellFormed] at hwf
  | arr _ => simp [wellFormed] at hwf

/-- The element of an update operation: a well-formed element is unmarshalled and
decoded. -/
theorem decodeOne_update (lib : Lib) (s : Session) (n : Nat) (action entityType : String)
    (entityData : List (String × Val)) (entityKey : List String) (raw : Json) (st : State)
    (hwf : wellFormed lib s (.update action entityType entityData entityKey) raw = true)
    (hd : raw.depth < n) (hok : StateOK st) (hsc : Scoped st) :
    ∃ r st', decodeOne lib s n (.update action entityType entityData entityKey) raw st = .ok (r, st') ∧
      StateOK st' ∧ Scoped st' := by
  cases raw with
  | obj kvs =>
    simp only [wellFormed, Bool.and_eq_true] at hwf
    obtain ⟨⟨hA, hD⟩, hM⟩ := hwf
    have hD := data_record_cases hD
    have hM := metadata_cases hM
    obtain ⟨a1, d1, m1, ext, hrun, hres⟩ :=
      storeEntries_update kvs "" .nilMap .nilMap [] st.heap hA
        (by
          rcases hD with h1 | h1 | ⟨kv, h1, _⟩
          · exact .inl h1
          · exact .inr ⟨rfl, .inl h1⟩
          · exact .inr ⟨rfl, .inr ⟨kv, h1⟩⟩)
        (by
          rcases hM with h1 | h1
          · exact .inl h1
          · exact .inr ⟨rfl, h1⟩)
    have hok1 : StateOK ⟨st.heap ++ ext, st.identityMap⟩ := StateOK.onAppend ext hok
    have hsc1 : Scoped ⟨st.heap ++ ext, st.identityMap⟩ := Scoped.afterAppend ext hsc
    have hdec : ∃ r st', Decode lib s n d1 ⟨st.heap ++ ext, st.identityMap⟩ = .ok (r, st') ∧
        StateOK st' ∧ Scoped st' := by
      rcases hres with h1 | h1 | ⟨kv, pre, hmem, hval, hh⟩
      · rw [h1]; exact ⟨_, _, Decode_nilMap lib s (by omega) _, hok1, hsc1⟩
      · rw [h1]; exact ⟨_, _, Decode_nilMap lib s (by omega) _, hok1, hsc1⟩
      · obtain ⟨k, hk⟩ := mem_fieldValues hmem
        have hdep := depthFields_mem hk
        simp only [Json.depth] at hd hdep
        have hgood : (Json.obj kv).tidy lib s = true ∧ (Json.obj kv).decodable lib s = true := by
          rcases hD with h1 | h1 | ⟨kv1, h1, ht, hdc⟩
          · rw [h1] at hmem; cases hmem
          · rw [h1] at hmem; simp at hmem
          · rw [h1] at hmem
            simp only [List.mem_singleton, Json.obj.injEq] at hmem
            subst hmem
            exact ⟨ht, hdc⟩
        rw [hval]
        exact Decode_record lib s n kv (st.heap.length + pre) ⟨st.heap ++ ext, st.identityMap⟩
          hgood.1 hgood.2 (by simp only [Json.depth]; omega) hh hok1
          (fun p hp => by have := hsc p hp; omega)
    obtain ⟨r, st', hrun2, hok2, hsc2⟩ := hdec
    refine ⟨.update a1 d1 m1, st', ?_, hok2, hsc2⟩
    simp only [decodeOne, ResultFactory, unmarshalResult, hrun, DecodeResult, hrun2]
  | null => simp [wellFormed] at hwf
  | bool _ => simp [wellFormed] at hwf
  | num _ _ => simp [wellFormed] at hwf
  | str _ => simp [wellFormed] at hwf
  | arr _ => simp [wellFormed] at hwf

/-- The element of a query operation: a well-formed element is unmarshalled and
decoded. -/
theorem decodeOne_query (lib : Lib) (s : Session) (n : Nat) (action expression : String)
    (raw : Json) (st : State)
    (hwf : wellFormed lib s (.query action expression) raw = true)
    (hd : raw.depth < n) (hok : StateOK st) (hsc : Scoped st) :
    ∃ r st', decodeOne lib s n (.query action expression) raw st = .ok (r, st') ∧
      StateOK st' ∧ Scoped st' := by
  cases raw with
  | obj kvs =>
    simp only [wellFormed, Bool.and_eq_true] at hwf
    obtain ⟨⟨hA, hD⟩, hM⟩ := hwf
    have hD := data_records_cases hD
    have hM := metadata_cases hM
    obtain ⟨a1, d1, m1, ext, hrun, hres⟩ :=
      storeEntries_query lib s kvs "" .nilSlice .nilMap [] st.heap hA
        (by
          rcases hD with h1 | h1 | ⟨xs, h1, hx⟩
          · exact .inl h1
          · exact .inr ⟨rfl, rfl, .inl h1⟩
          · exact .inr ⟨rfl, rfl, .inr ⟨xs, h1, hx⟩⟩)
        (by
          rcases hM with h1 | h1
          · exact .inl h1
          · exact .inr ⟨rfl, h1⟩)
    have hok1 : StateOK ⟨st.heap ++ ext, st.identityMap⟩ := StateOK.onAppend ext hok
    have hsc1 : Scoped ⟨st.heap ++ ext, st.identityMap⟩ := Scoped.afterAppend ext hsc
    have hdec : ∃ r st', Decode lib s n d1 ⟨st.heap ++ ext, st.identityMap⟩ = .ok (r, st') ∧
        StateOK st' ∧ Scoped st' := by
      rcases hres with h1 | h1 | ⟨xs, pre, hmem, hval, hh⟩
      · rw [h1]; exact ⟨_, _, Decode_nilSlice lib s (by omega) _, hok1, hsc1⟩
      · rw [h1]; exact ⟨_, _, Decode_nilSlice lib s (by omega) _, hok1, hsc1⟩
      · obtain ⟨k, hk⟩ := mem_fieldValues hmem
        have hdep := depthFields_mem hk
        simp only [Json.depth] at hd hdep
        have hgood : xs.all (Json.isQueryRecord lib s) = true := by
          rcases hD with h1 | h1 | ⟨xs1, h1, hx⟩
          · rw [h1] at hmem; cases hmem
          · rw [h1] at hmem; simp at hmem
          · rw [h1] at hmem
            simp only [List.mem_singleton, Json.arr.injEq] at hmem
            subst hmem
            exact hx
        rw [hval]
        exact Decode_records lib s n xs (st.heap.length + pre)
          ⟨st.heap ++ ext, st.identityMap⟩ hgood (by omega)
          (fun x hxm => by have := depthList_mem hxm; omega) hh hok1
          (fun p hp => by have := hsc p hp; omega)
    obtain ⟨r, st', hrun2, hok2, hsc2⟩ := hdec
    refine ⟨.query a1 d1 m1, st', ?_, hok2, hsc2⟩
    simp only [decodeOne, ResultFactory, unmarshalResult, hrun, DecodeResult, hrun2]
  | null => simp [wellFormed] at hwf
  | bool _ => simp [wellFormed] at hwf
  | num _ _ => simp [wellFormed] at hwf
  | str _ => simp [wellFormed] at hwf
  | arr _ => simp [wellFormed] at hwf

/-- A well-formed element is unmarshalled into the result of the operation's factory
and decoded, whatever the kind of the operation, in a state whose identity map
points at maps of the heap; the state it leaves is such a state again. -/
theorem decodeOne_wellFormed (lib : Lib) (s : Session) (n : Nat) (op : Operation) (raw : Json)
    (st : State) (hwf : wellFormed lib s op raw = true) (hd : raw.depth < n)
    (hok : StateOK st) (hsc : Scoped st) :
    ∃ r st', decodeOne lib s n op raw st = .ok (r, st') ∧ StateOK st' ∧ Scoped st' := by
  cases op with
  | query action expression => exact decodeOne_query lib s n action expression raw st hwf hd hok hsc
  | create action entityType entityData =>
    exact decodeOne_create lib s n action entityType entityData raw st hwf hd hok hsc
  | update action entityType entityData entityKey =>
    exact decodeOne_update lib s n action entityType entityData entityKey raw st hwf hd hok hsc
  | delete action entityType entityKey =>
    cases raw with
    | obj kvs =>
      simp only [wellFormed, Bool.and_eq_true] at hwf
      obtain ⟨r1, hrun⟩ := storeEntries_delete kvs "" false [] st.heap hwf.1 hwf.2
      exact ⟨r1, st, by
        simp only [decodeOne, ResultFactory, unmarshalResult, hrun]
        have hk := storeEntries_kind _ _ _ _ _ _ hrun
        cases r1 <;> simp [Result.kind] at hk
        simp [DecodeResult], hok, hsc⟩
    | null => simp [wellFormed] at hwf
    | bool _ => simp [wellFormed] at hwf
    | num _ _ => simp [wellFormed] at hwf
    | str _ => simp [wellFormed] at hwf
    | arr _ => simp [wellFormed] at hwf
  | queryInformation action values =>
    cases raw with
    | obj kvs =>
      exact ⟨.queryInformation (layout (.obj kvs) st.heap.length).1,
        ⟨st.heap ++ (layout (.obj kvs) st.heap.length).2, st.identityMap⟩,
        by simp [decodeOne, ResultFactory, unmarshalResult, storeMap, alloc, DecodeResult],
        StateOK.onAppend _ hok, Scoped.afterAppend _ hsc⟩
    | null => simp [wellFormed] at hwf
    | bool _ => simp [wellFormed] at hwf
    | num _ _ => simp [wellFormed] at hwf
    | str _ => simp [wellFormed] at hwf
    | arr _ => simp [wellFormed] at hwf
  | querySchemas action =>
    cases raw with
    | arr xs =>
      simp only [wellFormed] at hwf
      cases xs with
      | nil =>
        exact ⟨.querySchemas (.slice true st.heap.length),
          ⟨st.heap ++ [.arr []], st.identityMap⟩,
          by simp [decodeOne, ResultFactory, unmarshalResult, storeMaps, DecodeResult],
          StateOK.onAppend _ hok, Scoped.afterAppend _ hsc⟩
      | cons x xs =>
        obtain ⟨vs, ext, hrun⟩ := storeMapElems_ok (x :: xs) st.heap hwf
        refine ⟨.querySchemas (.slice true (st.heap ++ ext).length),
          ⟨(st.heap ++ ext) ++ [.arr vs], st.identityMap⟩, ?_, ?_, ?_⟩
        · simp [decodeOne, ResultFactory, unmarshalResult, storeMaps, hrun, DecodeResult]
        · rw [List.append_assoc]; exact StateOK.onAppend _ hok
        · rw [List.append_assoc]; exact Scoped.afterAppend _ hsc
    | null => simp [wellFormed] at hwf
    | bool _ => simp [wellFormed] at hwf
    | num _ _ => simp [wellFormed] at hwf
    | str _ => simp [wellFormed] at hwf
    | obj _ => simp [wellFormed] at hwf
  | getUploadMetadata action fileName fileSize componentId =>
    cases raw with
    | obj kvs =>
      simp only [wellFormed, Bool.and_eq_true] at hwf
      obtain ⟨r1, hrun⟩ := storeEntries_upload kvs "" [] [] st.heap hwf.1 hwf.2
      exact ⟨r1, st, by
        simp only [decodeOne, ResultFactory, unmarshalResult, hrun]
        have hk := storeEntries_kind _ _ _ _ _ _ hrun
        cases r1 <;> simp [Result.kind] at hk
        simp [DecodeResult], hok, hsc⟩
    | null => simp [wellFormed] at hwf
    | bool _ => simp [wellFormed] at hwf
    | num _ _ => simp [wellFormed] at hwf
    | str _ => simp [wellFormed] at hwf
    | arr _ => simp [wellFormed] at hwf
  | other text => simp [wellFormed] at hwf

/-! ### The loop over the elements -/

/-- The loop of the dispatcher over well-formed elements returns. -/
theorem unmarshalElems_wellFormed (lib : Lib) (s : Session) (n : Nat) :
    ∀ (rest : List Json) (todo pre : List Operation) (acc : List Result) (st : State),
      List.Forall₂ (fun op e => wellFormed lib s op e = true) todo rest →
      (∀ e ∈ rest, e.depth < n) → StateOK st → Scoped st →
      ∃ rs st', unmarshalElems lib s n (pre ++ todo) rest pre.length acc st = .ok (rs, st') := by
  intro rest
  induction rest with
  | nil =>
    intro todo pre acc st _ _ _ _
    exact ⟨acc, st, by simp [unmarshalElems]⟩
  | cons x rest ih =>
    intro todo pre acc st hwf hn hok hsc
    cases hwf with
    | cons hx hrest =>
      rename_i op todo'
      obtain ⟨r, st1, hd, hok1, hsc1⟩ :=
        decodeOne_wellFormed lib s n op x st hx (hn x (List.mem_cons_self _ _)) hok hsc
      obtain ⟨rs, st', hrun⟩ := ih todo' (pre ++ [op]) (acc ++ [r]) st1 hrest
        (fun e he => hn e (List.mem_cons_of_mem _ he)) hok1 hsc1
      refine ⟨rs, st', ?_⟩
      simp only [unmarshalElems]
      have hi : (pre ++ op :: todo')[pre.length]? = some op := getElem?_append_length
      rw [hi]
      simp only [hd]
      have e1 : pre ++ op :: todo' = (pre ++ [op]) ++ todo' := by simp
      have e2 : pre.length + 1 = (pre ++ [op]).length := by simp
      rw [e1, e2, hrun]

/-- What a run of the loop of the dispatcher returns: one result per element, after
those it started with, the result of an element being what the body of the loop
gives on the operation and the element at its index, in the state the loop reached
over the elements before it. -/
theorem unmarshalElems_trace (lib : Lib) (s : Session) (n : Nat) (ops : List Operation) :
    ∀ (rest : List Json) (i : Nat) (acc : List Result) (st : State) (rs : List Result)
      (st' : State),
      unmarshalElems lib s n ops rest i acc st = .ok (rs, st') →
      ∃ new, rs = acc ++ new ∧ new.length = rest.length ∧
        ∀ (t : Nat) (e : Json), rest[t]? = some e →
          ∃ op r stt stt', ops[i + t]? = some op ∧ new[t]? = some r ∧
            unmarshalElems lib s n ops (rest.take t) i acc st = .ok (acc ++ new.take t, stt) ∧
            decodeOne lib s n op e stt = .ok (r, stt') := by
  intro rest
  induction rest with
  | nil =>
    intro i acc st rs st' h
    simp only [unmarshalElems, Except.ok.injEq, Prod.mk.injEq] at h
    exact ⟨[], by simp [h.1], rfl, fun t e he => by simp at he⟩
  | cons x rest ih =>
    intro i acc st rs st' h
    simp only [unmarshalElems] at h
    split at h
    · cases h
    · rename_i op hop
      split at h
      · cases h
      · rename_i r st2 hd
        obtain ⟨new, hrs, hlen, htr⟩ := ih _ _ _ _ _ h
        refine ⟨r :: new, by rw [hrs]; simp, by simp [hlen], ?_⟩
        intro t e he
        cases t with
        | zero =>
          simp only [List.getElem?_cons_zero, Option.some.injEq] at he
          subst he
          exact ⟨op, r, st, st2, by simpa using hop, by simp, by simp [unmarshalElems], hd⟩
        | succ t =>
          simp only [List.getElem?_cons_succ] at he
          obtain ⟨op', r', stt, stt', h1, h2, h3, h4⟩ := htr t e he
          refine ⟨op', r', stt, stt', ?_, by simpa using h2, ?_, h4⟩
          · rw [← h1]; congr 1; omega
          · simp only [List.take_succ_cons, unmarshalElems, hop, hd, h3]
            simp

/-! ## The claims -/

/-- C1 (counterexample): the identity map holds the canonical `Task` `t1` with the
name "foo".  An incoming record of that `Task` defines no name, but the same `Task`
is nested in its field `parent` with the name "bar": after `Decode` the canonical
representation has the name "bar", not the one it held. -/
theorem Decode_nested_same_key_overwrites :
    Decode libFix sessionFix 5 (alloc selfFix knownFix.heap).1
        ⟨(alloc selfFix knownFix.heap).2, knownFix.identityMap⟩ = .ok (.map 0, selfFixAfter) ∧
      IsDate (alloc selfFix knownFix.heap).2 (alloc selfFix knownFix.heap).1 = false ∧
      GetIdentifyingKey libFix sessionFix (alloc selfFix knownFix.heap).2
        (alloc selfFix knownFix.heap).1 = .ok "Task,t1" ∧
      knownFix.identityMap.lookup "Task,t1" = some 0 ∧
      index? (alloc selfFix knownFix.heap).2 (alloc selfFix knownFix.heap).1 "name" = none ∧
      index? knownFix.heap (.map 0) "name" = some (.str "foo") ∧
      index? selfFixAfter.heap (.map 0) "name" = some (.str "bar") := by
  decide!

/-- C1 (amended): let the heap hold, from `base` on, the cells the parser builds for
a tidy, decodable entity `E`, which is not date-shaped and has the identity key
`key`; let the identity map point at maps, bind the keys of the entities in `E` to
cells elsewhere, and bind `key`, and no other key, to the canonical representation
`c`, a map with the entries `fs0`.  With a budget above the depth of `E`, `Decode`
returns `c`, still bound under `key`; every field `E` does not define has in `c` the
value it had, every field `c` had is still there, and every field `E` defines holds
in `c` the value `Decode` returned on the value of that field, in the state the loop
of `mergeEntity` had reached after the fields before it: that value itself when it
is a nil, a boolean, a number or a string, and the canonical representation of its
key when it is an entity of known type. -/
theorem Decode_merges_into_canonical (lib : Lib) (s : Session) (n : Nat)
    (kvs : List (String × Json)) (base : Nat) (st : State) (key : String) (c : Nat)
    (fs0 : List (String × Val))
    (htidy : (Json.obj kvs).tidy lib s = true)
    (hdec : (Json.obj kvs).decodable lib s = true)
    (hn : (Json.obj kvs).depth < n)
    (hh : Holds st.heap base (layout (.obj kvs) base).2)
    (hT : Targets ((Json.obj kvs).keys lib s) base
      (base + (layout (.obj kvs) base).2.length) st)
    (hok : StateOK st)
    (hdate : IsDate st.heap (layout (.obj kvs) base).1 = false)
    (hkey : GetIdentifyingKey lib s st.heap (layout (.obj kvs) base).1 = .ok key)
    (hc : st.identityMap.lookup key = some c)
    (hone : ∀ k, st.identityMap.lookup k = some c → k = key)
    (hfs0 : getObj st.heap c = some fs0) :
    ∃ st', Decode lib s n (layout (.obj kvs) base).1 st = .ok (.map c, st') ∧
      st'.identityMap.lookup key = some c ∧
      ∃ fs', getObj st'.heap c = some fs' ∧
        (∀ f, index? st.heap (layout (.obj kvs) base).1 f = none →
          fs'.lookup f = fs0.lookup f) ∧
        (∀ f, (fs0.lookup f).isSome = true → (fs'.lookup f).isSome = true) ∧
        ∀ f x, index? st.heap (layout (.obj kvs) base).1 f = some x →
          (∃ a pre post stt v stt', (layout (.obj kvs) base).1 = .map a ∧
            kvs.map Prod.fst = pre ++ f :: post ∧
            mergeFields (Decode lib s (n - 1)) a c pre st = .ok stt ∧
            Decode lib s (n - 1) x stt = .ok (v, stt') ∧ fs'.lookup f = some v) ∧
          (x.isScalar = true → fs'.lookup f = some x) ∧
          (IsDate st.heap x = false → ∀ ke, GetIdentifyingKey lib s st.heap x = .ok ke →
            ∃ ce, st'.identityMap.lookup ke = some ce ∧ fs'.lookup f = some (.map ce)) := by
  obtain ⟨r, st', hrun, _⟩ := Decode_full lib s n (.obj kvs) htidy hdec hn base st hh hT hok
  cases n with
  | zero => simp [Decode] at hrun
  | succ m =>
    have hnd := tidy_nodup htidy
    obtain ⟨hsub, hcell⟩ := holds_obj hnd hh
    have hval := layout_obj_nodup kvs base hnd
    have hrun0 := hrun
    rw [hval] at hdate hkey hrun ⊢
    simp only at hdate hkey hrun ⊢
    have hjd : jsonIsDate kvs = false := by rw [← IsDate_layout hcell]; exact hdate
    have hjk := jsonKey_of_ok hcell htidy hjd hkey
    obtain ⟨_, _, _, htf⟩ := tidy_known htidy hjd hjk
    obtain ⟨cp, st0, hr, hb, hcase, fsa, fs', hfa, hfs', hcov, hm⟩ :=
      decodeWith_known lib s (Decode_sim lib s m) htidy hh hT hjd hjk
        (fun k c' h1 h2 => hone k (by rw [hc] at h1; rw [Option.some.inj h1]; exact h2))
        hrun0
    have hcp : cp = c ∧ st0 = st := by
      rcases hcase with h1 | h1
      · rw [hc] at h1; exact ⟨(Option.some.inj h1.1).symm, h1.2⟩
      · rw [hc] at h1; cases h1.1
    rw [hcp.1] at hr hb hfa hfs' hm
    rw [hcp.2] at hm
    obtain ⟨hm1, hm2⟩ := hm
    have hfa0 : fsa = fs0 := by rw [hfs0] at hfa; exact (Option.some.inj hfa).symm
    rw [hfa0] at hcov hm1
    rw [hr] at hrun
    refine ⟨st', hrun, hb, fs', hfs', ?_, hcov, ?_⟩
    · intro f hf
      apply hm1
      rw [index?_layoutFields hcell, List.lookup_eq_none_iff] at hf
      rw [← layoutFields_keys kvs base]
      intro hmem
      obtain ⟨p, hp, hpf⟩ := List.mem_map.mp hmem
      have := hf p hp
      simp [hpf] at this
    · intro f x hf
      have hfi : index st.heap (.map (base + (layoutFields kvs base).2.length)) f = x := by
        simp only [index?, hcell] at hf
        simp only [index, hcell, hf, Option.getD_some]
      rw [index?_layoutFields hcell] at hf
      obtain ⟨j, b, hj, hx, _⟩ := layoutFields_mem_holds kvs base f x hsub (lookup_mem hf)
      obtain ⟨b', stt, v, stt', hmem, hholds, ⟨pre, post, hsplit, hpre⟩, hdc, hlook, hpers⟩ :=
        hm2 (f, j) hj
      have hxe : x = (layout j b').1 :=
        mem_nodup_unique (by rw [layoutFields_keys]; exact hnd) (lookup_mem hf) hmem
      simp only at hdc hlook
      rw [← hxe] at hdc
      simp only [Nat.add_sub_cancel]
      refine ⟨⟨_, pre.map Prod.fst, post.map Prod.fst, stt, v, stt', rfl, ?_, hpre, hdc, hlook⟩,
        ?_, ?_⟩
      · rw [hsplit]; simp
      · intro hs
        rw [hlook, Decode_scalar hs hdc]
      · intro hfd ke hfk
        rw [← hfi] at hfd hfk
        obtain ⟨kvs', hmem', hd', hk'⟩ := field_entity htf hsub hcell hfd hfk
        obtain ⟨b2, stt2, v2, stt2', _, hholds2, _, hdec2, hlook2, hpers2⟩ :=
          hm2 (f, .obj kvs') hmem'
        have htc := tidyFields_mem htf (f, .obj kvs') hmem'
        obtain ⟨hn', hsk', _, _⟩ := tidy_known htc hd' hk'
        obtain ⟨_, hc'⟩ := holds_obj hn' hholds2
        cases m with
        | zero => simp [Decode] at hdec2
        | succ m' =>
          simp only at hdec2
          rw [layout_obj_nodup kvs' b2 hn'] at hdec2
          obtain ⟨ce, hv, hcl⟩ := decodeWith_entity (Decode_rel extends_stepRel lib s m')
            (by rw [IsDate_layout hc']; exact hd')
            (GetIdentifyingKey_layout_ok lib s hc' hsk' hk') hdec2
          refine ⟨ce, hpers2 ke ce hcl, ?_⟩
          rw [hlook2, hv]

theorem Decode_merges_into_canonical_witness :
    ∃ st', Decode libFix sessionFix 3 (layout (.obj statusFields) 1).1 statusBefore
        = .ok (.map 0, st') ∧
      st'.identityMap.lookup "Task,t1" = some 0 ∧
      ∃ fs', getObj st'.heap 0 = some fs' ∧
        (∀ f, index? statusBefore.heap (layout (.obj statusFields) 1).1 f = none →
          fs'.lookup f = knownFields.lookup f) ∧
        (∀ f, (knownFields.lookup f).isSome = true → (fs'.lookup f).isSome = true) ∧
        ∀ f x, index? statusBefore.heap (layout (.obj statusFields) 1).1 f = some x →
          (∃ a pre post stt v stt', (layout (.obj statusFields) 1).1 = .map a ∧
            statusFields.map Prod.fst = pre ++ f :: post ∧
            mergeFields (Decode libFix sessionFix (3 - 1)) a 0 pre statusBefore = .ok stt ∧
            Decode libFix sessionFix (3 - 1) x stt = .ok (v, stt') ∧ fs'.lookup f = some v) ∧
          (x.isScalar = true → fs'.lookup f = some x) ∧
          (IsDate statusBefore.heap x = false →
            ∀ ke, GetIdentifyingKey libFix sessionFix statusBefore.heap x = .ok ke →
              ∃ ce, st'.identityMap.lookup ke = some ce ∧ fs'.lookup f = some (.map ce)) :=
  Decode_merges_into_canonical libFix sessionFix 3 statusFields 1 statusBefore "Task,t1" 0
    knownFields (by decide!) (by decide!) (by decide!)
    (holds_append knownFix.heap (layout (.obj statusFields) 1).2)
    (targets_of_scope (fun k b h => by
      have := lookup_mem h
      simp [statusBefore, knownFix] at this
      omega))
    (by unfold StateOK; decide!)
    (by decide!) (by decide!) (by decide!)
    (fun k h => by
      have := lookup_mem h
      simp [statusBefore, knownFix] at this
      exact this)
    (by decide!)

/-- C2 (counterexample): two records of the `Task` `t1` that also carry the tag of a
date are entity-shaped and have the same identity key, but `Decode` tests for a
date first: the two positions of the sequence end up holding strings, and the
identity map holds no canonical object. -/
theorem Decode_dated_entities_not_shared :
    elemAt (alloc (.arr datedFix) []).2 (alloc (.arr datedFix) []).1 0 = some (.map 0) ∧
      elemAt (alloc (.arr datedFix) []).2 (alloc (.arr datedFix) []).1 1 = some (.map 1) ∧
      IsEntity (alloc (.arr datedFix) []).2 (.map 0) = true ∧
      IsEntity (alloc (.arr datedFix) []).2 (.map 1) = true ∧
      GetIdentifyingKey libFix sessionFix (alloc (.arr datedFix) []).2 (.map 0)
        = .ok "Task,t1" ∧
      GetIdentifyingKey libFix sessionFix (alloc (.arr datedFix) []).2 (.map 1)
        = .ok "Task,t1" ∧
      Decode libFix sessionFix 3 (alloc (.arr datedFix) []).1 ⟨(alloc (.arr datedFix) []).2, []⟩
        = .ok (.slice false 2, datedFixAfter) ∧
      elemAt datedFixAfter.heap (.slice false 2) 0 = some (.str "1970-01-01T00:00:00") ∧
      elemAt datedFixAfter.heap (.slice false 2) 1 = some (.str "1970-01-01T00:00:00") ∧
      datedFixAfter.identityMap.lookup "Task,t1" = none := by
  decide!

/-- C2 (amended): let the heap hold, from `base` on, the cells the parser builds for
a tidy, decodable sequence, and let the identity map point at maps and bind the keys
of the entities in the sequence to cells elsewhere.  If the elements at the
positions `i` and `j` are entities of known type that are not date-shaped and have
the same identity key, then `Decode`, with a budget above the depth of the
sequence, returns, both positions of the result hold one and the same object, the
canonical representation the identity map binds under that key, and every field
either of the two elements carries is readable in that object. -/
theorem Decode_shares_canonical (lib : Lib) (s : Session) (n : Nat) (xs : List Json)
    (base : Nat) (st : State) (i j : Nat) (kvi kvj : List (String × Json)) (key : String)
    (htidy : (Json.arr xs).tidy lib s = true)
    (hdec : (Json.arr xs).decodable lib s = true)
    (hn : (Json.arr xs).depth < n)
    (hh : Holds st.heap base (layout (.arr xs) base).2)
    (hT : Targets ((Json.arr xs).keys lib s) base
      (base + (layout (.arr xs) base).2.length) st)
    (hok : StateOK st)
    (hi : xs[i]? = some (.obj kvi)) (hj : xs[j]? = some (.obj kvj))
    (hdi : jsonIsDate kvi = false) (hdj : jsonIsDate kvj = false)
    (hki : jsonKey lib s kvi = some key) (hkj : jsonKey lib s kvj = some key) :
    ∃ r st' c, Decode lib s n (layout (.arr xs) base).1 st = .ok (r, st') ∧
      st'.identityMap.lookup key = some c ∧
      elemAt st'.heap r i = some (.map c) ∧ elemAt st'.heap r j = some (.map c) ∧
      ∀ f, (kvi.lookup f).isSome = true ∨ (kvj.lookup f).isSome = true →
        (index? st'.heap (.map c) f).isSome = true := by
  obtain ⟨r, st', hrun, hpost⟩ := Decode_full lib s n (.arr xs) htidy hdec hn base st hh hT hok
  have place : ∀ (t : Nat) (kv : List (String × Json)), xs[t]? = some (.obj kv) →
      jsonIsDate kv = false → jsonKey lib s kv = some key →
      ∃ c, st'.identityMap.lookup key = some c ∧ elemAt st'.heap r t = some (.map c) ∧
        ∀ f, (kv.lookup f).isSome = true → (index? st'.heap (.map c) f).isSome = true := by
    intro t kv ht hd hk
    have hr : reach lib s [.idx t] (.arr xs) = some (.obj kv) := by simp [reach, ht]
    obtain ⟨c, hc, hw⟩ := hpost.paths [.idx t] kv key hr hd hk (by simp [passed, ht])
    obtain ⟨typed, a, ys, y, hrv, _, harr, hy, hrest⟩ := hw
    simp only [Walk] at hrest
    refine ⟨c, hc, by rw [hrv, ← hrest]; simp [elemAt, harr, hy], ?_⟩
    intro f hf
    obtain ⟨c1, fs, h1, h2, h3⟩ := hpost.names (key, f) ((reach_mem lib s _ _ kv key hr hd hk).2 f hf)
    simp only at h1 h3
    rw [hc] at h1
    simp only [Option.some.injEq] at h1
    subst h1
    simp only [index?, h2]
    exact h3
  obtain ⟨ci, hci, hei, hfi⟩ := place i kvi hi hdi hki
  obtain ⟨cj, hcj, hej, hfj⟩ := place j kvj hj hdj hkj
  have hcc : cj = ci := by
    rw [hci] at hcj
    exact (Option.some.inj hcj).symm
  subst hcc
  refine ⟨r, st', cj, hrun, hci, hei, hej, ?_⟩
  intro f hf
  rcases hf with h | h
  · exact hfi f h
  · exact hfj f h

theorem Decode_shares_canonical_witness :
    ∃ r st' c, Decode libFix sessionFix 3 (layout (.arr seqFix) 0).1
        ⟨(alloc (.arr seqFix) []).2, []⟩ = .ok (r, st') ∧
      st'.identityMap.lookup "Task,t1" = some c ∧
      elemAt st'.heap r 0 = some (.map c) ∧ elemAt st'.heap r 1 = some (.map c) ∧
      ∀ f, (([("id", .str "t1"), ("__entity_type__", .str "Task"), ("name", .str "foo")] :
            List (String × Json)).lookup f).isSome = true ∨
          (([("id", .str "t1"), ("__entity_type__", .str "Task"), ("status", .str "done")] :
            List (String × Json)).lookup f).isSome = true →
        (index? st'.heap (.map c) f).isSome = true :=
  Decode_shares_canonical libFix sessionFix 3 seqFix 0 ⟨(alloc (.arr seqFix) []).2, []⟩ 0 1
    [("id", .str "t1"), ("__entity_type__", .str "Task"), ("name", .str "foo")]
    [("id", .str "t1"), ("__entity_type__", .str "Task"), ("status", .str "done")] "Task,t1"
    (by decide!) (by decide!) (by decide!)
    (holds_append [] (layout (.arr seqFix) 0).2)
    (fun k _ b h => by simp at h)
    (fun p hp => by simp at hp)
    rfl rfl (by decide!) (by decide!) (by decide!) (by decide!)

/-- C3 (counterexample): a `Task` refers to the `Status` `s1` in its field `link`,
and the same `Task` is nested in it with the `Status` `s2` in that field.  Whichever
of the two fields `Decode` visits first, the field `link` of the result holds the
canonical representation of `s2`, not one of `s1`; when the nested `Task` comes
first, the reference to `s1` is not decoded at all and `s1` is not in the identity
map.  The same happens when the second record of the `Task` is not nested in the
first but follows it in a sequence: the place of the reference to `s1` ends up
holding the canonical representation of `s2`. -/
theorem Decode_nested_reference_lost :
    (Decode libFix sessionFix 5 (alloc relinkFix []).1 ⟨(alloc relinkFix []).2, []⟩
        = .ok (.map 3, relinkAfter) ∧
      GetIdentifyingKey libFix sessionFix (alloc relinkFix []).2
        (index (alloc relinkFix []).2 (alloc relinkFix []).1 "link") = .ok "Status,s1" ∧
      relinkAfter.identityMap.lookup "Status,s1" = some 0 ∧
      relinkAfter.identityMap.lookup "Status,s2" = some 1 ∧
      index relinkAfter.heap (.map 3) "link" = .map 1) ∧
    (Decode libFix sessionFix 5 (alloc relinkLateFix []).1 ⟨(alloc relinkLateFix []).2, []⟩
        = .ok (.map 3, relinkLateAfter) ∧
      GetIdentifyingKey libFix sessionFix (alloc relinkLateFix []).2
        (index (alloc relinkLateFix []).2 (alloc relinkLateFix []).1 "link")
        = .ok "Status,s1" ∧
      relinkLateAfter.identityMap.lookup "Status,s1" = none ∧
      relinkLateAfter.identityMap.lookup "Status,s2" = some 0 ∧
      index relinkLateAfter.heap (.map 3) "link" = .map 0) ∧
    (Decode libFix sessionFix 5 (alloc siblingFix []).1 ⟨(alloc siblingFix []).2, []⟩
        = .ok (.slice false 4, siblingAfter) ∧
      follow (alloc siblingFix []).2 [.idx 0, .fld "link"] (alloc siblingFix []).1
        = some (.map 0) ∧
      GetIdentifyingKey libFix sessionFix (alloc siblingFix []).2 (.map 0) = .ok "Status,s1" ∧
      siblingAfter.identityMap.lookup "Status,s1" = some 0 ∧
      siblingAfter.identityMap.lookup "Status,s2" = some 2 ∧
      follow siblingAfter.heap [.idx 0, .fld "link"] (.slice false 4) = some (.map 2)) := by
  decide!

/-- C3 (amended): let the heap hold, from `base` on, the cells the parser builds for
a tidy, decodable value, and let the identity map point at maps and bind the keys
of the entities in the value to cells elsewhere.  With a budget above the depth of
the value, `Decode` returns, and for every entity of known type that it reaches in
the value, at whatever depth (through sequences, plain mappings and entities of
known type): the key of the entity is bound in the identity map, to the canonical
representation it was bound to if it was bound, which still has every field it
had; that representation has every field the entity carries; and the place of the
entity, found from the result along the path to it, holds that representation, when
the identity key of each entity passed on the way occurs once in the value and is
bound to an object no other key of the value is bound to. -/
theorem Decode_merges_nested (lib : Lib) (s : Session) (n : Nat) (x : Json) (base : Nat)
    (st : State)
    (htidy : x.tidy lib s = true) (hdec : x.decodable lib s = true) (hn : x.depth < n)
    (hh : Holds st.heap base (layout x base).2)
    (hT : Targets (x.keys lib s) base (base + (layout x base).2.length) st)
    (hok : StateOK st) :
    ∃ r st', Decode lib s n (layout x base).1 st = .ok (r, st') ∧
      ∀ p kvs k, reach lib s p x = some (.obj kvs) → jsonIsDate kvs = false →
        jsonKey lib s kvs = some k →
        ∃ c, st'.identityMap.lookup k = some c ∧
          (∀ c0, st.identityMap.lookup k = some c0 →
            c = c0 ∧ ∀ fs0, getObj st.heap c0 = some fs0 →
              ∃ fs', getObj st'.heap c0 = some fs' ∧
                ∀ g, (fs0.lookup g).isSome = true → (fs'.lookup g).isSome = true) ∧
          (∃ fs, getObj st'.heap c = some fs ∧
            ∀ g, (kvs.lookup g).isSome = true → (fs.lookup g).isSome = true) ∧
          ((∀ kh ∈ passed lib s p x, (x.keys lib s).count kh = 1 ∧ Sole st (x.keys lib s) kh) →
            follow st'.heap p r = some (.map c)) := by
  obtain ⟨r, st', hrun, hpost⟩ := Decode_full lib s n x htidy hdec hn base st hh hT hok
  have hsim := Decode_sim lib s n x htidy base st r st' hh hT hrun
  refine ⟨r, st', hrun, ?_⟩
  intro p kvs k hr hd hk
  obtain ⟨hkeys, hnames⟩ := reach_mem lib s p x kvs k hr hd hk
  have hb := hsim.bound k hkeys
  rw [Option.isSome_iff_exists] at hb
  obtain ⟨c, hc⟩ := hb
  refine ⟨c, hc, ?_, ?_, ?_⟩
  · intro c0 hc0
    obtain ⟨added, hea, _⟩ := hsim.added
    have hc' : st'.identityMap.lookup k = some c0 := by
      rw [hea]; exact lookup_append_of_some hc0
    rw [hc] at hc'
    refine ⟨Option.some.inj hc', ?_⟩
    intro fs0 hfs0
    exact hsim.grows c0 (fun f => f) (hT k hkeys c0 hc0) fs0 hfs0
  · cases hkv : kvs with
    | nil =>
      subst hkv
      obtain ⟨t, hty⟩ := jsonKey_type hk
      simp [jsonEntityType] at hty
    | cons q rest =>
      have hq : (kvs.lookup q.1).isSome = true := by
        rw [hkv]; simp [List.lookup_cons]
      obtain ⟨c1, fs, h1, h2, _⟩ := hpost.names (k, q.1) (hnames q.1 hq)
      simp only at h1
      rw [hc] at h1
      simp only [Option.some.injEq] at h1
      subst h1
      refine ⟨fs, h2, ?_⟩
      intro g hg
      rw [← hkv] at hg
      obtain ⟨c2, fs2, h3, h4, h5⟩ := hpost.names (k, g) (hnames g hg)
      simp only at h3 h5
      rw [hc] at h3
      simp only [Option.some.injEq] at h3
      subst h3
      rw [h2] at h4
      simp only [Option.some.injEq] at h4
      subst h4
      exact h5
  · intro hK
    obtain ⟨c1, h1, hw⟩ := hpost.paths p kvs k hr hd hk hK
    rw [hc] at h1
    simp only [Option.some.injEq] at h1
    subst h1
    exact hw.follow

theorem Decode_merges_nested_witness :
    ∃ r st', Decode libFix sessionFix 5 (layout (.obj nestedFields) 2).1 nestedBefore
        = .ok (r, st') ∧
      ∀ p kvs k, reach libFix sessionFix p (.obj nestedFields) = some (.obj kvs) →
        jsonIsDate kvs = false → jsonKey libFix sessionFix kvs = some k →
        ∃ c, st'.identityMap.lookup k = some c ∧
          (∀ c0, nestedBefore.identityMap.lookup k = some c0 →
            c = c0 ∧ ∀ fs0, getObj nestedBefore.heap c0 = some fs0 →
              ∃ fs', getObj st'.heap c0 = some fs' ∧
                ∀ g, (fs0.lookup g).isSome = true → (fs'.lookup g).isSome = true) ∧
          (∃ fs, getObj st'.heap c = some fs ∧
            ∀ g, (kvs.lookup g).isSome = true → (fs.lookup g).isSome = true) ∧
          ((∀ kh ∈ passed libFix sessionFix p (.obj nestedFields),
              ((Json.obj nestedFields).keys libFix sessionFix).count kh = 1 ∧
                Sole nestedBefore ((Json.obj nestedFields).keys libFix sessionFix) kh) →
            follow st'.heap p r = some (.map c)) :=
  Decode_merges_nested libFix sessionFix 5 (.obj nestedFields) 2 nestedBefore
    (by decide!) (by decide!) (by decide!)
    (holds_append _ (layout (.obj nestedFields) 2).2)
    (targets_of_scope (fun k b h => by
      have := lookup_mem h
      simp [nestedBefore] at this
      omega))
    (by unfold StateOK; decide!)

/-- C4: a `Decode` call that returns leaves every key the identity map held bound
to the address it was bound to, which still holds a map; the identity map after
the call is the one before it with entries added under keys it did not hold. -/
theorem Decode_keeps_identity_map (lib : Lib) (s : Session) (n : Nat) (data : Val)
    (st : State) (r : Val) (st' : State)
    (h : Decode lib s n data st = .ok (r, st')) :
    (∃ added, st'.identityMap = st.identityMap ++ added ∧
      ∀ p ∈ added, st.identityMap.lookup p.1 = none) ∧
    (∀ key a, st.identityMap.lookup key = some a → st'.identityMap.lookup key = some a) ∧
    (∀ key a kvs, st.identityMap.lookup key = some a → getObj st.heap a = some kvs →
      ∃ kvs', getObj st'.heap a = some kvs') := by
  have hx : Extends st.identityMap st'.identityMap := Decode_rel extends_stepRel lib s n _ _ _ _ h
  have hs : SameShape st.heap st'.heap := Decode_rel sameShape_stepRel lib s n _ _ _ _ h
  refine ⟨hx, fun key a hk => hx.lookup hk, ?_⟩
  intro key a kvs _ hobj
  obtain ⟨kvs', hk'⟩ := hs.2.1 a kvs (getObj_eq_some.mp hobj)
  exact ⟨kvs', getObj_eq_some.mpr hk'⟩

theorem Decode_keeps_identity_map_witness :
    (∃ added, moreFixAfter.identityMap = moreFixBefore.identityMap ++ added ∧
      ∀ p ∈ added, moreFixBefore.identityMap.lookup p.1 = none) ∧
    (∀ key a, moreFixBefore.identityMap.lookup key = some a →
      moreFixAfter.identityMap.lookup key = some a) ∧
    (∀ key a kvs, moreFixBefore.identityMap.lookup key = some a →
      getObj moreFixBefore.heap a = some kvs → ∃ kvs', getObj moreFixAfter.heap a = some kvs') :=
  Decode_keeps_identity_map libFix sessionFix 3 (alloc moreFix knownFix.heap).1
    moreFixBefore (.slice false 3) moreFixAfter (by decide!)

/-- C5 (the code departs from the claim): an entity whose type has no known primary
keys is returned as it came, its values not decoded: the nested date is still the
tagged mapping and the nested `Task` is not in the identity map. -/
theorem Decode_unknown_type_undecoded :
    Decode libFix sessionFix 5 (alloc unknownFix []).1 ⟨(alloc unknownFix []).2, []⟩
        = .ok (.map 2, ⟨(alloc unknownFix []).2, []⟩) ∧
      index (alloc unknownFix []).2 (.map 2) "date" = .map 0 ∧
      IsDate (alloc unknownFix []).2 (.map 0) = true := by
  decide!

/-- C6 (counterexample): a response array shorter than the operation list does not
fail; the call returns the result of the element that is there. -/
theorem Call_short_response_succeeds :
    Call libFix sessionFix 1 deleteOps (.ok ⟨"", some (.arr [deleteRecord])⟩) []
      = .ok ([.delete "delete" true], []) := by
  decide!

/-- C6 (amended): a response array with no more elements than there are operations
is decoded against the first operations, as if the others had not been sent, and
a call that returns gives one result per element. -/
theorem Call_short_response (lib : Lib) (s : Session) (n : Nat) (ops : List Operation)
    (elems : List Json) (raw : String) (h : Heap) (hle : elems.length ≤ ops.length) :
    Call lib s n ops (.ok ⟨raw, some (.arr elems)⟩) h
        = Call lib s n (ops.take elems.length) (.ok ⟨raw, some (.arr elems)⟩) h ∧
      ∀ rs h', Call lib s n ops (.ok ⟨raw, some (.arr elems)⟩) h = .ok (rs, h') →
        rs.length = elems.length := by
  constructor
  · simp only [Call, callResultWrap.UnmarshalJSON]
    rw [unmarshalElems_take lib s n ops elems 0 [] ⟨h, []⟩ (by omega)]
    simp
  · intro rs h' hrun
    simp only [Call, callResultWrap.UnmarshalJSON] at hrun
    split at hrun
    · cases hrun
    · rename_i rs' st' hu
      simp only [Except.ok.injEq, Prod.mk.injEq] at hrun
      rw [← hrun.1]
      simpa using unmarshalElems_length lib s n ops elems 0 [] _ _ _ hu

theorem Call_short_response_witness :
    Call libFix sessionFix 1 deleteOps (.ok ⟨"", some (.arr [deleteRecord])⟩) []
        = Call libFix sessionFix 1 (deleteOps.take [deleteRecord].length)
            (.ok ⟨"", some (.arr [deleteRecord])⟩) [] ∧
      ∀ rs h', Call libFix sessionFix 1 deleteOps (.ok ⟨"", some (.arr [deleteRecord])⟩) []
          = .ok (rs, h') → rs.length = [deleteRecord].length :=
  Call_short_response libFix sessionFix 1 deleteOps [deleteRecord] "" [] (by decide)

/-- C7: for a batch of operations of any kinds and a response array with one
well-formed element per operation (`wellFormed`: the element has the shape of the
result type of its operation, and the records under `data` are values `Decode`
decodes: tidy, without a null in a sequence, a query record not date-shaped), with
a recursion budget above the depth of the elements, `Call` returns as many results
as operations; the result at each position is of the kind the `ResultFactory` of
the operation at that position makes, and it is what the body of the loop gives on
that operation and the element at that position in the state the loop reached over
the elements before it. -/
theorem Call_results_in_order (lib : Lib) (s : Session) (n : Nat) (ops : List Operation)
    (elems : List Json) (raw : String) (h : Heap)
    (hwf : List.Forall₂ (fun op e => wellFormed lib s op e = true) ops elems)
    (hn : ∀ e ∈ elems, e.depth < n) :
    ∃ rs h', Call lib s n ops (.ok ⟨raw, some (.arr elems)⟩) h = .ok (rs, h') ∧
      rs.length = ops.length ∧
      ∀ (i : Nat) (op : Operation) (e : Json), ops[i]? = some op → elems[i]? = some e →
        ∃ r st st', rs[i]? = some r ∧ op.resultKind = some r.kind ∧
          unmarshalElems lib s n ops (elems.take i) 0 [] ⟨h, []⟩ = .ok (rs.take i, st) ∧
          decodeOne lib s n op e st = .ok (r, st') := by
  have hok : StateOK ⟨h, []⟩ := fun p hp => by simp at hp
  have hsc : Scoped ⟨h, []⟩ := fun p hp => by simp at hp
  obtain ⟨rs, st', hrun⟩ := unmarshalElems_wellFormed lib s n elems ops [] [] _ hwf hn hok hsc
  simp only [List.nil_append, List.length_nil] at hrun
  obtain ⟨new, hrs, hlen, htr⟩ := unmarshalElems_trace lib s n ops elems 0 [] _ rs st' hrun
  simp only [List.nil_append] at hrs
  subst hrs
  refine ⟨rs, st'.heap, ?_, by rw [hlen, hwf.length_eq], ?_⟩
  · simp only [Call, callResultWrap.UnmarshalJSON]
    rw [hrun]
  · intro i op e h1 h2
    obtain ⟨op', r, stt, stt', hop, hr, hpre, hd⟩ := htr i e h2
    simp only [Nat.zero_add] at hop
    rw [h1] at hop
    cases hop
    simp only [List.nil_append] at hpre
    exact ⟨r, stt, stt', hr, decodeOne_kind hd, hpre, hd⟩

theorem Call_results_in_order_witness :
    ∃ rs h', Call libFix sessionFix 4 mixedOps (.ok ⟨"", some (.arr mixedRecords)⟩) []
        = .ok (rs, h') ∧
      rs.length = mixedOps.length ∧
      ∀ (i : Nat) (op : Operation) (e : Json), mixedOps[i]? = some op →
        mixedRecords[i]? = some e →
        ∃ r st st', rs[i]? = some r ∧ op.resultKind = some r.kind ∧
          unmarshalElems libFix sessionFix 4 mixedOps (mixedRecords.take i) 0 [] ⟨[], []⟩
            = .ok (rs.take i, st) ∧
          decodeOne libFix sessionFix 4 op e st = .ok (r, st') :=
  Call_results_in_order libFix sessionFix 4 mixedOps mixedRecords "" []
    (.cons (by decide!) (.cons (by decide!) (.cons (by decide!) .nil)))
    (by decide!)

/-- C8 (counterexample): in the batch create, update, delete on one `Task`, the
record of the create result does not have the name "X" when `Call` returns. -/
theorem Call_taskOps_create_not_X :
    Call libFix sessionFix 2 (taskOps "t1") (.ok ⟨"", some (taskResponse "t1")⟩) []
        = .ok ([.create "create" (.map 0) .nilMap, .update "update" (.map 1) .nilMap,
                .delete "delete" true],
               [.obj [("__entity_type__", .str "Task"), ("id", .str "t1"), ("name", .str "Y")],
                .obj [("__entity_type__", .str "Task"), ("id", .str "t1"), ("name", .str "Y")]]) ∧
      index [.obj [("__entity_type__", .str "Task"), ("id", .str "t1"), ("name", .str "Y")],
             .obj [("__entity_type__", .str "Task"), ("id", .str "t1"), ("name", .str "Y")]]
          (.map 0) "name" ≠ .str "X" := by
  decide!

/-- C8 (amended): for a session that knows the primary key `id` of `Task`, the batch
create, update, delete answered by the created record with name "X", the updated
record of the same `Task` with name "Y" and a delete record with data true gives
three results in order: a create result whose record has the type tag "Task" and,
being the canonical representation the update was merged into, the name "Y"; an
update result whose record has the name "Y"; a delete result with value true. -/
theorem Call_create_update_delete (lib : Lib) (s : Session) (n : Nat) (id raw : String)
    (h : Heap) (hpk : GetPrimaryKeyAttributes s "Task" = some ["id"]) :
    ∃ h', Call lib s (n + 2) (taskOps id) (.ok ⟨raw, some (taskResponse id)⟩) h
        = .ok ([.create "create" (.map h.length) .nilMap,
                .update "update" (.map (h.length + 1)) .nilMap,
                .delete "delete" true], h') ∧
      index h' (.map h.length) "name" = .str "Y" ∧
      index h' (.map h.length) EntityTypeKey = .str "Task" ∧
      index h' (.map (h.length + 1)) "name" = .str "Y" := by
  refine ⟨_, Call_taskOps lib s n id raw h hpk, ?_, ?_, ?_⟩ <;>
    simp [index, getObj_append_two0, getObj_append_two1, EntityTypeKey, List.lookup]

theorem Call_create_update_delete_witness :
    ∃ h', Call libFix sessionFix 2 (taskOps "t1") (.ok ⟨"", some (taskResponse "t1")⟩) []
        = .ok ([.create "create" (.map 0) .nilMap, .update "update" (.map 1) .nilMap,
                .delete "delete" true], h') ∧
      index h' (.map 0) "name" = .str "Y" ∧
      index h' (.map 0) EntityTypeKey = .str "Task" ∧
      index h' (.map 1) "name" = .str "Y" :=
  Call_create_update_delete libFix sessionFix 0 "t1" "" [] (by decide)

/-- C9 (the code departs from the claim): when the key of an update result was seen
earlier in the batch, the result keeps the incoming mapping, not the canonical
representation: it lacks the `status` the create record carried, and its date is
still the tagged mapping, while the canonical representation has both decoded. -/
theorem UnmarshalJSON_update_keeps_incoming :
    callResultWrap.UnmarshalJSON libFix sessionFix 2 pairOps "" pairResponse ⟨[], []⟩
        = .ok ([.create "create" (.map 0) .nilMap, .update "update" (.map 2) .nilMap],
               pairAfter) ∧
      pairAfter.identityMap.lookup "Task,t1" = some 0 ∧
      index? pairAfter.heap (.map 0) "status" = some (.str "open") ∧
      index? pairAfter.heap (.map 2) "status" = none ∧
      index pairAfter.heap (.map 0) "end" = .str "1970-01-01T00:00:00" ∧
      index pairAfter.heap (.map 2) "end" = .map 1 := by
  decide!

/-- C10 (the code departs from the claim): a name list that already holds
`is_timezone_support_enabled` takes the `else` branch meant for the nil list, so
the requested name `version` is dropped and `Values` is the flag alone. -/
theorem NewQueryInformationOperation_drops_requested :
    NewQueryInformationOperation (some ["version", "is_timezone_support_enabled"])
      = .queryInformation "query_server_information" ["is_timezone_support_enabled"] := by
  decide

/-- C11: for an attribute mapping `d` (a map: no key twice), `NewCreateOperation(T, d)`
and `NewUpdateOperation(T, keys, d)` carry one and the same attribute mapping: under
`__entity_type__` it holds what `d` holds there, or `T` when `d` does not define
that key, and under every other key exactly what `d` holds, nothing where `d` holds
nothing.  The operations have the actions `create` and `update`, the entity type
`T`, and the update the keys given. -/
theorem NewCreateOperation_fills_type_tag (T : String) (keys : List String)
    (d : List (String × Val)) (hd : (d.map Prod.fst).Nodup) :
    ∃ ed, NewCreateOperation T d = .create "create" T ed ∧
      NewUpdateOperation T keys d = .update "update" T ed keys ∧
      ed.lookup EntityTypeKey = some ((d.lookup EntityTypeKey).getD (.str T)) ∧
      ∀ k, k ≠ EntityTypeKey → ed.lookup k = d.lookup k :=
  ⟨fillEntityData T d, rfl, rfl, (fillEntityData_lookup T d hd).1,
    (fillEntityData_lookup T d hd).2⟩

theorem NewCreateOperation_fills_type_tag_witness :
    ∃ ed, NewCreateOperation "Task" [("name", .str "X")] = .create "create" "Task" ed ∧
      NewUpdateOperation "Task" ["t1"] [("name", .str "X")] = .update "update" "Task" ed ["t1"] ∧
      ed.lookup EntityTypeKey
        = some ((([("name", .str "X")] : List (String × Val)).lookup EntityTypeKey).getD
            (.str "Task")) ∧
      ∀ k, k ≠ EntityTypeKey →
        ed.lookup k = ([("name", .str "X")] : List (String × Val)).lookup k :=
  NewCreateOperation_fills_type_tag "Task" ["t1"] [("name", .str "X")] (by decide)

/-- C12: when the response is a JSON object that names each of the fields `content`
and `exception` once, with a string, and `error_code` once, with an integer, `Call`
fails with an error that carries these three values: a `ServerValidationError` for
the exception `ValidationError`, a `ServerPermissionDeniedError` for
`FTAuthenticationError` and for `PermissionError`, a `ServerError` for any other
exception. -/
theorem Call_error_object (lib : Lib) (s : Session) (n : Nat) (ops : List Operation)
    (raw : String) (kvs : List (String × Json)) (content exception lit float : String)
    (code : Int) (h : Heap)
    (hc : fieldValues kvs "content" = [.str content])
    (he : fieldValues kvs "exception" = [.str exception])
    (hk : fieldValues kvs "error_code" = [.num lit float])
    (hl : parseInt lit = some code) :
    (exception = "ValidationError" →
      Call lib s n ops (.ok ⟨raw, some (.obj kvs)⟩) h
        = .error (.serverValidationError content code exception)) ∧
    (exception = "FTAuthenticationError" ∨ exception = "PermissionError" →
      Call lib s n ops (.ok ⟨raw, some (.obj kvs)⟩) h
        = .error (.serverPermissionDeniedError content code exception)) ∧
    (exception ≠ "ValidationError" → exception ≠ "FTAuthenticationError" →
      exception ≠ "PermissionError" →
      Call lib s n ops (.ok ⟨raw, some (.obj kvs)⟩) h
        = .error (.serverError content code exception)) := by
  have hu : unmarshalErrorResponse (.obj kvs) = some (content, exception, code) := by
    simp [unmarshalErrorResponse, hc, he, hk, storeStrings, storeInts, hl]
  rw [Call_object]
  simp only [getServerError, hu, getErrorFromResponse]
  refine ⟨?_, ?_, ?_⟩
  · intro h1
    simp [h1]
  · intro h1
    rcases h1 with h1 | h1 <;> subst h1 <;> simp
  · intro h1 h2 h3
    simp [h1, h2, h3]

theorem Call_error_object_witness :
    ("PermissionError" = "ValidationError" →
      Call libFix sessionFix 1 deleteOps (.ok ⟨"", some (errorObject "PermissionError")⟩) []
        = .error (.serverValidationError "no such entity" 404 "PermissionError")) ∧
    ("PermissionError" = "FTAuthenticationError" ∨ "PermissionError" = "PermissionError" →
      Call libFix sessionFix 1 deleteOps (.ok ⟨"", some (errorObject "PermissionError")⟩) []
        = .error (.serverPermissionDeniedError "no such entity" 404 "PermissionError")) ∧
    ("PermissionError" ≠ "ValidationError" → "PermissionError" ≠ "FTAuthenticationError" →
      "PermissionError" ≠ "PermissionError" →
      Call libFix sessionFix 1 deleteOps (.ok ⟨"", some (errorObject "PermissionError")⟩) []
        = .error (.serverError "no such entity" 404 "PermissionError")) :=
  Call_error_object libFix sessionFix 1 deleteOps ""
    [("content", .str "no such entity"), ("exception", .str "PermissionError"),
      ("error_code", .num "404" "404")]
    "no such entity" "PermissionError" "404" "404" 404 [] rfl rfl rfl
    (by decide!)

/-- C13 (counterexample): an object that has none of the fields of an error
description is answered with a `ServerError` with empty fields, not a
`MalformedResponseError`; and for a JSON string with white space around it the
`MalformedResponseError` carries the string without the white space, not the
bytes of the response. -/
theorem Call_stray_object_is_server_error :
    Call libFix sessionFix 1 deleteOps (.ok ⟨"\x7b\"foo\":1\x7d", some strayObject⟩) []
        = .error (.serverError "" 0 "") ∧
      Call libFix sessionFix 1 deleteOps (.ok ⟨" \"oops\"\n", some (.str "oops")⟩) []
        = .error (.malformedResponseError "\"oops\"") := by
  decide!

/-- C13 (amended): a response that is a JSON text other than an array or null, and
that `json.Unmarshal` cannot store in an `ErrorResponse` (a string, a number, a
boolean, or an object with a `content` or `exception` that is not a string or an
`error_code` that is not an integer), makes `Call` fail with a
`MalformedResponseError` whose content is the bytes of the JSON value, the response
without the white space around it. -/
theorem Call_malformed_response (lib : Lib) (s : Session) (n : Nat) (ops : List Operation)
    (raw : String) (data : Json) (h : Heap)
    (harr : ∀ xs, data ≠ .arr xs) (hnull : data ≠ .null)
    (hu : unmarshalErrorResponse data = none) :
    Call lib s n ops (.ok ⟨raw, some data⟩) h
      = .error (.malformedResponseError (valueBytes raw)) := by
  cases data with
  | arr xs => exact absurd rfl (harr xs)
  | null => exact absurd rfl hnull
  | obj kvs => rw [Call_object]; simp only [getServerError, hu]
  | bool b => simp only [Call, callResultWrap.UnmarshalJSON, getServerError, hu]
  | num lit float => simp only [Call, callResultWrap.UnmarshalJSON, getServerError, hu]
  | str t => simp only [Call, callResultWrap.UnmarshalJSON, getServerError, hu]

theorem Call_malformed_response_witness :
    Call libFix sessionFix 1 deleteOps
        (.ok ⟨"\x7b\"content\":5\x7d", some (.obj [("content", .num "5" "5")])⟩) []
      = .error (.malformedResponseError (valueBytes "\x7b\"content\":5\x7d")) :=
  Call_malformed_response libFix sessionFix 1 deleteOps "\x7b\"content\":5\x7d"
    (.obj [("content", .num "5" "5")]) [] (fun xs h => by cases h) (fun h => by cases h)
    (by decide!)

/-- C14 (the code departs from the claim): `encodeOperations` hands `Encode` the
address of the operation list, which `Encode` returns as it is: the date in the
entity data of a create operation is still the moment when the operations are
marshalled, while `Encode` on the date itself gives the tagged mapping. -/
theorem encodeOperations_leaves_dates :
    encodeOperations libFix 3 [NewCreateOperation "Task" [("start", .moment 0 0)]] []
        = .ok (.pointer (.operations
            [.create "create" "Task"
              [("start", .moment 0 0), ("__entity_type__", .str "Task")]]), []) ∧
      Encode libFix 3 (.moment 0 0) []
        = .ok (.map 0, [.obj [("__type__", .str "datetime"),
                              ("value", .str "1970-01-01T00:00:00")]]) := by
  decide!

/-- C15 (the code departs from the claim): `Encode` on a map with a nil value, a
date and an empty sequence replaces the date by the tagged mapping, but deletes the
key of the nil value and replaces the empty sequence by a nil one. -/
theorem Encode_drops_nil_entries :
    Encode libFix 3 (.map 0) nilEntryHeap
      = .ok (.map 0,
          [.obj [("t", .map 2), ("xs", .nilSlice)], .arr [],
           .obj [("__type__", .str "datetime"), ("value", .str "1970-01-01T00:00:00")]]) := by
  decide!

/-- C16 (counterexample): with timezone support enabled, decoding the encoding of
the moment 1970-01-01T00:00:00 in UTC gives a string, the text of the moment, and
not a moment. -/
theorem Decode_Encode_gives_text :
    Encode libFix 1 (.moment 0 0) []
        = .ok (.map 0, [.obj [("__type__", .str "datetime"),
                              ("value", .str "1970-01-01T00:00:00")]]) ∧
      Decode libFix sessionFix 1 (.map 0)
          ⟨[.obj [("__type__", .str "datetime"), ("value", .str "1970-01-01T00:00:00")]], []⟩
        = .ok (.str "1970-01-01T00:00:00",
            ⟨[.obj [("__type__", .str "datetime"),
                    ("value", .str "1970-01-01T00:00:00")]], []⟩) ∧
      Val.str "1970-01-01T00:00:00" ≠ Val.moment 0 0 := by
  decide!

/-- C16 (amended): with timezone support enabled, decoding the encoding of a moment
`t` gives a string; when the date library reads back, from the text it wrote for
`t`, the instant of `t`, that string is the text of `t` normalised to UTC, in the
format `YYYY-MM-DDTHH:mm:ss`. -/
theorem Decode_Encode_moment (lib : Lib) (s : Session) (m n : Nat) (sec zone : Int)
    (h : Heap) (im : IdentityMap)
    (htz : s.ServerInformation.lookup "is_timezone_support_enabled" = some (.bool true)) :
    ∃ v h1 text, Encode lib (m + 1) (.moment sec zone) h = .ok (v, h1) ∧
      Decode lib s (n + 1) v ⟨h1, im⟩ = .ok (.str text, ⟨h1, im⟩) ∧
      ((lib.parseMoment (lib.formatMoment (sec, zone))).1 = sec →
        text = lib.formatMoment (sec, 0)) := by
  refine ⟨_, _, lib.formatMoment ((lib.parseMoment (lib.formatMoment (sec, zone))).1, 0),
    rfl, ?_, fun hlib => by rw [hlib]⟩
  have hobj : getObj (h ++ [Cell.obj [("__type__", .str "datetime"),
      ("value", .str (lib.formatMoment (sec, zone)))]]) h.length
      = some [("__type__", .str "datetime"), ("value", .str (lib.formatMoment (sec, zone)))] := by
    rw [getObj_eq_some]; simp
  have hdate : IsDate (h ++ [Cell.obj [("__type__", .str "datetime"),
      ("value", .str (lib.formatMoment (sec, zone)))]]) (.map h.length) = true := by
    simp [IsDate, index?, hobj, List.lookup]
  simp only [Decode, decodeWith, hdate, if_true, decodeDateTime, index, hobj]
  simp [List.lookup, htz]

theorem Decode_Encode_moment_witness :
    ∃ v h1 text, Encode libFix (0 + 1) (.moment 0 0) [] = .ok (v, h1) ∧
      Decode libFix sessionFix (0 + 1) v ⟨h1, []⟩ = .ok (.str text, ⟨h1, []⟩) ∧
      ((libFix.parseMoment (libFix.formatMoment (0, 0))).1 = 0 →
        text = libFix.formatMoment (0, 0)) :=
  Decode_Encode_moment libFix sessionFix 0 0 0 0 [] [] (by decide!)

/-- C17 (counterexample): a mapping with the tag `datetime` whose value is a string
that is no timestamp is still taken for a date: `Decode` answers with the text the
library makes of it, not with the mapping. -/
theorem Decode_tagged_garbage_is_date :
    IsDate garbageDate.heap (.map 0) = true ∧
      Decode libFix sessionFix 3 (.map 0) garbageDate
        = .ok (.str "1970-01-01T00:00:00", garbageDate) := by
  decide!

/-- C17 (amended): `Decode` takes a mapping for a date exactly when it holds the
string `datetime` under `__type__`.  Such a mapping whose `value` is a string,
whatever the string, is answered with the text of the moment the library reads from
it (taken to UTC when timezone support is enabled); a mapping without the tag is
decoded by the entity rule when it is entity-shaped and by the plain-mapping rule
when it is not. -/
theorem Decode_date_by_tag (lib : Lib) (s : Session) (n : Nat) (a : Nat) (st : State) :
    (IsDate st.heap (.map a) = true ↔
      index? st.heap (.map a) "__type__" = some (.str "datetime")) ∧
    (∀ text b, IsDate st.heap (.map a) = true →
      index st.heap (.map a) "value" = .str text →
      s.ServerInformation.lookup "is_timezone_support_enabled" = some (.bool b) →
      Decode lib s (n + 1) (.map a) st
        = .ok (.str (lib.formatMoment
            (if b then ((lib.parseMoment text).1, 0) else lib.parseMoment text)), st)) ∧
    (IsDate st.heap (.map a) = false → IsEntity st.heap (.map a) = true →
      Decode lib s (n + 1) (.map a) st = mergeEntity lib s n (.map a) st) ∧
    (IsDate st.heap (.map a) = false → IsEntity st.heap (.map a) = false →
      ∀ kvs st', getObj st.heap a = some kvs →
        decodeFields (Decode lib s n) a (kvs.map Prod.fst) st = .ok st' →
        Decode lib s (n + 1) (.map a) st = .ok (.map a, st')) := by
  refine ⟨?_, ?_, ?_, ?_⟩
  · simp only [IsDate]
    constructor
    · intro h
      split at h
      · rename_i t ht
        rw [ht]
        simp only [beq_iff_eq] at h
        rw [h]
      · cases h
    · intro h
      rw [h]
      simp
  · intro text b hd hv htz
    simp only [Decode, decodeWith, hd, if_true, decodeDateTime, hv, htz, Option.getD_some]
    cases b <;> simp
  · intro hd he
    simp only [Decode, decodeWith, hd, he, Bool.false_eq_true, if_false, if_true, mergeEntity]
  · intro hd he kvs st' hk hf
    simp only [Decode, decodeWith, hd, he, Bool.false_eq_true, if_false, hk, hf]

theorem Decode_date_by_tag_witness :
    (IsDate garbageDate.heap (.map 0) = true ↔
      index? garbageDate.heap (.map 0) "__type__" = some (.str "datetime")) ∧
    (∀ text b, IsDate garbageDate.heap (.map 0) = true →
      index garbageDate.heap (.map 0) "value" = .str text →
      sessionFix.ServerInformation.lookup "is_timezone_support_enabled" = some (.bool b) →
      Decode libFix sessionFix (2 + 1) (.map 0) garbageDate
        = .ok (.str (libFix.formatMoment
            (if b then ((libFix.parseMoment text).1, 0) else libFix.parseMoment text)),
            garbageDate)) ∧
    (IsDate garbageDate.heap (.map 0) = false → IsEntity garbageDate.heap (.map 0) = true →
      Decode libFix sessionFix (2 + 1) (.map 0) garbageDate
        = mergeEntity libFix sessionFix 2 (.map 0) garbageDate) ∧
    (IsDate garbageDate.heap (.map 0) = false → IsEntity garbageDate.heap (.map 0) = false →
      ∀ kvs st', getObj garbageDate.heap 0 = some kvs →
        decodeFields (Decode libFix sessionFix 2) 0 (kvs.map Prod.fst) garbageDate = .ok st' →
        Decode libFix sessionFix (2 + 1) (.map 0) garbageDate = .ok (.map 0, st')) :=
  Decode_date_by_tag libFix sessionFix 2 0 garbageDate

/-- C18 (the code departs from the claim): `Decode` on the parsed sequence `[1, null]`
does not return: storing the decoded null in the sequence panics. -/
theorem Decode_sequence_with_null_panics :
    Decode libFix sessionFix 3 (alloc (.arr [.num "1" "1", .null]) []).1
        ⟨(alloc (.arr [.num "1" "1", .null]) []).2, []⟩
      = .error (.panic "reflect: call of reflect.Value.Set on zero or unassignable Value") := by
  decide!

/-- C19 (the code departs from the claim): `Decode` on the parsed plain mapping
`{"a": null, "b": 1}` returns the mapping without the key `a`. -/
theorem Decode_plain_mapping_drops_null :
    Decode libFix sessionFix 3 (alloc (.obj [("a", .null), ("b", .num "1" "1")]) []).1
        ⟨(alloc (.obj [("a", .null), ("b", .num "1" "1")]) []).2, []⟩
      = .ok (.map 0, ⟨[.obj [("b", .num "float64" "1")]], []⟩) ∧
    index? (alloc (.obj [("a", .null), ("b", .num "1" "1")]) []).2 (.map 0) "a" = some .null ∧
    index? [.obj [("b", .num "float64" "1")]] (.map 0) "a" = none := by
  decide!

/-- C20 (counterexample): two entities of the type `Link`, whose primary keys are
`from` and `to`, have the same identity key although their values of `from`
differ: a comma in a value reads like the comma between two values. -/
theorem GetIdentifyingKey_collides :
    GetIdentifyingKey libFix linkSession linkHeap (.map 0) = .ok "Link,a,b,c" ∧
      GetIdentifyingKey libFix linkSession linkHeap (.map 1) = .ok "Link,a,b,c" ∧
      index linkHeap (.map 0) "from" = .str "a,b" ∧
      index linkHeap (.map 1) "from" = .str "a" := by
  decide!

/-- C20 (amended): two entities of known types whose type tags have no comma and
whose primary-key values are strings without comma have the same identity key only
if they have the same type tag and, under every primary key, the same value. -/
theorem GetIdentifyingKey_unique (lib : Lib) (s : Session) (h1 h2 : Heap) (e1 e2 : Val)
    (key t1 t2 : String) (pks1 pks2 : List String)
    (ht1 : GetEntityType h1 e1 = .ok t1) (ht2 : GetEntityType h2 e2 = .ok t2)
    (hp1 : GetPrimaryKeyAttributes s t1 = some pks1)
    (hp2 : GetPrimaryKeyAttributes s t2 = some pks2)
    (hc1 : commaFree t1) (hc2 : commaFree t2)
    (hv1 : ∀ pk ∈ pks1, ∃ v, index h1 e1 pk = .str v ∧ commaFree v)
    (hv2 : ∀ pk ∈ pks2, ∃ v, index h2 e2 pk = .str v ∧ commaFree v)
    (hk1 : GetIdentifyingKey lib s h1 e1 = .ok key)
    (hk2 : GetIdentifyingKey lib s h2 e2 = .ok key) :
    t1 = t2 ∧ pks1 = pks2 ∧ ∀ pk ∈ pks1, index h1 e1 pk = index h2 e2 pk := by
  have e1k := GetIdentifyingKey_eq ht1 hp1 hk1
  have e2k := GetIdentifyingKey_eq ht2 hp2 hk2
  have hd := congrArg String.data (e1k.symm.trans e2k)
  rw [foldl_key_data, foldl_key_data] at hd
  have hf1 : ∀ v ∈ pks1.map (fun pk => sprintS lib h1 (index h1 e1 pk)), commaFree v := by
    intro v hv
    obtain ⟨pk, hpk, rfl⟩ := List.mem_map.mp hv
    obtain ⟨w, hw, hcw⟩ := hv1 pk hpk
    simp only [hw, sprintS]
    exact hcw
  have hf2 : ∀ v ∈ pks2.map (fun pk => sprintS lib h2 (index h2 e2 pk)), commaFree v := by
    intro v hv
    obtain ⟨pk, hpk, rfl⟩ := List.mem_map.mp hv
    obtain ⟨w, hw, hcw⟩ := hv2 pk hpk
    simp only [hw, sprintS]
    exact hcw
  obtain ⟨htt, hvs⟩ := key_parts_unique _ _ _ _ hc1 hc2 hf1 hf2 hd
  subst htt
  have hpp : pks1 = pks2 := by
    rw [hp1] at hp2
    exact Option.some.inj hp2
  subst hpp
  refine ⟨rfl, rfl, ?_⟩
  intro pk hpk
  have := List.map_inj_left.mp hvs pk hpk
  obtain ⟨w1, hw1, _⟩ := hv1 pk hpk
  obtain ⟨w2, hw2, _⟩ := hv2 pk hpk
  simp only [hw1, hw2, sprintS] at this
  rw [hw1, hw2, this]

theorem GetIdentifyingKey_unique_witness :
    "Task" = "Task" ∧ ["id"] = ["id"] ∧
      ∀ pk ∈ ["id"], index seqFixAfter.heap (.map 0) pk = index seqFixAfter.heap (.map 1) pk :=
  GetIdentifyingKey_unique libFix sessionFix seqFixAfter.heap seqFixAfter.heap (.map 0) (.map 1)
    "Task,t1" "Task" "Task" ["id"] ["id"] (by decide!) (by decide!) (by decide!) (by decide!)
    (by decide) (by decide)
    (fun pk hpk => ⟨"t1", by
      simp only [List.mem_singleton] at hpk
      subst hpk
      exact ⟨by decide!, by decide⟩⟩)
    (fun pk hpk => ⟨"t1", by
      simp only [List.mem_singleton] at hpk
      subst hpk
      exact ⟨by decide!, by decide⟩⟩)
    (by decide!) (by decide!)

/-- C21: `encodeUriParameters` returns the parameters, each written as its key, `=`
and its value, both as they are, joined with `&` in the order given; for no
parameter it returns the empty string.  `GetComponentUrl` returns the server URL
followed by `/component/get?id=`, the text of the component id, `&username=`, the
API user, `&apiKey=` and the API key. -/
theorem encodeUriParameters_joins (data : List uriParameter) (s : Session)
    (componentId : String) :
    encodeUriParameters data
        = "&".intercalate (data.map (fun p => p.key ++ "=" ++ p.value)) ∧
      encodeUriParameters [] = "" ∧
      GetComponentUrl s componentId
        = s.ServerUrl ++ "/component/get?id=" ++ componentId ++ "&username=" ++ s.ApiUser
            ++ "&apiKey=" ++ s.ApiKey := by
  have hgen : ∀ d, encodeUriParameters d
      = "&".intercalate (d.map (fun p => p.key ++ "=" ++ p.value)) := by
    intro d
    simp only [encodeUriParameters, foldl_snoc_map, List.nil_append, stringsJoin_intercalate]
    rfl
  refine ⟨hgen data, rfl, ?_⟩
  have h1 : "/component/get?id=" = "/component/get?" ++ "id" ++ "=" := by decide
  have h2 : "&username=" = "&" ++ "username" ++ "=" := by decide
  have h3 : "&apiKey=" = "&" ++ "apiKey" ++ "=" := by decide
  rw [h1, h2, h3]
  simp only [GetComponentUrl, encodeUriParameters, List.foldl_cons, List.foldl_nil,
    List.nil_append, List.cons_append, stringsJoin, String.append_assoc]

/-- C22 (the code departs from the claim): no budget lets `Decode` return on the
parsed `loopFix`, a finite tree in which an entity has the same entity nested in two
of its fields, whichever of the two fields is visited first: once a nested entity is
merged, the other field of the canonical representation refers to the
representation itself, and `Decode` follows it without end. -/
theorem Decode_self_nested_never_returns (n : Nat) :
    Decode libFix sessionFix n (alloc loopFix []).1 ⟨(alloc loopFix []).2, []⟩
        = .error .fuel ∧
      Decode libFix sessionFix n (alloc loopLateFix []).1 ⟨(alloc loopLateFix []).2, []⟩
        = .error .fuel :=
  ⟨Decode_loopFix n, Decode_loopLateFix n⟩

end Ftrack
